import Mathlib

/-!
# Workflow graph compiler: migration, codec, prompt serialization and group definitions

A shallow embedding of methods of `ComfyApp` in `web/scripts/app.js`,

* `convertOldVersionWorkflow` (flow order by in-degree counting, synthesis of FLOW links),
* `cworkflowToWorkflow` (compact document to runtime graph),
* `workflowToCworkflow` (runtime graph to compact document and flow table),
* `graphToPrompt` (instruction map, with the resolution of links through bypassed and
  virtual nodes),
* `sanitizeNodeName`, `loadGraphData` and `showMissingNodesError` (unregistered node types),
* `queuePrompt` (the queue of the requests) and the node constructor of `registerNodeDef`,

and of `getLinks`, `buildNodeDef` and the methods `updateLink` and `getInnerNodes` of a group
node in `web/extensions/core/groupNode.js`.

Conventions of the embedding.

* In the three methods of the codec a JavaScript `TypeError` (reading a property of
  `undefined`, iterating `null`) and a recursion that never ends are both the result `none`.
  `graphToPrompt` and `updateLink` tell them apart (`Run.raise`, `Run.timeout`).
* `null` and an absent field are both `none`: the code tests them with `== null` or `!= null`.
  The serializer of the canvas library always writes `links` on an output slot and never
  writes `inputs: null`, so the two places where the code tells them apart
  (`'inputs' in cur_node`, `output.links === null`) are read with the field present.
* Node ids and link ids of a serialized graph are natural numbers; the slot indices stored in
  a link are integers, because the code adds to and subtracts from them.
* Objects are shared in JavaScript: the id tables `nodes` and `links` hold the very objects of
  the lists `graphData.nodes` and `graphData.links`, and a later entry with the same id
  replaces an earlier one.  Here the lists are the state and a table access is an access to the
  last list element with that id.
* An object used as a map is the list of its entries in the order of their insertion.  Where
  the code reads a property that may come from `Object.prototype` (`output[k]` in the pruning
  loop of `graphToPrompt`) or runs over the keys in the order in which JavaScript lists them
  (`Object.keys(inputs)` in `buildNodeDef`), the embedding does the same
  (`objectPrototypeKeys`, `keyOrder`).  The registry `defs` and the test `registered` are
  parameters that stand for the reads themselves.
* Fields that the methods neither read nor write (position, size) are omitted.
-/

namespace ComfyFlow

/-- The constant `LiteGraph.ARROW_SHAPE` of the canvas library. -/
def ARROW_SHAPE : Nat := 5

/-- The value of the `links` field of an output slot: `null`, an array of link ids, or a bare
link id (`cworkflowToWorkflow` writes `links: flowout.link`). -/
inductive JLinks where
  | null : JLinks
  | num (n : Nat) : JLinks
  | arr (ids : List Nat) : JLinks
deriving DecidableEq, Repr

/-- An input slot of a node. -/
structure InputSlot where
  name : String
  type : String
  link : Option Nat
  shape : Option Nat
deriving DecidableEq, Repr

/-- An output slot of a node. -/
structure OutputSlot where
  name : String
  type : String
  links : JLinks
  slot_index : Option Int
  shape : Option Nat
deriving DecidableEq, Repr

/-- An element of `flow_inputs`: `{name, links}` as written by `convertOldVersionWorkflow`, or
a former FLOW input slot (with `type` and `shape`) as written by `workflowToCworkflow`. -/
structure FlowIn where
  name : String
  type : Option String
  shape : Option Nat
  links : Option (List (Option Nat))
deriving DecidableEq, Repr

/-- An element of `flow_outputs`: `{name, link}` as written by `convertOldVersionWorkflow`, or
a former FLOW output slot as written by `workflowToCworkflow`. -/
structure FlowOut where
  name : String
  type : Option String
  slot_index : Option Int
  shape : Option Nat
  link : Option Nat
deriving DecidableEq, Repr

/-- A link array `[id, origin_id, origin_slot, target_id, target_slot, type]`; the FLOW links
written by `convertOldVersionWorkflow` have five elements (`type = none`). -/
structure Link where
  id : Nat
  origin_id : Nat
  origin_slot : Int
  target_id : Nat
  target_slot : Int
  type : Option String
deriving DecidableEq, Repr

/-- A serialized node. -/
structure Node where
  id : Nat
  type : String
  inputs : Option (List InputSlot)
  outputs : Option (List OutputSlot)
  flow_inputs : Option (List FlowIn)
  flow_outputs : Option (List FlowOut)
deriving DecidableEq, Repr

/-- A serialized graph (`graphData`, `workflow`). -/
structure Doc where
  nodes : List Node
  links : Option (List Link)
  flow_links : Option (List Link)
  last_link_id : Nat
  support_flow_control : Option Bool
deriving DecidableEq, Repr

/-! ## Id tables -/

/-- Table read `tbl[k]` of a table filled by `for (x of xs) tbl[key(x)] = x`: the last element
of `xs` with key `k`. -/
def lastWith {α : Type} (key : α → Nat) (k : Nat) : List α → Option α
  | [] => none
  | x :: xs =>
    match lastWith key k xs with
    | some y => some y
    | none => if key x = k then some x else none

/-- In-place update of the object `tbl[k]`; `none` when `tbl[k]` is `undefined` or when the
update itself raises. -/
def updLast {α : Type} (key : α → Nat) (k : Nat) (f : α → Option α) : List α → Option (List α)
  | [] => none
  | x :: xs =>
    match lastWith key k xs with
    | some _ => (updLast key k f xs).map (fun xs' => x :: xs')
    | none => if key x = k then (f x).map (fun x' => x' :: xs) else none

/-- Update of `xs[i]` for an integer index; `none` when `xs[i]` is `undefined`. -/
def setAt {α : Type} (xs : List α) (i : Int) (f : α → α) : Option (List α) :=
  if 0 ≤ i then
    match xs[i.toNat]? with
    | some x => some (xs.set i.toNat (f x))
    | none => none
  else none

/-- The statement `links[id][4] += k`. -/
def addTargetSlot (k : Int) (id : Nat) (links : List Link) : Option (List Link) :=
  updLast Link.id id (fun l => some { l with target_slot := l.target_slot + k }) links

/-- The statement `links[id][2] += k`. -/
def addOriginSlot (k : Int) (id : Nat) (links : List Link) : Option (List Link) :=
  updLast Link.id id (fun l => some { l with origin_slot := l.origin_slot + k }) links

/-! ## convertOldVersionWorkflow -/

/-- The variables `in_degree` and `flow_order`. -/
structure Kahn where
  in_degree : Nat → Option Int
  flow_order : List Node

/-- The number of connected inputs of a node (`inp.link != null`), 0 without `inputs`. -/
def connectedInputs (n : Node) : Nat :=
  match n.inputs with
  | none => 0
  | some inps => (inps.filter (fun inp => inp.link.isSome)).length

/-- One round of the first loop over `graphData.nodes` (lines 1601-1631). -/
def seedStep (st : Kahn) (cur_node : Node) : Kahn :=
  if cur_node.type = "Reroute" then st
  else
    let degree := connectedInputs cur_node
    { in_degree := fun k => if k = cur_node.id then some (degree : Int) else st.in_degree k
      flow_order := if degree = 0 then st.flow_order ++ [cur_node] else st.flow_order }

/-- The first loop over `graphData.nodes`: in-degrees and the nodes of in-degree 0. -/
def seedKahn (nodes : List Node) : Kahn :=
  nodes.foldl seedStep { in_degree := fun _ => none, flow_order := [] }

/-- The branch "normal valid nodes" (lines 1657-1667) for a link with target `t`, walked from
the node with id `from_id`; `next_node` is `nodes[t]`. -/
def decrTarget (from_id t : Nat) (next_node : Node) (st : Kahn) : Kahn :=
  if from_id ≠ t then
    match st.in_degree t with
    | some d =>
      { in_degree := fun k => if k = t then some (d - 1) else st.in_degree k
        flow_order := if d - 1 = 0 then st.flow_order ++ [next_node] else st.flow_order }
    | none => st
  else st

/-- The closure `degree_linked_out_nodes`; the first argument bounds the depth of the recursion
through Reroute nodes. -/
def degree_linked_out_nodes (nodes : List Node) (links : List Link) :
    Nat → Node → Kahn → Option Kahn
  | 0, _, _ => none
  | depth + 1, _node, st =>
    match _node.outputs with
    | none => some st
    | some outs =>
      outs.foldlM (fun st output =>
        match output.links with
        | JLinks.null => some st
        | JLinks.num _ => none
        | JLinks.arr ids =>
          ids.foldlM (fun st link_id =>
            match lastWith Link.id link_id links with
            | none => none
            | some link =>
              match lastWith Node.id link.target_id nodes with
              | none => none
              | some next_node =>
                if next_node.type = "Reroute" then
                  degree_linked_out_nodes nodes links depth next_node st
                else some (decrTarget _node.id link.target_id next_node st)) st) st

/-- The loop `while (idx < flow_order.length)` (lines 1674-1680). -/
def kahnLoop (nodes : List Node) (links : List Link) (depth : Nat) :
    Nat → Nat → Kahn → Option Kahn
  | 0, _, _ => none
  | fuel + 1, idx, st =>
    match st.flow_order[idx]? with
    | none => some st
    | some cur_node =>
      match degree_linked_out_nodes nodes links depth cur_node st with
      | none => none
      | some st' => kahnLoop nodes links depth fuel (idx + 1) st'

/-- The flow order of a document: `flow_order` when the loop of lines 1674-1680 is left.  A
chain of Reroute nodes without a cycle is no longer than the node list, and no more than two
entries per node are ever pushed, so the bounds used are never reached by a run that ends. -/
def flowOrder (nodes : List Node) (links : List Link) : Option (List Node) :=
  (kahnLoop nodes links (nodes.length + 1) (2 * nodes.length + 2) 0 (seedKahn nodes)).map
    (fun st => st.flow_order)

/-- The loop "add flow_inputs & flow_outputs" (lines 1683-1696), for one node. -/
def addFlowSlots (node : Node) : Node :=
  if node.type ≠ "Reroute" then
    { node with
      flow_inputs := some [{ name := "FROM", type := none, shape := none, links := none }]
      flow_outputs :=
        some [{ name := "TO", type := none, slot_index := none, shape := none, link := none }] }
  else { node with flow_inputs := some [], flow_outputs := some [] }

/-- The statement `node["flow_inputs"][0]["links"] = [id]`. -/
def setFlowInLinks (id : Nat) (node : Node) : Option Node :=
  match node.flow_inputs with
  | some (fi :: rest) => some { node with flow_inputs := some ({ fi with links := some [some id] } :: rest) }
  | _ => none

/-- The statement `node["flow_outputs"][0]["link"] = id`. -/
def setFlowOutLink (id : Nat) (node : Node) : Option Node :=
  match node.flow_outputs with
  | some (fo :: rest) => some { node with flow_outputs := some ({ fo with link := some id } :: rest) }
  | _ => none

/-- The loop "update flows data" (lines 1698-1713): `order` is the part of `flow_order` from
`idx` on, `next_id` is `flow_link_next_id`. -/
def synthFlows : List Node → Nat → List Link → List Node → Option (List Link × List Node)
  | a :: b :: rest, next_id, flows, nodes =>
    let cur_flow_link : Link :=
      { id := next_id, origin_id := a.id, origin_slot := 0, target_id := b.id, target_slot := 0,
        type := none }
    match updLast Node.id a.id (setFlowInLinks next_id) nodes with
    | none => none
    | some nodes1 =>
      match updLast Node.id a.id (setFlowOutLink next_id) nodes1 with
      | none => none
      | some nodes2 => synthFlows (b :: rest) (next_id + 1) (flows ++ [cur_flow_link]) nodes2
  | _, _, flows, nodes => some (flows, nodes)

/-- The method `convertOldVersionWorkflow`. -/
def convertOldVersionWorkflow (graphData : Doc) : Option Doc :=
  if graphData.support_flow_control = some true then some graphData
  else
    match graphData.links with
    | none => none
    | some links =>
      match flowOrder graphData.nodes links with
      | none => none
      | some flow_order =>
        match synthFlows flow_order 0 [] (graphData.nodes.map addFlowSlots) with
        | none => none
        | some (flows, nodes) => some { graphData with nodes := nodes, flow_links := some flows }

/-! ## cworkflowToWorkflow -/

/-- The input slot built from an element of `flow_inputs` (lines 1775-1780). -/
def mkFlowInput (flowin : FlowIn) : InputSlot :=
  { name := flowin.name
    type := "FLOW"
    shape := some ARROW_SHAPE
    link :=
      match flowin.links with
      | none => none
      | some [] => none
      | some (l :: _) => l }

/-- The output slot built from the element `i` of `flow_outputs` (lines 1799-1805). -/
def mkFlowOutput (i : Nat) (flowout : FlowOut) : OutputSlot :=
  { name := flowout.name
    type := "FLOW"
    slot_index := some (i : Int)
    shape := some ARROW_SHAPE
    links :=
      match flowout.link with
      | none => JLinks.null
      | some l => JLinks.num l }

/-- The loop of lines 1783-1790 over the slots from index `nb_flow_inputs` on. -/
def shiftInputLinks (nb : Nat) (slots : List InputSlot) (links : List Link) : Option (List Link) :=
  slots.foldlM (fun ls slot =>
    match slot.link with
    | none => some ls
    | some link_id => addTargetSlot nb link_id ls) links

/-- The link part of the loop of lines 1808-1818 over the slots from `nb_flow_outputs` on. -/
def shiftOutputLinks (nb : Nat) (slots : List OutputSlot) (links : List Link) : Option (List Link) :=
  slots.foldlM (fun ls slot =>
    match slot.links with
    | JLinks.arr link_ids => link_ids.foldlM (fun ls linkid => addOriginSlot nb linkid ls) ls
    | _ => some ls) links

/-- The statement `outputs[i].slot_index += nb_flow_outputs` (an absent index stays unusable). -/
def bumpSlotIndex (nb : Nat) (slot : OutputSlot) : OutputSlot :=
  { slot with slot_index := slot.slot_index.map (fun i => i + nb) }

/-- One round of the loop "add flow inputs & outputs" (lines 1761-1819). -/
def expandNode (links : List Link) (cur_node : Node) : Option (List Link × Node) :=
  match cur_node.flow_inputs, cur_node.flow_outputs with
  | some flow_inputs, some flow_outputs =>
    let nb_flow_inputs := flow_inputs.length
    let inputs := flow_inputs.foldr (fun flowin acc => mkFlowInput flowin :: acc)
      (cur_node.inputs.getD [])
    match shiftInputLinks nb_flow_inputs (inputs.drop nb_flow_inputs) links with
    | none => none
    | some links1 =>
      let nb_flow_outputs := flow_outputs.length
      let outputs := flow_outputs.enum.foldr (fun p acc => mkFlowOutput p.1 p.2 :: acc)
        (cur_node.outputs.getD [])
      match shiftOutputLinks nb_flow_outputs (outputs.drop nb_flow_outputs) links1 with
      | none => none
      | some links2 =>
        some (links2,
          { cur_node with
            inputs := some inputs
            outputs := some (outputs.take nb_flow_outputs ++
              (outputs.drop nb_flow_outputs).map (bumpSlotIndex nb_flow_outputs)) })
  | _, _ => none

/-- The loop "add flow inputs & outputs" over all nodes. -/
def expandNodes : List Node → List Link → Option (List Link × List Node)
  | [], links => some (links, [])
  | cur_node :: rest, links =>
    match expandNode links cur_node with
    | none => none
    | some (links1, node1) =>
      match expandNodes rest links1 with
      | none => none
      | some (links2, rest1) => some (links2, node1 :: rest1)

/-- The statement `node.outputs[slot].links = [id]`. -/
def setOutputLinks (slot : Int) (id : Nat) (node : Node) : Option Node :=
  match node.outputs with
  | none => none
  | some outs => (setAt outs slot (fun o => { o with links := JLinks.arr [id] })).map
      (fun outs' => { node with outputs := some outs' })

/-- The statement `node.inputs[slot].link = id`. -/
def setInputLink (slot : Int) (id : Nat) (node : Node) : Option Node :=
  match node.inputs with
  | none => none
  | some inps => (setAt inps slot (fun i => { i with link := some id })).map
      (fun inps' => { node with inputs := some inps' })

/-- The array `[new_link_id, flow_link[1], flow_link[2], flow_link[3], flow_link[4], "FLOW"]`
pushed on `graphData.links` (line 1830). -/
def flowLinkEntry (new_link_id : Nat) (flow_link : Link) : Link :=
  { id := new_link_id
    origin_id := flow_link.origin_id
    origin_slot := flow_link.origin_slot
    target_id := flow_link.target_id
    target_slot := flow_link.target_slot
    type := some "FLOW" }

/-- The loop over `graphData.flow_links` (lines 1826-1835). -/
def addFlowLinks : List Link → Nat → List Link → List Node → Option (Nat × List Link × List Node)
  | [], last_link_id, links, nodes => some (last_link_id, links, nodes)
  | flow_link :: rest, last_link_id, links, nodes =>
    let new_link_id := last_link_id + 1
    let links1 := links ++ [flowLinkEntry new_link_id flow_link]
    match updLast Node.id flow_link.origin_id (setOutputLinks flow_link.origin_slot new_link_id) nodes with
    | none => none
    | some nodes1 =>
      match updLast Node.id flow_link.target_id (setInputLink flow_link.target_slot new_link_id) nodes1 with
      | none => none
      | some nodes2 => addFlowLinks rest new_link_id links1 nodes2

/-- The method `cworkflowToWorkflow`. -/
def cworkflowToWorkflow (graphData : Doc) : Option Doc :=
  if graphData.nodes.length = 0 then some graphData
  else
    match graphData.links with
    | none => none
    | some links =>
      match expandNodes graphData.nodes links with
      | none => none
      | some (links1, nodes1) =>
        match graphData.flow_links with
        | none => some { graphData with nodes := nodes1, links := some links1 }
        | some flow_links =>
          match addFlowLinks flow_links graphData.last_link_id links1 nodes1 with
          | none => none
          | some (last_link_id, links2, nodes2) =>
            some { graphData with nodes := nodes2, links := some links2, last_link_id := last_link_id }

/-! ## workflowToCworkflow -/

/-- An entry of a successor list: `[String(target id), target slot]` or the marker `null`. -/
abbrev Goto := Option (String × Int)

/-- The object `prompt_flows`: per key absent (`none`), `null` (`some none`) or a list. -/
abbrev Flows := Nat → Option (Option (List Goto))

/-- The element of `flow_inputs` made of a FLOW input slot (lines 1875-1878). -/
def toFlowIn (inp : InputSlot) : FlowIn :=
  { name := inp.name, type := some inp.type, shape := inp.shape, links := some [inp.link] }

/-- The element of `flow_outputs` made of a FLOW output slot (lines 1904-1907). -/
def toFlowOut (op : OutputSlot) : FlowOut :=
  { name := op.name
    type := some op.type
    slot_index := op.slot_index
    shape := op.shape
    link :=
      match op.links with
      | JLinks.arr (l :: _) => some l
      | _ => none }

/-- The inner loop of lines 1889-1895 over the slots behind a FLOW input. -/
def unshiftInputLinks (slots : List InputSlot) (links_map : List Link) : Option (List Link) :=
  slots.foldlM (fun ls slot =>
    match slot.link with
    | some link_id => if slot.type ≠ "FLOW" then addTargetSlot (-1) link_id ls else some ls
    | none => some ls) links_map

/-- The loop of lines 1883-1900, from the last input to the first: the inputs that remain and
the link table. -/
def stripInputs : List InputSlot → List Link → Option (List InputSlot × List Link)
  | [], links_map => some ([], links_map)
  | slot :: rest, links_map =>
    match stripInputs rest links_map with
    | none => none
    | some (rest1, links1) =>
      if slot.type = "FLOW" then
        (unshiftInputLinks rest1 links1).map (fun links2 => (rest1, links2))
      else some (slot :: rest1, links1)

/-- The inner loop of lines 1917-1927 over the slots behind a FLOW output. -/
def unshiftOutputLinks (slots : List OutputSlot) (links_map : List Link) : Option (List Link) :=
  slots.foldlM (fun ls slot =>
    match slot.links with
    | JLinks.arr link_ids =>
      if slot.type ≠ "FLOW" then link_ids.foldlM (fun ls link_id => addOriginSlot (-1) link_id ls) ls
      else some ls
    | _ => some ls) links_map

/-- The loop of lines 1912-1931, from the last output to the first. -/
def stripOutputs : List OutputSlot → List Link → Option (List OutputSlot × List Link)
  | [], links_map => some ([], links_map)
  | slot :: rest, links_map =>
    match stripOutputs rest links_map with
    | none => none
    | some (rest1, links1) =>
      if slot.type = "FLOW" then
        (unshiftOutputLinks rest1 links1).map (fun links2 => (rest1, links2))
      else some (slot :: rest1, links1)

/-- One round of the loop "input & output" (lines 1871-1932). -/
def compactNode (links_map : List Link) (node : Node) : Option (List Link × Node) :=
  match node.inputs, node.outputs with
  | some inputs, some outputs =>
    let flow_inputs := (inputs.filter (fun inp => inp.type = "FLOW")).map toFlowIn
    match stripInputs inputs links_map with
    | none => none
    | some (node_inputs, links1) =>
      let flow_outputs := (outputs.filter (fun op => op.type = "FLOW")).map toFlowOut
      match stripOutputs outputs links1 with
      | none => none
      | some (node_outputs, links2) =>
        some (links2,
          { node with
            inputs := some node_inputs
            outputs := some node_outputs
            flow_inputs := some flow_inputs
            flow_outputs := some flow_outputs })
  | _, _ => none

/-- The loop "input & output" over all nodes. -/
def compactNodes : List Node → List Link → Option (List Link × List Node)
  | [], links_map => some (links_map, [])
  | node :: rest, links_map =>
    match compactNode links_map node with
    | none => none
    | some (links1, node1) =>
      match compactNodes rest links1 with
      | none => none
      | some (links2, rest1) => some (links2, node1 :: rest1)

/-- The statements of lines 1949-1953: pad `all_goto` with `null` up to the origin slot and
store the successor there.  A negative index is no array index: the elements stay. -/
def setGoto (all_goto : List Goto) (origin_slot : Int) (g : String × Int) : List Goto :=
  if origin_slot < 0 then all_goto
  else
    let padded :=
      if all_goto.length ≤ origin_slot.toNat then
        all_goto ++ List.replicate (origin_slot.toNat + 1 - all_goto.length) none
      else all_goto
    padded.set origin_slot.toNat (some g)

/-- One round of the loop over `workflow.flow_links` (lines 1939-1955). -/
def flowsStep (prompt_flows : Flows) (link : Link) : Flows :=
  let all_goto : List Goto :=
    match prompt_flows link.origin_id with
    | some (some l) => l
    | _ => []
  let new_goto := toString link.target_id
  fun k =>
    if k = link.origin_id then some (some (setGoto all_goto link.origin_slot (new_goto, link.target_slot)))
    else prompt_flows k

/-- The object `prompt_flows` (lines 1937-1961). -/
def promptFlows (flow_links : List Link) (nodes : List Node) : Flows :=
  nodes.foldl (fun pf node => fun k =>
      if k = node.id then (match pf node.id with | some v => some v | none => some none) else pf k)
    (flow_links.foldl flowsStep (fun _ => none))

/-- The method `workflowToCworkflow`: the compact document and `prompt_flows`. -/
def workflowToCworkflow (workflow : Doc) : Option (Doc × Flows) :=
  let flow_links := workflow.links.map (fun ls => ls.filter (fun link => link.type = some "FLOW"))
  let links := workflow.links.map (fun ls => ls.filter (fun link => link.type ≠ some "FLOW"))
  match compactNodes workflow.nodes (links.getD []) with
  | none => none
  | some (links_map, nodes) =>
    match flow_links with
    | none => none
    | some fls =>
      some ({ nodes := nodes
              links := some links_map
              flow_links := some fls
              last_link_id := workflow.last_link_id
              support_flow_control := some true },
            promptFlows fls nodes)


/-! ## Sample documents and auxiliary notions used in the statements -/

/-- The invariant of the in-degree loop: no id twice in `flow_order`, and every member is a
non-Reroute node of the document whose in-degree is at most 0. -/
def KInv (nodes : List Node) (st : Kahn) : Prop :=
  (st.flow_order.map Node.id).Nodup ∧
  ∀ n ∈ st.flow_order, n ∈ nodes ∧ n.type ≠ "Reroute" ∧ ∃ d, st.in_degree n.id = some d ∧ d ≤ 0

/-- The links `[k + i, id(n_i), 0, id(n_(i+1)), 0]` of the consecutive pairs of an order. -/
def pairLinks : Nat → List Node → List Link
  | k, a :: b :: rest =>
    { id := k, origin_id := a.id, origin_slot := 0, target_id := b.id, target_slot := 0,
      type := none } :: pairLinks (k + 1) (b :: rest)
  | _, _ => []

/-- A node has a first element in `flow_inputs` and in `flow_outputs`. -/
def HasFlowSlots (m : Node) : Prop :=
  (∃ fi r, m.flow_inputs = some (fi :: r)) ∧ (∃ fo r, m.flow_outputs = some (fo :: r))

/-- A data input slot of type IMAGE. -/
def imageIn (name : String) (link : Option Nat) : InputSlot :=
  { name := name, type := "IMAGE", link := link, shape := none }

/-- A data output slot of type IMAGE. -/
def imageOut (name : String) (links : List Nat) : OutputSlot :=
  { name := name, type := "IMAGE", links := JLinks.arr links, slot_index := some 0, shape := none }

/-- The linear document A -> B -> C as stored before flow control: no flag, no FLOW links. -/
def linear3 : Doc :=
  { nodes :=
      [ { id := 1, type := "A", inputs := some [], outputs := some [imageOut "out" [1]],
          flow_inputs := none, flow_outputs := none },
        { id := 2, type := "B", inputs := some [imageIn "in" (some 1)],
          outputs := some [imageOut "out" [2]], flow_inputs := none, flow_outputs := none },
        { id := 3, type := "C", inputs := some [imageIn "in" (some 2)], outputs := some [],
          flow_inputs := none, flow_outputs := none } ]
    links := some
      [ { id := 1, origin_id := 1, origin_slot := 0, target_id := 2, target_slot := 0,
          type := some "IMAGE" },
        { id := 2, origin_id := 2, origin_slot := 0, target_id := 3, target_slot := 0,
          type := some "IMAGE" } ]
    flow_links := none
    last_link_id := 2
    support_flow_control := none }

/-- A node A, and a node V whose only input is fed by a Reroute node that has no input. -/
def rerouteFed : Doc :=
  { nodes :=
      [ { id := 1, type := "A", inputs := some [], outputs := some [],
          flow_inputs := none, flow_outputs := none },
        { id := 2, type := "Reroute", inputs := some [{ name := "", type := "*", link := none, shape := none }],
          outputs := some [{ name := "", type := "IMAGE", links := JLinks.arr [1], slot_index := some 0, shape := none }],
          flow_inputs := none, flow_outputs := none },
        { id := 3, type := "V", inputs := some [imageIn "in" (some 1)], outputs := some [],
          flow_inputs := none, flow_outputs := none } ]
    links := some
      [ { id := 1, origin_id := 2, origin_slot := 0, target_id := 3, target_slot := 0,
          type := some "IMAGE" } ]
    flow_links := none
    last_link_id := 1
    support_flow_control := none }

/-! ## The shift of slot indices as a function of link ids -/

/-- Adds `p.1` to the origin slot and `p.2` to the target slot of a link. -/
def shiftLink (p : Int × Int) (l : Link) : Link :=
  { l with origin_slot := l.origin_slot + p.1, target_slot := l.target_slot + p.2 }

/-- Applies `shiftLink (δ id)` to the table entry of every link id, that is to the last link of
each id. -/
def shiftLinks (δ : Nat → Int × Int) : List Link → List Link
  | [] => []
  | l :: rest =>
    (match lastWith Link.id l.id rest with
      | some _ => l
      | none => shiftLink (δ l.id) l) :: shiftLinks δ rest

/-- How many of the slots carry the link id `k`. -/
def inCount (slots : List InputSlot) (k : Nat) : Nat :=
  (slots.filter (fun s => s.link = some k)).length

/-- How often the link id `k` occurs in the `links` arrays of the slots. -/
def outCount : List OutputSlot → Nat → Nat
  | [], _ => 0
  | s :: rest, k =>
    (match s.links with
      | JLinks.arr ids => ids.count k
      | _ => 0) + outCount rest k

/-- The data slots of a list of input slots. -/
def dataInputs (slots : List InputSlot) : List InputSlot :=
  slots.filter (fun s => s.type ≠ "FLOW")

/-- The data slots of a list of output slots. -/
def dataOutputs (slots : List OutputSlot) : List OutputSlot :=
  slots.filter (fun s => s.type ≠ "FLOW")

/-- For the link id `k`: over the data inputs that carry `k`, the number of FLOW inputs in
front of them. -/
def stripInCount : List InputSlot → Nat → Nat
  | [], _ => 0
  | s :: rest, k =>
    stripInCount rest k + (if s.type = "FLOW" then inCount (dataInputs rest) k else 0)

/-- For the link id `k`: over its occurrences on data outputs, the number of FLOW outputs in
front of them. -/
def stripOutCount : List OutputSlot → Nat → Nat
  | [], _ => 0
  | s :: rest, k =>
    stripOutCount rest k + (if s.type = "FLOW" then outCount (dataOutputs rest) k else 0)

/-- The link ids of a `links` value that is an array. -/
def JLinks.ids : JLinks → List Nat
  | JLinks.arr l => l
  | _ => []

/-- No input and no output of the node is a FLOW slot. -/
def NoFlowSlots (n : Node) : Prop :=
  (∀ s ∈ n.inputs.getD [], s.type ≠ "FLOW") ∧ (∀ s ∈ n.outputs.getD [], s.type ≠ "FLOW")

/-- Every link id recorded on a data slot of the node is one of `ids`. -/
def DataLinksOK (ids : List Nat) (n : Node) : Prop :=
  (∀ s ∈ n.inputs.getD [], s.type ≠ "FLOW" → ∀ k ∈ s.link, k ∈ ids) ∧
  (∀ s ∈ n.outputs.getD [], s.type ≠ "FLOW" → ∀ k ∈ s.links.ids, k ∈ ids)

/-- A FLOW link of a compact document names two nodes of the document, a FLOW output of the
first and a FLOW input of the second. -/
def FlowLinkOK (nodes : List Node) (fl : Link) : Prop :=
  (∃ o ∈ lastWith Node.id fl.origin_id nodes,
    0 ≤ fl.origin_slot ∧ fl.origin_slot < ((o.flow_outputs.getD []).length : Int)) ∧
  (∃ t ∈ lastWith Node.id fl.target_id nodes,
    0 ≤ fl.target_slot ∧ fl.target_slot < ((t.flow_inputs.getD []).length : Int))

/-- A well-formed compact document: `links` and `flow_links` are present, no link of `links` is
a FLOW link, every node carries `flow_inputs` and `flow_outputs` and has data slots only, every
link id recorded on a slot is the id of a link, and every FLOW link joins a FLOW output to a
FLOW input of nodes of the document. -/
def WFCompact (d : Doc) : Prop :=
  match d.links, d.flow_links with
  | some ls, some fls =>
    (∀ l ∈ ls, l.type ≠ some "FLOW") ∧
    (∀ n ∈ d.nodes, n.flow_inputs.isSome ∧ n.flow_outputs.isSome ∧ NoFlowSlots n ∧
      DataLinksOK (ls.map Link.id) n) ∧
    (∀ fl ∈ fls, FlowLinkOK d.nodes fl)
  | _, _ => False

instance (n : Node) : Decidable (NoFlowSlots n) := by
  unfold NoFlowSlots; infer_instance

instance (ids : List Nat) (n : Node) : Decidable (DataLinksOK ids n) := by
  unfold DataLinksOK; infer_instance

instance (nodes : List Node) (fl : Link) : Decidable (FlowLinkOK nodes fl) := by
  unfold FlowLinkOK; infer_instance

instance (d : Doc) : Decidable (WFCompact d) := by
  unfold WFCompact; split <;> infer_instance

/-- The node that the loop "add flow inputs & outputs" makes of a node. -/
def expandedNode (n : Node) : Node :=
  { n with
    inputs := some ((n.flow_inputs.getD []).map mkFlowInput ++ n.inputs.getD [])
    outputs := some ((n.flow_outputs.getD []).enum.map (fun p => mkFlowOutput p.1 p.2) ++
      (n.outputs.getD []).map (bumpSlotIndex (n.flow_outputs.getD []).length)) }

/-- What the expansion of a node adds to the slots of the link with id `k`. -/
def nodeShift (n : Node) (k : Nat) : Int × Int :=
  (((n.flow_outputs.getD []).length : Int) * (outCount (n.outputs.getD []) k : Int),
   ((n.flow_inputs.getD []).length : Int) * (inCount (n.inputs.getD []) k : Int))

/-- What the expansion of all nodes adds to the slots of the link with id `k`. -/
def totalShift : List Node → Nat → Int × Int
  | [], _ => (0, 0)
  | n :: rest, k => nodeShift n k + totalShift rest k

/-- The links pushed on `graphData.links` for the FLOW links, numbered from `last + 1`. -/
def flowEntries : Nat → List Link → List Link
  | _, [] => []
  | last, fl :: rest => flowLinkEntry (last + 1) fl :: flowEntries (last + 1) rest

/-- An input slot without its link. -/
def eraseLink (s : InputSlot) : InputSlot := { s with link := none }

/-- An output slot without its links. -/
def eraseLinks (s : OutputSlot) : OutputSlot := { s with links := JLinks.null }

/-- An output slot without its `slot_index`. -/
def eraseSlotIndex (s : OutputSlot) : OutputSlot := { s with slot_index := none }

/-- The node `e` is the expansion of the compact node `n`: its inputs are the FLOW slots made
of `flow_inputs`, in order, followed by the inputs of `n`; its outputs are the FLOW slots made
of `flow_outputs`, in order, followed by the outputs of `n` (their `slot_index` moved).  The
link ids stored on the FLOW slots are left open: the loop over `flow_links` rewrites them. -/
def Expanded (n e : Node) : Prop :=
  e.id = n.id ∧ e.type = n.type ∧ e.flow_inputs = n.flow_inputs ∧
  e.flow_outputs = n.flow_outputs ∧
  ∃ F G, e.inputs = some (F ++ n.inputs.getD []) ∧
    F.map eraseLink = ((n.flow_inputs.getD []).map mkFlowInput).map eraseLink ∧
    e.outputs = some (G ++ (n.outputs.getD []).map (bumpSlotIndex (n.flow_outputs.getD []).length)) ∧
    G.map eraseLinks =
      ((n.flow_outputs.getD []).enum.map (fun p => mkFlowOutput p.1 p.2)).map eraseLinks

/-- The node `c` is what compaction of the expansion makes of the compact node `n`: the same
id, type and data inputs, the same data outputs up to `slot_index`, and `flow_inputs` and
`flow_outputs` with the same names in the same order. -/
def RoundTrip (n c : Node) : Prop :=
  c.id = n.id ∧ c.type = n.type ∧ c.inputs = some (n.inputs.getD []) ∧
  c.outputs.map (fun l => l.map eraseSlotIndex) = some ((n.outputs.getD []).map eraseSlotIndex) ∧
  c.flow_inputs.map (fun l => l.map FlowIn.name) = some ((n.flow_inputs.getD []).map FlowIn.name) ∧
  c.flow_outputs.map (fun l => l.map FlowOut.name) =
    some ((n.flow_outputs.getD []).map FlowOut.name)

/-- The composition `workflowToCworkflow(cworkflowToWorkflow(d)).workflow`. -/
def roundTrip (d : Doc) : Option Doc :=
  (cworkflowToWorkflow d).bind (fun r => (workflowToCworkflow r).map Prod.fst)

/-- The composition `cworkflowToWorkflow(workflowToCworkflow(g).workflow)`. -/
def reExpand (g : Doc) : Option Doc :=
  (workflowToCworkflow g).bind (fun p => cworkflowToWorkflow p.1)

/-- In an expanded node the FLOW slots are exactly the slots below the number of elements of
`flow_inputs` (for inputs) and of `flow_outputs` (for outputs) of the compact node. -/
def FlowSlotsFirst (n e : Node) : Prop :=
  (∀ i s, (e.inputs.getD [])[i]? = some s →
    (s.type = "FLOW" ↔ i < (n.flow_inputs.getD []).length)) ∧
  (∀ i s, (e.outputs.getD [])[i]? = some s →
    (s.type = "FLOW" ↔ i < (n.flow_outputs.getD []).length))

/-- An element of `flow_inputs` as `workflowToCworkflow` writes it. -/
def flowInOf (name : String) (link : Option Nat) : FlowIn :=
  { name := name, type := some "FLOW", shape := some ARROW_SHAPE, links := some [link] }

/-- An element of `flow_outputs` as `workflowToCworkflow` writes it. -/
def flowOutOf (name : String) (link : Option Nat) : FlowOut :=
  { name := name, type := some "FLOW", slot_index := some 0, shape := some ARROW_SHAPE,
    link := link }

/-- The compact document that loading and saving makes of `linear3`, that is
`workflowToCworkflow(cworkflowToWorkflow(convertOldVersionWorkflow(linear3))).workflow`. -/
def compactLinear3 : Doc :=
  { nodes :=
      [ { id := 1, type := "A", inputs := some [],
          outputs := some [{ imageOut "out" [1] with slot_index := some 1 }],
          flow_inputs := some [flowInOf "FROM" (some 0)],
          flow_outputs := some [flowOutOf "TO" (some 3)] },
        { id := 2, type := "B", inputs := some [imageIn "in" (some 1)],
          outputs := some [{ imageOut "out" [2] with slot_index := some 1 }],
          flow_inputs := some [flowInOf "FROM" (some 3)],
          flow_outputs := some [flowOutOf "TO" (some 4)] },
        { id := 3, type := "C", inputs := some [imageIn "in" (some 2)], outputs := some [],
          flow_inputs := some [flowInOf "FROM" (some 4)],
          flow_outputs := some [flowOutOf "TO" none] } ]
    links := some
      [ { id := 1, origin_id := 1, origin_slot := 0, target_id := 2, target_slot := 0,
          type := some "IMAGE" },
        { id := 2, origin_id := 2, origin_slot := 0, target_id := 3, target_slot := 0,
          type := some "IMAGE" } ]
    flow_links := some
      [ { id := 3, origin_id := 1, origin_slot := 0, target_id := 2, target_slot := 0,
          type := some "FLOW" },
        { id := 4, origin_id := 2, origin_slot := 0, target_id := 3, target_slot := 0,
          type := some "FLOW" } ]
    last_link_id := 4
    support_flow_control := some true }

/-- The endpoints `(origin node, origin slot, target node, target slot)` of a link. -/
def Link.endpoints (l : Link) : Nat × Int × Nat × Int :=
  (l.origin_id, l.origin_slot, l.target_id, l.target_slot)

/-- A FLOW link of a runtime graph names two nodes of the graph and slots that they have. -/
def RuntimeFlowLinkOK (nodes : List Node) (fl : Link) : Prop :=
  (∃ o ∈ lastWith Node.id fl.origin_id nodes,
    0 ≤ fl.origin_slot ∧ fl.origin_slot < ((o.outputs.getD []).length : Int)) ∧
  (∃ t ∈ lastWith Node.id fl.target_id nodes,
    0 ≤ fl.target_slot ∧ fl.target_slot < ((t.inputs.getD []).length : Int))

/-- A well-formed runtime graph: at least one node, a links list, every node with `inputs` and
`outputs`, every link id recorded on a data slot is the id of a data link, and every FLOW link
joins slots that exist. -/
def WFRuntime (g : Doc) : Prop :=
  match g.links with
  | some ls =>
    g.nodes ≠ [] ∧
    (∀ n ∈ g.nodes, n.inputs.isSome ∧ n.outputs.isSome ∧
      DataLinksOK ((ls.filter (fun l => l.type ≠ some "FLOW")).map Link.id) n) ∧
    (∀ fl ∈ ls.filter (fun l => l.type = some "FLOW"), RuntimeFlowLinkOK g.nodes fl)
  | none => False

instance (nodes : List Node) (fl : Link) : Decidable (RuntimeFlowLinkOK nodes fl) := by
  unfold RuntimeFlowLinkOK; infer_instance

instance (g : Doc) : Decidable (WFRuntime g) := by
  unfold WFRuntime; split <;> infer_instance

/-- The node that the loop "input & output" of `workflowToCworkflow` makes of a node. -/
def compactedNode (n : Node) : Node :=
  { n with
    inputs := some (dataInputs (n.inputs.getD []))
    outputs := some (dataOutputs (n.outputs.getD []))
    flow_inputs := some (((n.inputs.getD []).filter (fun inp => inp.type = "FLOW")).map toFlowIn)
    flow_outputs :=
      some (((n.outputs.getD []).filter (fun op => op.type = "FLOW")).map toFlowOut) }

/-- The node `y` has the id and as many inputs and outputs as the node `n`. -/
def SameShape (n y : Node) : Prop :=
  y.id = n.id ∧
  (∃ ins, y.inputs = some ins ∧ ins.length = (n.inputs.getD []).length) ∧
  (∃ outs, y.outputs = some outs ∧ outs.length = (n.outputs.getD []).length)

/-- A FLOW input slot of a runtime node. -/
def flowSlotIn (link : Option Nat) : InputSlot :=
  { name := "FROM", type := "FLOW", link := link, shape := some ARROW_SHAPE }

/-- A FLOW output slot of a runtime node. -/
def flowSlotOut (links : JLinks) : OutputSlot :=
  { name := "TO", type := "FLOW", links := links, slot_index := some 0, shape := some ARROW_SHAPE }

/-- The runtime graph of the linear document A -> B -> C, as the canvas serializes it: FLOW
slots first, and the FLOW links 3 (A -> B) and 4 (B -> C) among `links`. -/
def runtimeLinear3 : Doc :=
  { nodes :=
      [ { id := 1, type := "A", inputs := some [flowSlotIn none],
          outputs := some [flowSlotOut (JLinks.arr [3]),
            { imageOut "out" [1] with slot_index := some 1 }],
          flow_inputs := none, flow_outputs := none },
        { id := 2, type := "B", inputs := some [flowSlotIn (some 3), imageIn "in" (some 1)],
          outputs := some [flowSlotOut (JLinks.arr [4]),
            { imageOut "out" [2] with slot_index := some 1 }],
          flow_inputs := none, flow_outputs := none },
        { id := 3, type := "C", inputs := some [flowSlotIn (some 4), imageIn "in" (some 2)],
          outputs := some [flowSlotOut JLinks.null],
          flow_inputs := none, flow_outputs := none } ]
    links := some
      [ { id := 1, origin_id := 1, origin_slot := 1, target_id := 2, target_slot := 1,
          type := some "IMAGE" },
        { id := 2, origin_id := 2, origin_slot := 1, target_id := 3, target_slot := 1,
          type := some "IMAGE" },
        { id := 3, origin_id := 1, origin_slot := 0, target_id := 2, target_slot := 0,
          type := some "FLOW" },
        { id := 4, origin_id := 2, origin_slot := 0, target_id := 3, target_slot := 0,
          type := some "FLOW" } ]
    flow_links := none
    last_link_id := 4
    support_flow_control := none }

/-! ## The walk of `degree_linked_out_nodes` as a list of events -/

/-- One arrival of `degree_linked_out_nodes` at the branch "normal valid nodes": the id of the
node whose outputs are walked (`_node.id`), the link, the node `nodes[link[3]]`, and the links
followed before through Reroute nodes, the latest first. -/
structure WalkEv where
  from_id : Nat
  link : Link
  next_node : Node
  via : List Link

/-- The links of an event, from the link that reaches a normal node back to the link that
leaves the processed node. -/
def WalkEv.path (ev : WalkEv) : List Link := ev.link :: ev.via

/-- The effect of an event on `in_degree` and `flow_order`. -/
def applyEv (st : Kahn) (ev : WalkEv) : Kahn :=
  decrTarget ev.from_id ev.link.target_id ev.next_node st

/-- All link ids of the `links` arrays of the outputs, in order; `none` when some `links` is
not iterable. -/
def outIds : List OutputSlot → Option (List Nat)
  | [] => some []
  | s :: rest =>
    match s.links with
    | JLinks.null => outIds rest
    | JLinks.num _ => none
    | JLinks.arr ids => (outIds rest).map (fun r => ids ++ r)

/-- The events of a list of link ids, given the events of one link id. -/
def collectEvents (f : Nat → Option (List WalkEv)) : List Nat → Option (List WalkEv)
  | [] => some []
  | k :: rest =>
    match f k with
    | none => none
    | some b =>
      match collectEvents f rest with
      | none => none
      | some bs => some (b ++ bs)

/-- The events of one link id listed on an output of the node `from_id`: the events of the
walk from the Reroute node that the link reaches (`walk`), each with the link added as the
first link followed, or the one event of a link that reaches a normal node. -/
def linkEvents (nodes : List Node) (links : List Link) (walk : Node → Option (List WalkEv))
    (from_id : Nat) (link_id : Nat) : Option (List WalkEv) :=
  match lastWith Link.id link_id links with
  | none => none
  | some link =>
    match lastWith Node.id link.target_id nodes with
    | none => none
    | some next_node =>
      if next_node.type = "Reroute" then
        (walk next_node).map (fun evs => evs.map (fun ev => { ev with via := ev.via ++ [link] }))
      else some [{ from_id := from_id, link := link, next_node := next_node, via := [] }]

/-- The events of `degree_linked_out_nodes(_node)`, in order. -/
def walkEvents (nodes : List Node) (links : List Link) : Nat → Node → Option (List WalkEv)
  | 0, _ => none
  | depth + 1, _node =>
    match _node.outputs with
    | none => some []
    | some outs =>
      match outIds outs with
      | none => none
      | some ids =>
        collectEvents (linkEvents nodes links (walkEvents nodes links depth) _node.id) ids

/-- The events of the walks from a list of nodes, one node after the other. -/
def walkAll (nodes : List Node) (links : List Link) (depth : Nat) :
    List Node → Option (List WalkEv)
  | [] => some []
  | r :: rest =>
    match walkEvents nodes links depth r with
    | none => none
    | some evs =>
      match walkAll nodes links depth rest with
      | none => none
      | some more => some (evs ++ more)

/-- The id `k` is the id of a Reroute node. -/
def IsRerouteId (nodes : List Node) (k : Nat) : Prop :=
  ∃ m ∈ lastWith Node.id k nodes, m.type = "Reroute"

/-- The id `k` is the id of a node that is no Reroute node. -/
def IsNormalId (nodes : List Node) (k : Nat) : Prop :=
  ∃ m ∈ lastWith Node.id k nodes, m.type ≠ "Reroute"

/-- A chain of links of the document, the last link first: it starts at the node `root`, and
each link but the first starts at the Reroute node that the link before it reaches. -/
def ValidPath (nodes : List Node) (links : List Link) (root : Nat) : List Link → Prop
  | [] => False
  | [l] => l ∈ links ∧ l.origin_id = root
  | l :: l1 :: rest =>
    l ∈ links ∧ l.origin_id = l1.target_id ∧ IsRerouteId nodes l1.target_id ∧
      ValidPath nodes links root (l1 :: rest)

/-- A data link leads from the node `a` to the node `b`, directly or through a chain of Reroute
nodes. -/
inductive Leads (nodes : List Node) (links : List Link) : Nat → Nat → Prop where
  | direct (l : Link) (a b : Nat) : l ∈ links → l.origin_id = a → l.target_id = b →
      Leads nodes links a b
  | through (l : Link) (a b : Nat) : l ∈ links → l.origin_id = a →
      IsRerouteId nodes l.target_id → Leads nodes links l.target_id b → Leads nodes links a b

/-- A well-formed document without flow control: node ids and link ids are pairwise distinct;
every link is recorded on an input slot of its target node; the link ids listed on the outputs
of a node are ids of links that start at this node, and none is listed twice; a Reroute node has
at most one connected input. -/
def WFLegacy (nodes : List Node) (links : List Link) : Prop :=
  (nodes.map Node.id).Nodup ∧ (links.map Link.id).Nodup ∧
  (∀ l ∈ links, ∀ v ∈ nodes, v.id = l.target_id →
    ∃ s ∈ v.inputs.getD [], s.link = some l.id) ∧
  (∀ n ∈ nodes, ∀ o ∈ n.outputs.getD [], ∀ k ∈ o.links.ids, ∀ l ∈ links, l.id = k →
    l.origin_id = n.id) ∧
  (∀ n ∈ nodes, ((n.outputs.getD []).flatMap (fun o => o.links.ids)).Nodup) ∧
  (∀ n ∈ nodes, n.type = "Reroute" → connectedInputs n ≤ 1)

instance (nodes : List Node) (links : List Link) : Decidable (WFLegacy nodes links) := by
  unfold WFLegacy; infer_instance

/-- The number of events that decrement the in-degree of `t`. -/
def effCount (t : Nat) (evs : List WalkEv) : Nat :=
  (evs.filter (fun ev => ev.link.target_id = t ∧ ev.from_id ≠ t)).length

/-- What the walk records in an event. -/
def EvFacts (nodes : List Node) (links : List Link) (n : Node) (ev : WalkEv) : Prop :=
  lastWith Node.id ev.link.target_id nodes = some ev.next_node ∧
  ev.next_node.type ≠ "Reroute" ∧
  ValidPath nodes links n.id ev.path ∧
  ev.from_id = ev.link.origin_id ∧
  ∃ k ∈ (n.outputs.getD []).flatMap (fun o => o.links.ids),
    ∃ l, lastWith Link.id k links = some l ∧ ev.path.getLast? = some l

/-- Every link that reaches a member of the order was walked from a node that stands before
the member in the order. -/
def Ordered (nodes : List Node) (links : List Link) (depth : Nat) (order : List Node) : Prop :=
  ∀ (j : Nat) (v : Node), order[j]? = some v → ∀ l ∈ links, l.target_id = v.id →
    ∃ i, i < j ∧ ∃ r, order[i]? = some r ∧
      ∃ evs, walkEvents nodes links depth r = some evs ∧ ∃ ev ∈ evs, ev.link = l

/-- The invariant of the loop `while (idx < flow_order.length)`: the in-degrees are the initial
ones minus the decrements of the events of the nodes processed so far. -/
def OuterInv (nodes : List Node) (links : List Link) (depth : Nat) (st : Kahn) (idx : Nat) :
    Prop :=
  KInv nodes st ∧
  (∃ E, walkAll nodes links depth (st.flow_order.take idx) = some E ∧
    ∀ t, st.in_degree t =
      ((seedKahn nodes).in_degree t).map (fun d => d - (effCount t E : Int))) ∧
  Ordered nodes links depth st.flow_order

instance (nodes : List Node) (k : Nat) : Decidable (IsRerouteId nodes k) := by
  unfold IsRerouteId; infer_instance

instance (nodes : List Node) (k : Nat) : Decidable (IsNormalId nodes k) := by
  unfold IsNormalId; infer_instance

/-- A wildcard slot of a Reroute node. -/
def rerouteIn (link : Option Nat) : InputSlot :=
  { name := "", type := "*", link := link, shape := none }

/-- The node B of `reroutedDiamond`: two inputs, fed by the links 2 and 4. -/
def diamondB : Node :=
  { id := 3, type := "B", inputs := some [imageIn "x" (some 2), imageIn "y" (some 4)],
    outputs := some [], flow_inputs := none, flow_outputs := none }

/-- The node A of `reroutedDiamond`: no input, one output with the links 1 and 3. -/
def diamondA : Node :=
  { id := 1, type := "A", inputs := some [], outputs := some [imageOut "out" [1, 3]],
    flow_inputs := none, flow_outputs := none }

/-- A document without flow control in which A feeds B through a Reroute node R and through
the node C: links 1 (A -> R), 2 (R -> B), 3 (A -> C), 4 (C -> B); B is listed first. -/
def reroutedDiamond : Doc :=
  { nodes :=
      [ diamondB, diamondA,
        { id := 2, type := "Reroute", inputs := some [rerouteIn (some 1)],
          outputs := some [imageOut "" [2]], flow_inputs := none, flow_outputs := none },
        { id := 4, type := "C", inputs := some [imageIn "in" (some 3)],
          outputs := some [imageOut "out" [4]], flow_inputs := none, flow_outputs := none } ]
    links := some
      [ { id := 1, origin_id := 1, origin_slot := 0, target_id := 2, target_slot := 0,
          type := some "IMAGE" },
        { id := 2, origin_id := 2, origin_slot := 0, target_id := 3, target_slot := 0,
          type := some "IMAGE" },
        { id := 3, origin_id := 1, origin_slot := 0, target_id := 4, target_slot := 0,
          type := some "IMAGE" },
        { id := 4, origin_id := 4, origin_slot := 0, target_id := 3, target_slot := 1,
          type := some "IMAGE" } ]
    flow_links := none
    last_link_id := 4
    support_flow_control := none }

/-- Every `links` value on an output of a node is `null` or an array, every link id in it is
the id of a link, and the target of that link is a node of the document. -/
def Resolvable (nodes : List Node) (links : List Link) : Prop :=
  ∀ n ∈ nodes, ∀ o ∈ n.outputs.getD [],
    (∀ m, o.links ≠ JLinks.num m) ∧
    ∀ k ∈ o.links.ids, ∃ l ∈ lastWith Link.id k links,
      (lastWith Node.id l.target_id nodes).isSome

/-- The function `rank` bounds the chains of Reroute nodes: a link into a Reroute node leads to
a node of smaller rank, and no rank exceeds the number of nodes. -/
def RerouteRanked (nodes : List Node) (links : List Link) (rank : Nat → Nat) : Prop :=
  (∀ k, rank k ≤ nodes.length) ∧
  ∀ n ∈ nodes, ∀ o ∈ n.outputs.getD [], ∀ k ∈ o.links.ids, ∀ l ∈ lastWith Link.id k links,
    IsRerouteId nodes l.target_id → rank l.target_id < rank n.id

/-! ## Links and the slots that record them -/

/-- The node `target_id` of the link has an input at index `target_slot` whose `link` is the
id of the link. -/
def TargetRecorded (nodes : List Node) (l : Link) : Prop :=
  ∃ t ∈ lastWith Node.id l.target_id nodes, 0 ≤ l.target_slot ∧
    ∃ s ∈ (t.inputs.getD [])[l.target_slot.toNat]?, s.link = some l.id

/-- The node `origin_id` of the link has an output at index `origin_slot` whose `links`
contain the id of the link. -/
def OriginRecorded (nodes : List Node) (l : Link) : Prop :=
  ∃ o ∈ lastWith Node.id l.origin_id nodes, 0 ≤ l.origin_slot ∧
    ∃ s ∈ (o.outputs.getD [])[l.origin_slot.toNat]?, l.id ∈ s.links.ids

/-- The link is consistent with the slot lists of the nodes. -/
def LinkRecorded (nodes : List Node) (l : Link) : Prop :=
  TargetRecorded nodes l ∧ OriginRecorded nodes l

/-- The slots of the node are consistent with the links: a link id on the input `i` is the id
of a link that reaches this node at slot `i`; a link id on the output `j` is the id of a link
that leaves this node at slot `j`, and it is listed there once. -/
def SlotsRecorded (links : List Link) (n : Node) : Prop :=
  (∀ p ∈ (n.inputs.getD []).enum, ∀ k ∈ p.2.link,
    ∃ l ∈ lastWith Link.id k links, l.target_id = n.id ∧ l.target_slot = (p.1 : Int)) ∧
  (∀ p ∈ (n.outputs.getD []).enum, p.2.links.ids.Nodup ∧ ∀ k ∈ p.2.links.ids,
    ∃ l ∈ lastWith Link.id k links, l.origin_id = n.id ∧ l.origin_slot = (p.1 : Int))

/-- No two FLOW links share an origin slot or a target slot. -/
def FlowSlotsDistinct (fls : List Link) : Prop :=
  fls.Pairwise (fun a b =>
    ¬ (a.origin_id = b.origin_id ∧ a.origin_slot = b.origin_slot) ∧
    ¬ (a.target_id = b.target_id ∧ a.target_slot = b.target_slot))

/-- A compact document with consistent link and slot records: it is well-formed, node ids and
link ids are pairwise distinct, every link is recorded on the slots it names, every slot
records links that name it, and no two FLOW links share an origin slot or a target slot. -/
def WFLinked (d : Doc) : Prop :=
  WFCompact d ∧ (d.nodes.map Node.id).Nodup ∧ ((d.links.getD []).map Link.id).Nodup ∧
  (∀ l ∈ d.links.getD [], LinkRecorded d.nodes l) ∧
  (∀ n ∈ d.nodes, SlotsRecorded (d.links.getD []) n) ∧
  FlowSlotsDistinct (d.flow_links.getD [])

instance (nodes : List Node) (l : Link) : Decidable (TargetRecorded nodes l) := by
  unfold TargetRecorded; infer_instance

instance (nodes : List Node) (l : Link) : Decidable (OriginRecorded nodes l) := by
  unfold OriginRecorded; infer_instance

instance (nodes : List Node) (l : Link) : Decidable (LinkRecorded nodes l) := by
  unfold LinkRecorded; infer_instance

instance (links : List Link) (n : Node) : Decidable (SlotsRecorded links n) := by
  unfold SlotsRecorded; infer_instance

instance (fls : List Link) : Decidable (FlowSlotsDistinct fls) := by
  unfold FlowSlotsDistinct; infer_instance

instance (d : Doc) : Decidable (WFLinked d) := by
  unfold WFLinked; infer_instance

/-! ## The flow table, as the claims describe it -/

/-- The successor entry `[String(target id), target slot]` of a FLOW link. -/
def gotoOf (l : Link) : String × Int := (toString l.target_id, l.target_slot)

/-- The length of the successor list of an origin whose FLOW links are `L`: the largest origin
slot among them, plus one (no negative slot counts). -/
def denseLength (L : List Link) : Nat :=
  L.foldl (fun m l => max m (l.origin_slot + 1).toNat) 0

/-- The entry `s` of the successor list of an origin whose FLOW links are `L`: the successor
of the FLOW link with origin slot `s` (the last one in `L`, should there be several), or the
marker `null` when there is no such link. -/
def denseEntry (L : List Link) (s : Nat) : Goto :=
  (L.reverse.find? (fun l => l.origin_slot = (s : Int))).map gotoOf

/-- The dense successor list of an origin whose FLOW links are `L`. -/
def denseGoto (L : List Link) : List Goto :=
  (List.range (denseLength L)).map (denseEntry L)

/-- The reference flow table in the words of the specification: a key for every node id; for
the origin of FLOW links the dense successor list; `null` for a node that is the origin of no
FLOW link.  (The origin of a FLOW link has a key whether or not it is the id of a node.) -/
def flowTableRef (flow_links : List Link) (nodes : List Node) : Flows := fun k =>
  let L := flow_links.filter (fun l => l.origin_id = k)
  if L ≠ [] then some (some (denseGoto L))
  else if k ∈ nodes.map Node.id then some none
  else none

/-- A runtime graph in which the node 1 has two FLOW outputs, linked to the nodes 2 (slot 0)
and 3 (slot 1). -/
def twoSuccessors : Doc :=
  { nodes :=
      [ { id := 1, type := "A", inputs := some [],
          outputs := some [flowSlotOut (JLinks.arr [1]), flowSlotOut (JLinks.arr [2])],
          flow_inputs := none, flow_outputs := none },
        { id := 2, type := "B", inputs := some [flowSlotIn (some 1)], outputs := some [],
          flow_inputs := none, flow_outputs := none },
        { id := 3, type := "C", inputs := some [flowSlotIn (some 2)], outputs := some [],
          flow_inputs := none, flow_outputs := none } ]
    links := some
      [ { id := 1, origin_id := 1, origin_slot := 0, target_id := 2, target_slot := 0,
          type := some "FLOW" },
        { id := 2, origin_id := 1, origin_slot := 1, target_id := 3, target_slot := 0,
          type := some "FLOW" } ]
    flow_links := none
    last_link_id := 2
    support_flow_control := none }

/-- The variable `all_goto` at the start of a round of the loop over `workflow.flow_links`:
the list stored for the origin, or the empty list. -/
def currentGoto (v : Option (Option (List Goto))) : List Goto :=
  match v with
  | some (some l) => l
  | _ => []

/-- The link with the lowest origin slot among the links (the first of them on a tie). -/
def lowestSlotLink : List Link → Option Link
  | [] => none
  | l :: rest =>
    match lowestSlotLink rest with
    | none => some l
    | some m => if l.origin_slot ≤ m.origin_slot then some l else some m

/-- The tie-break as the specification words it: for an origin of several FLOW links, the
successor table of the origin is the one that the link with the lowest origin slot gives on
its own. -/
def LowestSlotWins (w : Doc) : Prop :=
  ∀ c pf, workflowToCworkflow w = some (c, pf) → ∀ o,
    2 ≤ (((w.links.getD []).filter (fun l => l.type = some "FLOW")).filter
      (fun l => l.origin_id = o)).length →
    ∃ m ∈ lowestSlotLink (((w.links.getD []).filter (fun l => l.type = some "FLOW")).filter
      (fun l => l.origin_id = o)), pf o = promptFlows [m] [] o

/-! ## graphToPrompt

The method works on the live graph of the canvas library: node objects with the methods
`getInputNode`, `getInputLink`, and for group nodes `getInnerNodes` and `updateLink`.  These
methods belong to the canvas library and to extensions, so they are a parameter (`Host`); the
statements hold for every host.  `graphHost` is the host of a graph given by its nodes and the
link of each input, used for the concrete graphs.

The loop `while (parent.mode === 4 || parent.isVirtualNode)` has no bound of its own: the
embedding counts the evaluations of its condition and gives `Run.timeout` when the count
(`fuel`) is used up.  A `TypeError` is `Run.raise`. -/

/-- The id of a live node: a number, or the string of an inner node of a group node. -/
inductive JId where
  | num (n : Nat) : JId
  | str (s : String) : JId
deriving DecidableEq, Repr

/-- The string `String(id)`, which is also the property key that `obj[id]` uses. -/
def JId.key : JId → String
  | JId.num n => toString n
  | JId.str s => s

/-- A link object of the live graph, as far as `graphToPrompt` reads it. -/
structure GLink where
  origin_id : JId
  origin_slot : Nat
  target_id : JId
  target_slot : Nat
deriving DecidableEq, Repr

/-- An input slot of a live node; its link is reached through `getInputLink`. -/
structure GInput where
  name : String
  type : String
deriving DecidableEq, Repr

/-- A value of the instruction map as far as the method looks at it: a two-element array,
with the property key of its first element, or any other value. -/
inductive WVal where
  | pair (first : String) (second : String) : WVal
  | other (json : String) : WVal
deriving DecidableEq, Repr

/-- A widget of a live node: `value` is what `widget.serializeValue(node, i)` resolves to, or
`widget.value`; `serialize` is false when `widget.options.serialize === false`. -/
structure GWidget where
  name : String
  value : WVal
  serialize : Bool
deriving DecidableEq, Repr

/-- A live node. -/
structure GNode where
  id : JId
  mode : Nat
  isVirtualNode : Bool
  comfyClass : Option String
  inputs : Option (List GInput)
  widgets : Option (List GWidget)
deriving DecidableEq, Repr

/-- The methods of the live nodes that `graphToPrompt` calls.  `getInnerNodes` and `updateLink`
are `none` for a node without the method (every node but a group node); `updateLink` of a group
node gives `none` for a link on which it raises. -/
structure Host where
  getInputNode : GNode → Nat → Option GNode
  getInputLink : GNode → Nat → Option GLink
  getInnerNodes : GNode → Option (List GNode)
  updateLink : GNode → Option (GLink → Option GLink)

/-- The result of a run: a value, a `TypeError`, or no end within the given number of loop
rounds. -/
inductive Run (α : Type) where
  | ok (a : α) : Run α
  | raise : Run α
  | timeout : Run α
deriving DecidableEq, Repr

/-- The value of a run that ended. -/
def Run.value {α : Type} : Run α → Option α
  | Run.ok a => some a
  | _ => none

/-- An input value of an instruction: a widget value, or the array
`[String(link.origin_id), parseInt(link.origin_slot) - nb_flowout[link.origin_id]]` (the second
element is `NaN`, here `none`, when `nb_flowout` has no such key). -/
inductive PVal where
  | widget (v : WVal) : PVal
  | link (origin : String) (slot : Option Int) : PVal
deriving DecidableEq, Repr

/-- An entry of the instruction map. -/
structure Instr where
  inputs : List (String × PVal)
  is_input_linked : List (String × Bool)
  class_type : Option String
deriving DecidableEq, Repr

/-- The instruction map `output`. -/
abbrev Output := List (String × Instr)

/-- The assignment `obj[k] = v` on an object given by its entries. -/
def setKey {β : Type} (k : String) (v : β) : List (String × β) → List (String × β)
  | [] => [(k, v)]
  | p :: rest => if p.1 = k then (k, v) :: rest else p :: setKey k v rest

/-- The read `obj[k]` of an own property. -/
def getKey {β : Type} (k : String) : List (String × β) → Option β
  | [] => none
  | p :: rest => if p.1 = k then some p.2 else getKey k rest

/-- The state of the resolution loop: the variables `parent` and `link`. -/
structure Walk where
  parent : Option GNode
  link : Option GLink
deriving DecidableEq, Repr

/-- What one round of the resolution loop does: leave the loop, go on, or raise. -/
inductive Step where
  | done (w : Walk) : Step
  | next (w : Walk) : Step
  | raise : Step
deriving DecidableEq, Repr

/-- The loop over `all_inputs` (lines 2171-2181): the first candidate `c` with
`parent.inputs[c]?.type === type`. -/
def bypassCandidate (type : String) (inputs : List GInput) (all_inputs : List Nat) : Option Nat :=
  all_inputs.find? (fun c => (inputs[c]?).map GInput.type = some type)

/-- One round of the loop `while (parent.mode === 4 || parent.isVirtualNode)` (lines
2157-2188) for an input of type `type`. -/
def walkStep (host : Host) (type : String) (w : Walk) : Step :=
  match w.parent with
  | none => Step.raise
  | some parent =>
    if parent.mode = 4 ∨ parent.isVirtualNode = true then
      if parent.isVirtualNode = true then
        match w.link with
        | none => Step.raise
        | some link =>
          match host.getInputLink parent link.origin_slot with
          | none => Step.done { parent := some parent, link := none }
          | some link1 =>
            match host.getInputNode parent link1.target_slot with
            | none => Step.done { parent := none, link := some link1 }
            | some parent1 => Step.next { parent := some parent1, link := some link1 }
      else
        match w.link with
        | none => Step.done w
        | some link =>
          if parent.mode = 4 then
            match parent.inputs with
            | none => Step.done w
            | some inputs =>
              match bypassCandidate type inputs
                (link.origin_slot :: List.range inputs.length) with
              | none => Step.done w
              | some parent_input =>
                match host.getInputLink parent parent_input with
                | none => Step.next { parent := some parent, link := none }
                | some link1 =>
                  Step.next { parent := host.getInputNode parent parent_input,
                              link := some link1 }
          else Step.done w
    else Step.done w

/-- The loop `while (parent.mode === 4 || parent.isVirtualNode)`, at most `fuel` evaluations
of its condition. -/
def walkLoop (host : Host) (type : String) : Nat → Walk → Run Walk
  | 0, _ => Run.timeout
  | fuel + 1, w =>
    match walkStep host type w with
    | Step.done w1 => Run.ok w1
    | Step.raise => Run.raise
    | Step.next w1 => walkLoop host type fuel w1

/-- The link after `if (parent?.updateLink) link = parent.updateLink(link)`; `none` when
`updateLink` raises. -/
def updatedLink (host : Host) (parent : Option GNode) (link : GLink) : Option GLink :=
  match parent with
  | none => some link
  | some p =>
    match host.updateLink p with
    | none => some link
    | some f => f link

/-- One round of the loop "Store all node links" (lines 2153-2198), for the input `i`. -/
def storeLink (host : Host) (nb_flowout : String → Option Nat) (fuel : Nat) (node : GNode)
    (acc : List (String × PVal) × List (String × Bool)) (p : Nat × GInput) :
    Run (List (String × PVal) × List (String × Bool)) :=
  match host.getInputNode node p.1 with
  | none => Run.ok acc
  | some parent =>
    match walkLoop host p.2.type fuel
        { parent := some parent, link := host.getInputLink node p.1 } with
    | Run.raise => Run.raise
    | Run.timeout => Run.timeout
    | Run.ok w =>
      match w.link with
      | none => Run.ok acc
      | some link =>
        if p.2.type ≠ "FLOW" then
          match updatedLink host w.parent link with
          | none => Run.raise
          | some link1 =>
            Run.ok
              (setKey p.2.name
                (PVal.link link1.origin_id.key
                  ((nb_flowout link1.origin_id.key).map
                    (fun (nb : Nat) => (link1.origin_slot : Int) - (nb : Int))))
                acc.1,
               setKey p.2.name true acc.2)
        else Run.ok acc

/-- The loop "Store all node links" over the inputs from the given one on. -/
def storeLinks (host : Host) (nb_flowout : String → Option Nat) (fuel : Nat) (node : GNode) :
    List (Nat × GInput) → List (String × PVal) × List (String × Bool) →
    Run (List (String × PVal) × List (String × Bool))
  | [], acc => Run.ok acc
  | p :: rest, acc =>
    match storeLink host nb_flowout fuel node acc p with
    | Run.ok acc1 => storeLinks host nb_flowout fuel node rest acc1
    | Run.raise => Run.raise
    | Run.timeout => Run.timeout

/-- The loop "Store all widget values" (lines 2142-2150). -/
def storeWidgets (widgets : List GWidget) :
    List (String × PVal) × List (String × Bool) :=
  widgets.foldl (fun acc widget =>
    if widget.serialize then
      (setKey widget.name (PVal.widget widget.value) acc.1, setKey widget.name false acc.2)
    else acc) ([], [])

/-- The entry of the instruction map for a node that is serialized (lines 2137-2204). -/
def nodeInstr (host : Host) (nb_flowout : String → Option Nat) (fuel : Nat) (node : GNode) :
    Run Instr :=
  match storeLinks host nb_flowout fuel node ((node.inputs.getD []).enum)
      (storeWidgets (node.widgets.getD [])) with
  | Run.ok acc =>
    Run.ok { inputs := acc.1, is_input_linked := acc.2, class_type := node.comfyClass }
  | Run.raise => Run.raise
  | Run.timeout => Run.timeout

/-- The loop `for (const node of innerNodes)` (lines 2127-2205). -/
def innerLoop (host : Host) (nb_flowout : String → Option Nat) (fuel : Nat) :
    List GNode → Output → Run Output
  | [], output => Run.ok output
  | node :: rest, output =>
    if node.isVirtualNode = true then innerLoop host nb_flowout fuel rest output
    else if node.mode = 2 ∨ node.mode = 4 then innerLoop host nb_flowout fuel rest output
    else
      match nodeInstr host nb_flowout fuel node with
      | Run.ok instr => innerLoop host nb_flowout fuel rest (setKey node.id.key instr output)
      | Run.raise => Run.raise
      | Run.timeout => Run.timeout

/-- The variable `innerNodes` of line 2126. -/
def innerNodesOf (host : Host) (outerNode : GNode) : List GNode :=
  let skipNode := outerNode.mode = 2 ∨ outerNode.mode = 4
  match host.getInnerNodes outerNode with
  | some inner => if ¬ skipNode then inner else [outerNode]
  | none => [outerNode]

/-- The loop "Process nodes in order of execution" (lines 2124-2206). -/
def outerLoop (host : Host) (nb_flowout : String → Option Nat) (fuel : Nat) :
    List GNode → Output → Run Output
  | [], output => Run.ok output
  | outerNode :: rest, output =>
    match innerLoop host nb_flowout fuel (innerNodesOf host outerNode) output with
    | Run.ok output1 => outerLoop host nb_flowout fuel rest output1
    | Run.raise => Run.raise
    | Run.timeout => Run.timeout

/-- The property names of `Object.prototype`.  `output` is made by the literal `{}`, so a read
`output[k]` of a name that is no key of `output` itself gives the property of `Object.prototype`
of that name when `k` is one of these (a function, or the prototype object itself, all truthy),
and `undefined` otherwise. -/
def objectPrototypeKeys : List String :=
  ["constructor", "__defineGetter__", "__defineSetter__", "hasOwnProperty", "__lookupGetter__",
    "__lookupSetter__", "isPrototypeOf", "propertyIsEnumerable", "toString", "valueOf",
    "__proto__", "toLocaleString"]

/-- The test `!output[k]` of line 2214: the values of the keys of `output` are instruction
objects, so the read is falsy exactly when `k` is neither a key of `output` nor a property name
of `Object.prototype`. -/
def readsFalsy (output : Output) (k : String) : Bool :=
  (getKey k output).isNone && ! decide (k ∈ objectPrototypeKeys)

/-- The test of lines 2212-2214 on an input value: a two-element array for whose first element
the read `output[first]` is falsy. -/
def isDangling (output : Output) : PVal → Bool
  | PVal.widget (WVal.pair first _) => readsFalsy output first
  | PVal.widget (WVal.other _) => false
  | PVal.link origin _ => readsFalsy output origin

/-- The loop "Remove inputs connected to removed nodes" (lines 2210-2218). -/
def removeDangling (output : Output) : Output :=
  output.map (fun o =>
    (o.1, { o.2 with inputs := o.2.inputs.filter (fun i => ! isDangling output i.2) }))

/-- The table `nb_flowout` (lines 2118-2122): per key `node.id` of the serialized workflow the
number of FLOW outputs; `none` when `node.outputs` of some node is `undefined`. -/
def nbFlowout (nodes : List Node) : Option (String → Option Nat) :=
  if nodes.all (fun node => node.outputs.isSome) then
    some (fun key =>
      if key ∈ nodes.map (fun node => toString node.id) then
        some ((nodes.filter (fun node => toString node.id = key)).foldl
          (fun n node => n + ((node.outputs.getD []).filter (fun o => o.type = "FLOW")).length) 0)
      else none)
  else none

/-- The method `graphToPrompt`: `order` is `this.graph.computeExecutionOrder(false)` and
`_workflow` is `this.graph.serialize()`, both after the virtual nodes were applied to the
graph (lines 2103-2113). -/
def graphToPrompt (host : Host) (order : List GNode) (_workflow : Doc) (fuel : Nat) :
    Run (Doc × Output × Flows) :=
  match nbFlowout _workflow.nodes with
  | none => Run.raise
  | some nb_flowout =>
    match outerLoop host nb_flowout fuel order [] with
    | Run.raise => Run.raise
    | Run.timeout => Run.timeout
    | Run.ok output =>
      match workflowToCworkflow _workflow with
      | none => Run.raise
      | some cw_flow => Run.ok (cw_flow.1, removeDangling output, cw_flow.2)

/-- The nodes that the loops of lines 2124-2127 visit, in order: the nodes of the execution
order, with the inner nodes in the place of an enabled group node. -/
def processed (host : Host) (order : List GNode) : List GNode :=
  order.flatMap (innerNodesOf host)

/-- The node `n` is visited when the execution order `order` is serialized: it is a node of
the order that has no method `getInnerNodes` or is MUTED or BYPASSED, or it is one of the nodes
that `getInnerNodes` gives for a node of the order that is neither MUTED nor BYPASSED. -/
def Visited (host : Host) (order : List GNode) (n : GNode) : Prop :=
  ∃ o ∈ order,
    (n = o ∧ (host.getInnerNodes o = none ∨ o.mode = 2 ∨ o.mode = 4)) ∨
    (o.mode ≠ 2 ∧ o.mode ≠ 4 ∧ ∃ inner, host.getInnerNodes o = some inner ∧ n ∈ inner)

/-- The node is serialized: it is not virtual, not MUTED (mode 2) and not BYPASSED (mode 4). -/
def Emitted (n : GNode) : Prop :=
  n.isVirtualNode = false ∧ n.mode ≠ 2 ∧ n.mode ≠ 4

instance (n : GNode) : Decidable (Emitted n) := by
  unfold Emitted; infer_instance

/-- The keys of an object given by its entries. -/
def keysOf {β : Type} (obj : List (String × β)) : List String := obj.map Prod.fst

/-- The input value is a two-element array, and `first` is the property key of its first
element. -/
def PVal.first? : PVal → Option String
  | PVal.widget (WVal.pair first _) => some first
  | PVal.widget (WVal.other _) => none
  | PVal.link origin _ => some origin

/-- Modelled from the spec: the methods `getInputNode` and `getInputLink` of the node class of
the canvas library (`web/lib/litegraph.core.js`).  The graph is given by its nodes
and, per node id and input index, the link of that input: `getInputLink` is the link of the
input, `getInputNode` is the node of the graph whose id is the `origin_id` of that link.  No
node of such a graph is a group node. -/
def graphHost (nodes : List GNode) (links : List (JId × Nat × GLink)) : Host :=
  { getInputLink := fun n slot =>
      (links.find? (fun e => e.1 = n.id ∧ e.2.1 = slot)).map (fun e => e.2.2)
    getInputNode := fun n slot =>
      ((links.find? (fun e => e.1 = n.id ∧ e.2.1 = slot)).map (fun e => e.2.2)).bind
        (fun l => nodes.find? (fun m => m.id = l.origin_id))
    getInnerNodes := fun _ => none
    updateLink := fun _ => none }

/-- The input `c` is the first input of the type `type` in candidate order: it has the type,
and it is the input at the index `origin_slot`, or else the input at `origin_slot` is missing or
of another type and no input of a lower index than `c` has the type. -/
def FirstTyped (type : String) (inputs : List GInput) (origin_slot c : Nat) : Prop :=
  (inputs[c]?).map GInput.type = some type ∧
  (c = origin_slot ∨
    ((inputs[origin_slot]?).map GInput.type ≠ some type ∧
      ∀ j, j < c → (inputs[j]?).map GInput.type ≠ some type))

instance (type : String) (inputs : List GInput) (origin_slot c : Nat) :
    Decidable (FirstTyped type inputs origin_slot c) := by
  unfold FirstTyped; infer_instance

/-- From the state `(B, l)` the resolution passes `n` BYPASSED nodes and reaches the
state `(P, lP)`: each node on the way is BYPASSED and not virtual, and its first input of the
type `type` in candidate order (the index `origin_slot` of the link followed, then all
indices in order) carries the link to the next node. -/
inductive BypassChain (host : Host) (type : String) :
    Nat → GNode → GLink → GNode → GLink → Prop where
  | here (P : GNode) (lP : GLink) : BypassChain host type 0 P lP P lP
  | step (n : Nat) (B : GNode) (l : GLink) (inputs : List GInput) (c : Nat) (l1 : GLink)
      (B1 P : GNode) (lP : GLink) :
      B.mode = 4 → B.isVirtualNode = false → B.inputs = some inputs →
      FirstTyped type inputs l.origin_slot c →
      host.getInputLink B c = some l1 → host.getInputNode B c = some B1 →
      BypassChain host type n B1 l1 P lP → BypassChain host type (n + 1) B l P lP

/-- The state of the resolution loop after `k` rounds that all go on; `none` when one of them
leaves the loop or raises. -/
def walkIter (host : Host) (type : String) : Nat → Walk → Option Walk
  | 0, w => some w
  | k + 1, w =>
    match walkStep host type w with
    | Step.next w1 => walkIter host type k w1
    | _ => none

/-! ### Live graphs used in the statements on graphToPrompt -/

/-- A live node without widgets: id, mode and inputs. -/
def liveNode (id : Nat) (mode : Nat) (inputs : List GInput) : GNode :=
  { id := JId.num id, mode := mode, isVirtualNode := false, comfyClass := some "Op",
    inputs := some inputs, widgets := none }

/-- A link object of a live graph with numeric node ids. -/
def liveLink (origin_id origin_slot target_id target_slot : Nat) : GLink :=
  { origin_id := JId.num origin_id, origin_slot := origin_slot,
    target_id := JId.num target_id, target_slot := target_slot }

/-- The live nodes of the graph `runtimeLinear3` (A -> B -> C, FLOW slots first), the node B
in the given mode. -/
def liveLinear3 (modeB : Nat) : List GNode :=
  [ liveNode 1 0 [{ name := "FROM", type := "FLOW" }],
    liveNode 2 modeB [{ name := "FROM", type := "FLOW" }, { name := "in", type := "IMAGE" }],
    liveNode 3 0 [{ name := "FROM", type := "FLOW" }, { name := "in", type := "IMAGE" }] ]

/-- The links of the inputs of `liveLinear3`. -/
def liveLinear3Links : List (JId × Nat × GLink) :=
  [ (JId.num 2, 0, liveLink 1 0 2 0), (JId.num 2, 1, liveLink 1 1 2 1),
    (JId.num 3, 0, liveLink 2 0 3 0), (JId.num 3, 1, liveLink 2 1 3 1) ]

/-- A serialized workflow of three nodes without links. -/
def plainWorkflow : Doc :=
  { nodes :=
      [ { id := 1, type := "X", inputs := some [imageIn "in" none],
          outputs := some [imageOut "out" []], flow_inputs := none, flow_outputs := none },
        { id := 2, type := "Y", inputs := some [imageIn "in" none],
          outputs := some [imageOut "out" []], flow_inputs := none, flow_outputs := none },
        { id := 3, type := "C", inputs := some [imageIn "in" none], outputs := some [],
          flow_inputs := none, flow_outputs := none } ]
    links := some []
    flow_links := none
    last_link_id := 3
    support_flow_control := none }

/-- Two BYPASSED nodes X (id 1) and Y (id 2) whose IMAGE inputs are linked to each other, and
a node C (id 3) whose IMAGE input is linked to X. -/
def bypassCycle : List GNode :=
  [ liveNode 1 4 [{ name := "in", type := "IMAGE" }],
    liveNode 2 4 [{ name := "in", type := "IMAGE" }],
    liveNode 3 0 [{ name := "in", type := "IMAGE" }] ]

/-- The links of the inputs of `bypassCycle`: Y -> X, X -> Y and X -> C. -/
def bypassCycleLinks : List (JId × Nat × GLink) :=
  [ (JId.num 1, 0, liveLink 2 0 1 0), (JId.num 2, 0, liveLink 1 0 2 0),
    (JId.num 3, 0, liveLink 1 0 3 0) ]

/-- A BYPASSED node B (id 2) and a node C (id 3) whose IMAGE input is linked to B; the link on
the IMAGE input of B names the origin 99, which is no node of the graph. -/
def danglingBypass : List GNode :=
  [ liveNode 2 4 [{ name := "in", type := "IMAGE" }],
    liveNode 3 0 [{ name := "in", type := "IMAGE" }] ]

/-- The links of the inputs of `danglingBypass`. -/
def danglingBypassLinks : List (JId × Nat × GLink) :=
  [ (JId.num 2, 0, liveLink 99 0 2 0), (JId.num 3, 0, liveLink 2 0 3 0) ]

/-- The graph `danglingBypass` with a virtual node in the place of the BYPASSED node. -/
def danglingVirtual : List GNode :=
  [ { liveNode 2 0 [{ name := "in", type := "IMAGE" }] with isVirtualNode := true },
    liveNode 3 0 [{ name := "in", type := "IMAGE" }] ]

/-- The nodes A (id 1), M (id 4), the BYPASSED node B (id 2) and C (id 3), FLOW slots first.
B has the inputs `mask` (MASK, index 1) and `image` (IMAGE, index 2). -/
def bypassTyped : List GNode :=
  [ liveNode 1 0 [{ name := "FROM", type := "FLOW" }],
    liveNode 4 0 [{ name := "FROM", type := "FLOW" }],
    liveNode 2 4 [{ name := "FROM", type := "FLOW" }, { name := "mask", type := "MASK" },
      { name := "image", type := "IMAGE" }],
    liveNode 3 0 [{ name := "FROM", type := "FLOW" }, { name := "in", type := "IMAGE" }] ]

/-- The links of the inputs of `bypassTyped`: M -> B.mask, A -> B.image, and output 1 of B
-> C.in. -/
def bypassTypedLinks : List (JId × Nat × GLink) :=
  [ (JId.num 2, 1, liveLink 4 1 2 1), (JId.num 2, 2, liveLink 1 1 2 2),
    (JId.num 3, 1, liveLink 2 1 3 1) ]

/-- The graph `bypassTyped` as the canvas library serializes it; no FLOW slot is linked. -/
def bypassTypedWorkflow : Doc :=
  { nodes :=
      [ { id := 1, type := "A", inputs := some [flowSlotIn none],
          outputs := some [flowSlotOut JLinks.null,
            { imageOut "out" [1] with slot_index := some 1 }],
          flow_inputs := none, flow_outputs := none },
        { id := 4, type := "M", inputs := some [flowSlotIn none],
          outputs := some [flowSlotOut JLinks.null,
            { imageOut "out" [2] with type := "MASK", slot_index := some 1 }],
          flow_inputs := none, flow_outputs := none },
        { id := 2, type := "B",
          inputs := some [flowSlotIn none, { imageIn "mask" (some 2) with type := "MASK" },
            imageIn "image" (some 1)],
          outputs := some [flowSlotOut JLinks.null,
            { imageOut "out" [3] with slot_index := some 1 }],
          flow_inputs := none, flow_outputs := none },
        { id := 3, type := "C", inputs := some [flowSlotIn none, imageIn "in" (some 3)],
          outputs := some [flowSlotOut JLinks.null],
          flow_inputs := none, flow_outputs := none } ]
    links := some
      [ { id := 1, origin_id := 1, origin_slot := 1, target_id := 2, target_slot := 2,
          type := some "IMAGE" },
        { id := 2, origin_id := 4, origin_slot := 1, target_id := 2, target_slot := 1,
          type := some "MASK" },
        { id := 3, origin_id := 2, origin_slot := 1, target_id := 3, target_slot := 1,
          type := some "IMAGE" } ]
    flow_links := none
    last_link_id := 3
    support_flow_control := none }

/-- The live nodes A (id 1) and C (id 2), FLOW slots first: the input `any` of C has the
wildcard type `*`. -/
def flowToAny : List GNode :=
  [ liveNode 1 0 [{ name := "FROM", type := "FLOW" }],
    liveNode 2 0 [{ name := "FROM", type := "FLOW" }, { name := "any", type := "*" }] ]

/-- The links of the inputs of `flowToAny`: the FLOW output of A (slot 0) feeds the input
`any` of C. -/
def flowToAnyLinks : List (JId × Nat × GLink) :=
  [ (JId.num 2, 1, liveLink 1 0 2 1) ]

/-- The graph `flowToAny` as the canvas library serializes it: A has the FLOW output `TO` and
the IMAGE output `out`. -/
def flowToAnyWorkflow : Doc :=
  { nodes :=
      [ { id := 1, type := "A", inputs := some [flowSlotIn none],
          outputs := some [flowSlotOut (JLinks.arr [1]),
            { imageOut "out" [] with slot_index := some 1 }],
          flow_inputs := none, flow_outputs := none },
        { id := 2, type := "C",
          inputs := some [flowSlotIn none,
            { name := "any", type := "*", link := some 1, shape := none }],
          outputs := some [flowSlotOut JLinks.null],
          flow_inputs := none, flow_outputs := none } ]
    links := some
      [ { id := 1, origin_id := 1, origin_slot := 0, target_id := 2, target_slot := 1,
          type := some "*" } ]
    flow_links := none
    last_link_id := 1
    support_flow_control := none }

/-- A node with a string id, as `getInnerNodes` of a group node gives them. -/
def innerNode (id : String) (mode : Nat) : GNode :=
  { id := JId.str id, mode := mode, isVirtualNode := false, comfyClass := some "X",
    inputs := some [{ name := "FROM", type := "FLOW" }], widgets := none }

/-- An execution order of three nodes: the node 7, the group node 5 (enabled) and the group
node 6 (BYPASSED). -/
def groupOrder : List GNode :=
  [ liveNode 7 0 [{ name := "FROM", type := "FLOW" }],
    liveNode 5 0 [{ name := "FROM", type := "FLOW" }],
    liveNode 6 4 [{ name := "FROM", type := "FLOW" }] ]

/-- A host for `groupOrder`, no input linked: `getInnerNodes` of the node 5 gives the nodes
`5:0` and `5:1`, the second one MUTED, and `getInnerNodes` of the node 6 gives the node `6:0`;
the node 7 has no such method. -/
def expandingHost : Host :=
  { getInputLink := fun _ _ => none
    getInputNode := fun _ _ => none
    getInnerNodes := fun n =>
      if n.id = JId.num 5 then some [innerNode "5:0" 0, innerNode "5:1" 2]
      else if n.id = JId.num 6 then some [innerNode "6:0" 0]
      else none
    updateLink := fun _ => none }

/-- The graph of `groupOrder` as the canvas library serializes it. -/
def groupOrderWorkflow : Doc :=
  { nodes :=
      [ { id := 7, type := "Op", inputs := some [flowSlotIn none],
          outputs := some [flowSlotOut JLinks.null],
          flow_inputs := none, flow_outputs := none },
        { id := 5, type := "workflow/g", inputs := some [flowSlotIn none],
          outputs := some [flowSlotOut JLinks.null],
          flow_inputs := none, flow_outputs := none },
        { id := 6, type := "workflow/h", inputs := some [flowSlotIn none],
          outputs := some [flowSlotOut JLinks.null],
          flow_inputs := none, flow_outputs := none } ]
    links := some []
    flow_links := none
    last_link_id := 0
    support_flow_control := none }

/-- The graph of the single node 1 with two serialized widgets: `w` with the value
`["constructor", 7]` and `v` with the value `["x", 1]`. -/
def protoWidgets : List GNode :=
  [ { id := JId.num 1, mode := 0, isVirtualNode := false, comfyClass := some "Op",
      inputs := some [{ name := "FROM", type := "FLOW" }],
      widgets := some
        [ { name := "w", value := WVal.pair "constructor" "7", serialize := true },
          { name := "v", value := WVal.pair "x" "1", serialize := true } ] } ]

/-- The graph of the single node 1 as the canvas library serializes it. -/
def soloWorkflow : Doc :=
  { nodes :=
      [ { id := 1, type := "Op", inputs := some [flowSlotIn none],
          outputs := some [flowSlotOut JLinks.null],
          flow_inputs := none, flow_outputs := none } ]
    links := some []
    flow_links := none
    last_link_id := 0
    support_flow_control := none }

/-! ## buildNodeDef (web/extensions/core/groupNode.js)

The function builds, from the data of a group (`config`: the inner nodes and the links copied
with them) and the registry of node definitions (`defs`, the value of the read `defs[type]`
when it is truthy), the definition of the group node and the slot maps.  `getWidgetType` is imported from `web/scripts/widgets.js` and is a parameter
here; `widgetTypeOf` follows the method of the same name in `app.js`.  JSON values
that the function only passes on are kept as text. -/

/-- An input definition `[type, options]` of the registry: `combo` says that `type` is an
array (a list of choices, kept as text). -/
structure InputDef where
  type : String
  combo : Bool
  options : Option (List (String × String))
deriving DecidableEq, Repr

/-- A node definition of the registry, as far as `buildNodeDef` reads it.  `input` absent is
`input_required = none` and `input_optional = none`. -/
structure NodeDef where
  input_required : Option (List (String × InputDef))
  input_optional : Option (List (String × InputDef))
  output : Option (List String)
  output_name : Option (List String)
  output_is_list : Option (List Bool)
deriving DecidableEq, Repr

/-- An inner node of a group: its type and the types of its input and output slots. -/
structure CfgNode where
  type : String
  inputs : Option (List String)
  outputs : Option (List String)
deriving DecidableEq, Repr

/-- A link of a group `[outputNodeId, outputNodeSlot, inputNodeId, inputNodeSlot, ..]`; the
node ids are indices into `config.nodes`, and `outputNodeId` is `null` for a link that comes
from outside of the group. -/
structure CfgLink where
  outputNodeId : Option Nat
  outputNodeSlot : Nat
  inputNodeId : Nat
  inputNodeSlot : Nat
deriving DecidableEq, Repr

/-- The data of a group. -/
structure Config where
  nodes : List CfgNode
  links : List CfgLink
deriving DecidableEq, Repr

/-- The result of `getLinks`: the entries `linksFrom[node][slot] = l` and
`linksTo[node][slot] = l` in the order of their assignment (a later one replaces an earlier
one with the same keys). -/
structure GroupLinks where
  linksFrom : List (Nat × Nat × CfgLink)
  linksTo : List (Nat × Nat × CfgLink)
deriving DecidableEq, Repr

/-- The function `getLinks` (lines 8-30). -/
def getLinks (config : Config) : GroupLinks :=
  config.links.foldl (fun acc l =>
    match l.outputNodeId with
    | none => acc
    | some outputNodeId =>
      { linksFrom := acc.linksFrom ++ [(outputNodeId, l.outputNodeSlot, l)]
        linksTo := acc.linksTo ++ [(l.inputNodeId, l.inputNodeSlot, l)] })
    { linksFrom := [], linksTo := [] }

/-- The test `if (table[node])` on `linksFrom` or `linksTo`. -/
def tableHas (table : List (Nat × Nat × CfgLink)) (node : Nat) : Bool :=
  table.any (fun e => e.1 = node)

/-- The read `table[node]?.[slot]` on `linksFrom` or `linksTo`. -/
def tableGet (table : List (Nat × Nat × CfgLink)) (node slot : Nat) : Option CfgLink :=
  (table.reverse.find? (fun e => e.1 = node ∧ e.2.1 = slot)).map (fun e => e.2.2)

/-- What lines 69-108 find for an inner node: a definition, nothing (`continue`), or a
`TypeError`. -/
inductive DefRes where
  | use (d : NodeDef) : DefRes
  | skip : DefRes
  | raise : DefRes
deriving DecidableEq, Repr

/-- The definition made for a Reroute node at the border of the group (lines 92-101). -/
def rerouteDef (rerouteType : String) : NodeDef :=
  { input_required := some [(rerouteType, { type := rerouteType, combo := false, options := some [] })]
    input_optional := none
    output := some [rerouteType]
    output_name := some []
    output_is_list := some [] }

/-- The variable `def` of the round for the inner node `nodeId` (lines 69-108). -/
def resolveDef (config : Config) (defs : String → Option NodeDef) (links : GroupLinks)
    (nodeId : Nat) (node : CfgNode) : DefRes :=
  match defs node.type with
  | some d => DefRes.use d
  | none =>
    if node.type = "Reroute" then
      if tableHas links.linksTo nodeId ∧ tableHas links.linksFrom nodeId then DefRes.skip
      else if tableHas links.linksFrom nodeId then
        match tableGet links.linksFrom nodeId 0 with
        | none => DefRes.raise
        | some l =>
          match (config.nodes[l.inputNodeId]?).bind (fun n => n.inputs) with
          | none => DefRes.raise
          | some inputs =>
            match inputs[l.inputNodeSlot]? with
            | none => DefRes.raise
            | some rerouteType => DefRes.use (rerouteDef rerouteType)
      else
        match tableGet links.linksTo nodeId 0 with
        | none => DefRes.raise
        | some l =>
          match l.outputNodeId.bind (fun id => (config.nodes[id]?).bind (fun n => n.outputs)) with
          | none => DefRes.raise
          | some outputs =>
            match outputs[l.outputNodeSlot]? with
            | none => DefRes.raise
            | some rerouteType => DefRes.use (rerouteDef rerouteType)
    else DefRes.skip

/-- The number that a text of decimal digits stands for. -/
def digitsValue (cs : List Char) : Nat :=
  cs.foldl (fun n c => 10 * n + (c.toNat - 48)) 0

/-- The property key is an array index, the canonical decimal text of a whole number below
`2^32 - 1`; the result is the number. -/
def indexKey (s : String) : Option Nat :=
  if s.data.all Char.isDigit = true ∧ toString (digitsValue s.data) = s ∧
      digitsValue s.data < 4294967295 then
    some (digitsValue s.data)
  else none

/-- The order in which JavaScript lists the keys of an object (`Object.keys`, `for in`,
spread), for an object given by its entries in the order of their insertion: the keys that are
array indices come first, in ascending order of their numbers, then the other keys in the order
of their insertion. -/
def keyOrder {β : Type} (obj : List (String × β)) : List (String × β) :=
  (obj.filter (fun e => (indexKey e.1).isSome)).insertionSort
      (fun a b => (indexKey a.1).getD 0 ≤ (indexKey b.1).getD 0)
    ++ obj.filter (fun e => (indexKey e.1).isNone)

/-- The object `{ ...def.input?.required, ...def.input?.optional }` (line 110), its entries in
the order of their insertion: a key of `optional` that `required` has too replaces the value
and keeps the place. -/
def mergedObject (d : NodeDef) : List (String × InputDef) :=
  (d.input_optional.getD []).foldl (fun o e => setKey e.1 e.2 o)
    ((d.input_required.getD []).foldl (fun o e => setKey e.1 e.2 o) [])

/-- The entries of the object `inputs` (line 110) in the order of `Object.keys(inputs)`
(line 113), in which the loop "Add inputs / widgets" runs. -/
def mergedInputs (d : NodeDef) : List (String × InputDef) :=
  keyOrder (mergedObject d)

/-- The input definition stored in the new definition (lines 140-144): for `seed` and
`noise_seed` a copy with `control_after_generate: true` put in front of the options. -/
def storedInputDef (inputName : String) (inputDef : InputDef) : InputDef :=
  if inputName = "seed" ∨ inputName = "noise_seed" then
    { inputDef with
      options := some ((inputDef.options.getD []).foldl (fun o e => setKey e.1 e.2 o)
        [("control_after_generate", "true")]) }
  else inputDef

/-- The variables that `buildNodeDef` fills: `inputCount`, the three maps of `slots` (their
entries in the order of assignment; no pair of keys is assigned twice), and the lists and the
object `input.required` of `newDef`. -/
structure Build where
  inputCount : Nat
  slotInputs : List (Nat × Nat × Nat)
  slotWidgets : List (Nat × String × String)
  slotOutputs : List (Nat × Nat × Nat)
  output : List String
  output_name : List String
  output_is_list : List (Option Bool)
  required : List (String × InputDef)
deriving DecidableEq, Repr

/-- One round of the loop "Add inputs / widgets" (lines 115-146); the second component is
`linkInputId`. -/
def addInput (getWidgetType : InputDef → String → Option String) (links : GroupLinks)
    (nodeId : Nat) (st : Build × Nat) (e : String × InputDef) : Build × Nat :=
  let name := toString nodeId ++ ":" ++ e.1
  match getWidgetType e.2 e.1 with
  | some _ =>
    ({ st.1 with
        slotWidgets := st.1.slotWidgets ++ [(nodeId, e.1, name)]
        required := setKey name (storedInputDef e.1 e.2) st.1.required }, st.2)
  | none =>
    if (tableGet links.linksTo nodeId st.2).isSome then (st.1, st.2 + 1)
    else
      ({ st.1 with
          slotInputs := st.1.slotInputs ++ [(nodeId, st.2, st.1.inputCount)]
          inputCount := st.1.inputCount + 1
          required := setKey name (storedInputDef e.1 e.2) st.1.required }, st.2 + 1)

/-- One round of the loop "Add outputs" (lines 149-165) for the output `p.1` of type `p.2`;
`none` when `def.output_is_list` is `undefined`. -/
def addOutput (links : GroupLinks) (nodeId : Nat) (d : NodeDef) (b : Build)
    (p : Nat × String) : Option Build :=
  if (tableGet links.linksFrom nodeId p.1).isSome then some b
  else
    match d.output_is_list with
    | none => none
    | some is_list =>
      some { b with
        slotOutputs := b.slotOutputs ++ [(b.output.length, nodeId, p.1)]
        output := b.output ++ [p.2]
        output_is_list := b.output_is_list ++ [is_list[p.1]?]
        output_name := b.output_name ++
          [toString nodeId ++ ":" ++ ((d.output_name.bind (fun ns => ns[p.1]?)).getD p.2)] }

/-- One round of the loop over `config.nodes` (lines 66-166). -/
def addNode (getWidgetType : InputDef → String → Option String) (config : Config)
    (defs : String → Option NodeDef) (links : GroupLinks) (b : Build)
    (p : Nat × CfgNode) : Option Build :=
  match resolveDef config defs links p.1 p.2 with
  | DefRes.raise => none
  | DefRes.skip => some b
  | DefRes.use d =>
    let b1 := ((mergedInputs d).foldl (addInput getWidgetType links p.1) (b, 0)).1
    match d.output with
    | none => none
    | some output => output.enum.foldlM (addOutput links p.1 d) b1

/-- The definition and the slot maps that `buildNodeDef` returns. -/
structure GroupDef where
  name : String
  display_name : String
  category : String
  output : List String
  output_name : List String
  output_is_list : List (Option Bool)
  input_required : List (String × InputDef)
  slotInputs : List (Nat × Nat × Nat)
  slotWidgets : List (Nat × String × String)
  slotOutputs : List (Nat × Nat × Nat)
deriving DecidableEq, Repr

/-- The function `buildNodeDef` (lines 37-169); `none` for a `TypeError`. -/
def buildNodeDef (getWidgetType : InputDef → String → Option String) (config : Config)
    (nodeName : String) (defs : String → Option NodeDef) (workflow : Bool) : Option GroupDef :=
  let links := getLinks config
  (config.nodes.enum.foldlM (addNode getWidgetType config defs links)
    { inputCount := 0, slotInputs := [], slotWidgets := [], slotOutputs := [], output := [],
      output_name := [], output_is_list := [], required := [] }).map (fun b =>
    { name := nodeName
      display_name := nodeName
      category := "group nodes" ++ (if workflow then "/workflow" else "")
      output := b.output
      output_name := b.output_name
      output_is_list := b.output_is_list
      input_required := b.required
      slotInputs := b.slotInputs
      slotWidgets := b.slotWidgets
      slotOutputs := b.slotOutputs })

/-- The method `getWidgetType` of `app.js` (lines 1387-1399) for the table `widgets` of known
widget types, given by its keys. -/
def widgetTypeOf (widgets : List String) (inputData : InputDef) (inputName : String) :
    Option String :=
  if inputData.combo then some "COMBO"
  else if (inputData.type ++ ":" ++ inputName) ∈ widgets then
    some (inputData.type ++ ":" ++ inputName)
  else if inputData.type ∈ widgets then some inputData.type
  else none


/-! ### The inputs and outputs that a group exposes, as the claims describe them -/

/-- A link of the group reaches the input `slot` of the inner node `nodeId`. -/
def LinkTo (config : Config) (nodeId slot : Nat) : Prop :=
  ∃ l ∈ config.links, l.inputNodeId = nodeId ∧ l.inputNodeSlot = slot

/-- A link of the group that starts at an inner node reaches the input `slot` of the inner
node `nodeId`. -/
def InnerLinkTo (config : Config) (nodeId slot : Nat) : Prop :=
  ∃ l ∈ config.links, l.outputNodeId.isSome = true ∧ l.inputNodeId = nodeId ∧
    l.inputNodeSlot = slot

/-- A link of the group starts at the output `slot` of the inner node `nodeId`. -/
def LinkFrom (config : Config) (nodeId slot : Nat) : Prop :=
  ∃ l ∈ config.links, l.outputNodeId = some nodeId ∧ l.outputNodeSlot = slot

instance (config : Config) (nodeId slot : Nat) : Decidable (LinkTo config nodeId slot) := by
  unfold LinkTo; infer_instance

instance (config : Config) (nodeId slot : Nat) : Decidable (InnerLinkTo config nodeId slot) := by
  unfold InnerLinkTo; infer_instance

instance (config : Config) (nodeId slot : Nat) : Decidable (LinkFrom config nodeId slot) := by
  unfold LinkFrom; infer_instance

/-- The value of the last entry with the key `k` among the entries of an object literal. -/
def lastEntry {β : Type} (k : String) : List (String × β) → Option β
  | [] => none
  | e :: rest =>
    match lastEntry k rest with
    | some v => some v
    | none => if e.1 = k then some e.2 else none

/-- The input definition `[type, options]` that a node definition gives for the input name
`nm`: the one under `optional` if there is one, else the one under `required`. -/
def inputDefOf (d : NodeDef) (nm : String) : Option InputDef :=
  match lastEntry nm (d.input_optional.getD []) with
  | some v => some v
  | none => lastEntry nm (d.input_required.getD [])

/-- The input names of a node definition as its text has them: those under `required`, then
those under `optional`. -/
def inputKeys (d : NodeDef) : List String :=
  keysOf (d.input_required.getD []) ++ keysOf (d.input_optional.getD [])

/-- The input name `a` comes before the input name `b` in the definition order of the inputs
of `d`, the order of `Object.keys`: a name that is an array index comes before one that is
not, two array indices come in the order of their numbers, and two other names in the order of
their first occurrence in the definition. -/
def KeyBefore (d : NodeDef) (a b : String) : Prop :=
  match indexKey a, indexKey b with
  | some m, some n => m < n
  | some _, none => True
  | none, some _ => False
  | none, none => (inputKeys d).indexOf a < (inputKeys d).indexOf b

instance (d : NodeDef) (a b : String) : Decidable (KeyBefore d a b) := by
  unfold KeyBefore; split <;> infer_instance

/-- The list `L` is the list of the input names of the definition `d` in definition order. -/
def InputOrder (d : NodeDef) (L : List String) : Prop :=
  (∀ nm, nm ∈ L ↔ (inputDefOf d nm).isSome = true) ∧ L.Pairwise (KeyBefore d)

/-- The input `nm` of the definition `d` is no widget: `getWidgetType` gives nothing for its
input definition. -/
def IsLinkInput (getWidgetType : InputDef → String → Option String) (d : NodeDef)
    (nm : String) : Bool :=
  match inputDefOf d nm with
  | some v => (getWidgetType v nm).isNone
  | none => false

/-- The input `nm` is the non-widget input number `k` of the definition `d`: the non-widget
inputs are numbered from 0 in definition order. -/
def LinkInput (getWidgetType : InputDef → String → Option String) (d : NodeDef) (k : Nat)
    (nm : String) : Prop :=
  ∃ L, InputOrder d L ∧ (L.filter (IsLinkInput getWidgetType d))[k]? = some nm

/-- The link `l` is the last link of the group that starts at the output `slot` of the inner
node `i`. -/
def LastLinkFrom (config : Config) (i slot : Nat) (l : CfgLink) : Prop :=
  ∃ pre post, config.links = pre ++ l :: post ∧
    (l.outputNodeId = some i ∧ l.outputNodeSlot = slot) ∧
    ∀ l1 ∈ post, ¬ (l1.outputNodeId = some i ∧ l1.outputNodeSlot = slot)

/-- The link `l` is the last link of the group that starts at an inner node and reaches the
input `slot` of the inner node `i`. -/
def LastInnerLinkTo (config : Config) (i slot : Nat) (l : CfgLink) : Prop :=
  ∃ pre post, config.links = pre ++ l :: post ∧
    (l.outputNodeId.isSome = true ∧ l.inputNodeId = i ∧ l.inputNodeSlot = slot) ∧
    ∀ l1 ∈ post, ¬ (l1.outputNodeId.isSome = true ∧ l1.inputNodeId = i ∧ l1.inputNodeSlot = slot)

/-- The type `T` that a Reroute node `i` at the border of the group passes on.  When links of
the group start at the node (and none from an inner node reaches it), it is the type of the
input that the last link from its output 0 reaches; when no link of the group starts at the
node, it is the type of the output at which the last link from an inner node to its input 0
starts. -/
def BorderType (config : Config) (i : Nat) (T : String) : Prop :=
  ((∃ l ∈ config.links, l.outputNodeId = some i) ∧
    ¬ (∃ l ∈ config.links, l.outputNodeId.isSome = true ∧ l.inputNodeId = i) ∧
    ∃ l inputs, LastLinkFrom config i 0 l ∧
      (config.nodes[l.inputNodeId]?).bind (fun n => n.inputs) = some inputs ∧
      inputs[l.inputNodeSlot]? = some T) ∨
  (¬ (∃ l ∈ config.links, l.outputNodeId = some i) ∧
    ∃ l id outputs, LastInnerLinkTo config i 0 l ∧ l.outputNodeId = some id ∧
      (config.nodes[id]?).bind (fun n => n.outputs) = some outputs ∧
      outputs[l.outputNodeSlot]? = some T)

/-- The definition `d` is the one that counts for the inner node `i`: the definition of its
type in the registry, or, for a node of the type `Reroute` that the registry does not know and
that is at the border of the group, a definition with one required input and one output, both
of the type that the node passes on and the input named by that type, the output without a
name. -/
def UsedDef (config : Config) (defs : String → Option NodeDef) (i : Nat) (node : CfgNode)
    (d : NodeDef) : Prop :=
  defs node.type = some d ∨
  (defs node.type = none ∧ node.type = "Reroute" ∧ ∃ T, BorderType config i T ∧
    d.input_required = some [(T, { type := T, combo := false, options := some [] })] ∧
    d.input_optional = none ∧ d.output = some [T] ∧ d.output_name = some [] ∧
    d.output_is_list = some [])

/-! ### The lists that the loops of buildNodeDef run over

The lists below are taken from the loops of the code; the theorems compare them with the
description above. -/

/-- The names of the non-widget inputs in the order of the loop "Add inputs / widgets"; the
position in this list is the value of `linkInputId`. -/
def linkInputNames (getWidgetType : InputDef → String → Option String) (d : NodeDef) :
    List String :=
  ((mergedInputs d).filter (fun e => (getWidgetType e.2 e.1).isNone)).map Prod.fst

/-- The definition that `buildNodeDef` works with for an inner node: the one of the registry,
or the one made for a Reroute node at the border of the group. -/
def defOf (config : Config) (defs : String → Option NodeDef) (nodeId : Nat) (node : CfgNode) :
    Option NodeDef :=
  match resolveDef config defs (getLinks config) nodeId node with
  | DefRes.use d => some d
  | _ => none

/-- The name of the output `slot` of type `type` of a definition: its entry in `output_name`,
or the type. -/
def outputNameOf (d : NodeDef) (slot : Nat) (type : String) : String :=
  (d.output_name.bind (fun ns => ns[slot]?)).getD type

/-- For the inner node `p.1`: its non-widget inputs `(inner node, number, name)` that no link
from an inner node reaches, in the order of their numbers. -/
def nodeExposedInputs (getWidgetType : InputDef → String → Option String) (config : Config)
    (defs : String → Option NodeDef) (p : Nat × CfgNode) : List (Nat × Nat × String) :=
  match defOf config defs p.1 p.2 with
  | some d =>
    (((linkInputNames getWidgetType d).enum.filter
      (fun q => ¬ InnerLinkTo config p.1 q.1)).map (fun q => (p.1, q.1, q.2)))
  | none => []

/-- The non-widget inputs `(inner node, number, name)` that no link from an inner node
reaches, in the order of (inner node, number). -/
def exposedInputs (getWidgetType : InputDef → String → Option String) (config : Config)
    (defs : String → Option NodeDef) : List (Nat × Nat × String) :=
  config.nodes.enum.flatMap (nodeExposedInputs getWidgetType config defs)

/-- For the inner node `p.1`: the names in the group of its widget inputs. -/
def nodeWidgetNames (getWidgetType : InputDef → String → Option String) (config : Config)
    (defs : String → Option NodeDef) (p : Nat × CfgNode) : List String :=
  match defOf config defs p.1 p.2 with
  | some d =>
    ((mergedInputs d).filter (fun e => (getWidgetType e.2 e.1).isSome)).map
      (fun e => toString p.1 ++ ":" ++ e.1)
  | none => []

/-- The names in the group of the widget inputs of the inner nodes. -/
def widgetNames (getWidgetType : InputDef → String → Option String) (config : Config)
    (defs : String → Option NodeDef) : List String :=
  config.nodes.enum.flatMap (nodeWidgetNames getWidgetType config defs)

/-- For the inner node `p.1`: its outputs `(inner node, slot, type, name in the group)` at
which no link of the group starts, in the order of the slots. -/
def nodeExposedOutputs (config : Config) (defs : String → Option NodeDef) (p : Nat × CfgNode) :
    List (Nat × Nat × String × String) :=
  match defOf config defs p.1 p.2 with
  | some d =>
    (((d.output.getD []).enum.filter (fun q => ¬ LinkFrom config p.1 q.1)).map
      (fun q => (p.1, q.1, q.2, toString p.1 ++ ":" ++ outputNameOf d q.1 q.2)))
  | none => []

/-- The outputs `(inner node, slot, type, name in the group)` at which no link of the group
starts, in the order of (inner node, slot). -/
def exposedOutputs (config : Config) (defs : String → Option NodeDef) :
    List (Nat × Nat × String × String) :=
  config.nodes.enum.flatMap (nodeExposedOutputs config defs)

/-- A registry with the node types X (an IMAGE input and a FLOAT widget, a LATENT output) and
Y (a LATENT input, an IMAGE output). -/
def sampleDefs : String → Option NodeDef := fun type =>
  if type = "X" then
    some { input_required := some
             [("image", { type := "IMAGE", combo := false, options := none }),
              ("strength", { type := "FLOAT", combo := false, options := some [] })]
           input_optional := none
           output := some ["LATENT"]
           output_name := some ["LATENT"]
           output_is_list := some [false] }
  else if type = "Y" then
    some { input_required := some
             [("samples", { type := "LATENT", combo := false, options := none })]
           input_optional := none
           output := some ["IMAGE"]
           output_name := none
           output_is_list := some [false] }
  else none

/-- The group [X, Y] with the output of X linked to the input of Y, copied while the input of
X was linked to a node outside of the group (the link with origin `null`). -/
def groupXY : Config :=
  { nodes :=
      [ { type := "X", inputs := some ["IMAGE"], outputs := some ["LATENT"] },
        { type := "Y", inputs := some ["LATENT"], outputs := some ["IMAGE"] } ]
    links :=
      [ { outputNodeId := none, outputNodeSlot := 0, inputNodeId := 0, inputNodeSlot := 0 },
        { outputNodeId := some 0, outputNodeSlot := 0, inputNodeId := 1, inputNodeSlot := 0 } ] }

/-- A registry with the node types S (no input, a MASK output) and M: M has the required input
`b` (IMAGE) and the optional input `1` (MASK), whose name is an array index, and an IMAGE
output. -/
def mergeDefs : String → Option NodeDef := fun type =>
  if type = "S" then
    some { input_required := some []
           input_optional := none
           output := some ["MASK"]
           output_name := some ["MASK"]
           output_is_list := some [false] }
  else if type = "M" then
    some { input_required := some [("b", { type := "IMAGE", combo := false, options := none })]
           input_optional := some [("1", { type := "MASK", combo := false, options := none })]
           output := some ["IMAGE"]
           output_name := some ["IMAGE"]
           output_is_list := some [false] }
  else none

/-- The group [S, M] with the output of S linked to the input 0 of M. -/
def groupSM : Config :=
  { nodes :=
      [ { type := "S", inputs := some [], outputs := some ["MASK"] },
        { type := "M", inputs := some ["MASK", "IMAGE"], outputs := some ["IMAGE"] } ]
    links :=
      [ { outputNodeId := some 0, outputNodeSlot := 0, inputNodeId := 1, inputNodeSlot := 0 } ] }

/-- The group of two nodes of the type M of `mergeDefs`, without links. -/
def groupMM : Config :=
  { nodes :=
      [ { type := "M", inputs := some ["MASK", "IMAGE"], outputs := some ["IMAGE"] },
        { type := "M", inputs := some ["MASK", "IMAGE"], outputs := some ["IMAGE"] } ]
    links := [] }

/-- The keys of the table of widget types used in the examples. -/
def sampleWidgets : List String := ["INT", "FLOAT", "STRING", "INT:seed", "INT:noise_seed"]

/-! ## sanitizeNodeName, loadGraphData and showMissingNodesError (web/scripts/app.js) -/

/-- The characters of the class of the regular expression in `sanitizeNodeName` (line 22),
by their code: ampersand 38, less-than 60, greater-than 62, double quote 34, apostrophe 39,
backtick 96, equals sign 61. -/
def nameSpecials : List Char :=
  [Char.ofNat 38, Char.ofNat 60, Char.ofNat 62, Char.ofNat 34, Char.ofNat 39, Char.ofNat 96,
   Char.ofNat 61]

/-- The table `entityMap` of `sanitizeNodeName` (lines 13-21). -/
def entityMap : List (Char × String) :=
  [(Char.ofNat 38, ""), (Char.ofNat 60, ""), (Char.ofNat 62, ""), (Char.ofNat 34, ""),
   (Char.ofNat 39, ""), (Char.ofNat 96, ""), (Char.ofNat 61, "")]

/-- The function `sanitizeNodeName` (lines 12-25) on a string: every match `s` of the
regular expression is replaced by `entityMap[s]` (a value `undefined` would be written as the
text `undefined`), every other character is kept. -/
def sanitizeNodeName (string : String) : String :=
  ⟨string.data.flatMap (fun s =>
    if s ∈ nameSpecials then ((entityMap.lookup s).getD "undefined").data else [s])⟩

/-- An entry of the array `missingNodeTypes`: a type name, as `loadGraphData` pushes it, or an
object `{type, hint, action}` with the text of the hint and of the button, as an extension may
push it in `beforeConfigureGraph`. -/
inductive MissingType where
  | name (t : String) : MissingType
  | info (type : String) (hint : Option String) (action : Option String) : MissingType
deriving DecidableEq, Repr

/-- The text that `showMissingNodesError` takes for the type of an entry (`t.type` or `t`). -/
def MissingType.type : MissingType → String
  | MissingType.name t => t
  | MissingType.info type _ _ => type

/-- The array `Array.from(new Set(missingNodeTypes))` (line 1548), from the entries `seen`
on: a name that occurred before is left out.  Objects are compared by identity; every `info`
entry is taken as an object of its own. -/
def uniqueEntries : List MissingType → List String → List MissingType
  | [], _ => []
  | MissingType.name t :: rest, seen =>
    if t ∈ seen then uniqueEntries rest seen
    else MissingType.name t :: uniqueEntries rest (t :: seen)
  | MissingType.info type hint action :: rest, seen =>
    MissingType.info type hint action :: uniqueEntries rest seen

/-- The children of the list item of an entry (lines 1549-1565): the texts of its elements.
The hint is shown when `t.hint` is truthy, so not when it is the empty text. -/
def itemChildren : MissingType → List String
  | MissingType.name t => [t]
  | MissingType.info type hint action =>
    type :: ((hint.toList.filter (fun h => h ≠ "")) ++ action.toList)

/-- The list items of the dialog of `showMissingNodesError` (lines 1548-1566), with the set
`seenTypes` as second argument: an entry whose type was seen gives `null`, which
`filter(Boolean)` removes. -/
def listItems : List MissingType → List String → List (List String)
  | [], _ => []
  | t :: rest, seenTypes =>
    if t.type ∈ seenTypes then listItems rest seenTypes
    else itemChildren t :: listItems rest (t.type :: seenTypes)

/-- The list of the dialog that `showMissingNodesError` shows. -/
def showMissingNodesError (missingNodeTypes : List MissingType) : List (List String) :=
  listItems (uniqueEntries missingNodeTypes []) []

/-- The three renamings of lines 1993-1995, one after the other. -/
def patchType (type : String) : String :=
  let t1 := if type = "T2IAdapterLoader" then "ControlNetLoader" else type
  let t2 := if t1 = "ConditioningAverage " then "ConditioningAverage" else t1
  if t2 = "SDV_img2vid_Conditioning" then "SVD_img2vid_Conditioning" else t2

/-- The loop over `graphData.nodes` of `loadGraphData` (lines 1992-2003): `registered` is the
test `type in LiteGraph.registered_node_types`; the result is the nodes with their new type
and the array `missingNodeTypes`. -/
def findMissing (registered : String → Bool) :
    List Node → List MissingType → List Node × List MissingType
  | [], missingNodeTypes => ([], missingNodeTypes)
  | n :: rest, missingNodeTypes =>
    let type := patchType n.type
    if registered type then
      let r := findMissing registered rest missingNodeTypes
      ({ n with type := type } :: r.1, r.2)
    else
      let r := findMissing registered rest (missingNodeTypes ++ [MissingType.name type])
      ({ n with type := sanitizeNodeName type } :: r.1, r.2)

/-- What `loadGraphData` leaves behind when it did not abort: the graph given to
`this.graph.configure`, and the dialog of the missing types if one was shown. -/
structure Loaded where
  graph : Doc
  report : Option (List (List String))
deriving DecidableEq, Repr

/-- The method `loadGraphData` (lines 1969-2090) for a document that is given: `pushed` is
what the extensions put into `missingNodeTypes` in `beforeConfigureGraph`, and `configure`
says whether `this.graph.configure`, a method of the canvas library, returns on the graph that
the codec hands to it (`false`: it raises).  The result `none` is the branch "Loading aborted
due to error reloading workflow data", taken when one of the three calls in the `try` raises.
The loop over the live nodes that patches widget values (lines 2050-2084) is taken to
return. -/
def loadGraphData (registered : String → Bool) (configure : Doc → Bool)
    (pushed : List MissingType) (graphData : Doc) : Option Loaded :=
  let r := findMissing registered graphData.nodes pushed
  match (convertOldVersionWorkflow { graphData with nodes := r.1 }).bind cworkflowToWorkflow with
  | none => none
  | some graph =>
    if configure graph = true then
      some { graph := graph
             report := if r.2.length ≠ 0 then some (showMissingNodesError r.2) else none }
    else none

/-- A document stored before flow control: the node 1 of the type X feeds the input `a` of
the node 2, and the nodes 2 and 3, both of the type `type`, feed each other. -/
def cyclePair (type : String) : Doc :=
  { nodes :=
      [ { id := 1, type := "X", inputs := some [], outputs := some [imageOut "out" [1]],
          flow_inputs := none, flow_outputs := none },
        { id := 2, type := type, inputs := some [imageIn "a" (some 1), imageIn "b" (some 3)],
          outputs := some [imageOut "out" [2]], flow_inputs := none, flow_outputs := none },
        { id := 3, type := type, inputs := some [imageIn "in" (some 2)],
          outputs := some [imageOut "out" [3]], flow_inputs := none, flow_outputs := none } ]
    links := some
      [ { id := 1, origin_id := 1, origin_slot := 0, target_id := 2, target_slot := 0,
          type := some "IMAGE" },
        { id := 2, origin_id := 2, origin_slot := 0, target_id := 3, target_slot := 0,
          type := some "IMAGE" },
        { id := 3, origin_id := 3, origin_slot := 0, target_id := 2, target_slot := 1,
          type := some "IMAGE" } ]
    flow_links := none
    last_link_id := 3
    support_flow_control := none }

/-! ## queuePrompt (web/scripts/app.js)

The method is asynchronous: it runs up to its first `await` when it is called, and goes on
when the awaited call has settled; calls of `queuePrompt` that arrive in between run in
between.  The embedding is a transition system on the fields `#queueItems` and
`#processingQueue`, the position of the call that processes the queue, and the list of the
submissions made so far. -/

/-- An entry `{number, batchCount}` of `#queueItems`. -/
structure QueueItem where
  number : Int
  batchCount : Nat
deriving DecidableEq, Repr

/-- The state: `current` is the entry taken from the queue and the counter `i` of the loop of
line 2292 while the submission `api.queuePrompt(number, p)` is awaited; `submitted` lists the
argument `number` of the calls of `api.queuePrompt`, in the order of the calls. -/
structure QueueState where
  queueItems : List QueueItem
  processingQueue : Bool
  current : Option (QueueItem × Nat)
  submitted : List Int
deriving DecidableEq, Repr

/-- What happens: a call of `queuePrompt`, or the engine settles the submission that is
awaited (`ok = false`: the call raises and the loop of the batch is left with `break`).
`graphToPrompt` and the calls after the submission are taken to return. -/
inductive QueueEvent where
  | request (item : QueueItem) : QueueEvent
  | settle (ok : Bool) : QueueEvent
deriving DecidableEq, Repr

/-- The loop `while (this.#queueItems.length)` (lines 2289-2325) from its condition up to the
next submission; the array is given from its last entry on, which is the one that `pop()`
takes.  An entry with `batchCount` 0 submits nothing; with the array empty the `finally` block
resets `#processingQueue`. -/
def nextSubmission : List QueueItem → List Int → QueueState
  | [], submitted =>
    { queueItems := [], processingQueue := false, current := none, submitted := submitted }
  | item :: earlier, submitted =>
    if item.batchCount = 0 then nextSubmission earlier submitted
    else
      { queueItems := earlier.reverse, processingQueue := true, current := some (item, 0),
        submitted := submitted ++ [item.number] }

/-- One event. -/
def queueStep (st : QueueState) : QueueEvent → QueueState
  | QueueEvent.request item =>
    if st.processingQueue then { st with queueItems := st.queueItems ++ [item] }
    else nextSubmission (st.queueItems ++ [item]).reverse st.submitted
  | QueueEvent.settle ok =>
    match st.current with
    | none => st
    | some (item, i) =>
      if ok ∧ i + 1 < item.batchCount then
        { st with current := some (item, i + 1), submitted := st.submitted ++ [item.number] }
      else nextSubmission st.queueItems.reverse st.submitted

/-- The state after a list of events, from the state of a new `ComfyApp`. -/
def queueRun (events : List QueueEvent) : QueueState :=
  events.foldl queueStep
    { queueItems := [], processingQueue := false, current := none, submitted := [] }

/-- The submissions in the order of the requests: every request `batchCount` times. -/
def requestOrder (items : List QueueItem) : List Int :=
  items.flatMap (fun item => List.replicate item.batchCount item.number)

/-- The state between two events: the queue is being processed exactly while a submission is
awaited, and the array of entries is empty when it is not. -/
def QueueInv (st : QueueState) : Prop :=
  st.processingQueue = st.current.isSome ∧ (st.processingQueue = false → st.queueItems = [])

/-! ### The entries of an instruction, as the claims describe them -/

/-- The input value is a pair taken from a link. -/
def PVal.isLink : PVal → Bool
  | PVal.link _ _ => true
  | PVal.widget _ => false

/-- The two maps of an instruction agree: they have the same keys, and the flag of a name is
`true` exactly when its input value is a pair taken from a link. -/
def Flagged (inputs : List (String × PVal)) (is_input_linked : List (String × Bool)) : Prop :=
  ∀ n, getKey n is_input_linked = (getKey n inputs).map PVal.isLink

/-- The second element of a pair taken from a link is a number exactly when `nb_flowout` has
the key of the first element; it is `NaN` otherwise. -/
def SlotKnown (nb_flowout : String → Option Nat) : PVal → Prop
  | PVal.link origin slot => slot.isSome = (nb_flowout origin).isSome
  | PVal.widget _ => True

/-- What the loops of lines 2142-2198 establish for the maps of a node: no name occurs twice,
the flags agree with the values, and the slot of every link value is known as far as
`nb_flowout` goes. -/
def EntryOK (nb_flowout : String → Option Nat)
    (acc : List (String × PVal) × List (String × Bool)) : Prop :=
  (keysOf acc.1).Nodup ∧ Flagged acc.1 acc.2 ∧ ∀ e ∈ acc.1, SlotKnown nb_flowout e.2

/-! ### Inner nodes that buildNodeDef passes over, and the numbering of the outer inputs -/

/-- The round of the loop over `config.nodes` for the inner node `i` ends with `continue`
(lines 80 and 106). -/
def Skipped (config : Config) (defs : String → Option NodeDef) (i : Nat) (node : CfgNode) :
    Prop :=
  resolveDef config defs (getLinks config) i node = DefRes.skip

instance (config : Config) (defs : String → Option NodeDef) (i : Nat) (node : CfgNode) :
    Decidable (Skipped config defs i node) := by
  unfold Skipped; infer_instance

/-- The inner node `i` has both an incoming and an outgoing link of the group. -/
def LinkedThrough (config : Config) (i : Nat) : Prop :=
  (∃ l ∈ config.links, l.inputNodeId = i) ∧ ∃ l ∈ config.links, l.outputNodeId = some i

/-- The inner node `i` has both an incoming link that starts at an inner node and an outgoing
link of the group. -/
def LinkedInside (config : Config) (i : Nat) : Prop :=
  (∃ l ∈ config.links, l.outputNodeId.isSome = true ∧ l.inputNodeId = i) ∧
    ∃ l ∈ config.links, l.outputNodeId = some i

instance (config : Config) (i : Nat) : Decidable (LinkedThrough config i) := by
  unfold LinkedThrough; infer_instance

instance (config : Config) (i : Nat) : Decidable (LinkedInside config i) := by
  unfold LinkedInside; infer_instance

/-- The definition and the slot maps made of the variables of `buildNodeDef` (lines 44-56). -/
def groupDefOf (nodeName : String) (workflow : Bool) (b : Build) : GroupDef :=
  { name := nodeName
    display_name := nodeName
    category := "group nodes" ++ (if workflow then "/workflow" else "")
    output := b.output
    output_name := b.output_name
    output_is_list := b.output_is_list
    input_required := b.required
    slotInputs := b.slotInputs
    slotWidgets := b.slotWidgets
    slotOutputs := b.slotOutputs }

/-- The variables of `buildNodeDef` before the loop over `config.nodes`. -/
def emptyBuild : Build :=
  { inputCount := 0, slotInputs := [], slotWidgets := [], slotOutputs := [], output := [],
    output_name := [], output_is_list := [], required := [] }

/-- The order of (inner node, number of the input). -/
def SlotBefore (a b : Nat × Nat × Nat) : Prop :=
  a.1 < b.1 ∨ (a.1 = b.1 ∧ a.2.1 < b.2.1)

/-- The group [Reroute, Y] with the output of the Reroute node linked to the input of Y, copied
while the input of the Reroute node was linked to a node outside of the group. -/
def groupRY : Config :=
  { nodes :=
      [ { type := "Reroute", inputs := some ["*"], outputs := some ["*"] },
        { type := "Y", inputs := some ["LATENT"], outputs := some ["IMAGE"] } ]
    links :=
      [ { outputNodeId := none, outputNodeSlot := 0, inputNodeId := 0, inputNodeSlot := 0 },
        { outputNodeId := some 0, outputNodeSlot := 0, inputNodeId := 1, inputNodeSlot := 0 } ] }

/-- The group [X, Note, Reroute, Y]: X feeds the Reroute node, the Reroute node feeds Y, and
`Note` is a type that the registry does not know. -/
def groupXNRY : Config :=
  { nodes :=
      [ { type := "X", inputs := some ["IMAGE"], outputs := some ["LATENT"] },
        { type := "Note", inputs := none, outputs := none },
        { type := "Reroute", inputs := some ["*"], outputs := some ["*"] },
        { type := "Y", inputs := some ["LATENT"], outputs := some ["IMAGE"] } ]
    links :=
      [ { outputNodeId := some 0, outputNodeSlot := 0, inputNodeId := 2, inputNodeSlot := 0 },
        { outputNodeId := some 2, outputNodeSlot := 0, inputNodeId := 3, inputNodeSlot := 0 } ] }

/-! ## The node constructor of registerNodeDef (web/scripts/app.js) -/

/-- A node definition as the constructor `ComfyNode` of `registerNodeDef` reads it (lines
1404-1458); `input_required = none` when `nodeData.input` or `nodeData.input.required` is
`undefined`. -/
structure NodeData where
  flow_inputs : Option (List (String × String))
  flow_outputs : Option (List (String × String))
  input_required : Option (List (String × InputDef))
  input_optional : Option (List (String × InputDef))
  output : List String
  output_name : List String
deriving DecidableEq, Repr

/-- The slots and widgets that the constructor gives to a new node: inputs and outputs as
(name, type), widgets as (name, widget type). -/
structure NodeSlots where
  inputs : List (String × String)
  widgets : List (String × String)
  outputs : List (String × String)
deriving DecidableEq, Repr

/-- The constructor `ComfyNode` (lines 1404-1458), `none` for a `TypeError`:
`nodeData['flow_inputs'].map`, `Object.entries(nodeData["input"]["required"])` and
`nodeData.flow_outputs.map` raise on `undefined`.  The functions that make the widgets belong
to `widgets.js` and are taken to return. -/
def ComfyNode (getWidgetType : InputDef → String → Option String) (nodeData : NodeData) :
    Option NodeSlots :=
  match nodeData.flow_inputs with
  | none => none
  | some flow_inputs =>
    match nodeData.input_required with
    | none => none
    | some required =>
      let inputs :=
        flow_inputs.map (fun e => (e.1, ({ type := e.2, combo := false, options := none } : InputDef)))
          ++ required ++ nodeData.input_optional.getD []
      match nodeData.flow_outputs with
      | none => none
      | some flow_outputs =>
        let output := flow_outputs.map Prod.snd ++ nodeData.output
        let output_name := flow_outputs.map Prod.fst ++ nodeData.output_name
        some
          { inputs := (inputs.filter (fun inp => (getWidgetType inp.2 inp.1).isNone)).map
              (fun inp => (inp.1, inp.2.type))
            widgets := inputs.filterMap
              (fun inp => (getWidgetType inp.2 inp.1).map (fun w => (inp.1, w)))
            outputs := output.enum.map (fun o =>
              (match output_name[o.1]? with
               | some name => if name = "" then o.2 else name
               | none => o.2, o.2)) }

/-- The definition of a group as `registerNodeDef` receives it: the object literal of
`buildNodeDef` (lines 44-56) has the properties `output`, `output_name`, `output_is_list`,
`name`, `display_name`, `category` and `input` (with `required`), and no property
`flow_inputs` or `flow_outputs`. -/
def nodeDataOf (g : GroupDef) : NodeData :=
  { flow_inputs := none
    flow_outputs := none
    input_required := some g.input_required
    input_optional := none
    output := g.output
    output_name := g.output_name }

/-- A definition as the engine sends it for the node type X, with one FLOW input and one FLOW
output. -/
def nodeDataX : NodeData :=
  { flow_inputs := some [("FROM", "FLOW")]
    flow_outputs := some [("TO", "FLOW")]
    input_required := some
      [("image", { type := "IMAGE", combo := false, options := none }),
       ("strength", { type := "FLOAT", combo := false, options := some [] })]
    input_optional := none
    output := ["LATENT"]
    output_name := ["LATENT"] }

/-- From the variables `b` to the variables `b1` only entries for the inner node `i` were
added to the three slot maps. -/
def AddsFor (i : Nat) (b b1 : Build) : Prop :=
  (∀ e ∈ b1.slotInputs, e ∈ b.slotInputs ∨ e.1 = i) ∧
  (∀ e ∈ b1.slotWidgets, e ∈ b.slotWidgets ∨ e.1 = i) ∧
  (∀ e ∈ b1.slotOutputs, e ∈ b.slotOutputs ∨ e.2.1 = i)

/-! ## The methods of a group node (web/extensions/core/groupNode.js, `nodeCreated`)

`nodeCreated` gives a node of a group type the methods `updateLink` and `getInnerNodes`, and
`getInnerNodes` gives every inner node its own `getInputNode` and `getInputLink`.  They close
over the group node, over `config` and `slots` of its definition and over the list of the inner
nodes.  The nodes outside of the group are reached through the methods of the canvas library,
which are a parameter here (`outer`, and `typeOf` for the property `type` of a node of the
graph); so is `create`, the node that `LiteGraph.createNode(n.type)` and `configure(n)` make
of an inner node `n` of the data (`none`: `createNode` gives `null`). -/

/-- A group node: the node, and `config` and `slots` of its definition. -/
structure GroupInst where
  node : GNode
  config : Config
  slots : GroupDef
deriving DecidableEq, Repr

/-- The read `slots.inputs[i]?.[slot]`. -/
def slotInputOf (slots : GroupDef) (i slot : Nat) : Option Nat :=
  (slots.slotInputs.reverse.find? (fun e => e.1 = i ∧ e.2.1 = slot)).map (fun e => e.2.2)

/-- The read `slots.outputs[k]`: the inner node and its output slot. -/
def slotOutputOf (slots : GroupDef) (k : Nat) : Option (Nat × Nat) :=
  (slots.slotOutputs.reverse.find? (fun e => e.1 = k)).map (fun e => e.2)

/-- The widget of an inner node after the loop of lines 302-309: its value is the value of
the widget of the group node that `slots.widgets` names for it; `none` for a `TypeError`
(`slots.widgets[i]` or `node.widgets` is `undefined`). -/
def copyWidget (g : GroupInst) (i : Nat) (innerWidget : GWidget) : Option GWidget :=
  if g.slots.slotWidgets.any (fun e => e.1 = i) then
    match g.slots.slotWidgets.reverse.find? (fun e => e.1 = i ∧ e.2.1 = innerWidget.name) with
    | none =>
      match g.node.widgets with
      | none => none
      | some _ => some innerWidget
    | some e =>
      match g.node.widgets with
      | none => none
      | some widgets =>
        match widgets.find? (fun w => w.name = e.2.2) with
        | some groupWidget => some { innerWidget with value := groupWidget.value }
        | none => some innerWidget
  else none

/-- The inner node `p.1` that the callback of `config.nodes.map` returns (lines 298-365). -/
def makeInner (create : CfgNode → Option GNode) (g : GroupInst) (p : Nat × CfgNode) :
    Option GNode :=
  match create p.2 with
  | none => none
  | some innerNode =>
    match (innerNode.widgets.getD []).mapM (copyWidget g p.1) with
    | none => none
    | some widgets =>
      some { innerNode with
        widgets := innerNode.widgets.map (fun _ => widgets)
        id := JId.str (g.node.id.key ++ ":" ++ toString p.1) }

/-- The method `getInnerNodes` of a group node (lines 294-370); `none` for a `TypeError`. -/
def getInnerNodes (create : CfgNode → Option GNode) (g : GroupInst) : Option (List GNode) :=
  g.config.nodes.enum.mapM (makeInner create g)

/-- The method `getInputLink` of the inner node `i` (lines 332-362).  `Run.ok none` is the
object `{target_id, target_slot}` that the method returns when the input of the group node
carries no link: it has no origin. -/
def innerInputLink (outer : Host) (g : GroupInst) (i slot : Nat) : Run (Option GLink) :=
  match slotInputOf g.slots i slot with
  | some outerSlot =>
    match g.node.inputs.bind (fun inputs => inputs[outerSlot]?) with
    | none => Run.raise
    | some _ => Run.ok (outer.getInputLink g.node outerSlot)
  | none =>
    match tableGet (getLinks g.config).linksTo i slot with
    | none => Run.raise
    | some link =>
      match link.outputNodeId with
      | none => Run.raise
      | some origin =>
        Run.ok (some
          { origin_id := JId.str (g.node.id.key ++ ":" ++ toString origin)
            origin_slot := link.outputNodeSlot
            target_id := JId.str (g.node.id.key ++ ":" ++ toString i)
            target_slot := slot })

/-- A node that the walk of `updateLink` is at: the inner node `i` of the group node, or a
node of the graph outside. -/
inductive Cur where
  | inner (i : Nat) : Cur
  | outer (n : GNode) : Cur
deriving DecidableEq, Repr

/-- The element `innerNodes[i]`, `none` for `undefined`. -/
def curAt (innerNodes : List GNode) (i : Nat) : Option Cur :=
  if i < innerNodes.length then some (Cur.inner i) else none

/-- The method `getInputNode` of the inner node `i` (lines 312-331); `Run.ok none` is the
result `undefined` or `null`. -/
def innerInputNode (outer : Host) (g : GroupInst) (innerNodes : List GNode) (i slot : Nat) :
    Run (Option Cur) :=
  let slot1 :=
    match (innerNodes[i]?).bind (fun n => n.comfyClass) with
    | none => 0
    | some c => if c = "" then 0 else slot
  match slotInputOf g.slots i slot1 with
  | some outerSlot => Run.ok ((outer.getInputNode g.node outerSlot).map Cur.outer)
  | none =>
    match tableGet (getLinks g.config).linksTo i slot1 with
    | none => Run.raise
    | some innerLink =>
      match innerLink.outputNodeId with
      | none => Run.raise
      | some origin => Run.ok (curAt innerNodes origin)

/-- The property `type` of a node of the walk; an inner node has the type of its data. -/
def Cur.type (typeOf : GNode → String) (g : GroupInst) : Cur → Option String
  | Cur.inner i => (g.config.nodes[i]?).map (fun n => n.type)
  | Cur.outer n => some (typeOf n)

/-- The property `id` of a node of the walk. -/
def Cur.id (innerNodes : List GNode) : Cur → Option JId
  | Cur.inner i => (innerNodes[i]?).map (fun n => n.id)
  | Cur.outer n => some n.id

/-- The call `innerNode.getInputLink(0)` of line 285; the object without origin counts as no
link, because only `l?.origin_slot` is read. -/
def Cur.inputLink (outer : Host) (g : GroupInst) : Cur → Run (Option GLink)
  | Cur.inner i => innerInputLink outer g i 0
  | Cur.outer n => Run.ok (outer.getInputLink n 0)

/-- The call `innerNode.getInputNode(0)` of line 286. -/
def Cur.inputNode (outer : Host) (g : GroupInst) (innerNodes : List GNode) :
    Cur → Run (Option Cur)
  | Cur.inner i => innerInputNode outer g innerNodes i 0
  | Cur.outer n => Run.ok ((outer.getInputNode n 0).map Cur.outer)

/-- One evaluation of the condition of the loop `while (innerNode.type === "Reroute")` (lines
284-287) and, when it holds, one round: the new values of `innerNode` and `l`. -/
def rerouteStep (outer : Host) (typeOf : GNode → String) (g : GroupInst)
    (innerNodes : List GNode) (innerNode : Option Cur) :
    Run (Option (Option Cur × Option GLink)) :=
  match innerNode with
  | none => Run.raise
  | some cur =>
    match cur.type typeOf g with
    | none => Run.raise
    | some type =>
      if type = "Reroute" then
        match cur.inputLink outer g with
        | Run.raise => Run.raise
        | Run.timeout => Run.timeout
        | Run.ok l1 =>
          match cur.inputNode outer g innerNodes with
          | Run.raise => Run.raise
          | Run.timeout => Run.timeout
          | Run.ok next => Run.ok (some (next, l1))
      else Run.ok none

/-- The loop `while (innerNode.type === "Reroute")`, at most `fuel` evaluations of its
condition: the values of `innerNode` and `l` after it. -/
def rerouteLoop (outer : Host) (typeOf : GNode → String) (g : GroupInst)
    (innerNodes : List GNode) : Nat → Option Cur → Option GLink → Run (Cur × Option GLink)
  | 0, _, _ => Run.timeout
  | fuel + 1, innerNode, l =>
    match rerouteStep outer typeOf g innerNodes innerNode with
    | Run.raise => Run.raise
    | Run.timeout => Run.timeout
    | Run.ok none =>
      match innerNode with
      | none => Run.raise
      | some cur => Run.ok (cur, l)
    | Run.ok (some (next, l1)) => rerouteLoop outer typeOf g innerNodes fuel next l1

/-- The method `updateLink` of a group node (lines 278-292) for the value `innerNodes` of
`this.innerNodes`.  Line 280 puts a copy of the object passed in into the variable `link`, and
the assignments of lines 289 and 290 go to that copy; the result is the pair of the object
passed in, as the call leaves it, and of the copy that the call returns. -/
def updateLink (outer : Host) (typeOf : GNode → String) (g : GroupInst)
    (innerNodes : List GNode) (fuel : Nat) (link : GLink) : Run (GLink × GLink) :=
  let copy : GLink :=
    { origin_id := link.origin_id, origin_slot := link.origin_slot,
      target_id := link.target_id, target_slot := link.target_slot }
  match slotOutputOf g.slots copy.origin_slot with
  | none => Run.raise
  | some output =>
    match rerouteLoop outer typeOf g innerNodes fuel (curAt innerNodes output.1) none with
    | Run.raise => Run.raise
    | Run.timeout => Run.timeout
    | Run.ok (innerNode, l) =>
      match innerNode.id innerNodes with
      | none => Run.raise
      | some id =>
        Run.ok (link,
          { copy with
            origin_id := id
            origin_slot := match l with
              | some l1 => l1.origin_slot
              | none => output.2 })

/-- The rounds of the loop of `updateLink` in terms of the methods that it calls: from the
node `c` with the last link `l` the loop passes `n` Reroute nodes, each with a link on its
input 0 and a node at the origin of that link, and is then at the node `p` with the last link
`lp`. -/
inductive RerouteChain (outer : Host) (typeOf : GNode → String) (g : GroupInst)
    (innerNodes : List GNode) : Nat → Cur → Option GLink → Cur → Option GLink → Prop where
  | here (c : Cur) (l : Option GLink) : RerouteChain outer typeOf g innerNodes 0 c l c l
  | step (n : Nat) (c c1 p : Cur) (l lp : Option GLink) (l1 : GLink) :
      c.type typeOf g = some "Reroute" →
      c.inputLink outer g = Run.ok (some l1) →
      c.inputNode outer g innerNodes = Run.ok (some c1) →
      RerouteChain outer typeOf g innerNodes n c1 (some l1) p lp →
      RerouteChain outer typeOf g innerNodes (n + 1) c l p lp

/-- The entry `x` is the last entry of the list with the property `p`; it is the one that a
read finds when the list holds the assignments to an object in their order. -/
def LastWith {α : Type} (p : α → Prop) (xs : List α) (x : α) : Prop :=
  ∃ pre post, xs = pre ++ x :: post ∧ p x ∧ ∀ y ∈ post, ¬ p y

/-- From the node `c` with the last link `l`, a walk passes `n` Reroute nodes, each time
along the input 0, and is then at the node `p` with the last link `lp`.  An inner Reroute node
whose input 0 is recorded as the outer input `k` is left across the border of the group,
along the link and to the node of the input `k` of the group node; an inner Reroute node whose
input 0 is not recorded is left along the last link of the group to its input 0, to the inner
node at the origin of that link; a Reroute node outside of the group is left along the link of
its input 0. -/
inductive RerouteWalk (outer : Host) (typeOf : GNode → String) (g : GroupInst)
    (innerNodes : List GNode) : Nat → Cur → Option GLink → Cur → Option GLink → Prop where
  | here (c : Cur) (l : Option GLink) : RerouteWalk outer typeOf g innerNodes 0 c l c l
  | groupInput (n i k : Nat) (node : CfgNode) (inputs : List GInput) (inp : GInput)
      (l lp : Option GLink) (l1 : GLink) (m : GNode) (p : Cur) :
      g.config.nodes[i]? = some node → node.type = "Reroute" →
      LastWith (fun e => e.1 = i ∧ e.2.1 = 0) g.slots.slotInputs (i, 0, k) →
      g.node.inputs = some inputs → inputs[k]? = some inp →
      outer.getInputLink g.node k = some l1 → outer.getInputNode g.node k = some m →
      RerouteWalk outer typeOf g innerNodes n (Cur.outer m) (some l1) p lp →
      RerouteWalk outer typeOf g innerNodes (n + 1) (Cur.inner i) l p lp
  | innerLink (n i j : Nat) (node : CfgNode) (cl : CfgLink) (l lp : Option GLink) (p : Cur) :
      g.config.nodes[i]? = some node → node.type = "Reroute" →
      (∀ e ∈ g.slots.slotInputs, ¬ (e.1 = i ∧ e.2.1 = 0)) →
      LastInnerLinkTo g.config i 0 cl → cl.outputNodeId = some j → j < innerNodes.length →
      RerouteWalk outer typeOf g innerNodes n (Cur.inner j)
        (some { origin_id := JId.str (g.node.id.key ++ ":" ++ toString j)
                origin_slot := cl.outputNodeSlot
                target_id := JId.str (g.node.id.key ++ ":" ++ toString i)
                target_slot := 0 }) p lp →
      RerouteWalk outer typeOf g innerNodes (n + 1) (Cur.inner i) l p lp
  | outside (n : Nat) (x m : GNode) (l lp : Option GLink) (l1 : GLink) (p : Cur) :
      typeOf x = "Reroute" → outer.getInputLink x 0 = some l1 →
      outer.getInputNode x 0 = some m →
      RerouteWalk outer typeOf g innerNodes n (Cur.outer m) (some l1) p lp →
      RerouteWalk outer typeOf g innerNodes (n + 1) (Cur.outer x) l p lp

/-- The node `p` is no Reroute node, and `pid` is its id: for the inner node `j` the type is
the one of the data of the group and the id the one of the j-th inner node. -/
def EndsAt (typeOf : GNode → String) (g : GroupInst) (innerNodes : List GNode) (p : Cur)
    (pid : JId) : Prop :=
  match p with
  | Cur.inner j =>
    ∃ node m, g.config.nodes[j]? = some node ∧ node.type ≠ "Reroute" ∧
      innerNodes[j]? = some m ∧ m.id = pid
  | Cur.outer m => typeOf m ≠ "Reroute" ∧ m.id = pid

/-! ### Graphs with group nodes used in the statements -/

/-- The nodes that the canvas library makes of the inner nodes of the examples: a node of the
type X (an IMAGE input, the widget `strength`) and a Reroute node (virtual, without class). -/
def createSample (n : CfgNode) : Option GNode :=
  if n.type = "X" then
    some { id := JId.num 0, mode := 0, isVirtualNode := false, comfyClass := some "X"
           inputs := some [{ name := "image", type := "IMAGE" }]
           widgets := some [{ name := "strength", value := WVal.other "1", serialize := true }] }
  else if n.type = "Reroute" then
    some { id := JId.num 0, mode := 0, isVirtualNode := true, comfyClass := none
           inputs := some [{ name := "", type := "*" }], widgets := none }
  else none

/-- The definition and the slot maps of a group of the examples, built by `buildNodeDef` from
the registry `sampleDefs`. -/
def sampleGroupDef (config : Config) (nodeName : String) : GroupDef :=
  (buildNodeDef (widgetTypeOf sampleWidgets) config nodeName sampleDefs true).getD
    (groupDefOf nodeName true emptyBuild)

/-- The types of the nodes of the graphs of the examples: the node 2 is the group node. -/
def typeOfSample (n : GNode) : String :=
  if n.id = JId.num 1 then "A" else if n.id = JId.num 2 then "workflow/g" else "C"

/-- The group [Reroute, Reroute]: the first Reroute node feeds the second one, and was fed
from outside of the group when the group was copied. -/
def groupRR : Config :=
  { nodes :=
      [ { type := "Reroute", inputs := some ["*"], outputs := some ["*"] },
        { type := "Reroute", inputs := some ["*"], outputs := some ["*"] } ]
    links :=
      [ { outputNodeId := none, outputNodeSlot := 0, inputNodeId := 0, inputNodeSlot := 0 },
        { outputNodeId := some 0, outputNodeSlot := 0, inputNodeId := 1, inputNodeSlot := 0 } ] }

/-- The group [X, Reroute, Reroute]: the first Reroute node was fed from outside of the group
when the group was copied, and feeds the second one. -/
def groupXRR : Config :=
  { nodes :=
      [ { type := "X", inputs := some ["IMAGE"], outputs := some ["LATENT"] },
        { type := "Reroute", inputs := some ["*"], outputs := some ["*"] },
        { type := "Reroute", inputs := some ["*"], outputs := some ["*"] } ]
    links :=
      [ { outputNodeId := none, outputNodeSlot := 0, inputNodeId := 1, inputNodeSlot := 0 },
        { outputNodeId := some 1, outputNodeSlot := 0, inputNodeId := 2, inputNodeSlot := 0 } ] }

/-- A group node (id 2) of the group `groupXRR`, with its two inputs and its widget. -/
def instXRR : GroupInst :=
  { node := { id := JId.num 2, mode := 0, isVirtualNode := false, comfyClass := some "g"
              inputs := some [{ name := "0:image", type := "IMAGE" },
                              { name := "1:*", type := "*" }]
              widgets := some [{ name := "0:strength", value := WVal.other "0.5",
                                 serialize := true }] }
    config := groupXRR
    slots := sampleGroupDef groupXRR "g" }

/-- The graph around `instXRR`: the output 2 of the node A (id 1) feeds the input 1 of the
group node, and the output 1 of the group node feeds the node C (id 3). -/
def aroundXRR : List GNode :=
  [ liveNode 1 0 [], instXRR.node, liveNode 3 0 [{ name := "in", type := "IMAGE" }] ]

/-- The links of the inputs of `aroundXRR`. -/
def aroundXRRLinks : List (JId × Nat × GLink) :=
  [ (JId.num 2, 1, liveLink 1 2 2 1), (JId.num 3, 0, liveLink 2 1 3 0) ]

/-! ## Theorems -/


theorem lastWith_some {α : Type} (key : α → Nat) (k : Nat) :
    ∀ (xs : List α) (x : α), lastWith key k xs = some x → x ∈ xs ∧ key x = k := by
  intro xs
  induction xs with
  | nil => intro x h; simp [lastWith] at h
  | cons y ys ih =>
    intro x h
    unfold lastWith at h
    cases hl : lastWith key k ys with
    | some z =>
      rw [hl] at h
      simp only [Option.some.injEq] at h
      subst h
      have := ih z hl
      exact ⟨List.mem_cons_of_mem _ this.1, this.2⟩
    | none =>
      rw [hl] at h
      simp only at h
      by_cases hk : key y = k
      · rw [if_pos hk] at h
        simp only [Option.some.injEq] at h
        subst h
        exact ⟨List.mem_cons_self _ _, hk⟩
      · rw [if_neg hk] at h
        simp at h

theorem lastWith_none {α : Type} (key : α → Nat) (k : Nat) :
    ∀ (xs : List α), lastWith key k xs = none ↔ ∀ x ∈ xs, key x ≠ k := by
  intro xs
  induction xs with
  | nil => simp [lastWith]
  | cons y ys ih =>
    unfold lastWith
    cases hl : lastWith key k ys with
    | some z =>
      simp only [false_iff, reduceCtorEq]
      intro h
      have hz := lastWith_some key k ys z hl
      exact h z (List.mem_cons_of_mem _ hz.1) hz.2
    | none =>
      have hys := ih.mp hl
      by_cases hk : key y = k
      · simp only [hk, if_true, reduceCtorEq, false_iff]
        intro h
        exact h y (List.mem_cons_self _ _) hk
      · simp only [hk, if_false, true_iff]
        intro x hx
        rcases List.mem_cons.mp hx with rfl | hx
        · exact hk
        · exact hys x hx

theorem lastWith_of_nodup {α : Type} (key : α → Nat) :
    ∀ (xs : List α) (x : α), (xs.map key).Nodup → x ∈ xs → lastWith key (key x) xs = some x := by
  intro xs
  induction xs with
  | nil => intro x _ h; simp at h
  | cons y ys ih =>
    intro x hnd hx
    rw [List.map_cons, List.nodup_cons] at hnd
    unfold lastWith
    rcases List.mem_cons.mp hx with rfl | hx
    · have : lastWith key (key x) ys = none := by
        rw [lastWith_none]
        intro z hz hzk
        exact hnd.1 (hzk ▸ List.mem_map_of_mem key hz)
      rw [this]
      simp
    · rw [ih x hnd.2 hx]

theorem foldlM_inv {α β : Type} (P : β → Prop) (f : β → α → Option β) :
    ∀ (xs : List α), (∀ b a b1, a ∈ xs → P b → f b a = some b1 → P b1) →
      ∀ b b1, xs.foldlM f b = some b1 → P b → P b1 := by
  intro xs
  induction xs with
  | nil =>
    intro _ b b1 h hb
    simp only [List.foldlM_nil, Option.pure_def, Option.some.injEq] at h
    exact h ▸ hb
  | cons x xs ih =>
    intro hstep b b1 h hb
    simp only [List.foldlM_cons, Option.bind_eq_bind] at h
    cases hf : f b x with
    | none => rw [hf] at h; simp at h
    | some b2 =>
      rw [hf] at h
      simp only [Option.some_bind] at h
      exact ih (fun b a b1 ha => hstep b a b1 (List.mem_cons_of_mem _ ha)) b2 b1 h
        (hstep b x b2 (List.mem_cons_self _ _) hb hf)

theorem walk_inv (nodes : List Node) (links : List Link) (P : Kahn → Prop)
    (hP : ∀ from_id t next st, lastWith Node.id t nodes = some next → next.type ≠ "Reroute" →
      P st → P (decrTarget from_id t next st)) :
    ∀ depth n st st1, degree_linked_out_nodes nodes links depth n st = some st1 → P st → P st1 := by
  intro depth
  induction depth with
  | zero => intro n st st1 h; simp [degree_linked_out_nodes] at h
  | succ d ih =>
    intro n st st1 h hst
    unfold degree_linked_out_nodes at h
    cases ho : n.outputs with
    | none => rw [ho] at h; simp only [Option.some.injEq] at h; exact h ▸ hst
    | some outs =>
      rw [ho] at h
      simp only at h
      refine foldlM_inv P _ outs ?_ st st1 h hst
      intro b output b1 _ hb hstep
      cases hlk : output.links with
      | null => rw [hlk] at hstep; simp only [Option.some.injEq] at hstep; exact hstep ▸ hb
      | num k => rw [hlk] at hstep; simp at hstep
      | arr ids =>
        rw [hlk] at hstep
        simp only at hstep
        refine foldlM_inv P _ ids ?_ b b1 hstep hb
        intro c link_id c1 _ hc hstep2
        cases hl : lastWith Link.id link_id links with
        | none => rw [hl] at hstep2; simp at hstep2
        | some link =>
          rw [hl] at hstep2
          simp only at hstep2
          cases hn : lastWith Node.id link.target_id nodes with
          | none => rw [hn] at hstep2; simp at hstep2
          | some next =>
            rw [hn] at hstep2
            simp only at hstep2
            by_cases hr : next.type = "Reroute"
            · rw [if_pos hr] at hstep2
              exact ih next c c1 hstep2 hc
            · rw [if_neg hr] at hstep2
              simp only [Option.some.injEq] at hstep2
              exact hstep2 ▸ hP n.id link.target_id next c hn hr hc

theorem kahnLoop_inv (nodes : List Node) (links : List Link) (P : Kahn → Prop)
    (hP : ∀ from_id t next st, lastWith Node.id t nodes = some next → next.type ≠ "Reroute" →
      P st → P (decrTarget from_id t next st)) (depth : Nat) :
    ∀ fuel idx st st1, kahnLoop nodes links depth fuel idx st = some st1 → P st → P st1 := by
  intro fuel
  induction fuel with
  | zero => intro idx st st1 h; simp [kahnLoop] at h
  | succ f ih =>
    intro idx st st1 h hst
    unfold kahnLoop at h
    cases hc : st.flow_order[idx]? with
    | none => rw [hc] at h; simp only [Option.some.injEq] at h; exact h ▸ hst
    | some cur =>
      rw [hc] at h
      simp only at h
      cases hw : degree_linked_out_nodes nodes links depth cur st with
      | none => rw [hw] at h; simp at h
      | some st2 =>
        rw [hw] at h
        simp only at h
        exact ih (idx + 1) st2 st1 h (walk_inv nodes links P hP depth cur st st2 hw hst)



theorem KInv_decrTarget (nodes : List Node) (from_id t : Nat) (next : Node) (st : Kahn)
    (hn : lastWith Node.id t nodes = some next) (hr : next.type ≠ "Reroute")
    (h : KInv nodes st) : KInv nodes (decrTarget from_id t next st) := by
  obtain ⟨hmem, hid⟩ := lastWith_some Node.id t nodes next hn
  unfold decrTarget
  by_cases hft : from_id ≠ t
  · rw [if_pos hft]
    cases hd : st.in_degree t with
    | none => exact h
    | some d =>
      simp only
      by_cases hz : d - 1 = 0
      · rw [if_pos hz]
        have hnot : t ∉ st.flow_order.map Node.id := by
          intro hin
          obtain ⟨m, hm, hmt⟩ := List.mem_map.mp hin
          obtain ⟨_, _, e, he, hle⟩ := h.2 m hm
          rw [hmt, hd] at he
          simp only [Option.some.injEq] at he
          omega
        refine ⟨?_, ?_⟩
        · rw [List.map_append, List.map_cons, List.map_nil, hid]
          exact List.Nodup.append h.1 (List.nodup_singleton t)
            (by simpa [List.Disjoint] using hnot)
        · intro n hnm
          rcases List.mem_append.mp hnm with hnm | hnm
          · obtain ⟨h1, h2, e, he, hle⟩ := h.2 n hnm
            refine ⟨h1, h2, ?_⟩
            by_cases hnt : n.id = t
            · exact ⟨d - 1, by simp [hnt], by omega⟩
            · exact ⟨e, by simp [hnt, he], hle⟩
          · rw [List.mem_singleton] at hnm
            subst hnm
            exact ⟨hmem, hr, d - 1, by simp [hid], by omega⟩
      · rw [if_neg hz]
        refine ⟨h.1, ?_⟩
        intro n hnm
        obtain ⟨h1, h2, e, he, hle⟩ := h.2 n hnm
        refine ⟨h1, h2, ?_⟩
        by_cases hnt : n.id = t
        · refine ⟨d - 1, by simp [hnt], ?_⟩
          rw [hnt, hd] at he
          simp only [Option.some.injEq] at he
          omega
        · exact ⟨e, by simp [hnt, he], hle⟩
  · rw [if_neg hft]
    exact h

theorem seed_fold_inv :
    ∀ (rest pre : List Node) (st : Kahn), ((pre ++ rest).map Node.id).Nodup →
      (st.flow_order.map Node.id).Nodup →
      (∀ n ∈ st.flow_order, n ∈ pre ∧ n.type ≠ "Reroute" ∧ st.in_degree n.id = some 0) →
      KInv (pre ++ rest) (rest.foldl seedStep st) := by
  intro rest
  induction rest with
  | nil =>
    intro pre st _ hnd hm
    simp only [List.foldl_nil, List.append_nil]
    exact ⟨hnd, fun n hn => ⟨(hm n hn).1, (hm n hn).2.1, 0, (hm n hn).2.2, le_refl _⟩⟩
  | cons x xs ih =>
    intro pre st hall hnd hm
    have hall2 : (((pre ++ [x]) ++ xs).map Node.id).Nodup := by simpa using hall
    have hx : x.id ∉ pre.map Node.id := by
      rw [List.map_append, List.map_cons] at hall
      have := (List.nodup_append.mp hall).2.2
      intro hin
      exact this hin (List.mem_cons_self _ _)
    have hxfo : x.id ∉ st.flow_order.map Node.id := by
      intro hin
      obtain ⟨m, hmm, hmx⟩ := List.mem_map.mp hin
      exact hx (hmx ▸ List.mem_map_of_mem Node.id (hm m hmm).1)
    have key := ih (pre ++ [x]) (seedStep st x) hall2
    rw [List.append_assoc, List.singleton_append] at key
    simp only [List.foldl_cons]
    apply key
    · unfold seedStep
      by_cases hr : x.type = "Reroute"
      · rw [if_pos hr]; exact hnd
      · rw [if_neg hr]
        simp only
        by_cases hz : connectedInputs x = 0
        · rw [if_pos hz, List.map_append, List.map_cons, List.map_nil]
          exact List.Nodup.append hnd (List.nodup_singleton _)
            (by simpa [List.Disjoint] using hxfo)
        · rw [if_neg hz]; exact hnd
    · intro n hn
      unfold seedStep at hn ⊢
      by_cases hr : x.type = "Reroute"
      · rw [if_pos hr] at hn ⊢
        obtain ⟨h1, h2, h3⟩ := hm n hn
        exact ⟨List.mem_append_left _ h1, h2, h3⟩
      · rw [if_neg hr] at hn ⊢
        simp only at hn ⊢
        by_cases hz : connectedInputs x = 0
        · rw [if_pos hz] at hn
          rcases List.mem_append.mp hn with hn | hn
          · obtain ⟨h1, h2, h3⟩ := hm n hn
            have hne : n.id ≠ x.id := fun e => hx (e ▸ List.mem_map_of_mem Node.id h1)
            exact ⟨List.mem_append_left _ h1, h2, by simp [hne, h3]⟩
          · rw [List.mem_singleton] at hn
            subst hn
            exact ⟨by simp, hr, by simp [hz]⟩
        · rw [if_neg hz] at hn
          obtain ⟨h1, h2, h3⟩ := hm n hn
          have hne : n.id ≠ x.id := fun e => hx (e ▸ List.mem_map_of_mem Node.id h1)
          exact ⟨List.mem_append_left _ h1, h2, by simp [hne, h3]⟩

theorem KInv_seedKahn (nodes : List Node) (h : (nodes.map Node.id).Nodup) :
    KInv nodes (seedKahn nodes) := by
  have := seed_fold_inv nodes [] { in_degree := fun _ => none, flow_order := [] }
    (by simpa using h) (by simp) (by simp)
  simpa [seedKahn] using this

theorem flowOrder_KInv (nodes : List Node) (links : List Link) (fo : List Node)
    (h : (nodes.map Node.id).Nodup) (hfo : flowOrder nodes links = some fo) :
    (fo.map Node.id).Nodup ∧ ∀ n ∈ fo, n ∈ nodes ∧ n.type ≠ "Reroute" := by
  unfold flowOrder at hfo
  cases hk : kahnLoop nodes links (nodes.length + 1) (2 * nodes.length + 2) 0 (seedKahn nodes) with
  | none => rw [hk] at hfo; simp at hfo
  | some st =>
    rw [hk] at hfo
    simp only [Option.map_some', Option.some.injEq] at hfo
    have := kahnLoop_inv nodes links (KInv nodes)
      (fun f t nx s h1 h2 h3 => KInv_decrTarget nodes f t nx s h1 h2 h3) _ _ _ _ _ hk
      (KInv_seedKahn nodes h)
    subst hfo
    exact ⟨this.1, fun n hn => ⟨(this.2 n hn).1, (this.2 n hn).2.1⟩⟩

theorem updLast_some {α : Type} (key : α → Nat) (k : Nat) (f : α → Option α) :
    ∀ (xs ys : List α), updLast key k f xs = some ys →
      ∃ z w, lastWith key k xs = some z ∧ f z = some w := by
  intro xs
  induction xs with
  | nil => intro ys h; simp [updLast] at h
  | cons x xs ih =>
    intro ys h
    unfold updLast at h
    unfold lastWith
    cases hl : lastWith key k xs with
    | some z =>
      rw [hl] at h
      simp only [Option.map_eq_some'] at h
      obtain ⟨zs, hzs, _⟩ := h
      obtain ⟨z1, w, h1, h2⟩ := ih zs hzs
      rw [hl] at h1
      simp only [Option.some.injEq] at h1
      subst h1
      exact ⟨z, w, rfl, h2⟩
    | none =>
      rw [hl] at h
      simp only at h ⊢
      by_cases hkx : key x = k
      · rw [if_pos hkx] at h ⊢
        simp only [Option.map_eq_some'] at h
        obtain ⟨y, hy, _⟩ := h
        exact ⟨x, y, rfl, hy⟩
      · rw [if_neg hkx] at h
        simp at h

theorem updLast_lastWith {α : Type} (key : α → Nat) (k : Nat) (f : α → Option α)
    (hf : ∀ x y, f x = some y → key y = key x) :
    ∀ (xs ys : List α), updLast key k f xs = some ys →
      ∀ k1, lastWith key k1 ys = if k1 = k then (lastWith key k xs).bind f else lastWith key k1 xs := by
  intro xs
  induction xs with
  | nil => intro ys h; simp [updLast] at h
  | cons x xs ih =>
    intro ys h k1
    unfold updLast at h
    cases hl : lastWith key k xs with
    | some z =>
      rw [hl] at h
      simp only [Option.map_eq_some'] at h
      obtain ⟨zs, hzs, rfl⟩ := h
      have hrec := ih zs hzs
      obtain ⟨z1, w, h1, h2⟩ := updLast_some key k f xs zs hzs
      rw [hl] at h1
      simp only [Option.some.injEq] at h1
      subst h1
      unfold lastWith
      rw [hrec k1]
      by_cases hk : k1 = k
      · subst hk
        simp [hl, h2]
      · simp only [if_neg hk]
    | none =>
      rw [hl] at h
      simp only at h
      by_cases hkx : key x = k
      · rw [if_pos hkx] at h
        simp only [Option.map_eq_some'] at h
        obtain ⟨y, hy, rfl⟩ := h
        have hky := hf x y hy
        unfold lastWith
        by_cases hk : k1 = k
        · subst hk
          simp [hl, hkx, hy, hky]
        · simp only [if_neg hk]
          cases lastWith key k1 xs with
          | some w => rfl
          | none =>
            simp only
            rw [hky, hkx]
            simp [Ne.symm hk]
      · rw [if_neg hkx] at h
        simp at h

theorem updLast_isSome {α : Type} (key : α → Nat) (k : Nat) (f : α → Option α) :
    ∀ (xs : List α) (x : α), lastWith key k xs = some x → (f x).isSome →
      (updLast key k f xs).isSome := by
  intro xs
  induction xs with
  | nil => intro x h; simp [lastWith] at h
  | cons y ys ih =>
    intro x h hfx
    unfold lastWith at h
    unfold updLast
    cases hl : lastWith key k ys with
    | some z =>
      rw [hl] at h
      simp only [Option.some.injEq] at h
      subst h
      simp only
      have := ih z hl hfx
      simpa using this
    | none =>
      rw [hl] at h
      simp only at h ⊢
      by_cases hk : key y = k
      · rw [if_pos hk] at h ⊢
        simp only [Option.some.injEq] at h
        subst h
        simpa using hfx
      · rw [if_neg hk] at h
        simp at h

theorem lastWith_map {α : Type} (key : α → Nat) (g : α → α) (hg : ∀ x, key (g x) = key x)
    (k : Nat) : ∀ (xs : List α), lastWith key k (xs.map g) = (lastWith key k xs).map g := by
  intro xs
  induction xs with
  | nil => rfl
  | cons x xs ih =>
    simp only [List.map_cons]
    unfold lastWith
    rw [ih]
    cases lastWith key k xs with
    | some z => rfl
    | none =>
      simp only [Option.map_none', hg]
      by_cases hk : key x = k
      · simp [hk]
      · simp [hk]

theorem synthFlows_flows :
    ∀ (order : List Node) (k : Nat) (acc : List Link) (ns : List Node) (fl : List Link)
      (ns1 : List Node), synthFlows order k acc ns = some (fl, ns1) →
      fl = acc ++ pairLinks k order := by
  intro order
  induction order with
  | nil =>
    intro k acc ns fl ns1 h
    simp only [synthFlows, Option.some.injEq, Prod.mk.injEq] at h
    simp [pairLinks, h.1]
  | cons a t ih =>
    intro k acc ns fl ns1 h
    cases t with
    | nil =>
      simp only [synthFlows, Option.some.injEq, Prod.mk.injEq] at h
      simp [pairLinks, h.1]
    | cons b rest =>
      simp only [synthFlows] at h
      cases h1 : updLast Node.id a.id (setFlowInLinks k) ns with
      | none => rw [h1] at h; simp at h
      | some nodes1 =>
        rw [h1] at h
        simp only at h
        cases h2 : updLast Node.id a.id (setFlowOutLink k) nodes1 with
        | none => rw [h2] at h; simp at h
        | some nodes2 =>
          rw [h2] at h
          simp only at h
          rw [ih (k + 1) _ nodes2 fl ns1 h]
          simp [pairLinks]

theorem pairLinks_length : ∀ (order : List Node) (k : Nat),
    (pairLinks k order).length = order.length - 1 := by
  intro order
  induction order with
  | nil => intro k; simp [pairLinks]
  | cons a t ih =>
    intro k
    cases t with
    | nil => simp [pairLinks]
    | cons b rest =>
      simp only [pairLinks, List.length_cons, ih (k + 1)]
      omega

theorem pairLinks_get : ∀ (order : List Node) (k i : Nat) (a b : Node),
    order[i]? = some a → order[i + 1]? = some b →
    (pairLinks k order)[i]? = some
      { id := k + i, origin_id := a.id, origin_slot := 0, target_id := b.id, target_slot := 0,
        type := none } := by
  intro order
  induction order with
  | nil => intro k i a b h; simp at h
  | cons x t ih =>
    intro k i a b ha hb
    cases t with
    | nil => simp at hb
    | cons y rest =>
      cases i with
      | zero =>
        simp only [List.getElem?_cons_zero, Option.some.injEq, zero_add,
          List.getElem?_cons_succ] at ha hb
        subst ha; subst hb
        simp [pairLinks]
      | succ j =>
        simp only [List.getElem?_cons_succ] at ha hb
        have := ih (k + 1) j a b ha (by simpa using hb)
        simp only [pairLinks, List.getElem?_cons_succ, this]
        congr 2
        omega

theorem setFlowInLinks_id (k : Nat) (x y : Node) (h : setFlowInLinks k x = some y) :
    y.id = x.id ∧ (HasFlowSlots x → HasFlowSlots y) := by
  unfold setFlowInLinks at h
  split at h
  · simp only [Option.some.injEq] at h
    subst h
    refine ⟨rfl, fun hx => ⟨⟨_, _, rfl⟩, hx.2⟩⟩
  · simp at h

theorem setFlowOutLink_id (k : Nat) (x y : Node) (h : setFlowOutLink k x = some y) :
    y.id = x.id ∧ (HasFlowSlots x → HasFlowSlots y) := by
  unfold setFlowOutLink at h
  split at h
  · simp only [Option.some.injEq] at h
    subst h
    refine ⟨rfl, fun hx => ⟨hx.1, ⟨_, _, rfl⟩⟩⟩
  · simp at h

theorem setFlowInLinks_isSome (k : Nat) (x : Node) (h : HasFlowSlots x) :
    (setFlowInLinks k x).isSome := by
  obtain ⟨⟨fi, r, h1⟩, _⟩ := h
  simp [setFlowInLinks, h1]

theorem setFlowOutLink_isSome (k : Nat) (x : Node) (h : HasFlowSlots x) :
    (setFlowOutLink k x).isSome := by
  obtain ⟨_, ⟨fo, r, h1⟩⟩ := h
  simp [setFlowOutLink, h1]

/-- An update of one table entry that keeps ids and flow slots keeps every entry with flow
slots. -/
theorem updLast_hasFlow (f : Node → Option Node)
    (hf : ∀ x y, f x = some y → y.id = x.id ∧ (HasFlowSlots x → HasFlowSlots y))
    (k : Nat) (ns ns1 : List Node) (h : updLast Node.id k f ns = some ns1) (k1 : Nat)
    (hk1 : ∃ m, lastWith Node.id k1 ns = some m ∧ HasFlowSlots m) :
    ∃ m, lastWith Node.id k1 ns1 = some m ∧ HasFlowSlots m := by
  have hl := updLast_lastWith Node.id k f (fun x y e => (hf x y e).1) ns ns1 h k1
  obtain ⟨m, hm, hfm⟩ := hk1
  by_cases hk : k1 = k
  · subst hk
    obtain ⟨z, w, hz, hw⟩ := updLast_some Node.id k1 f ns ns1 h
    rw [hm] at hz
    simp only [Option.some.injEq] at hz
    subst hz
    rw [hl]
    simp only [if_true, hm, Option.some_bind, hw]
    exact ⟨w, rfl, (hf m w hw).2 hfm⟩
  · rw [hl, if_neg hk]
    exact ⟨m, hm, hfm⟩

theorem synthFlows_isSome :
    ∀ (order : List Node) (k : Nat) (acc : List Link) (ns : List Node),
      (∀ a ∈ order, ∃ m, lastWith Node.id a.id ns = some m ∧ HasFlowSlots m) →
      (synthFlows order k acc ns).isSome := by
  intro order
  induction order with
  | nil => intro k acc ns _; simp [synthFlows]
  | cons a t ih =>
    intro k acc ns hgood
    cases t with
    | nil => simp [synthFlows]
    | cons b rest =>
      simp only [synthFlows]
      obtain ⟨m, hm, hfm⟩ := hgood a (List.mem_cons_self _ _)
      have s1 := updLast_isSome Node.id a.id (setFlowInLinks k) ns m hm
        (setFlowInLinks_isSome k m hfm)
      obtain ⟨nodes1, h1⟩ := Option.isSome_iff_exists.mp s1
      rw [h1]
      simp only
      have g1 : ∀ c ∈ a :: b :: rest, ∃ m, lastWith Node.id c.id nodes1 = some m ∧ HasFlowSlots m :=
        fun c hc => updLast_hasFlow _ (setFlowInLinks_id k) a.id ns nodes1 h1 c.id (hgood c hc)
      obtain ⟨m1, hm1, hfm1⟩ := g1 a (List.mem_cons_self _ _)
      have s2 := updLast_isSome Node.id a.id (setFlowOutLink k) nodes1 m1 hm1
        (setFlowOutLink_isSome k m1 hfm1)
      obtain ⟨nodes2, h2⟩ := Option.isSome_iff_exists.mp s2
      rw [h2]
      simp only
      apply ih
      intro c hc
      exact updLast_hasFlow _ (setFlowOutLink_id k) a.id nodes1 nodes2 h2 c.id
        (g1 c (List.mem_cons_of_mem _ hc))

theorem addFlowSlots_id (n : Node) : (addFlowSlots n).id = n.id := by
  unfold addFlowSlots
  split <;> rfl

theorem addFlowSlots_hasFlow (n : Node) (h : n.type ≠ "Reroute") :
    HasFlowSlots (addFlowSlots n) := by
  unfold addFlowSlots
  rw [if_pos h]
  exact ⟨⟨_, _, rfl⟩, ⟨_, _, rfl⟩⟩

theorem pairLinks_origin : ∀ (order : List Node) (k : Nat),
    (pairLinks k order).map Link.origin_id = order.dropLast.map Node.id := by
  intro order
  induction order with
  | nil => intro k; simp [pairLinks]
  | cons a t ih =>
    intro k
    cases t with
    | nil => simp [pairLinks]
    | cons b rest => simp [pairLinks, ih (k + 1), List.dropLast]

theorem pairLinks_target : ∀ (order : List Node) (k : Nat),
    (pairLinks k order).map Link.target_id = order.tail.map Node.id := by
  intro order
  induction order with
  | nil => intro k; simp [pairLinks]
  | cons a t ih =>
    intro k
    cases t with
    | nil => simp [pairLinks]
    | cons b rest =>
      have := ih (k + 1)
      simp only [List.tail_cons] at this
      simp [pairLinks, this]

/-- What `convertOldVersionWorkflow` returns for a document without the flag. -/
theorem convert_unfold (d r : Doc) (links : List Link) (order : List Node)
    (hflag : d.support_flow_control ≠ some true) (hl : d.links = some links)
    (hfo : flowOrder d.nodes links = some order) (h : convertOldVersionWorkflow d = some r) :
    ∃ ns, synthFlows order 0 [] (d.nodes.map addFlowSlots) = some (pairLinks 0 order, ns) ∧
      r = { d with nodes := ns, flow_links := some (pairLinks 0 order) } := by
  unfold convertOldVersionWorkflow at h
  rw [if_neg hflag, hl] at h
  simp only [hfo] at h
  cases hs : synthFlows order 0 [] (d.nodes.map addFlowSlots) with
  | none => rw [hs] at h; simp at h
  | some p =>
    obtain ⟨fl, ns⟩ := p
    rw [hs] at h
    simp only [Option.some.injEq] at h
    have hfl := synthFlows_flows order 0 [] _ fl ns hs
    simp only [List.nil_append] at hfl
    subst hfl
    exact ⟨ns, rfl, by rw [← h, hl]⟩

/-- With pairwise distinct node ids `convertOldVersionWorkflow` returns whenever the flow order
is computed. -/
theorem convert_isSome (d : Doc) (links : List Link) (order : List Node)
    (hid : (d.nodes.map Node.id).Nodup) (hl : d.links = some links)
    (hfo : flowOrder d.nodes links = some order) : (convertOldVersionWorkflow d).isSome := by
  unfold convertOldVersionWorkflow
  by_cases hflag : d.support_flow_control = some true
  · rw [if_pos hflag]; rfl
  · rw [if_neg hflag, hl]
    simp only [hfo]
    have hk := flowOrder_KInv d.nodes links order hid hfo
    have hs := synthFlows_isSome order 0 [] (d.nodes.map addFlowSlots) (by
      intro a ha
      obtain ⟨hmem, hr⟩ := hk.2 a ha
      refine ⟨addFlowSlots a, ?_, addFlowSlots_hasFlow a hr⟩
      rw [lastWith_map Node.id addFlowSlots addFlowSlots_id, lastWith_of_nodup Node.id _ a hid hmem]
      rfl)
    obtain ⟨p, hp⟩ := Option.isSome_iff_exists.mp hs
    rw [hp]
    rfl

/-- C5 (evaluation at the failing input): in the document `rerouteFed` the node V (id 3) is fed
by a Reroute node without input; the flow order computed is `[A]`, so V does not occur in it. -/
theorem C5_reroute_fed_node_missing :
    (flowOrder rerouteFed.nodes (rerouteFed.links.getD [])).map (fun o => o.map Node.id) =
      some [1] := by
  decide

/-- C6: for a document with pairwise distinct node ids, no node and no node id occurs twice in
the flow order; hence, in the FLOW links that `convertOldVersionWorkflow` synthesizes, every
node id is the origin of at most one link and the target of at most one. -/
theorem C6_flow_order_nodup (d : Doc) (links : List Link) (order : List Node)
    (hid : (d.nodes.map Node.id).Nodup) (hl : d.links = some links)
    (hfo : flowOrder d.nodes links = some order) :
    order.Nodup ∧ (order.map Node.id).Nodup ∧
    ∀ r, d.support_flow_control ≠ some true → convertOldVersionWorkflow d = some r →
      ∃ fl, r.flow_links = some fl ∧
        ∀ k, (fl.map Link.origin_id).count k ≤ 1 ∧ (fl.map Link.target_id).count k ≤ 1 := by
  have hk := flowOrder_KInv d.nodes links order hid hfo
  refine ⟨List.Nodup.of_map _ hk.1, hk.1, ?_⟩
  intro r hflag hr
  obtain ⟨ns, _, rfl⟩ := convert_unfold d r links order hflag hl hfo hr
  refine ⟨pairLinks 0 order, rfl, fun k => ⟨?_, ?_⟩⟩
  · rw [pairLinks_origin]
    exact List.nodup_iff_count_le_one.mp
      (hk.1.sublist ((List.dropLast_sublist order).map Node.id)) k
  · rw [pairLinks_target]
    exact List.nodup_iff_count_le_one.mp
      (hk.1.sublist ((List.tail_sublist order).map Node.id)) k

/-- The statement C6 at the linear document A -> B -> C. -/
theorem C6_flow_order_nodup_witness :
    (linear3.nodes.map Node.id).Nodup ∧ linear3.nodes.Nodup :=
  ⟨by decide,
    (C6_flow_order_nodup linear3 (linear3.links.getD []) linear3.nodes (by decide) rfl
      (by decide)).1⟩

/-- C7: for a document without the flag whose flow order is n_0 .. n_(k-1),
`convertOldVersionWorkflow` (which returns whenever the node ids are pairwise distinct) sets
`flow_links` to exactly the k-1 links `[i, id(n_i), 0, id(n_(i+1)), 0]`, i = 0 .. k-2, and to
no link when k <= 1; the linear document A -> B -> C gets exactly the two links A -> B and
B -> C. -/
theorem C7_flow_links_consecutive :
    (∀ (d : Doc) (links : List Link) (order : List Node),
      d.support_flow_control ≠ some true → d.links = some links →
      flowOrder d.nodes links = some order →
      ((d.nodes.map Node.id).Nodup → (convertOldVersionWorkflow d).isSome) ∧
      ∀ r, convertOldVersionWorkflow d = some r →
        ∃ fl, r.flow_links = some fl ∧ fl.length = order.length - 1 ∧
          ∀ i a b, order[i]? = some a → order[i + 1]? = some b →
            fl[i]? = some
              { id := i, origin_id := a.id, origin_slot := 0, target_id := b.id,
                target_slot := 0, type := none }) ∧
    (convertOldVersionWorkflow linear3).map Doc.flow_links = some (some
      [ { id := 0, origin_id := 1, origin_slot := 0, target_id := 2, target_slot := 0,
          type := none },
        { id := 1, origin_id := 2, origin_slot := 0, target_id := 3, target_slot := 0,
          type := none } ]) := by
  refine ⟨?_, by decide⟩
  intro d links order hflag hl hfo
  refine ⟨fun hid => convert_isSome d links order hid hl hfo, ?_⟩
  intro r hr
  obtain ⟨ns, _, rfl⟩ := convert_unfold d r links order hflag hl hfo hr
  refine ⟨pairLinks 0 order, rfl, pairLinks_length order 0, ?_⟩
  intro i a b ha hb
  have := pairLinks_get order 0 i a b ha hb
  simpa using this

/-- The statement C7 at the linear document A -> B -> C. -/
theorem C7_flow_links_consecutive_witness : (convertOldVersionWorkflow linear3).isSome :=
  (C7_flow_links_consecutive.1 linear3 (linear3.links.getD []) linear3.nodes (by decide) rfl
    (by decide)).1 (by decide)

/-- C8 (evaluation at the failing input): on the linear document A -> B -> C the FLOW link 0
goes from A (id 1) to B (id 2) and the FLOW link 1 from B to C (id 3), but the link ids are
stored on the `flow_inputs` of the origins: A has `links = [0]`, B has `links = [1]` and C,
the target of link 1, keeps `links = null`. -/
theorem C8_flow_input_written_on_origin :
    (convertOldVersionWorkflow linear3).map (fun r =>
      (r.flow_links,
       r.nodes.map (fun n =>
        (n.id, n.flow_inputs.map (fun l => l.map FlowIn.links),
          n.flow_outputs.map (fun l => l.map FlowOut.link))))) =
    some (some
      [ { id := 0, origin_id := 1, origin_slot := 0, target_id := 2, target_slot := 0,
          type := none },
        { id := 1, origin_id := 2, origin_slot := 0, target_id := 3, target_slot := 0,
          type := none } ],
      [ (1, some [some [some 0]], some [some 0]),
        (2, some [some [some 1]], some [some 1]),
        (3, some [none], some [none]) ]) := by
  rfl

/-- C9 (counterexample): the linear document A -> B -> C has no flag, and the document that
`convertOldVersionWorkflow` returns for it has none either. -/
theorem C9_counterexample :
    linear3.support_flow_control ≠ some true ∧
    ∃ r, convertOldVersionWorkflow linear3 = some r ∧ r.support_flow_control ≠ some true := by
  refine ⟨by decide, ?_⟩
  cases h : convertOldVersionWorkflow linear3 with
  | none => exact absurd h (by decide)
  | some r =>
    refine ⟨r, rfl, ?_⟩
    have : (convertOldVersionWorkflow linear3).map Doc.support_flow_control = some none := by
      decide
    rw [h] at this
    simp only [Option.map_some', Option.some.injEq] at this
    rw [this]
    decide

theorem compactNodes_workflow (w c : Doc) (pf : Flows)
    (h : workflowToCworkflow w = some (c, pf)) : c.support_flow_control = some true := by
  unfold workflowToCworkflow at h
  simp only at h
  split at h
  · simp at h
  · split at h
    · simp at h
    · simp only [Option.some.injEq, Prod.mk.injEq] at h
      rw [← h.1]

/-- C9 (amended): `convertOldVersionWorkflow` never writes the flag, the document it returns
carries the flag of its input; the flag is written by `workflowToCworkflow`, and a document
returned by `workflowToCworkflow` is returned unchanged by `convertOldVersionWorkflow`, without
any synthesis of FLOW links. -/
theorem C9_flag_written_by_compaction :
    (∀ d r, convertOldVersionWorkflow d = some r →
      r.support_flow_control = d.support_flow_control) ∧
    (∀ w c pf, workflowToCworkflow w = some (c, pf) →
      c.support_flow_control = some true ∧ convertOldVersionWorkflow c = some c) := by
  constructor
  · intro d r h
    unfold convertOldVersionWorkflow at h
    by_cases hflag : d.support_flow_control = some true
    · rw [if_pos hflag] at h
      simp only [Option.some.injEq] at h
      rw [h]
    · rw [if_neg hflag] at h
      split at h
      · simp at h
      · split at h
        · simp at h
        · split at h
          · simp at h
          · simp only [Option.some.injEq] at h
            rw [← h]
  · intro w c pf h
    have hc := compactNodes_workflow w c pf h
    exact ⟨hc, by unfold convertOldVersionWorkflow; rw [if_pos hc]⟩

/-- The statement C9 (amended) at the linear document and at its converted, expanded and
compacted form. -/
theorem C9_flag_written_by_compaction_witness :
    (convertOldVersionWorkflow linear3).map Doc.support_flow_control = some none := by
  cases h : convertOldVersionWorkflow linear3 with
  | none => exact absurd h (by decide)
  | some r => simp [C9_flag_written_by_compaction.1 linear3 r h, linear3]

/-! ### The link table under shifts -/

theorem lastWith_isSome_iff {α : Type} (key : α → Nat) (k : Nat) (xs : List α) :
    (lastWith key k xs).isSome ↔ k ∈ xs.map key := by
  constructor
  · intro h
    obtain ⟨x, hx⟩ := Option.isSome_iff_exists.mp h
    obtain ⟨h1, h2⟩ := lastWith_some key k xs x hx
    exact h2 ▸ List.mem_map_of_mem key h1
  · intro h
    cases hl : lastWith key k xs with
    | some x => rfl
    | none =>
      obtain ⟨x, hx, hk⟩ := List.mem_map.mp h
      exact absurd hk ((lastWith_none key k xs).mp hl x hx)

theorem lastWith_eq_none_iff {α : Type} (key : α → Nat) (k : Nat) (xs : List α) :
    lastWith key k xs = none ↔ k ∉ xs.map key := by
  rw [← lastWith_isSome_iff, Option.not_isSome_iff_eq_none]

theorem shiftLink_id (p : Int × Int) (l : Link) : (shiftLink p l).id = l.id := rfl

theorem shiftLink_type (p : Int × Int) (l : Link) : (shiftLink p l).type = l.type := rfl

theorem shiftLink_zero (l : Link) : shiftLink (0, 0) l = l := by
  simp [shiftLink]

theorem shiftLink_shiftLink (p q : Int × Int) (l : Link) :
    shiftLink q (shiftLink p l) = shiftLink (p + q) l := by
  simp [shiftLink, add_assoc]

theorem shiftLinks_ids (δ : Nat → Int × Int) : ∀ (ls : List Link),
    (shiftLinks δ ls).map Link.id = ls.map Link.id := by
  intro ls
  induction ls with
  | nil => rfl
  | cons l rest ih =>
    simp only [shiftLinks, List.map_cons, ih]
    cases lastWith Link.id l.id rest <;> rfl

theorem shiftLinks_types (δ : Nat → Int × Int) : ∀ (ls : List Link),
    (shiftLinks δ ls).map Link.type = ls.map Link.type := by
  intro ls
  induction ls with
  | nil => rfl
  | cons l rest ih =>
    simp only [shiftLinks, List.map_cons, ih]
    cases lastWith Link.id l.id rest <;> rfl

theorem shiftLinks_congr (δ ε : Nat → Int × Int) : ∀ (ls : List Link),
    (∀ k ∈ ls.map Link.id, δ k = ε k) → shiftLinks δ ls = shiftLinks ε ls := by
  intro ls
  induction ls with
  | nil => intro _; rfl
  | cons l rest ih =>
    intro h
    simp only [shiftLinks]
    rw [ih (fun k hk => h k (by simp only [List.map_cons]; exact List.mem_cons_of_mem _ hk)),
      h l.id (by simp)]

theorem shiftLinks_zero : ∀ (ls : List Link), shiftLinks (fun _ => (0, 0)) ls = ls := by
  intro ls
  induction ls with
  | nil => rfl
  | cons l rest ih =>
    simp only [shiftLinks, ih, shiftLink_zero]
    cases lastWith Link.id l.id rest <;> rfl

/-- One in-place update of a table entry, on a shifted table. -/
theorem updLast_shiftLinks (p : Int × Int) (k : Nat) (δ : Nat → Int × Int) :
    ∀ (ls : List Link), k ∈ ls.map Link.id →
      updLast Link.id k (fun l => some (shiftLink p l)) (shiftLinks δ ls) =
        some (shiftLinks (fun j => if j = k then δ j + p else δ j) ls) := by
  intro ls
  induction ls with
  | nil => intro h; simp at h
  | cons l rest ih =>
    intro hk
    simp only [shiftLinks]
    unfold updLast
    by_cases hr : k ∈ rest.map Link.id
    · have h1 : (lastWith Link.id k (shiftLinks δ rest)).isSome := by
        rw [lastWith_isSome_iff, shiftLinks_ids]; exact hr
      obtain ⟨z, hz⟩ := Option.isSome_iff_exists.mp h1
      rw [hz]
      simp only [ih hr, Option.map_some']
      cases hl : lastWith Link.id l.id rest with
      | some w => rfl
      | none =>
        have hne : l.id ≠ k := by
          intro e
          rw [lastWith_eq_none_iff] at hl
          exact hl (e ▸ hr)
        simp [hne]
    · have h1 : lastWith Link.id k (shiftLinks δ rest) = none := by
        rw [lastWith_eq_none_iff, shiftLinks_ids]; exact hr
      rw [h1]
      have hlk : l.id = k := by
        simp only [List.map_cons, List.mem_cons] at hk
        rcases hk with e | e
        · exact e.symm
        · exact absurd e hr
      subst hlk
      have hl : lastWith Link.id l.id rest = none := by
        rw [lastWith_eq_none_iff]; exact hr
      rw [shiftLinks_congr δ (fun j => if j = l.id then δ j + p else δ j) rest (by
        intro j hj
        have : j ≠ l.id := fun e => hr (e ▸ hj)
        simp [this])]
      simp only [hl, shiftLink_id, if_true, Option.map_some', shiftLink_shiftLink]

theorem addTargetSlot_eq (c : Int) (k : Nat) (ls : List Link) :
    addTargetSlot c k ls = updLast Link.id k (fun l => some (shiftLink (0, c) l)) ls := by
  unfold addTargetSlot
  congr 1
  funext l
  simp [shiftLink]

theorem addOriginSlot_eq (c : Int) (k : Nat) (ls : List Link) :
    addOriginSlot c k ls = updLast Link.id k (fun l => some (shiftLink (c, 0) l)) ls := by
  unfold addOriginSlot
  congr 1
  funext l
  simp [shiftLink]

/-- The loop over data inputs adds `c` to the target slot once per slot that carries the id. -/
theorem inputFold_shift (c : Int) (ls : List Link) :
    ∀ (slots : List InputSlot) (δ : Nat → Int × Int),
      (∀ s ∈ slots, ∀ k, s.link = some k → k ∈ ls.map Link.id) →
      slots.foldlM (fun acc slot =>
        match slot.link with
        | none => some acc
        | some link_id => addTargetSlot c link_id acc) (shiftLinks δ ls) =
      some (shiftLinks (fun j => δ j + (0, c * (inCount slots j : Int))) ls) := by
  intro slots
  induction slots with
  | nil =>
    intro δ _
    simp only [List.foldlM_nil, Option.pure_def, Option.some.injEq, inCount, List.filter_nil,
      List.length_nil, Nat.cast_zero, mul_zero]
    exact shiftLinks_congr _ _ ls (fun k _ => by simp)
  | cons s rest ih =>
    intro δ h
    simp only [List.foldlM_cons, Option.bind_eq_bind]
    have hrest : ∀ t ∈ rest, ∀ k, t.link = some k → k ∈ ls.map Link.id :=
      fun t ht => h t (List.mem_cons_of_mem _ ht)
    cases hs : s.link with
    | none =>
      simp only [Option.some_bind]
      rw [ih δ hrest]
      congr 1
      apply shiftLinks_congr
      intro k _
      simp [inCount, List.filter_cons, hs]
    | some k0 =>
      simp only
      rw [addTargetSlot_eq, updLast_shiftLinks _ _ _ _ (h s (List.mem_cons_self _ _) k0 hs)]
      simp only [Option.some_bind]
      rw [ih _ hrest]
      congr 1
      apply shiftLinks_congr
      intro k _
      by_cases hk : k = k0
      · subst hk
        simp only [if_true, inCount, List.filter_cons, hs, decide_True, List.length_cons,
          Nat.cast_add, Nat.cast_one]
        ext <;> simp; ring
      · have : ¬ (some k0 = some k) := by simpa using Ne.symm hk
        simp [hk, inCount, List.filter_cons, hs, this]

theorem idsFold_shift (c : Int) (ls : List Link) :
    ∀ (ids : List Nat) (δ : Nat → Int × Int), (∀ k ∈ ids, k ∈ ls.map Link.id) →
      ids.foldlM (fun acc linkid => addOriginSlot c linkid acc) (shiftLinks δ ls) =
      some (shiftLinks (fun j => δ j + (c * (ids.count j : Int), 0)) ls) := by
  intro ids
  induction ids with
  | nil =>
    intro δ _
    simp only [List.foldlM_nil, Option.pure_def, Option.some.injEq, List.count_nil,
      Nat.cast_zero, mul_zero]
    exact shiftLinks_congr _ _ ls (fun k _ => by simp)
  | cons k0 rest ih =>
    intro δ h
    simp only [List.foldlM_cons, Option.bind_eq_bind]
    rw [addOriginSlot_eq, updLast_shiftLinks _ _ _ _ (h k0 (List.mem_cons_self _ _))]
    simp only [Option.some_bind]
    rw [ih _ (fun k hk => h k (List.mem_cons_of_mem _ hk))]
    congr 1
    apply shiftLinks_congr
    intro k _
    by_cases hk : k = k0
    · subst hk
      simp only [if_true, List.count_cons_self, Nat.cast_add, Nat.cast_one]
      ext <;> simp; ring
    · have : (k0 == k) = false := by simpa using Ne.symm hk
      simp [hk, List.count_cons, this]

/-- The loop over data outputs adds `c` to the origin slot once per occurrence of the id. -/
theorem outputFold_shift (c : Int) (ls : List Link) :
    ∀ (slots : List OutputSlot) (δ : Nat → Int × Int),
      (∀ s ∈ slots, ∀ ids, s.links = JLinks.arr ids → ∀ k ∈ ids, k ∈ ls.map Link.id) →
      slots.foldlM (fun acc slot =>
        match slot.links with
        | JLinks.arr link_ids => link_ids.foldlM (fun acc linkid => addOriginSlot c linkid acc) acc
        | _ => some acc) (shiftLinks δ ls) =
      some (shiftLinks (fun j => δ j + (c * (outCount slots j : Int), 0)) ls) := by
  intro slots
  induction slots with
  | nil =>
    intro δ _
    simp only [List.foldlM_nil, Option.pure_def, Option.some.injEq, outCount, Nat.cast_zero,
      mul_zero]
    exact shiftLinks_congr _ _ ls (fun k _ => by simp)
  | cons s rest ih =>
    intro δ h
    simp only [List.foldlM_cons, Option.bind_eq_bind]
    have hrest : ∀ t ∈ rest, ∀ ids, t.links = JLinks.arr ids → ∀ k ∈ ids, k ∈ ls.map Link.id :=
      fun t ht => h t (List.mem_cons_of_mem _ ht)
    cases hs : s.links with
    | arr ids =>
      simp only
      rw [idsFold_shift c ls ids δ (h s (List.mem_cons_self _ _) ids hs)]
      simp only [Option.some_bind]
      rw [ih _ hrest]
      congr 1
      apply shiftLinks_congr
      intro k _
      simp only [outCount, hs, Nat.cast_add]
      ext <;> simp; ring
    | null =>
      simp only [Option.some_bind]
      rw [ih δ hrest]
      congr 1
      apply shiftLinks_congr
      intro k _
      simp [outCount, hs]
    | num n =>
      simp only [Option.some_bind]
      rw [ih δ hrest]
      congr 1
      apply shiftLinks_congr
      intro k _
      simp [outCount, hs]

theorem unshiftInputLinks_eq (ls : List Link) :
    ∀ (slots : List InputSlot) (δ : Nat → Int × Int),
      (∀ s ∈ slots, s.type ≠ "FLOW" → ∀ k, s.link = some k → k ∈ ls.map Link.id) →
      unshiftInputLinks slots (shiftLinks δ ls) =
      some (shiftLinks (fun j => δ j + (0, (-1) * (inCount (dataInputs slots) j : Int))) ls) := by
  intro slots δ h
  have key : ∀ (sl : List InputSlot) (acc : List Link),
      unshiftInputLinks sl acc = (dataInputs sl).foldlM (fun acc slot =>
        match slot.link with
        | none => some acc
        | some link_id => addTargetSlot (-1) link_id acc) acc := by
    intro sl
    induction sl with
    | nil => intro acc; rfl
    | cons s rest ih =>
      intro acc
      unfold unshiftInputLinks at ih ⊢
      simp only [List.foldlM_cons, Option.bind_eq_bind, dataInputs, List.filter_cons]
      by_cases hf : s.type = "FLOW"
      · simp only [hf, ne_eq, not_true_eq_false, decide_False, if_false]
        cases s.link with
        | none => simp only [Option.some_bind]; exact ih acc
        | some k => simp only [if_false, Option.some_bind]; exact ih acc
      · simp only [hf, ne_eq, not_false_eq_true, decide_True, if_true, List.foldlM_cons,
          Option.bind_eq_bind]
        cases s.link with
        | none => simp only [Option.some_bind]; exact ih acc
        | some k =>
          simp only
          cases addTargetSlot (-1) k acc with
          | none => rfl
          | some acc1 => simp only [Option.some_bind]; exact ih acc1
  rw [key]
  exact inputFold_shift (-1) ls (dataInputs slots) δ (by
    intro s hs k hk
    simp only [dataInputs, List.mem_filter, decide_eq_true_eq] at hs
    exact h s hs.1 hs.2 k hk)

theorem unshiftOutputLinks_eq (ls : List Link) :
    ∀ (slots : List OutputSlot) (δ : Nat → Int × Int),
      (∀ s ∈ slots, s.type ≠ "FLOW" → ∀ ids, s.links = JLinks.arr ids →
        ∀ k ∈ ids, k ∈ ls.map Link.id) →
      unshiftOutputLinks slots (shiftLinks δ ls) =
      some (shiftLinks (fun j => δ j + ((-1) * (outCount (dataOutputs slots) j : Int), 0)) ls) := by
  intro slots δ h
  have key : ∀ (sl : List OutputSlot) (acc : List Link),
      unshiftOutputLinks sl acc = (dataOutputs sl).foldlM (fun acc slot =>
        match slot.links with
        | JLinks.arr link_ids =>
          link_ids.foldlM (fun acc linkid => addOriginSlot (-1) linkid acc) acc
        | _ => some acc) acc := by
    intro sl
    induction sl with
    | nil => intro acc; rfl
    | cons s rest ih =>
      intro acc
      unfold unshiftOutputLinks at ih ⊢
      simp only [List.foldlM_cons, Option.bind_eq_bind, dataOutputs, List.filter_cons]
      by_cases hf : s.type = "FLOW"
      · simp only [hf, ne_eq, not_true_eq_false, decide_False, if_false]
        cases s.links with
        | null => simp only [Option.some_bind]; exact ih acc
        | num n => simp only [Option.some_bind]; exact ih acc
        | arr ids => simp only [if_false, Option.some_bind]; exact ih acc
      · simp only [hf, ne_eq, not_false_eq_true, decide_True, if_true, List.foldlM_cons,
          Option.bind_eq_bind]
        cases s.links with
        | null => simp only [Option.some_bind]; exact ih acc
        | num n => simp only [Option.some_bind]; exact ih acc
        | arr ids =>
          simp only
          cases List.foldlM (fun acc linkid => addOriginSlot (-1) linkid acc) acc ids with
          | none => rfl
          | some acc1 => simp only [Option.some_bind]; exact ih acc1
  rw [key]
  exact outputFold_shift (-1) ls (dataOutputs slots) δ (by
    intro s hs ids hids
    simp only [dataOutputs, List.mem_filter, decide_eq_true_eq] at hs
    exact h s hs.1 hs.2 ids hids)

/-- The loop that removes the FLOW inputs: the data inputs remain, and each link recorded on a
data input loses one per FLOW input in front of it. -/
theorem stripInputs_shift (ls : List Link) :
    ∀ (slots : List InputSlot) (δ : Nat → Int × Int),
      (∀ s ∈ slots, s.type ≠ "FLOW" → ∀ k, s.link = some k → k ∈ ls.map Link.id) →
      stripInputs slots (shiftLinks δ ls) =
      some (dataInputs slots,
        shiftLinks (fun j => δ j + (0, -(stripInCount slots j : Int))) ls) := by
  intro slots
  induction slots with
  | nil =>
    intro δ _
    simp only [stripInputs, dataInputs, List.filter_nil, stripInCount, Nat.cast_zero, neg_zero,
      Option.some.injEq, Prod.mk.injEq, true_and]
    exact shiftLinks_congr _ _ ls (fun k _ => by simp)
  | cons s rest ih =>
    intro δ h
    have hrest : ∀ t ∈ rest, t.type ≠ "FLOW" → ∀ k, t.link = some k → k ∈ ls.map Link.id :=
      fun t ht => h t (List.mem_cons_of_mem _ ht)
    simp only [stripInputs, ih δ hrest]
    by_cases hf : s.type = "FLOW"
    · simp only [hf, if_true]
      rw [unshiftInputLinks_eq ls (dataInputs rest) _ (by
        intro t ht _ k hk
        simp only [dataInputs, List.mem_filter, decide_eq_true_eq] at ht
        exact hrest t ht.1 ht.2 k hk)]
      simp only [Option.map_some', Option.some.injEq, Prod.mk.injEq]
      refine ⟨by simp [dataInputs, List.filter_cons, hf], ?_⟩
      apply shiftLinks_congr
      intro k _
      have hdd : dataInputs (dataInputs rest) = dataInputs rest := by
        simp [dataInputs, List.filter_filter]
      simp only [stripInCount, hf, if_true, hdd, Nat.cast_add]
      ext <;> simp; ring
    · simp only [hf, if_false, Option.some.injEq, Prod.mk.injEq]
      refine ⟨by simp [dataInputs, List.filter_cons, hf], ?_⟩
      apply shiftLinks_congr
      intro k _
      simp [stripInCount, hf]

/-- The loop that removes the FLOW outputs. -/
theorem stripOutputs_shift (ls : List Link) :
    ∀ (slots : List OutputSlot) (δ : Nat → Int × Int),
      (∀ s ∈ slots, s.type ≠ "FLOW" → ∀ ids, s.links = JLinks.arr ids →
        ∀ k ∈ ids, k ∈ ls.map Link.id) →
      stripOutputs slots (shiftLinks δ ls) =
      some (dataOutputs slots,
        shiftLinks (fun j => δ j + (-(stripOutCount slots j : Int), 0)) ls) := by
  intro slots
  induction slots with
  | nil =>
    intro δ _
    simp only [stripOutputs, dataOutputs, List.filter_nil, stripOutCount, Nat.cast_zero, neg_zero,
      Option.some.injEq, Prod.mk.injEq, true_and]
    exact shiftLinks_congr _ _ ls (fun k _ => by simp)
  | cons s rest ih =>
    intro δ h
    have hrest : ∀ t ∈ rest, t.type ≠ "FLOW" → ∀ ids, t.links = JLinks.arr ids →
        ∀ k ∈ ids, k ∈ ls.map Link.id :=
      fun t ht => h t (List.mem_cons_of_mem _ ht)
    simp only [stripOutputs, ih δ hrest]
    by_cases hf : s.type = "FLOW"
    · simp only [hf, if_true]
      rw [unshiftOutputLinks_eq ls (dataOutputs rest) _ (by
        intro t ht _ ids hids
        simp only [dataOutputs, List.mem_filter, decide_eq_true_eq] at ht
        exact hrest t ht.1 ht.2 ids hids)]
      simp only [Option.map_some', Option.some.injEq, Prod.mk.injEq]
      refine ⟨by simp [dataOutputs, List.filter_cons, hf], ?_⟩
      apply shiftLinks_congr
      intro k _
      have hdd : dataOutputs (dataOutputs rest) = dataOutputs rest := by
        simp [dataOutputs, List.filter_filter]
      simp only [stripOutCount, hf, if_true, hdd, Nat.cast_add]
      ext <;> simp; ring
    · simp only [hf, if_false, Option.some.injEq, Prod.mk.injEq]
      refine ⟨by simp [dataOutputs, List.filter_cons, hf], ?_⟩
      apply shiftLinks_congr
      intro k _
      simp [stripOutCount, hf]

/-! ### cworkflowToWorkflow, one node and all nodes -/

theorem foldr_cons_map {α β : Type} (g : α → β) (xs : List α) (acc : List β) :
    xs.foldr (fun x acc => g x :: acc) acc = xs.map g ++ acc := by
  induction xs with
  | nil => rfl
  | cons x xs ih => simp [ih]

theorem mem_option_iff {k : Nat} {o : Option Nat} : k ∈ o ↔ o = some k := Iff.rfl

/-- One round of the loop "add flow inputs & outputs", on a shifted table. -/
theorem expandNode_shift (ls : List Link) (δ : Nat → Int × Int) (n : Node)
    (hfi : n.flow_inputs.isSome) (hfo : n.flow_outputs.isSome)
    (hnf : NoFlowSlots n) (hok : DataLinksOK (ls.map Link.id) n) :
    expandNode (shiftLinks δ ls) n =
      some (shiftLinks (fun j => δ j + nodeShift n j) ls, expandedNode n) := by
  obtain ⟨fis, hfis⟩ := Option.isSome_iff_exists.mp hfi
  obtain ⟨fos, hfos⟩ := Option.isSome_iff_exists.mp hfo
  unfold expandNode
  simp only [hfis, hfos, foldr_cons_map]
  have hd1 : List.drop fis.length (fis.map mkFlowInput ++ n.inputs.getD []) = n.inputs.getD [] := by
    rw [List.drop_append_of_le_length (by simp)]
    simp
  have hlen : (fos.enum.map (fun p => mkFlowOutput p.1 p.2)).length = fos.length := by simp
  have hd2 : List.drop fos.length (fos.enum.map (fun p => mkFlowOutput p.1 p.2) ++ n.outputs.getD [])
      = n.outputs.getD [] := by
    rw [List.drop_append_of_le_length (by simp)]
    simp
  have ht2 : List.take fos.length (fos.enum.map (fun p => mkFlowOutput p.1 p.2) ++ n.outputs.getD [])
      = fos.enum.map (fun p => mkFlowOutput p.1 p.2) := by
    rw [List.take_append_of_le_length (by simp)]
    simp
  rw [hd1, hd2, ht2]
  have e1 : shiftInputLinks fis.length (n.inputs.getD []) (shiftLinks δ ls) =
      some (shiftLinks (fun j => δ j + (0, (fis.length : Int) * (inCount (n.inputs.getD []) j : Int))) ls) :=
    inputFold_shift (fis.length : Int) ls (n.inputs.getD []) δ (by
      intro s hs k hk
      exact hok.1 s hs (hnf.1 s hs) k hk)
  rw [e1]
  simp only
  have e2 : ∀ ε, shiftOutputLinks fos.length (n.outputs.getD []) (shiftLinks ε ls) =
      some (shiftLinks (fun j => ε j + ((fos.length : Int) * (outCount (n.outputs.getD []) j : Int), 0)) ls) :=
    fun ε => outputFold_shift (fos.length : Int) ls (n.outputs.getD []) ε (by
      intro s hs ids hids k hk
      exact hok.2 s hs (hnf.2 s hs) k (by simp [JLinks.ids, hids, hk]))
  rw [e2]
  simp only [Option.some.injEq, Prod.mk.injEq]
  refine ⟨?_, ?_⟩
  · apply shiftLinks_congr
    intro k _
    simp only [nodeShift, hfis, hfos, Option.getD_some]
    ext <;> simp
  · simp [expandedNode, hfis, hfos]

/-- The loop "add flow inputs & outputs" over all nodes, on a shifted table. -/
theorem expandNodes_shift (ls : List Link) :
    ∀ (nodes : List Node) (δ : Nat → Int × Int),
      (∀ n ∈ nodes, n.flow_inputs.isSome ∧ n.flow_outputs.isSome ∧ NoFlowSlots n ∧
        DataLinksOK (ls.map Link.id) n) →
      expandNodes nodes (shiftLinks δ ls) =
        some (shiftLinks (fun j => δ j + totalShift nodes j) ls, nodes.map expandedNode) := by
  intro nodes
  induction nodes with
  | nil =>
    intro δ _
    simp only [expandNodes, totalShift, List.map_nil, Option.some.injEq, Prod.mk.injEq, and_true]
    exact shiftLinks_congr _ _ ls (fun k _ => by simp)
  | cons n rest ih =>
    intro δ h
    obtain ⟨h1, h2, h3, h4⟩ := h n (List.mem_cons_self _ _)
    simp only [expandNodes, expandNode_shift ls δ n h1 h2 h3 h4]
    rw [ih _ (fun m hm => h m (List.mem_cons_of_mem _ hm))]
    simp only [List.map_cons, Option.some.injEq, Prod.mk.injEq, and_true]
    apply shiftLinks_congr
    intro k _
    simp only [totalShift]
    ext <;> simp [add_assoc]

theorem expandedNode_expanded (n : Node) : Expanded n (expandedNode n) :=
  ⟨rfl, rfl, rfl, rfl, _, _, rfl, rfl, rfl, rfl⟩

/-! ### Table updates on two lists related element by element -/

theorem forall2_lastWith {α β : Type} (R : α → β → Prop) (keyX : α → Nat) (keyY : β → Nat)
    (hkey : ∀ x y, R x y → keyY y = keyX x) (k : Nat) :
    ∀ (xs : List α) (ys : List β), List.Forall₂ R xs ys →
      (lastWith keyX k xs = none ∧ lastWith keyY k ys = none) ∨
      (∃ x y, lastWith keyX k xs = some x ∧ lastWith keyY k ys = some y ∧ R x y) := by
  intro xs ys h
  induction h with
  | nil => left; exact ⟨rfl, rfl⟩
  | @cons x0 y0 xs ys hxy _ ih =>
    unfold lastWith
    rcases ih with ⟨h1, h2⟩ | ⟨x, y, h1, h2, h3⟩
    · rw [h1, h2]
      simp only [hkey x0 y0 hxy]
      by_cases hk : keyX x0 = k
      · right; exact ⟨x0, y0, by simp [hk], by simp [hk], hxy⟩
      · left; exact ⟨by simp [hk], by simp [hk]⟩
    · rw [h1, h2]
      right
      exact ⟨x, y, rfl, rfl, h3⟩

/-- An update of the table entry `k` that keeps the relation to the reference entry keeps the
relation of the lists, and succeeds. -/
theorem updLast_forall2 {α β : Type} (R : α → β → Prop) (keyX : α → Nat) (keyY : β → Nat)
    (hkey : ∀ x y, R x y → keyY y = keyX x) (k : Nat) (f : β → Option β) (x : α)
    (hf : ∀ y, R x y → ∃ y1, f y = some y1 ∧ R x y1) :
    ∀ (xs : List α) (ys : List β), List.Forall₂ R xs ys → lastWith keyX k xs = some x →
      ∃ ys1, updLast keyY k f ys = some ys1 ∧ List.Forall₂ R xs ys1 := by
  intro xs ys h
  induction h with
  | nil => intro hx; simp [lastWith] at hx
  | @cons x0 y0 xs ys hxy htail ih =>
    intro hx
    unfold lastWith at hx
    unfold updLast
    rcases forall2_lastWith R keyX keyY hkey k xs ys htail with ⟨h1, h2⟩ | ⟨x1, y1, h1, h2, _⟩
    · rw [h1] at hx
      rw [h2]
      simp only at hx ⊢
      by_cases hk : keyX x0 = k
      · rw [if_pos hk] at hx
        simp only [Option.some.injEq] at hx
        subst hx
        rw [if_pos ((hkey x0 y0 hxy).trans hk)]
        obtain ⟨y2, hy2, hr⟩ := hf y0 hxy
        exact ⟨y2 :: ys, by simp [hy2], List.Forall₂.cons hr htail⟩
      · rw [if_neg hk] at hx
        simp at hx
    · rw [h1] at hx
      rw [h2]
      simp only at hx ⊢
      obtain ⟨ys1, hys1, hr⟩ := ih (by rw [h1]; exact hx)
      exact ⟨y0 :: ys1, by simp [hys1], List.Forall₂.cons hxy hr⟩

theorem set_map_eq {α β : Type} (g : α → β) (f : α → α) (hg : ∀ x, g (f x) = g x) :
    ∀ (xs : List α) (n : Nat) (x : α), xs[n]? = some x → (xs.set n (f x)).map g = xs.map g := by
  intro xs
  induction xs with
  | nil => intro n x h; simp at h
  | cons y ys ih =>
    intro n x h
    cases n with
    | zero =>
      simp only [List.getElem?_cons_zero, Option.some.injEq] at h
      subst h
      simp [hg]
    | succ m =>
      simp only [List.getElem?_cons_succ] at h
      simp [ih m x h]

/-- An update inside the first block of a list. -/
theorem setAt_append_left {α β : Type} (g : α → β) (f : α → α) (hg : ∀ x, g (f x) = g x)
    (xs ys : List α) (i : Int) (h0 : 0 ≤ i) (h1 : i < (xs.length : Int)) :
    ∃ xs1, setAt (xs ++ ys) i f = some (xs1 ++ ys) ∧ xs1.map g = xs.map g := by
  have hn : i.toNat < xs.length := by omega
  unfold setAt
  rw [if_pos h0, List.getElem?_append_left hn, List.getElem?_eq_getElem hn]
  refine ⟨xs.set i.toNat (f xs[i.toNat]), ?_, ?_⟩
  · simp [List.set_append_left _ _ hn]
  · exact set_map_eq g f hg xs i.toNat _ (List.getElem?_eq_getElem hn)

/-- An update anywhere in a list keeps what the update keeps, and the length. -/
theorem setAt_map {α β : Type} (g : α → β) (f : α → α) (hg : ∀ x, g (f x) = g x)
    (xs : List α) (i : Int) (h0 : 0 ≤ i) (h1 : i < (xs.length : Int)) :
    ∃ xs1, setAt xs i f = some xs1 ∧ xs1.map g = xs.map g := by
  obtain ⟨xs1, h, hm⟩ := setAt_append_left g f hg xs [] i h0 h1
  exact ⟨xs1, by simpa using h, hm⟩

/-- The loop over `flow_links`, for any relation `R` of the node list to a reference list that
the two slot updates keep for slots allowed by `okO` and `okI`. -/
theorem addFlowLinks_forall2 (R : Node → Node → Prop) (okO okI : Node → Int → Prop)
    (hid : ∀ x y, R x y → y.id = x.id)
    (hO : ∀ x y s id, R x y → okO x s → ∃ y1, setOutputLinks s id y = some y1 ∧ R x y1)
    (hI : ∀ x y s id, R x y → okI x s → ∃ y1, setInputLink s id y = some y1 ∧ R x y1)
    (xs : List Node) :
    ∀ (fls : List Link) (last : Nat) (links : List Link) (ys : List Node),
      List.Forall₂ R xs ys →
      (∀ fl ∈ fls, (∃ o ∈ lastWith Node.id fl.origin_id xs, okO o fl.origin_slot) ∧
        (∃ t ∈ lastWith Node.id fl.target_id xs, okI t fl.target_slot)) →
      ∃ ys1, addFlowLinks fls last links ys =
          some (last + fls.length, links ++ flowEntries last fls, ys1) ∧
        List.Forall₂ R xs ys1 := by
  intro fls
  induction fls with
  | nil =>
    intro last links ys hr _
    exact ⟨ys, by simp [addFlowLinks, flowEntries], hr⟩
  | cons fl rest ih =>
    intro last links ys hr hok
    obtain ⟨⟨o, ho, hoo⟩, ⟨t, ht, hto⟩⟩ := hok fl (List.mem_cons_self _ _)
    obtain ⟨ys1, h1, hr1⟩ := updLast_forall2 R Node.id Node.id hid fl.origin_id
      (setOutputLinks fl.origin_slot (last + 1)) o
      (fun y hy => hO o y fl.origin_slot (last + 1) hy hoo) xs ys hr ho
    obtain ⟨ys2, h2, hr2⟩ := updLast_forall2 R Node.id Node.id hid fl.target_id
      (setInputLink fl.target_slot (last + 1)) t
      (fun y hy => hI t y fl.target_slot (last + 1) hy hto) xs ys1 hr1 ht
    obtain ⟨ys3, h3, hr3⟩ := ih (last + 1) (links ++ [flowLinkEntry (last + 1) fl]) ys2 hr2
      (fun f hf => hok f (List.mem_cons_of_mem _ hf))
    refine ⟨ys3, ?_, hr3⟩
    simp only [addFlowLinks, h1, h2, h3, flowEntries, List.length_cons, Option.some.injEq,
      Prod.mk.injEq, List.append_assoc, List.singleton_append, and_true]
    omega

theorem eraseLink_set (id : Nat) (s : InputSlot) :
    eraseLink { s with link := some id } = eraseLink s := rfl

theorem eraseLinks_set (id : Nat) (s : OutputSlot) :
    eraseLinks { s with links := JLinks.arr [id] } = eraseLinks s := rfl

theorem expanded_flow_lengths (n : Node) (F : List InputSlot) (G : List OutputSlot)
    (hF : F.map eraseLink = ((n.flow_inputs.getD []).map mkFlowInput).map eraseLink)
    (hG : G.map eraseLinks =
      ((n.flow_outputs.getD []).enum.map (fun p => mkFlowOutput p.1 p.2)).map eraseLinks) :
    F.length = (n.flow_inputs.getD []).length ∧ G.length = (n.flow_outputs.getD []).length := by
  have h1 := congrArg List.length hF
  have h2 := congrArg List.length hG
  simp only [List.length_map, List.enum_length] at h1 h2
  exact ⟨h1, h2⟩

theorem expanded_setOutputLinks (n e : Node) (s : Int) (id : Nat) (h : Expanded n e)
    (hs : 0 ≤ s ∧ s < ((n.flow_outputs.getD []).length : Int)) :
    ∃ e1, setOutputLinks s id e = some e1 ∧ Expanded n e1 := by
  obtain ⟨h1, h2, h3, h4, F, G, hi, hF, ho, hG⟩ := h
  have hlen := (expanded_flow_lengths n F G hF hG).2
  obtain ⟨G1, hset, hmap⟩ := setAt_append_left eraseLinks
    (fun o => { o with links := JLinks.arr [id] }) (fun _ => rfl) G
    ((n.outputs.getD []).map (bumpSlotIndex (n.flow_outputs.getD []).length)) s hs.1
    (by rw [hlen]; exact hs.2)
  refine ⟨{ e with outputs := some (G1 ++ (n.outputs.getD []).map
    (bumpSlotIndex (n.flow_outputs.getD []).length)) }, ?_, ?_⟩
  · simp [setOutputLinks, ho, hset]
  · exact ⟨h1, h2, h3, h4, F, G1, hi, hF, rfl, hmap.trans hG⟩

theorem expanded_setInputLink (n e : Node) (s : Int) (id : Nat) (h : Expanded n e)
    (hs : 0 ≤ s ∧ s < ((n.flow_inputs.getD []).length : Int)) :
    ∃ e1, setInputLink s id e = some e1 ∧ Expanded n e1 := by
  obtain ⟨h1, h2, h3, h4, F, G, hi, hF, ho, hG⟩ := h
  have hlen := (expanded_flow_lengths n F G hF hG).1
  obtain ⟨F1, hset, hmap⟩ := setAt_append_left eraseLink
    (fun o => { o with link := some id }) (fun _ => rfl) F (n.inputs.getD []) s hs.1
    (by rw [hlen]; exact hs.2)
  refine ⟨{ e with inputs := some (F1 ++ n.inputs.getD []) }, ?_, ?_⟩
  · simp [setInputLink, hi, hset]
  · exact ⟨h1, h2, h3, h4, F1, G, rfl, hmap.trans hF, ho, hG⟩

/-! ### workflowToCworkflow on an expanded document -/

theorem shiftLinks_mem_type (δ : Nat → Int × Int) (ls : List Link) (l : Link)
    (h : l ∈ shiftLinks δ ls) : ∃ l0 ∈ ls, l0.type = l.type := by
  have : l.type ∈ (shiftLinks δ ls).map Link.type := List.mem_map_of_mem Link.type h
  rw [shiftLinks_types] at this
  exact List.mem_map.mp this

theorem flowEntries_type : ∀ (fls : List Link) (last : Nat) (l : Link),
    l ∈ flowEntries last fls → l.type = some "FLOW" := by
  intro fls
  induction fls with
  | nil => intro last l h; simp [flowEntries] at h
  | cons fl rest ih =>
    intro last l h
    simp only [flowEntries, List.mem_cons] at h
    rcases h with rfl | h
    · rfl
    · exact ih (last + 1) l h

theorem filter_flow_expanded (δ : Nat → Int × Int) (ls fls : List Link) (last : Nat)
    (hls : ∀ l ∈ ls, l.type ≠ some "FLOW") :
    (shiftLinks δ ls ++ flowEntries last fls).filter (fun link => link.type = some "FLOW") =
        flowEntries last fls ∧
    (shiftLinks δ ls ++ flowEntries last fls).filter (fun link => link.type ≠ some "FLOW") =
        shiftLinks δ ls := by
  have h1 : ∀ l ∈ shiftLinks δ ls, l.type ≠ some "FLOW" := by
    intro l hl
    obtain ⟨l0, h0, ht⟩ := shiftLinks_mem_type δ ls l hl
    exact ht ▸ hls l0 h0
  have h2 := flowEntries_type fls last
  constructor
  · rw [List.filter_append, List.filter_eq_nil_iff.mpr (by
      intro l hl; simpa using h1 l hl), List.filter_eq_self.mpr (by
      intro l hl; simpa using h2 l hl)]
    rfl
  · rw [List.filter_append, List.filter_eq_self.mpr (by
      intro l hl; simpa using h1 l hl), List.filter_eq_nil_iff.mpr (by
      intro l hl; simpa using h2 l hl)]
    simp

theorem flow_typed_of_erase (fis : List FlowIn) (F : List InputSlot)
    (hF : F.map eraseLink = (fis.map mkFlowInput).map eraseLink) :
    ∀ s ∈ F, s.type = "FLOW" := by
  intro s hs
  have : eraseLink s ∈ (fis.map mkFlowInput).map eraseLink := hF ▸ List.mem_map_of_mem eraseLink hs
  simp only [List.map_map, List.mem_map, Function.comp] at this
  obtain ⟨fi, _, hfi⟩ := this
  have := congrArg InputSlot.type hfi
  exact this.symm

theorem flow_typed_of_erase_out (fos : List FlowOut) (G : List OutputSlot)
    (hG : G.map eraseLinks = (fos.enum.map (fun p => mkFlowOutput p.1 p.2)).map eraseLinks) :
    ∀ s ∈ G, s.type = "FLOW" := by
  intro s hs
  have : eraseLinks s ∈ (fos.enum.map (fun p => mkFlowOutput p.1 p.2)).map eraseLinks :=
    hG ▸ List.mem_map_of_mem eraseLinks hs
  simp only [List.map_map, List.mem_map, Function.comp] at this
  obtain ⟨p, _, hp⟩ := this
  have := congrArg OutputSlot.type hp
  exact this.symm

theorem dataInputs_of_data (ins : List InputSlot) (h : ∀ s ∈ ins, s.type ≠ "FLOW") :
    dataInputs ins = ins :=
  List.filter_eq_self.mpr (by intro s hs; simpa using h s hs)

theorem dataOutputs_of_data (outs : List OutputSlot) (h : ∀ s ∈ outs, s.type ≠ "FLOW") :
    dataOutputs outs = outs :=
  List.filter_eq_self.mpr (by intro s hs; simpa using h s hs)

theorem stripInCount_of_data : ∀ (ins : List InputSlot), (∀ s ∈ ins, s.type ≠ "FLOW") →
    ∀ k, stripInCount ins k = 0 := by
  intro ins
  induction ins with
  | nil => intro _ k; rfl
  | cons s rest ih =>
    intro h k
    simp [stripInCount, ih (fun t ht => h t (List.mem_cons_of_mem _ ht)) k,
      h s (List.mem_cons_self _ _)]

theorem stripOutCount_of_data : ∀ (outs : List OutputSlot), (∀ s ∈ outs, s.type ≠ "FLOW") →
    ∀ k, stripOutCount outs k = 0 := by
  intro outs
  induction outs with
  | nil => intro _ k; rfl
  | cons s rest ih =>
    intro h k
    simp [stripOutCount, ih (fun t ht => h t (List.mem_cons_of_mem _ ht)) k,
      h s (List.mem_cons_self _ _)]

theorem strip_flow_block_in : ∀ (F ins : List InputSlot), (∀ s ∈ F, s.type = "FLOW") →
    (∀ s ∈ ins, s.type ≠ "FLOW") →
    dataInputs (F ++ ins) = ins ∧ (F ++ ins).filter (fun s => s.type = "FLOW") = F ∧
    ∀ k, stripInCount (F ++ ins) k = F.length * inCount ins k := by
  intro F
  induction F with
  | nil =>
    intro ins _ h
    refine ⟨dataInputs_of_data ins h, ?_, fun k => by simp [stripInCount_of_data ins h k]⟩
    exact List.filter_eq_nil_iff.mpr (by intro s hs; simpa using h s hs)
  | cons f rest ih =>
    intro ins hF h
    have hf := hF f (List.mem_cons_self _ _)
    obtain ⟨h1, h2, h3⟩ := ih ins (fun s hs => hF s (List.mem_cons_of_mem _ hs)) h
    refine ⟨?_, ?_, ?_⟩
    · simpa [dataInputs, List.filter_cons, hf] using h1
    · simp [List.filter_cons, hf, h2]
    · intro k
      show stripInCount (f :: (rest ++ ins)) k = (rest.length + 1) * inCount ins k
      rw [stripInCount, if_pos hf, h1, h3 k]
      ring

theorem strip_flow_block_out : ∀ (G outs : List OutputSlot), (∀ s ∈ G, s.type = "FLOW") →
    (∀ s ∈ outs, s.type ≠ "FLOW") →
    dataOutputs (G ++ outs) = outs ∧ (G ++ outs).filter (fun s => s.type = "FLOW") = G ∧
    ∀ k, stripOutCount (G ++ outs) k = G.length * outCount outs k := by
  intro G
  induction G with
  | nil =>
    intro outs _ h
    refine ⟨dataOutputs_of_data outs h, ?_, fun k => by simp [stripOutCount_of_data outs h k]⟩
    exact List.filter_eq_nil_iff.mpr (by intro s hs; simpa using h s hs)
  | cons f rest ih =>
    intro outs hG h
    have hf := hG f (List.mem_cons_self _ _)
    obtain ⟨h1, h2, h3⟩ := ih outs (fun s hs => hG s (List.mem_cons_of_mem _ hs)) h
    refine ⟨?_, ?_, ?_⟩
    · simpa [dataOutputs, List.filter_cons, hf] using h1
    · simp [List.filter_cons, hf, h2]
    · intro k
      show stripOutCount (f :: (rest ++ outs)) k = (rest.length + 1) * outCount outs k
      rw [stripOutCount, if_pos hf, h1, h3 k]
      ring

theorem outCount_bump (nb : Nat) : ∀ (outs : List OutputSlot) (k : Nat),
    outCount (outs.map (bumpSlotIndex nb)) k = outCount outs k := by
  intro outs
  induction outs with
  | nil => intro k; rfl
  | cons s rest ih => intro k; simp [outCount, ih k, bumpSlotIndex]

/-- One round of the loop "input & output" of `workflowToCworkflow` on an expanded node. -/
theorem compactNode_expanded (ls : List Link) (δ : Nat → Int × Int) (n e : Node)
    (he : Expanded n e) (hnf : NoFlowSlots n) (hok : DataLinksOK (ls.map Link.id) n) :
    ∃ c, compactNode (shiftLinks δ ls) e =
        some (shiftLinks (fun j => δ j + -nodeShift n j) ls, c) ∧ RoundTrip n c := by
  obtain ⟨h1, h2, h3, h4, F, G, hi, hF, ho, hG⟩ := he
  obtain ⟨lenF, lenG⟩ := expanded_flow_lengths n F G hF hG
  have tF := flow_typed_of_erase _ F hF
  have tG := flow_typed_of_erase_out _ G hG
  set outs1 := (n.outputs.getD []).map (bumpSlotIndex (n.flow_outputs.getD []).length) with houts1
  have touts : ∀ s ∈ outs1, s.type ≠ "FLOW" := by
    intro s hs
    obtain ⟨s0, hs0, rfl⟩ := List.mem_map.mp hs
    exact hnf.2 s0 hs0
  obtain ⟨a1, a2, a3⟩ := strip_flow_block_in F (n.inputs.getD []) tF hnf.1
  obtain ⟨b1, b2, b3⟩ := strip_flow_block_out G outs1 tG touts
  have s1 := stripInputs_shift ls (F ++ n.inputs.getD []) δ (by
    intro s hs hty k hk
    rcases List.mem_append.mp hs with hs | hs
    · exact absurd (tF s hs) hty
    · exact hok.1 s hs hty k hk)
  have s2 := stripOutputs_shift ls (G ++ outs1)
    (fun j => δ j + (0, -(stripInCount (F ++ n.inputs.getD []) j : Int))) (by
    intro s hs hty ids hids k hk
    rcases List.mem_append.mp hs with hs | hs
    · exact absurd (tG s hs) hty
    · obtain ⟨s0, hs0, rfl⟩ := List.mem_map.mp hs
      exact hok.2 s0 hs0 hty k (by
        have : s0.links = JLinks.arr ids := by simpa [bumpSlotIndex] using hids
        simp [JLinks.ids, this, hk]))
  refine ⟨{ e with
      inputs := some (n.inputs.getD [])
      outputs := some outs1
      flow_inputs := some (F.map toFlowIn)
      flow_outputs := some (G.map toFlowOut) }, ?_, ?_⟩
  · unfold compactNode
    simp only [hi, ho, s1, s2, a1, a2, b1, b2, Option.some.injEq, Prod.mk.injEq, and_true]
    apply shiftLinks_congr
    intro k _
    simp only [a3 k, b3 k, nodeShift, lenF, lenG, houts1, outCount_bump]
    ext <;> simp
  · refine ⟨h1, h2, rfl, ?_, ?_, ?_⟩
    · simp only [Option.map_some', houts1, List.map_map, Option.some.injEq]
      apply List.map_congr_left
      intro s _
      simp [eraseSlotIndex, bumpSlotIndex]
    · simp only [Option.map_some', List.map_map, Option.some.injEq]
      have := congrArg (List.map InputSlot.name) hF
      simp only [List.map_map] at this
      exact this
    · simp only [Option.map_some', List.map_map, Option.some.injEq]
      have := congrArg (List.map OutputSlot.name) hG
      simp only [List.map_map] at this
      have e2 : (n.flow_outputs.getD []).map FlowOut.name =
          (n.flow_outputs.getD []).enum.map (fun p => p.2.name) := by
        rw [show (fun p : Nat × FlowOut => p.2.name) = FlowOut.name ∘ Prod.snd from rfl,
          ← List.map_map, List.enum_map_snd]
      rw [e2]
      exact this

theorem forall2_imp_mem {α β : Type} (R S : α → β → Prop) :
    ∀ (xs : List α) (ys : List β), List.Forall₂ R xs ys →
      (∀ x ∈ xs, ∀ y, R x y → S x y) → List.Forall₂ S xs ys := by
  intro xs ys h
  induction h with
  | nil => intro _; exact List.Forall₂.nil
  | @cons x y xs ys hxy _ ih =>
    intro hS
    exact List.Forall₂.cons (hS x (List.mem_cons_self _ _) y hxy)
      (ih (fun x1 h1 => hS x1 (List.mem_cons_of_mem _ h1)))

theorem forall2_map_right {α : Type} (R : α → α → Prop) (g : α → α) (h : ∀ x, R x (g x)) :
    ∀ (xs : List α), List.Forall₂ R xs (xs.map g) := by
  intro xs
  induction xs with
  | nil => exact List.Forall₂.nil
  | cons x xs ih => exact List.Forall₂.cons (h x) ih

/-- The loop "input & output" of `workflowToCworkflow` on the expanded nodes. -/
theorem compactNodes_expanded (ls : List Link) :
    ∀ (nodes es : List Node), List.Forall₂ Expanded nodes es →
      (∀ n ∈ nodes, NoFlowSlots n ∧ DataLinksOK (ls.map Link.id) n) →
      ∀ (δ : Nat → Int × Int), ∃ cs, compactNodes es (shiftLinks δ ls) =
          some (shiftLinks (fun j => δ j + -totalShift nodes j) ls, cs) ∧
        List.Forall₂ RoundTrip nodes cs := by
  intro nodes es h
  induction h with
  | nil =>
    intro _ δ
    refine ⟨[], ?_, List.Forall₂.nil⟩
    simp only [compactNodes, totalShift, Option.some.injEq, Prod.mk.injEq, and_true]
    exact shiftLinks_congr _ _ ls (fun k _ => by simp)
  | @cons n e nodes es hne _ ih =>
    intro hok δ
    obtain ⟨hn1, hn2⟩ := hok n (List.mem_cons_self _ _)
    obtain ⟨c, hc, hrt⟩ := compactNode_expanded ls δ n e hne hn1 hn2
    obtain ⟨cs, hcs, hrts⟩ := ih (fun m hm => hok m (List.mem_cons_of_mem _ hm))
      (fun j => δ j + -nodeShift n j)
    refine ⟨c :: cs, ?_, List.Forall₂.cons hrt hrts⟩
    simp only [compactNodes, hc, hcs, Option.some.injEq, Prod.mk.injEq, and_true]
    apply shiftLinks_congr
    intro k _
    simp only [totalShift, neg_add, add_assoc]

/-- `cworkflowToWorkflow` on a well-formed compact document with at least one node. -/
theorem expand_wf (d : Doc) (ls fls : List Link) (hl : d.links = some ls)
    (hfl : d.flow_links = some fls) (hne : d.nodes ≠ [])
    (hnodes : ∀ n ∈ d.nodes, n.flow_inputs.isSome ∧ n.flow_outputs.isSome ∧ NoFlowSlots n ∧
      DataLinksOK (ls.map Link.id) n)
    (hflow : ∀ fl ∈ fls, FlowLinkOK d.nodes fl) :
    ∃ ns, cworkflowToWorkflow d =
        some { d with
          nodes := ns
          links := some (shiftLinks (totalShift d.nodes) ls ++ flowEntries d.last_link_id fls)
          last_link_id := d.last_link_id + fls.length } ∧
      List.Forall₂ Expanded d.nodes ns := by
  have hlen : ¬ d.nodes.length = 0 := by
    intro h; exact hne (List.length_eq_zero.mp h)
  have hexp := expandNodes_shift ls d.nodes (fun _ => (0, 0)) hnodes
  rw [shiftLinks_zero] at hexp
  have hsh : shiftLinks (fun j => (0, 0) + totalShift d.nodes j) ls =
      shiftLinks (totalShift d.nodes) ls := shiftLinks_congr _ _ ls (fun k _ => by simp)
  rw [hsh] at hexp
  obtain ⟨ns, hns, hr⟩ := addFlowLinks_forall2 Expanded
    (fun o s => 0 ≤ s ∧ s < ((o.flow_outputs.getD []).length : Int))
    (fun t s => 0 ≤ s ∧ s < ((t.flow_inputs.getD []).length : Int))
    (fun x y h => h.1)
    (fun x y s id h hs => expanded_setOutputLinks x y s id h hs)
    (fun x y s id h hs => expanded_setInputLink x y s id h hs)
    d.nodes fls d.last_link_id (shiftLinks (totalShift d.nodes) ls) (d.nodes.map expandedNode)
    (forall2_map_right Expanded expandedNode expandedNode_expanded d.nodes)
    (fun fl hfl1 => hflow fl hfl1)
  refine ⟨ns, ?_, hr⟩
  unfold cworkflowToWorkflow
  rw [if_neg hlen]
  simp only [hl, hexp, hfl, hns]

/-- Compaction of the expansion of a well-formed compact document. -/
theorem roundTrip_wf (d : Doc) (ls fls : List Link) (hl : d.links = some ls)
    (hfl : d.flow_links = some fls) (hdata : ∀ l ∈ ls, l.type ≠ some "FLOW")
    (hnodes : ∀ n ∈ d.nodes, n.flow_inputs.isSome ∧ n.flow_outputs.isSome ∧ NoFlowSlots n ∧
      DataLinksOK (ls.map Link.id) n)
    (hflow : ∀ fl ∈ fls, FlowLinkOK d.nodes fl) :
    ∃ cs, roundTrip d =
        some { nodes := cs
               links := some ls
               flow_links := some (flowEntries d.last_link_id fls)
               last_link_id := d.last_link_id + fls.length
               support_flow_control := some true } ∧
      List.Forall₂ RoundTrip d.nodes cs := by
  by_cases hne : d.nodes = []
  · have hfls : fls = [] := by
      cases fls with
      | nil => rfl
      | cons fl rest =>
        obtain ⟨⟨o, ho, _⟩, _⟩ := hflow fl (List.mem_cons_self _ _)
        rw [hne] at ho
        simp [lastWith] at ho
    subst hfls
    refine ⟨[], ?_, by rw [hne]; exact List.Forall₂.nil⟩
    have h1 : ls.filter (fun link => link.type ≠ some "FLOW") = ls :=
      List.filter_eq_self.mpr (by intro l h; simpa using hdata l h)
    have h2 : ls.filter (fun link => link.type = some "FLOW") = [] :=
      List.filter_eq_nil_iff.mpr (by intro l h; simpa using hdata l h)
    simp only [roundTrip, cworkflowToWorkflow, hne, List.length_nil, if_true, Option.some_bind,
      workflowToCworkflow, hl, Option.map_some', h1, h2, Option.getD_some, compactNodes,
      flowEntries, add_zero]
  · obtain ⟨ns, hns, hr⟩ := expand_wf d ls fls hl hfl hne hnodes hflow
    obtain ⟨f1, f2⟩ := filter_flow_expanded (totalShift d.nodes) ls fls d.last_link_id hdata
    obtain ⟨cs, hcs, hrt⟩ := compactNodes_expanded ls d.nodes ns hr
      (fun n hn => ⟨(hnodes n hn).2.2.1, (hnodes n hn).2.2.2⟩) (totalShift d.nodes)
    have hz : shiftLinks (fun j => totalShift d.nodes j + -totalShift d.nodes j) ls = ls := by
      rw [shiftLinks_congr _ (fun _ => (0, 0)) ls (fun k _ => by simp)]
      exact shiftLinks_zero ls
    rw [hz] at hcs
    refine ⟨cs, ?_, hrt⟩
    simp only [roundTrip, hns, Option.some_bind, workflowToCworkflow, Option.map_some', f1, f2,
      Option.getD_some, hcs]

theorem wfCompact_unfold (d : Doc) (h : WFCompact d) :
    ∃ ls fls, d.links = some ls ∧ d.flow_links = some fls ∧
      (∀ l ∈ ls, l.type ≠ some "FLOW") ∧
      (∀ n ∈ d.nodes, n.flow_inputs.isSome ∧ n.flow_outputs.isSome ∧ NoFlowSlots n ∧
        DataLinksOK (ls.map Link.id) n) ∧
      (∀ fl ∈ fls, FlowLinkOK d.nodes fl) := by
  unfold WFCompact at h
  split at h
  · next ls fls h1 h2 => exact ⟨ls, fls, h1, h2, h⟩
  · exact absurd h id

/-! ### The claims on the codec -/

/-- C1 (counterexample): `compactLinear3` is a compact document (it is what
`workflowToCworkflow` returns after `linear3` was loaded), it is well-formed and carries the
flag, and compacting its expansion does not give it back: the FLOW links get the new ids 5 and
6 and `last_link_id` grows from 4 to 6. -/
theorem C1_counterexample :
    ((convertOldVersionWorkflow linear3).bind cworkflowToWorkflow).bind
        (fun g => (workflowToCworkflow g).map Prod.fst) = some compactLinear3 ∧
    WFCompact compactLinear3 ∧ compactLinear3.support_flow_control = some true ∧
    roundTrip compactLinear3 ≠ some compactLinear3 ∧
    (roundTrip compactLinear3).map Doc.last_link_id = some 6 ∧
    (roundTrip compactLinear3).map (fun c => (c.flow_links.getD []).map Link.id) = some [5, 6] := by
  refine ⟨by rfl, by decide, by rfl, by decide, by rfl, by rfl⟩

/-- C1 (amended): for every well-formed compact document `d`, compacting the expansion returns
a document that agrees with `d` up to the placement of the FLOW links: `links` is `links` of
`d`; the nodes are those of `d`, in order, with the same id, type and data inputs, the same
data outputs up to `slot_index`, and `flow_inputs` and `flow_outputs` of the same names; the
FLOW links have the endpoints of the FLOW links of `d`, in order, with the fresh ids
`last_link_id + 1, ...`, and `last_link_id` has grown by their number. -/
theorem C1_round_trip_up_to_flow_placement (d : Doc) (hwf : WFCompact d) :
    ∃ c, roundTrip d = some c ∧ c.links = d.links ∧
      c.flow_links = d.flow_links.map (flowEntries d.last_link_id) ∧
      c.last_link_id = d.last_link_id + (d.flow_links.getD []).length ∧
      c.support_flow_control = some true ∧
      List.Forall₂ RoundTrip d.nodes c.nodes := by
  obtain ⟨ls, fls, hl, hfl, h1, h2, h3⟩ := wfCompact_unfold d hwf
  obtain ⟨cs, hcs, hrt⟩ := roundTrip_wf d ls fls hl hfl h1 h2 h3
  exact ⟨_, hcs, by simp [hl], by simp [hfl], by simp [hfl], rfl, hrt⟩

/-- The statement C1 (amended) at the compact linear document. -/
theorem C1_round_trip_up_to_flow_placement_witness :
    ∃ c, roundTrip compactLinear3 = some c ∧ c.links = compactLinear3.links :=
  let ⟨c, h1, h2, _⟩ := C1_round_trip_up_to_flow_placement compactLinear3 (by decide)
  ⟨c, h1, h2⟩

/-- C2: for every well-formed compact document `d`, expansion adds to the origin slot and the
target slot of every link what `totalShift` says (and appends the FLOW links), and compaction of
the result returns exactly the links of `d`, in the same order: all of them are non-FLOW links
and the shift is undone. -/
theorem C2_data_links_restored (d : Doc) (hwf : WFCompact d) :
    ∃ ls r c, d.links = some ls ∧ cworkflowToWorkflow d = some r ∧ roundTrip d = some c ∧
      (d.nodes ≠ [] → r.links = some (shiftLinks (totalShift d.nodes) ls ++
        flowEntries d.last_link_id (d.flow_links.getD []))) ∧
      (c.links.getD []).filter (fun l => l.type ≠ some "FLOW") = ls ∧ c.links = some ls := by
  obtain ⟨ls, fls, hl, hfl, h1, h2, h3⟩ := wfCompact_unfold d hwf
  obtain ⟨cs, hcs, _⟩ := roundTrip_wf d ls fls hl hfl h1 h2 h3
  have hfilter : ls.filter (fun l => l.type ≠ some "FLOW") = ls :=
    List.filter_eq_self.mpr (by intro l h; simpa using h1 l h)
  by_cases hne : d.nodes = []
  · refine ⟨ls, d, _, hl, ?_, hcs, fun h => absurd hne h, by simpa using hfilter, rfl⟩
    simp [cworkflowToWorkflow, hne]
  · obtain ⟨ns, hns, _⟩ := expand_wf d ls fls hl hfl hne h2 h3
    exact ⟨ls, _, _, hl, hns, hcs, fun _ => by simp [hfl], by simpa using hfilter, rfl⟩

/-- The statement C2 at the compact linear document. -/
theorem C2_data_links_restored_witness :
    ∃ c, roundTrip compactLinear3 = some c ∧ c.links = compactLinear3.links :=
  let ⟨_, _, c, h1, _, h3, _, _, h6⟩ := C2_data_links_restored compactLinear3 (by decide)
  ⟨c, h3, h6.trans h1.symm⟩

theorem expanded_flowSlotsFirst (n e : Node) (he : Expanded n e) (hnf : NoFlowSlots n) :
    FlowSlotsFirst n e := by
  obtain ⟨_, _, _, _, F, G, hi, hF, ho, hG⟩ := he
  obtain ⟨lenF, lenG⟩ := expanded_flow_lengths n F G hF hG
  have tF := flow_typed_of_erase _ F hF
  have tG := flow_typed_of_erase_out _ G hG
  constructor
  · intro i s hs
    rw [hi, Option.getD_some] at hs
    rw [← lenF]
    by_cases hlt : i < F.length
    · rw [List.getElem?_append_left hlt] at hs
      exact ⟨fun _ => hlt, fun _ => tF s (List.getElem?_mem hs)⟩
    · rw [List.getElem?_append_right (by omega)] at hs
      have := hnf.1 s (List.getElem?_mem hs)
      exact ⟨fun h => absurd h this, fun h => absurd h hlt⟩
  · intro i s hs
    rw [ho, Option.getD_some] at hs
    rw [← lenG]
    by_cases hlt : i < G.length
    · rw [List.getElem?_append_left hlt] at hs
      exact ⟨fun _ => hlt, fun _ => tG s (List.getElem?_mem hs)⟩
    · rw [List.getElem?_append_right (by omega)] at hs
      obtain ⟨s0, hs0, rfl⟩ := List.mem_map.mp (List.getElem?_mem hs)
      have := hnf.2 s0 hs0
      exact ⟨fun h => absurd h this, fun h => absurd h hlt⟩

/-- C10: for every well-formed compact document (in particular its nodes have no FLOW-typed
slot among `inputs` and `outputs`), `cworkflowToWorkflow` returns a document whose nodes are,
in order, the expansions of the nodes of the document: the inputs of a node are the FLOW slots
made of its `flow_inputs`, in order, followed by its original inputs in order, and likewise for
the outputs; so the FLOW slots are exactly the slots of the lowest indices. -/
theorem C10_flow_slots_first (d : Doc) (hwf : WFCompact d) :
    ∃ r, cworkflowToWorkflow d = some r ∧
      List.Forall₂ (fun n e => Expanded n e ∧ FlowSlotsFirst n e) d.nodes r.nodes := by
  obtain ⟨ls, fls, hl, hfl, _, h2, h3⟩ := wfCompact_unfold d hwf
  by_cases hne : d.nodes = []
  · refine ⟨d, by simp [cworkflowToWorkflow, hne], ?_⟩
    rw [hne]
    exact List.Forall₂.nil
  · obtain ⟨ns, hns, hr⟩ := expand_wf d ls fls hl hfl hne h2 h3
    refine ⟨_, hns, ?_⟩
    exact forall2_imp_mem _ _ d.nodes ns hr
      (fun n hn e he => ⟨he, expanded_flowSlotsFirst n e he (h2 n hn).2.2.1⟩)

/-- The statement C10 at the compact linear document. -/
theorem C10_flow_slots_first_witness :
    ∃ r, cworkflowToWorkflow compactLinear3 = some r ∧ r.nodes.length = 3 :=
  let ⟨r, h1, h2⟩ := C10_flow_slots_first compactLinear3 (by decide)
  ⟨r, h1, by simpa [compactLinear3] using h2.length_eq.symm⟩

/-! ### workflowToCworkflow on a runtime graph, and the expansion of the result -/

theorem compactNode_general (ls : List Link) (δ : Nat → Int × Int) (n : Node)
    (hi : n.inputs.isSome) (ho : n.outputs.isSome) (hok : DataLinksOK (ls.map Link.id) n) :
    ∃ ε, compactNode (shiftLinks δ ls) n = some (shiftLinks ε ls, compactedNode n) := by
  obtain ⟨ins, hins⟩ := Option.isSome_iff_exists.mp hi
  obtain ⟨outs, houts⟩ := Option.isSome_iff_exists.mp ho
  have s1 := stripInputs_shift ls ins δ (by
    intro s hs hty k hk
    exact hok.1 s (by simpa [hins] using hs) hty k hk)
  have s2 := stripOutputs_shift ls outs (fun j => δ j + (0, -(stripInCount ins j : Int))) (by
    intro s hs hty ids hids k hk
    exact hok.2 s (by simpa [houts] using hs) hty k (by simp [JLinks.ids, hids, hk]))
  refine ⟨fun j => (δ j + (0, -(stripInCount ins j : Int))) + (-(stripOutCount outs j : Int), 0),
    ?_⟩
  unfold compactNode
  simp only [hins, houts, s1, s2]
  simp [compactedNode, hins, houts]

theorem compactNodes_general (ls : List Link) :
    ∀ (nodes : List Node) (δ : Nat → Int × Int),
      (∀ n ∈ nodes, n.inputs.isSome ∧ n.outputs.isSome ∧ DataLinksOK (ls.map Link.id) n) →
      ∃ ε, compactNodes nodes (shiftLinks δ ls) =
        some (shiftLinks ε ls, nodes.map compactedNode) := by
  intro nodes
  induction nodes with
  | nil => intro δ _; exact ⟨δ, rfl⟩
  | cons n rest ih =>
    intro δ h
    obtain ⟨h1, h2, h3⟩ := h n (List.mem_cons_self _ _)
    obtain ⟨ε, hε⟩ := compactNode_general ls δ n h1 h2 h3
    obtain ⟨ζ, hζ⟩ := ih ε (fun m hm => h m (List.mem_cons_of_mem _ hm))
    exact ⟨ζ, by simp [compactNodes, hε, hζ]⟩

theorem filter_length_split {α : Type} (p : α → Prop) [DecidablePred p] : ∀ (xs : List α),
    (xs.filter (fun x => p x)).length + (xs.filter (fun x => ¬ p x)).length = xs.length := by
  intro xs
  induction xs with
  | nil => rfl
  | cons x xs ih =>
    by_cases hp : p x
    · simp only [List.filter_cons, hp, decide_True, decide_False, not_true_eq_false,
        not_false_eq_true, if_true, Bool.false_eq_true, if_false, List.length_cons] at ih ⊢
      omega
    · simp only [List.filter_cons, hp, decide_True, decide_False, not_true_eq_false,
        not_false_eq_true, if_true, Bool.false_eq_true, if_false, List.length_cons] at ih ⊢
      omega

theorem sameShape_expanded_compacted (n : Node) :
    SameShape n (expandedNode (compactedNode n)) := by
  refine ⟨rfl, ⟨_, rfl, ?_⟩, ⟨_, rfl, ?_⟩⟩
  · simp only [compactedNode, Option.getD_some, List.length_append, List.length_map, dataInputs]
    exact filter_length_split (fun s : InputSlot => s.type = "FLOW") _
  · simp only [compactedNode, Option.getD_some, List.length_append, List.length_map,
      List.enum_length, dataOutputs]
    exact filter_length_split (fun s : OutputSlot => s.type = "FLOW") _

theorem sameShape_setOutputLinks (n y : Node) (s : Int) (id : Nat) (h : SameShape n y)
    (hs : 0 ≤ s ∧ s < ((n.outputs.getD []).length : Int)) :
    ∃ y1, setOutputLinks s id y = some y1 ∧ SameShape n y1 := by
  obtain ⟨h1, h2, outs, ho, hlen⟩ := h
  obtain ⟨outs1, hset, hmap⟩ := setAt_map (fun _ => ())
    (fun o : OutputSlot => { o with links := JLinks.arr [id] }) (fun _ => rfl) outs s hs.1
    (by rw [hlen]; exact hs.2)
  have hl : outs1.length = outs.length := by simpa using congrArg List.length hmap
  exact ⟨{ y with outputs := some outs1 }, by simp [setOutputLinks, ho, hset],
    h1, h2, outs1, rfl, hl.trans hlen⟩

theorem sameShape_setInputLink (n y : Node) (s : Int) (id : Nat) (h : SameShape n y)
    (hs : 0 ≤ s ∧ s < ((n.inputs.getD []).length : Int)) :
    ∃ y1, setInputLink s id y = some y1 ∧ SameShape n y1 := by
  obtain ⟨h1, ⟨ins, hi, hlen⟩, h3⟩ := h
  obtain ⟨ins1, hset, hmap⟩ := setAt_map (fun _ => ())
    (fun o : InputSlot => { o with link := some id }) (fun _ => rfl) ins s hs.1
    (by rw [hlen]; exact hs.2)
  have hl : ins1.length = ins.length := by simpa using congrArg List.length hmap
  exact ⟨{ y with inputs := some ins1 }, by simp [setInputLink, hi, hset],
    h1, ⟨ins1, rfl, hl.trans hlen⟩, h3⟩

theorem flowEntries_endpoints : ∀ (fls : List Link) (last : Nat),
    (flowEntries last fls).map Link.endpoints = fls.map Link.endpoints := by
  intro fls
  induction fls with
  | nil => intro last; rfl
  | cons fl rest ih =>
    intro last
    simp only [flowEntries, List.map_cons, ih (last + 1)]
    rfl

theorem compactedNode_noFlow (n : Node) : NoFlowSlots (compactedNode n) := by
  constructor
  · intro s hs
    simp only [compactedNode, Option.getD_some, dataInputs, List.mem_filter,
      decide_eq_true_eq] at hs
    exact hs.2
  · intro s hs
    simp only [compactedNode, Option.getD_some, dataOutputs, List.mem_filter,
      decide_eq_true_eq] at hs
    exact hs.2

theorem compactedNode_linksOK (ids : List Nat) (n : Node) (h : DataLinksOK ids n) :
    DataLinksOK ids (compactedNode n) := by
  constructor
  · intro s hs
    simp only [compactedNode, Option.getD_some, dataInputs, List.mem_filter,
      decide_eq_true_eq] at hs
    exact h.1 s hs.1
  · intro s hs
    simp only [compactedNode, Option.getD_some, dataOutputs, List.mem_filter,
      decide_eq_true_eq] at hs
    exact h.2 s hs.1

/-- Compaction of a well-formed runtime graph followed by expansion. -/
theorem reExpand_wf (g : Doc) (ls : List Link) (hl : g.links = some ls) (hne : g.nodes ≠ [])
    (hnodes : ∀ n ∈ g.nodes, n.inputs.isSome ∧ n.outputs.isSome ∧
      DataLinksOK ((ls.filter (fun l => l.type ≠ some "FLOW")).map Link.id) n)
    (hflow : ∀ fl ∈ ls.filter (fun l => l.type = some "FLOW"), RuntimeFlowLinkOK g.nodes fl) :
    ∃ ε ns, reExpand g = some
        { nodes := ns
          links := some (shiftLinks ε (ls.filter (fun l => l.type ≠ some "FLOW")) ++
            flowEntries g.last_link_id (ls.filter (fun l => l.type = some "FLOW")))
          flow_links := some (ls.filter (fun l => l.type = some "FLOW"))
          last_link_id := g.last_link_id + (ls.filter (fun l => l.type = some "FLOW")).length
          support_flow_control := some true } ∧
      List.Forall₂ SameShape g.nodes ns := by
  set ls0 := ls.filter (fun l => l.type ≠ some "FLOW") with hls0
  set fls := ls.filter (fun l => l.type = some "FLOW") with hfls
  obtain ⟨ε, hε⟩ := compactNodes_general ls0 g.nodes (fun _ => (0, 0)) hnodes
  rw [shiftLinks_zero] at hε
  have hlen : ¬ (g.nodes.map compactedNode).length = 0 := by
    intro h
    exact hne (List.length_eq_zero.mp (by simpa using h))
  have hexp := expandNodes_shift ls0 (g.nodes.map compactedNode) ε (by
    intro m hm
    obtain ⟨n, hn, rfl⟩ := List.mem_map.mp hm
    exact ⟨rfl, rfl, compactedNode_noFlow n, compactedNode_linksOK _ n (hnodes n hn).2.2⟩)
  obtain ⟨ns, hns, hr⟩ := addFlowLinks_forall2 SameShape
    (fun o s => 0 ≤ s ∧ s < ((o.outputs.getD []).length : Int))
    (fun t s => 0 ≤ s ∧ s < ((t.inputs.getD []).length : Int))
    (fun x y h => h.1)
    (fun x y s id h hs => sameShape_setOutputLinks x y s id h hs)
    (fun x y s id h hs => sameShape_setInputLink x y s id h hs)
    g.nodes fls g.last_link_id
    (shiftLinks (fun j => ε j + totalShift (g.nodes.map compactedNode) j) ls0)
    ((g.nodes.map compactedNode).map expandedNode)
    (by
      rw [List.map_map]
      exact forall2_map_right SameShape _ sameShape_expanded_compacted g.nodes)
    (fun fl hfl1 => hflow fl hfl1)
  refine ⟨fun j => ε j + totalShift (g.nodes.map compactedNode) j, ns, ?_, hr⟩
  simp only [reExpand, workflowToCworkflow, hl, Option.map_some', Option.getD_some, ← hls0,
    ← hfls, hε, Option.some_bind, cworkflowToWorkflow, if_neg hlen, hexp, hns]

/-- C3: for every well-formed runtime graph `g` (at least one node, a links list), compaction
followed by expansion returns a graph whose FLOW-typed links have, in the same order, the same
(origin node, origin slot, target node, target slot) as the FLOW-typed links of `g`. -/
theorem C3_flow_links_reproduced (g : Doc) (hwf : WFRuntime g) :
    ∃ r, reExpand g = some r ∧
      ((r.links.getD []).filter (fun l => l.type = some "FLOW")).map Link.endpoints =
      ((g.links.getD []).filter (fun l => l.type = some "FLOW")).map Link.endpoints := by
  unfold WFRuntime at hwf
  split at hwf
  · next ls hl =>
    obtain ⟨hne, hnodes, hflow⟩ := hwf
    obtain ⟨ε, ns, hre, _⟩ := reExpand_wf g ls hl hne hnodes hflow
    refine ⟨_, hre, ?_⟩
    have hdata : ∀ l ∈ ls.filter (fun l => l.type ≠ some "FLOW"), l.type ≠ some "FLOW" := by
      intro l h
      simpa using (List.mem_filter.mp h).2
    obtain ⟨f1, _⟩ := filter_flow_expanded ε _
      (ls.filter (fun l => l.type = some "FLOW")) g.last_link_id hdata
    simp only [Option.getD_some, hl, f1, flowEntries_endpoints]
  · exact absurd hwf id

/-- The statement C3 at the runtime graph of the linear document. -/
theorem C3_flow_links_reproduced_witness :
    ∃ r, reExpand runtimeLinear3 = some r ∧
      ((r.links.getD []).filter (fun l => l.type = some "FLOW")).map Link.endpoints =
        [(1, 0, 2, 0), (2, 0, 3, 0)] :=
  let ⟨r, h1, h2⟩ := C3_flow_links_reproduced runtimeLinear3 (by decide)
  ⟨r, h1, h2.trans (by decide)⟩

/-! ### The walk of `degree_linked_out_nodes` as a list of events -/

theorem outs_foldlM_flat {σ : Type} (stepM : σ → Nat → Option σ) :
    ∀ (outs : List OutputSlot) (st : σ),
      outs.foldlM (fun st output =>
        match output.links with
        | JLinks.null => some st
        | JLinks.num _ => none
        | JLinks.arr ids => ids.foldlM stepM st) st =
      match outIds outs with
      | none => none
      | some ids => ids.foldlM stepM st := by
  intro outs
  induction outs with
  | nil => intro st; rfl
  | cons s rest ih =>
    intro st
    simp only [List.foldlM_cons, Option.bind_eq_bind, outIds]
    cases hs : s.links with
    | null => simp only [Option.some_bind]; exact ih st
    | num k => rfl
    | arr ids =>
      simp only
      cases hr : outIds rest with
      | none =>
        simp only [Option.map_none']
        cases hf : List.foldlM stepM st ids with
        | none => rfl
        | some st1 =>
          simp only [Option.some_bind]
          rw [ih st1, hr]
      | some r =>
        simp only [Option.map_some', List.foldlM_append, Option.bind_eq_bind]
        cases hf : List.foldlM stepM st ids with
        | none => rfl
        | some st1 =>
          simp only [Option.some_bind]
          rw [ih st1, hr]

theorem foldlM_collect (stepM : Kahn → Nat → Option Kahn) (f : Nat → Option (List WalkEv))
    (h : ∀ st k, stepM st k = (f k).map (fun b => b.foldl applyEv st)) :
    ∀ (ids : List Nat) (st : Kahn),
      ids.foldlM stepM st = (collectEvents f ids).map (fun evs => evs.foldl applyEv st) := by
  intro ids
  induction ids with
  | nil => intro st; rfl
  | cons k rest ih =>
    intro st
    simp only [List.foldlM_cons, Option.bind_eq_bind, collectEvents, h st k]
    cases hf : f k with
    | none => rfl
    | some b =>
      simp only [Option.map_some', Option.some_bind, ih]
      cases collectEvents f rest with
      | none => rfl
      | some bs => simp [List.foldl_append]

theorem foldl_applyEv_via (g : WalkEv → WalkEv)
    (hg : ∀ ev, (g ev).from_id = ev.from_id ∧ (g ev).link = ev.link ∧
      (g ev).next_node = ev.next_node) :
    ∀ (evs : List WalkEv) (st : Kahn), (evs.map g).foldl applyEv st = evs.foldl applyEv st := by
  intro evs
  induction evs with
  | nil => intro st; rfl
  | cons ev rest ih =>
    intro st
    simp only [List.map_cons, List.foldl_cons]
    have : applyEv st (g ev) = applyEv st ev := by
      unfold applyEv
      rw [(hg ev).1, (hg ev).2.1, (hg ev).2.2]
    rw [this, ih]

/-- The closure `degree_linked_out_nodes` applies the events of the walk, in order. -/
theorem walk_eq_events (nodes : List Node) (links : List Link) :
    ∀ (depth : Nat) (n : Node) (st : Kahn),
      degree_linked_out_nodes nodes links depth n st =
        (walkEvents nodes links depth n).map (fun evs => evs.foldl applyEv st) := by
  intro depth
  induction depth with
  | zero => intro n st; rfl
  | succ d ih =>
    intro n st
    unfold degree_linked_out_nodes walkEvents
    cases n.outputs with
    | none => rfl
    | some outs =>
      simp only
      refine (outs_foldlM_flat _ outs st).trans ?_
      cases outIds outs with
      | none => rfl
      | some ids =>
        simp only
        apply foldlM_collect
        intro st1 k
        unfold linkEvents
        cases lastWith Link.id k links with
        | none => rfl
        | some link =>
          simp only
          cases lastWith Node.id link.target_id nodes with
          | none => rfl
          | some next =>
            simp only
            by_cases hr : next.type = "Reroute"
            · simp only [if_pos hr, ih next st1, Option.map_map]
              congr 1
              funext evs
              exact (foldl_applyEv_via (fun ev => { ev with via := ev.via ++ [link] })
                (fun ev => ⟨rfl, rfl, rfl⟩) evs st1).symm
            · simp only [if_neg hr, Option.map_some', List.foldl_cons, List.foldl_nil]
              rfl

theorem outIds_eq : ∀ (outs : List OutputSlot) (ids : List Nat), outIds outs = some ids →
    ids = outs.flatMap (fun o => o.links.ids) := by
  intro outs
  induction outs with
  | nil => intro ids h; simp only [outIds, Option.some.injEq] at h; simp [← h]
  | cons s rest ih =>
    intro ids h
    unfold outIds at h
    cases hs : s.links with
    | null =>
      rw [hs] at h
      simp only at h
      simp [List.flatMap_cons, JLinks.ids, hs, ih ids h]
    | num k => rw [hs] at h; simp at h
    | arr l =>
      rw [hs] at h
      simp only [Option.map_eq_some'] at h
      obtain ⟨r, hr, rfl⟩ := h
      simp [List.flatMap_cons, JLinks.ids, hs, ih r hr]

theorem collectEvents_mem (f : Nat → Option (List WalkEv)) :
    ∀ (ids : List Nat) (evs : List WalkEv), collectEvents f ids = some evs →
      ∀ ev ∈ evs, ∃ k ∈ ids, ∃ b, f k = some b ∧ ev ∈ b := by
  intro ids
  induction ids with
  | nil => intro evs h ev hev; simp only [collectEvents, Option.some.injEq] at h; simp [← h] at hev
  | cons k rest ih =>
    intro evs h ev hev
    unfold collectEvents at h
    cases hf : f k with
    | none => rw [hf] at h; simp at h
    | some b =>
      rw [hf] at h
      simp only at h
      cases hc : collectEvents f rest with
      | none => rw [hc] at h; simp at h
      | some bs =>
        rw [hc] at h
        simp only [Option.some.injEq] at h
        subst h
        rcases List.mem_append.mp hev with hb | hbs
        · exact ⟨k, List.mem_cons_self _ _, b, hf, hb⟩
        · obtain ⟨k1, hk1, b1, hb1, he⟩ := ih bs hc ev hbs
          exact ⟨k1, List.mem_cons_of_mem _ hk1, b1, hb1, he⟩

theorem collectEvents_nodup {κ : Type} (key : WalkEv → κ) (f : Nat → Option (List WalkEv)) :
    ∀ (ids : List Nat) (evs : List WalkEv), ids.Nodup →
      (∀ k ∈ ids, ∀ b, f k = some b → (b.map key).Nodup) →
      (∀ k1 ∈ ids, ∀ k2 ∈ ids, k1 ≠ k2 → ∀ b1 b2, f k1 = some b1 → f k2 = some b2 →
        ∀ e1 ∈ b1, ∀ e2 ∈ b2, key e1 ≠ key e2) →
      collectEvents f ids = some evs → (evs.map key).Nodup := by
  intro ids
  induction ids with
  | nil =>
    intro evs _ _ _ h
    simp only [collectEvents, Option.some.injEq] at h
    simp [← h]
  | cons k rest ih =>
    intro evs hnd hb hd h
    rw [List.nodup_cons] at hnd
    unfold collectEvents at h
    cases hf : f k with
    | none => rw [hf] at h; simp at h
    | some b =>
      rw [hf] at h
      simp only at h
      cases hc : collectEvents f rest with
      | none => rw [hc] at h; simp at h
      | some bs =>
        rw [hc] at h
        simp only [Option.some.injEq] at h
        subst h
        rw [List.map_append]
        refine List.Nodup.append (hb k (List.mem_cons_self _ _) b hf)
          (ih bs hnd.2 (fun k1 hk1 => hb k1 (List.mem_cons_of_mem _ hk1))
            (fun k1 hk1 k2 hk2 => hd k1 (List.mem_cons_of_mem _ hk1) k2
              (List.mem_cons_of_mem _ hk2)) hc) ?_
        intro x hx1 hx2
        obtain ⟨e1, he1, rfl⟩ := List.mem_map.mp hx1
        obtain ⟨e2, he2, hkey⟩ := List.mem_map.mp hx2
        obtain ⟨k2, hk2, b2, hb2, he2b⟩ := collectEvents_mem f rest bs hc e2 he2
        have hne : k ≠ k2 := fun e => hnd.1 (e ▸ hk2)
        exact hd k (List.mem_cons_self _ _) k2 (List.mem_cons_of_mem _ hk2) hne b b2 hf hb2
          e1 he1 e2 he2b hkey.symm

theorem validPath_snoc (nodes : List Node) (links : List Link) (a t : Nat) (link : Link)
    (hl : link ∈ links) (ht : link.target_id = t) (ha : link.origin_id = a)
    (hr : IsRerouteId nodes t) :
    ∀ (q : List Link), ValidPath nodes links t q → ValidPath nodes links a (q ++ [link]) := by
  intro q
  induction q with
  | nil => intro h; exact absurd h id
  | cons l rest ih =>
    intro h
    cases rest with
    | nil =>
      simp only [ValidPath] at h
      simp only [List.cons_append, List.nil_append, ValidPath]
      exact ⟨h.1, h.2.trans ht.symm, ht ▸ hr, hl, ha⟩
    | cons l1 rest1 =>
      simp only [ValidPath] at h
      simp only [List.cons_append, ValidPath]
      exact ⟨h.1, h.2.1, h.2.2.1, ih h.2.2.2⟩

/-- Every event of the block of a link id has the link of this id as the first link. -/
theorem linkEvents_last (nodes : List Node) (links : List Link)
    (walk : Node → Option (List WalkEv)) (from_id k : Nat) (b : List WalkEv)
    (h : linkEvents nodes links walk from_id k = some b) :
    ∃ l, lastWith Link.id k links = some l ∧ ∀ ev ∈ b, ev.path.getLast? = some l := by
  unfold linkEvents at h
  cases hl : lastWith Link.id k links with
  | none => rw [hl] at h; simp at h
  | some link =>
    rw [hl] at h
    simp only at h
    refine ⟨link, rfl, ?_⟩
    cases hnx : lastWith Node.id link.target_id nodes with
    | none => rw [hnx] at h; simp at h
    | some next =>
      rw [hnx] at h
      simp only at h
      by_cases hr : next.type = "Reroute"
      · rw [if_pos hr] at h
        simp only [Option.map_eq_some'] at h
        obtain ⟨evs0, _, rfl⟩ := h
        intro ev hev
        obtain ⟨ev0, _, rfl⟩ := List.mem_map.mp hev
        exact List.getLast?_concat (ev0.link :: ev0.via)
      · rw [if_neg hr] at h
        simp only [Option.some.injEq] at h
        subst h
        intro ev hev
        simp only [List.mem_singleton] at hev
        subst hev
        rfl

theorem walkEvents_facts (nodes : List Node) (links : List Link)
    (hN4 : ∀ n ∈ nodes, ∀ o ∈ n.outputs.getD [], ∀ k ∈ o.links.ids, ∀ l ∈ links, l.id = k →
      l.origin_id = n.id) :
    ∀ (depth : Nat) (n : Node) (evs : List WalkEv), n ∈ nodes →
      walkEvents nodes links depth n = some evs → ∀ ev ∈ evs, EvFacts nodes links n ev := by
  intro depth
  induction depth with
  | zero => intro n evs _ h; simp [walkEvents] at h
  | succ d ih =>
    intro n evs hn h ev hev
    unfold walkEvents at h
    cases ho : n.outputs with
    | none =>
      rw [ho] at h
      simp only [Option.some.injEq] at h
      subst h
      simp at hev
    | some outs =>
      rw [ho] at h
      simp only at h
      cases hids : outIds outs with
      | none => rw [hids] at h; simp at h
      | some ids =>
        rw [hids] at h
        simp only at h
        obtain ⟨k, hk, b, hb, hevb⟩ := collectEvents_mem _ ids evs h ev hev
        have hidsEq := outIds_eq outs ids hids
        have hkflat : k ∈ (n.outputs.getD []).flatMap (fun o => o.links.ids) := by
          rw [ho, Option.getD_some, ← hidsEq]; exact hk
        obtain ⟨l0, hl0, hlast⟩ := linkEvents_last nodes links _ n.id k b hb
        unfold linkEvents at hb
        cases hl : lastWith Link.id k links with
        | none => rw [hl] at hb; simp at hb
        | some link =>
          rw [hl] at hb
          simp only at hb
          obtain ⟨hlmem, hlid⟩ := lastWith_some Link.id k links link hl
          have horigin : link.origin_id = n.id := by
            obtain ⟨o, ho1, ho2⟩ := List.mem_flatMap.mp hkflat
            exact hN4 n hn o ho1 k ho2 link hlmem hlid
          cases hnx : lastWith Node.id link.target_id nodes with
          | none => rw [hnx] at hb; simp at hb
          | some next =>
            rw [hnx] at hb
            simp only at hb
            obtain ⟨hnmem, hnid⟩ := lastWith_some Node.id link.target_id nodes next hnx
            by_cases hr : next.type = "Reroute"
            · rw [if_pos hr] at hb
              simp only [Option.map_eq_some'] at hb
              obtain ⟨evs0, hevs0, rfl⟩ := hb
              obtain ⟨ev0, hev0, rfl⟩ := List.mem_map.mp hevb
              obtain ⟨f1, f2, f3, f4, _⟩ := ih next evs0 hnmem hevs0 ev0 hev0
              refine ⟨f1, f2, ?_, f4, k, hkflat, l0, hl0, hlast _ hevb⟩
              have := validPath_snoc nodes links n.id next.id link hlmem hnid.symm horigin
                ⟨next, by rw [hnid]; exact hnx, hr⟩ ev0.path f3
              simpa [WalkEv.path] using this
            · rw [if_neg hr] at hb
              simp only [Option.some.injEq] at hb
              subst hb
              have hevb2 := hevb
              simp only [List.mem_singleton] at hevb2
              subst hevb2
              exact ⟨hnx, hr, ⟨hlmem, horigin⟩, horigin.symm, k, hkflat, l0, hl0, hlast _ hevb⟩

/-- The paths of the events of one walk are pairwise different. -/
theorem walkEvents_nodup (nodes : List Node) (links : List Link)
    (hN5 : ∀ n ∈ nodes, ((n.outputs.getD []).flatMap (fun o => o.links.ids)).Nodup) :
    ∀ (depth : Nat) (n : Node) (evs : List WalkEv), n ∈ nodes →
      walkEvents nodes links depth n = some evs → (evs.map WalkEv.path).Nodup := by
  intro depth
  induction depth with
  | zero => intro n evs _ h; simp [walkEvents] at h
  | succ d ih =>
    intro n evs hn h
    unfold walkEvents at h
    cases ho : n.outputs with
    | none =>
      rw [ho] at h
      simp only [Option.some.injEq] at h
      subst h
      exact List.nodup_nil
    | some outs =>
      rw [ho] at h
      simp only at h
      cases hids : outIds outs with
      | none => rw [hids] at h; simp at h
      | some ids =>
        rw [hids] at h
        simp only at h
        have hnd : ids.Nodup := by
          have := hN5 n hn
          rw [ho, Option.getD_some, ← outIds_eq outs ids hids] at this
          exact this
        refine collectEvents_nodup WalkEv.path _ ids evs hnd ?_ ?_ h
        · intro k _ b hb
          unfold linkEvents at hb
          cases hl : lastWith Link.id k links with
          | none => rw [hl] at hb; simp at hb
          | some link =>
            rw [hl] at hb
            simp only at hb
            cases hnx : lastWith Node.id link.target_id nodes with
            | none => rw [hnx] at hb; simp at hb
            | some next =>
              rw [hnx] at hb
              simp only at hb
              by_cases hr : next.type = "Reroute"
              · rw [if_pos hr] at hb
                simp only [Option.map_eq_some'] at hb
                obtain ⟨evs0, hevs0, rfl⟩ := hb
                have h0 := ih next evs0 (lastWith_some Node.id _ nodes next hnx).1 hevs0
                have : (evs0.map (fun ev => { ev with via := ev.via ++ [link] })).map WalkEv.path
                    = (evs0.map WalkEv.path).map (fun p => p ++ [link]) := by
                  simp [List.map_map, Function.comp, WalkEv.path]
                rw [this]
                exact h0.map (fun p q hpq => List.append_cancel_right hpq)
              · rw [if_neg hr] at hb
                simp only [Option.some.injEq] at hb
                subst hb
                simp
        · intro k1 _ k2 _ hne b1 b2 hb1 hb2 e1 he1 e2 he2 hpath
          obtain ⟨l1, hl1, hlast1⟩ := linkEvents_last nodes links _ n.id k1 b1 hb1
          obtain ⟨l2, hl2, hlast2⟩ := linkEvents_last nodes links _ n.id k2 b2 hb2
          have h1 := hlast1 e1 he1
          have h2 := hlast2 e2 he2
          rw [hpath, h2] at h1
          simp only [Option.some.injEq] at h1
          have i1 := (lastWith_some Link.id k1 links l1 hl1).2
          have i2 := (lastWith_some Link.id k2 links l2 hl2).2
          exact hne (by rw [← i1, ← i2, h1])

/-- A chain starts at one node only. -/
theorem validPath_root (nodes : List Node) (links : List Link) (a b : Nat) :
    ∀ (p : List Link), ValidPath nodes links a p → ValidPath nodes links b p → a = b := by
  intro p
  induction p with
  | nil => intro h; exact absurd h id
  | cons l rest ih =>
    intro h1 h2
    cases rest with
    | nil =>
      simp only [ValidPath] at h1 h2
      exact h1.2.symm.trans h2.2
    | cons l1 rest1 =>
      simp only [ValidPath] at h1 h2
      exact ih h1.2.2.2 h2.2.2.2

theorem not_reroute_and_normal (nodes : List Node) (k : Nat) (h1 : IsRerouteId nodes k)
    (h2 : IsNormalId nodes k) : False := by
  obtain ⟨m, hm, hr⟩ := h1
  obtain ⟨m1, hm1, hn⟩ := h2
  rw [Option.mem_def] at hm hm1
  rw [hm] at hm1
  simp only [Option.some.injEq] at hm1
  exact hn (hm1 ▸ hr)

/-- Two chains that start at normal nodes and end with the same link are the same chain, when
a Reroute node is the target of at most one link. -/
theorem validPath_unique (nodes : List Node) (links : List Link)
    (hone : ∀ l1 ∈ links, ∀ l2 ∈ links, l1.target_id = l2.target_id →
      IsRerouteId nodes l1.target_id → l1 = l2) :
    ∀ (p q : List Link) (a b : Nat), IsNormalId nodes a → IsNormalId nodes b →
      ValidPath nodes links a p → ValidPath nodes links b q → p.head? = q.head? → p = q := by
  intro p
  induction p with
  | nil => intro q a b _ _ h; exact absurd h id
  | cons l rest ih =>
    intro q a b ha hb hp hq hhead
    cases q with
    | nil => exact absurd hq id
    | cons l0 rest0 =>
      simp only [List.head?_cons, Option.some.injEq] at hhead
      subst hhead
      cases rest with
      | nil =>
        cases rest0 with
        | nil => rfl
        | cons l2 r2 =>
          simp only [ValidPath] at hp hq
          exact absurd ha (fun hn => not_reroute_and_normal nodes a
            (by rw [← hp.2, hq.2.1]; exact hq.2.2.1) hn)
      | cons l1 r1 =>
        cases rest0 with
        | nil =>
          simp only [ValidPath] at hp hq
          exact absurd hb (fun hn => not_reroute_and_normal nodes b
            (by rw [← hq.2, hp.2.1]; exact hp.2.2.1) hn)
        | cons l2 r2 =>
          have hp1 := hp
          have hq1 := hq
          simp only [ValidPath] at hp1 hq1
          have hmem1 : l1 ∈ links := by
            cases r1 with
            | nil => simp only [ValidPath] at hp1; exact hp1.2.2.2.1
            | cons x xs => simp only [ValidPath] at hp1; exact hp1.2.2.2.1
          have hmem2 : l2 ∈ links := by
            cases r2 with
            | nil => simp only [ValidPath] at hq1; exact hq1.2.2.2.1
            | cons x xs => simp only [ValidPath] at hq1; exact hq1.2.2.2.1
          have e12 : l1 = l2 := hone l1 hmem1 l2 hmem2
            (hp1.2.1.symm.trans hq1.2.1) hp1.2.2.1
          subst e12
          have := ih (l1 :: r2) a b ha hb hp1.2.2.2 hq1.2.2.2 rfl
          rw [this]

/-! ### Counting the links into a node -/

theorem connectedInputs_eq (v : Node) :
    connectedInputs v = ((v.inputs.getD []).filterMap (fun s => s.link)).length := by
  unfold connectedInputs
  cases v.inputs with
  | none => rfl
  | some inps =>
    simp only [Option.getD_some]
    induction inps with
    | nil => rfl
    | cons s rest ih =>
      cases hs : s.link with
      | none => simp [List.filter_cons, List.filterMap_cons, hs, ih]
      | some k => simp [List.filter_cons, List.filterMap_cons, hs, ih]

/-- In a well-formed document a node has at least as many connected inputs as there are links
that reach it. -/
theorem linksInto_le (nodes : List Node) (links : List Link) (hwf : WFLegacy nodes links)
    (v : Node) (hv : v ∈ nodes) :
    (links.filter (fun l => l.target_id = v.id)).length ≤ connectedInputs v := by
  obtain ⟨_, hN2, hN3, _⟩ := hwf
  rw [connectedInputs_eq]
  have hnd : ((links.filter (fun l => l.target_id = v.id)).map Link.id).Nodup :=
    hN2.sublist ((List.filter_sublist links).map Link.id)
  have hsub : (links.filter (fun l => l.target_id = v.id)).map Link.id ⊆
      (v.inputs.getD []).filterMap (fun s => s.link) := by
    intro k hk
    obtain ⟨l, hl, rfl⟩ := List.mem_map.mp hk
    obtain ⟨hl1, hl2⟩ := List.mem_filter.mp hl
    have hl3 : l.target_id = v.id := by simpa using hl2
    obtain ⟨s, hs, hsl⟩ := hN3 l hl1 v hv hl3.symm
    exact List.mem_filterMap.mpr ⟨s, hs, hsl⟩
  have := (List.subperm_of_subset hnd hsub).length_le
  simpa using this

theorem eq_of_length_le_one {α : Type} : ∀ (L : List α) (a b : α), L.length ≤ 1 → a ∈ L →
    b ∈ L → a = b := by
  intro L a b h ha hb
  cases L with
  | nil => simp at ha
  | cons x xs =>
    cases xs with
    | nil =>
      simp only [List.mem_singleton] at ha hb
      rw [ha, hb]
    | cons y ys => simp at h

/-- In a well-formed document a Reroute node is the target of at most one link. -/
theorem reroute_unique (nodes : List Node) (links : List Link) (hwf : WFLegacy nodes links) :
    ∀ l1 ∈ links, ∀ l2 ∈ links, l1.target_id = l2.target_id →
      IsRerouteId nodes l1.target_id → l1 = l2 := by
  intro l1 h1 l2 h2 ht hr
  obtain ⟨m, hm, hmr⟩ := hr
  rw [Option.mem_def] at hm
  obtain ⟨hmem, hmid⟩ := lastWith_some Node.id _ nodes m hm
  have hle := linksInto_le nodes links hwf m hmem
  have h6 := hwf.2.2.2.2.2 m hmem hmr
  apply eq_of_length_le_one (links.filter (fun l => l.target_id = m.id)) l1 l2 (by omega)
  · exact List.mem_filter.mpr ⟨h1, by simpa using hmid.symm⟩
  · exact List.mem_filter.mpr ⟨h2, by simpa using (ht.symm.trans hmid.symm)⟩

theorem node_eq_of_id (nodes : List Node) (hnd : (nodes.map Node.id).Nodup) (a b : Node)
    (ha : a ∈ nodes) (hb : b ∈ nodes) (h : a.id = b.id) : a = b := by
  have h1 := lastWith_of_nodup Node.id nodes a hnd ha
  have h2 := lastWith_of_nodup Node.id nodes b hnd hb
  rw [h] at h1
  rw [h1] at h2
  exact Option.some.inj h2

theorem isNormalId_of_mem (nodes : List Node) (hnd : (nodes.map Node.id).Nodup) (a : Node)
    (ha : a ∈ nodes) (hr : a.type ≠ "Reroute") : IsNormalId nodes a.id :=
  ⟨a, by rw [Option.mem_def]; exact lastWith_of_nodup Node.id nodes a hnd ha, hr⟩

/-! ### The seeds -/

theorem seed_fold_degree :
    ∀ (rest pre : List Node) (st : Kahn), ((pre ++ rest).map Node.id).Nodup →
      (∀ v ∈ pre, v.type ≠ "Reroute" → st.in_degree v.id = some (connectedInputs v : Int)) →
      (∀ v ∈ st.flow_order, connectedInputs v = 0) →
      (∀ v ∈ pre ++ rest, v.type ≠ "Reroute" →
        (rest.foldl seedStep st).in_degree v.id = some (connectedInputs v : Int)) ∧
      (∀ v ∈ (rest.foldl seedStep st).flow_order, connectedInputs v = 0) := by
  intro rest
  induction rest with
  | nil =>
    intro pre st _ h1 h2
    simp only [List.append_nil, List.foldl_nil]
    exact ⟨h1, h2⟩
  | cons x xs ih =>
    intro pre st hall h1 h2
    have hall2 : (((pre ++ [x]) ++ xs).map Node.id).Nodup := by simpa using hall
    have hx : x.id ∉ pre.map Node.id := by
      rw [List.map_append, List.map_cons] at hall
      have := (List.nodup_append.mp hall).2.2
      intro hin
      exact this hin (List.mem_cons_self _ _)
    have key := ih (pre ++ [x]) (seedStep st x) hall2
    rw [List.append_assoc, List.singleton_append] at key
    simp only [List.foldl_cons]
    apply key
    · intro v hv hvr
      unfold seedStep
      rcases List.mem_append.mp hv with hv | hv
      · have hne : v.id ≠ x.id := fun e => hx (e ▸ List.mem_map_of_mem Node.id hv)
        by_cases hr : x.type = "Reroute"
        · rw [if_pos hr]; exact h1 v hv hvr
        · rw [if_neg hr]
          simp only [hne, if_false]
          exact h1 v hv hvr
      · rw [List.mem_singleton] at hv
        subst hv
        rw [if_neg hvr]
        simp
    · intro v hv
      unfold seedStep at hv
      by_cases hr : x.type = "Reroute"
      · rw [if_pos hr] at hv; exact h2 v hv
      · rw [if_neg hr] at hv
        simp only at hv
        by_cases hz : connectedInputs x = 0
        · rw [if_pos hz] at hv
          rcases List.mem_append.mp hv with hv | hv
          · exact h2 v hv
          · rw [List.mem_singleton] at hv
            rw [hv]; exact hz
        · rw [if_neg hz] at hv
          exact h2 v hv

theorem seedKahn_degree (nodes : List Node) (hnd : (nodes.map Node.id).Nodup) :
    (∀ v ∈ nodes, v.type ≠ "Reroute" →
      (seedKahn nodes).in_degree v.id = some (connectedInputs v : Int)) ∧
    (∀ v ∈ (seedKahn nodes).flow_order, connectedInputs v = 0) := by
  have := seed_fold_degree nodes [] { in_degree := fun _ => none, flow_order := [] }
    (by simpa using hnd) (by simp) (by simp)
  simpa [seedKahn] using this

/-! ### The events of several walks -/

theorem walkAll_append (nodes : List Node) (links : List Link) (depth : Nat) :
    ∀ (rs : List Node) (r : Node) (E evs : List WalkEv),
      walkAll nodes links depth rs = some E → walkEvents nodes links depth r = some evs →
      walkAll nodes links depth (rs ++ [r]) = some (E ++ evs) := by
  intro rs
  induction rs with
  | nil =>
    intro r E evs h1 h2
    simp only [walkAll, Option.some.injEq] at h1
    subst h1
    simp [walkAll, h2]
  | cons x xs ih =>
    intro r E evs h1 h2
    unfold walkAll at h1
    cases hx : walkEvents nodes links depth x with
    | none => rw [hx] at h1; simp at h1
    | some b =>
      rw [hx] at h1
      simp only at h1
      cases hxs : walkAll nodes links depth xs with
      | none => rw [hxs] at h1; simp at h1
      | some more =>
        rw [hxs] at h1
        simp only [Option.some.injEq] at h1
        subst h1
        simp [walkAll, hx, ih r more evs hxs h2]

theorem walkAll_mem (nodes : List Node) (links : List Link) (depth : Nat) :
    ∀ (rs : List Node) (E : List WalkEv), walkAll nodes links depth rs = some E →
      ∀ ev ∈ E, ∃ r ∈ rs, ∃ evs, walkEvents nodes links depth r = some evs ∧ ev ∈ evs := by
  intro rs
  induction rs with
  | nil =>
    intro E h ev hev
    simp only [walkAll, Option.some.injEq] at h
    subst h
    simp at hev
  | cons x xs ih =>
    intro E h ev hev
    unfold walkAll at h
    cases hx : walkEvents nodes links depth x with
    | none => rw [hx] at h; simp at h
    | some b =>
      rw [hx] at h
      simp only at h
      cases hxs : walkAll nodes links depth xs with
      | none => rw [hxs] at h; simp at h
      | some more =>
        rw [hxs] at h
        simp only [Option.some.injEq] at h
        subst h
        rcases List.mem_append.mp hev with hb | hm
        · exact ⟨x, List.mem_cons_self _ _, b, hx, hb⟩
        · obtain ⟨r, hr, evs, he, hin⟩ := ih more hxs ev hm
          exact ⟨r, List.mem_cons_of_mem _ hr, evs, he, hin⟩

/-- The paths of the events of the walks from nodes of pairwise distinct ids are pairwise
different. -/
theorem walkAll_nodup_path (nodes : List Node) (links : List Link) (depth : Nat)
    (hwf : WFLegacy nodes links) :
    ∀ (rs : List Node) (E : List WalkEv), (rs.map Node.id).Nodup → (∀ r ∈ rs, r ∈ nodes) →
      walkAll nodes links depth rs = some E → (E.map WalkEv.path).Nodup := by
  obtain ⟨_, _, _, hN4, hN5, _⟩ := hwf
  intro rs
  induction rs with
  | nil =>
    intro E _ _ h
    simp only [walkAll, Option.some.injEq] at h
    subst h
    exact List.nodup_nil
  | cons x xs ih =>
    intro E hnd hmem h
    rw [List.map_cons, List.nodup_cons] at hnd
    unfold walkAll at h
    cases hx : walkEvents nodes links depth x with
    | none => rw [hx] at h; simp at h
    | some b =>
      rw [hx] at h
      simp only at h
      cases hxs : walkAll nodes links depth xs with
      | none => rw [hxs] at h; simp at h
      | some more =>
        rw [hxs] at h
        simp only [Option.some.injEq] at h
        subst h
        have hxm := hmem x (List.mem_cons_self _ _)
        rw [List.map_append]
        refine List.Nodup.append (walkEvents_nodup nodes links hN5 depth x b hxm hx)
          (ih more hnd.2 (fun r hr => hmem r (List.mem_cons_of_mem _ hr)) hxs) ?_
        intro p hp1 hp2
        obtain ⟨e1, he1, rfl⟩ := List.mem_map.mp hp1
        obtain ⟨e2, he2, hpe⟩ := List.mem_map.mp hp2
        obtain ⟨r, hr, evs, hevs, hin⟩ := walkAll_mem nodes links depth xs more hxs e2 he2
        have f1 := (walkEvents_facts nodes links hN4 depth x b hxm hx e1 he1).2.2.1
        have f2 := (walkEvents_facts nodes links hN4 depth r evs
          (hmem r (List.mem_cons_of_mem _ hr)) hevs e2 hin).2.2.1
        rw [hpe] at f2
        have := validPath_root nodes links x.id r.id _ f1 f2
        exact hnd.1 (this ▸ List.mem_map_of_mem Node.id hr)

/-- No link occurs in two events of the walks from normal nodes of pairwise distinct ids. -/
theorem walkAll_nodup_link (nodes : List Node) (links : List Link) (depth : Nat)
    (hwf : WFLegacy nodes links) (rs : List Node) (E : List WalkEv)
    (hnd : (rs.map Node.id).Nodup) (hmem : ∀ r ∈ rs, r ∈ nodes ∧ r.type ≠ "Reroute")
    (h : walkAll nodes links depth rs = some E) : (E.map WalkEv.link).Nodup := by
  have hp := walkAll_nodup_path nodes links depth hwf rs E hnd (fun r hr => (hmem r hr).1) h
  have hE : E.Nodup := List.Nodup.of_map _ hp
  refine List.Nodup.map_on ?_ hE
  intro x hx y hy hxy
  obtain ⟨rx, hrx, ex, hex, hinx⟩ := walkAll_mem nodes links depth rs E h x hx
  obtain ⟨ry, hry, ey, hey, hiny⟩ := walkAll_mem nodes links depth rs E h y hy
  obtain ⟨a1, _, a3, a4, _⟩ := walkEvents_facts nodes links hwf.2.2.2.1 depth rx ex
    (hmem rx hrx).1 hex x hinx
  obtain ⟨b1, _, b3, b4, _⟩ := walkEvents_facts nodes links hwf.2.2.2.1 depth ry ey
    (hmem ry hry).1 hey y hiny
  have hpath := validPath_unique nodes links (reroute_unique nodes links hwf) x.path y.path
    rx.id ry.id (isNormalId_of_mem nodes hwf.1 rx (hmem rx hrx).1 (hmem rx hrx).2)
    (isNormalId_of_mem nodes hwf.1 ry (hmem ry hry).1 (hmem ry hry).2) a3 b3
    (by simp [WalkEv.path, hxy])
  cases x with
  | mk xf xl xn xv =>
    cases y with
    | mk yf yl yn yv =>
      simp only [WalkEv.path, List.cons.injEq] at hpath
      simp only at hxy a1 a4 b1 b4
      obtain ⟨_, hv⟩ := hpath
      subst hxy
      subst hv
      rw [a1] at b1
      simp only [Option.some.injEq] at b1
      subst b1
      rw [← b4] at a4
      subst a4
      rfl

/-! ### The effect of a list of events -/

theorem effCount_append (t : Nat) (a b : List WalkEv) :
    effCount t (a ++ b) = effCount t a + effCount t b := by
  simp [effCount, List.filter_append]

theorem applyEv_degree (st : Kahn) (ev : WalkEv) (t : Nat) :
    (applyEv st ev).in_degree t = (st.in_degree t).map (fun d => d - (effCount t [ev] : Int)) := by
  unfold applyEv decrTarget effCount
  by_cases hft : ev.from_id ≠ ev.link.target_id
  · rw [if_pos hft]
    cases hd : st.in_degree ev.link.target_id with
    | none =>
      simp only
      by_cases ht : t = ev.link.target_id
      · subst ht; simp [hd]
      · have : ¬ (ev.link.target_id = t) := fun e => ht e.symm
        simp [List.filter_cons, this]
    | some d =>
      simp only
      by_cases ht : t = ev.link.target_id
      · subst ht
        simp [hd, List.filter_cons, hft]
      · have : ¬ (ev.link.target_id = t) := fun e => ht e.symm
        simp [ht, List.filter_cons, this]
  · rw [if_neg hft]
    have hft2 : ev.from_id = ev.link.target_id := not_not.mp hft
    by_cases ht : t = ev.link.target_id
    · subst ht
      simp [List.filter_cons, hft2]
    · have : ¬ (ev.link.target_id = t) := fun e => ht e.symm
      simp [List.filter_cons, this]

theorem foldl_applyEv_degree : ∀ (evs : List WalkEv) (st : Kahn) (t : Nat),
    (evs.foldl applyEv st).in_degree t =
      (st.in_degree t).map (fun d => d - (effCount t evs : Int)) := by
  intro evs
  induction evs with
  | nil => intro st t; simp [effCount]
  | cons ev rest ih =>
    intro st t
    simp only [List.foldl_cons]
    rw [ih, applyEv_degree]
    have : effCount t (ev :: rest) = effCount t [ev] + effCount t rest := by
      rw [← effCount_append]; rfl
    rw [this]
    cases st.in_degree t with
    | none => rfl
    | some d =>
      simp only [Option.map_some', Option.some.injEq, Nat.cast_add]
      ring

/-- The nodes that a list of events pushes on `flow_order`: each is the node of an event, and
its in-degree is at most 0 afterwards. -/
theorem foldl_applyEv_order : ∀ (evs : List WalkEv) (st : Kahn),
    ∃ news, (evs.foldl applyEv st).flow_order = st.flow_order ++ news ∧
      ∀ v ∈ news, ∃ ev ∈ evs, v = ev.next_node ∧
        ∃ d, (evs.foldl applyEv st).in_degree ev.link.target_id = some d ∧ d ≤ 0 := by
  intro evs
  induction evs with
  | nil => intro st; exact ⟨[], by simp, by simp⟩
  | cons ev rest ih =>
    intro st
    obtain ⟨news, h1, h2⟩ := ih (applyEv st ev)
    simp only [List.foldl_cons]
    have hstep : ∃ pushed, (applyEv st ev).flow_order = st.flow_order ++ pushed ∧
        ∀ v ∈ pushed, v = ev.next_node ∧
          ∃ d, (applyEv st ev).in_degree ev.link.target_id = some d ∧ d ≤ 0 := by
      unfold applyEv decrTarget
      by_cases hft : ev.from_id ≠ ev.link.target_id
      · rw [if_pos hft]
        cases hd : st.in_degree ev.link.target_id with
        | none => exact ⟨[], by simp, by simp⟩
        | some d =>
          simp only
          by_cases hz : d - 1 = 0
          · rw [if_pos hz]
            refine ⟨[ev.next_node], rfl, ?_⟩
            intro v hv
            rw [List.mem_singleton] at hv
            exact ⟨hv, d - 1, by simp, by omega⟩
          · rw [if_neg hz]
            exact ⟨[], by simp, by simp⟩
      · rw [if_neg hft]
        exact ⟨[], by simp, by simp⟩
    obtain ⟨pushed, p1, p2⟩ := hstep
    refine ⟨pushed ++ news, by rw [h1, p1, List.append_assoc], ?_⟩
    intro v hv
    rcases List.mem_append.mp hv with hv | hv
    · obtain ⟨e1, d, hd, hle⟩ := p2 v hv
      refine ⟨ev, List.mem_cons_self _ _, e1, ?_⟩
      rw [foldl_applyEv_degree, hd]
      exact ⟨d - (effCount ev.link.target_id rest : Int), rfl, by
        have : (0 : Int) ≤ (effCount ev.link.target_id rest : Int) := Int.natCast_nonneg _
        omega⟩
    · obtain ⟨e, he, hve, d, hd, hle⟩ := h2 v hv
      exact ⟨e, List.mem_cons_of_mem _ he, hve, d, hd, hle⟩

/-! ### The invariant of the in-degree loop and the order of the result -/

theorem validPath_head_mem (nodes : List Node) (links : List Link) (a : Nat) (l : Link)
    (rest : List Link) (h : ValidPath nodes links a (l :: rest)) : l ∈ links := by
  cases rest with
  | nil => simp only [ValidPath] at h; exact h.1
  | cons x xs => simp only [ValidPath] at h; exact h.1

theorem outerInv_seed (nodes : List Node) (links : List Link) (depth : Nat)
    (hwf : WFLegacy nodes links) : OuterInv nodes links depth (seedKahn nodes) 0 := by
  refine ⟨KInv_seedKahn nodes hwf.1, ⟨[], by simp [walkAll], ?_⟩, ?_⟩
  · intro t
    cases (seedKahn nodes).in_degree t with
    | none => rfl
    | some d => simp [effCount]
  · intro j v hj l hl ht
    have hv := List.getElem?_mem hj
    have hz := (seedKahn_degree nodes hwf.1).2 v hv
    have hvn := ((KInv_seedKahn nodes hwf.1).2 v hv).1
    have hle := linksInto_le nodes links hwf v hvn
    have : l ∈ links.filter (fun l => l.target_id = v.id) :=
      List.mem_filter.mpr ⟨hl, by simpa using ht⟩
    have hpos := List.length_pos_of_mem this
    omega

theorem outerInv_step (nodes : List Node) (links : List Link) (depth : Nat)
    (hwf : WFLegacy nodes links) (st st1 : Kahn) (idx : Nat) (cur : Node)
    (hinv : OuterInv nodes links depth st idx) (hcur : st.flow_order[idx]? = some cur)
    (hwalk : degree_linked_out_nodes nodes links depth cur st = some st1) :
    OuterInv nodes links depth st1 (idx + 1) := by
  obtain ⟨hK, ⟨E, hE, hdeg⟩, hord⟩ := hinv
  rw [walk_eq_events] at hwalk
  simp only [Option.map_eq_some'] at hwalk
  obtain ⟨evs, hevs, hst1⟩ := hwalk
  have hK1 : KInv nodes st1 := by
    have := walk_inv nodes links (KInv nodes)
      (fun f t nx s h1 h2 h3 => KInv_decrTarget nodes f t nx s h1 h2 h3) depth cur st st1
      (by rw [walk_eq_events, hevs, ← hst1]; rfl) hK
    exact this
  obtain ⟨news, hnews, hpushed⟩ := foldl_applyEv_order evs st
  rw [hst1] at hnews hpushed
  have hidx : idx < st.flow_order.length := by
    rcases Nat.lt_or_ge idx st.flow_order.length with h | h
    · exact h
    · rw [List.getElem?_eq_none h] at hcur; simp at hcur
  have htake : st1.flow_order.take (idx + 1) = st.flow_order.take idx ++ [cur] := by
    rw [hnews, List.take_append_of_le_length (by omega), List.take_succ, hcur]
    rfl
  have hE1 : walkAll nodes links depth (st1.flow_order.take (idx + 1)) = some (E ++ evs) := by
    rw [htake]
    exact walkAll_append nodes links depth _ cur E evs hE hevs
  have hdeg1 : ∀ t, st1.in_degree t =
      ((seedKahn nodes).in_degree t).map (fun d => d - (effCount t (E ++ evs) : Int)) := by
    intro t
    rw [← hst1, foldl_applyEv_degree, hdeg t, effCount_append]
    cases (seedKahn nodes).in_degree t with
    | none => rfl
    | some d =>
      simp only [Option.map_some', Option.some.injEq, Nat.cast_add]
      ring
  refine ⟨hK1, ⟨E ++ evs, hE1, hdeg1⟩, ?_⟩
  intro j v hj l hl ht
  by_cases hjlt : j < st.flow_order.length
  · rw [hnews, List.getElem?_append_left hjlt] at hj
    obtain ⟨i, hij, r, hr, hrest⟩ := hord j v hj l hl ht
    exact ⟨i, hij, r, by rw [hnews, List.getElem?_append_left (by omega)]; exact hr, hrest⟩
  · have hjge : st.flow_order.length ≤ j := Nat.le_of_not_lt hjlt
    have hv1 := List.getElem?_mem hj
    rw [hnews, List.getElem?_append_right hjge] at hj
    have hvnews := List.getElem?_mem hj
    obtain ⟨ev, hev, hvev, d, hd, hdle⟩ := hpushed v hvnews
    have hcurmem : cur ∈ nodes := (hK.2 cur (List.getElem?_mem hcur)).1
    obtain ⟨f1, _, _, _, _⟩ := walkEvents_facts nodes links hwf.2.2.2.1 depth cur evs hcurmem
      hevs ev hev
    obtain ⟨hvn, hvid⟩ := lastWith_some Node.id _ nodes _ f1
    rw [← hvev] at hvn hvid
    have hvr : v.type ≠ "Reroute" := (hK1.2 v hv1).2.1
    -- the in-degree of `v` is at most 0: all its links were walked
    have hseed := (seedKahn_degree nodes hwf.1).1 v hvn hvr
    have hd1 := hdeg1 v.id
    rw [hvid, hd, ← hvid, hseed] at hd1
    simp only [Option.map_some', Option.some.injEq] at hd1
    have hle := linksInto_le nodes links hwf v hvn
    set X := ((E ++ evs).filter (fun e => e.link.target_id = v.id ∧ e.from_id ≠ v.id)).map
      WalkEv.link with hX
    have hXlen : X.length = effCount v.id (E ++ evs) := by simp [hX, effCount]
    have hroots_nd : ((st1.flow_order.take (idx + 1)).map Node.id).Nodup :=
      hK1.1.sublist ((List.take_sublist _ _).map Node.id)
    have hroots_mem : ∀ r ∈ st1.flow_order.take (idx + 1), r ∈ nodes ∧ r.type ≠ "Reroute" :=
      fun r hr => ⟨(hK1.2 r (List.mem_of_mem_take hr)).1, (hK1.2 r (List.mem_of_mem_take hr)).2.1⟩
    have hXnd : X.Nodup :=
      (walkAll_nodup_link nodes links depth hwf _ (E ++ evs) hroots_nd hroots_mem hE1).sublist
        ((List.filter_sublist _).map WalkEv.link)
    have hXsub : X ⊆ links.filter (fun l => l.target_id = v.id) := by
      intro x hx
      obtain ⟨e, he, rfl⟩ := List.mem_map.mp hx
      obtain ⟨he1, he2⟩ := List.mem_filter.mp he
      simp only [decide_eq_true_eq] at he2
      obtain ⟨r, hr, evs1, hevs1, hin⟩ := walkAll_mem nodes links depth _ _ hE1 e he1
      obtain ⟨_, _, g3, _, _⟩ := walkEvents_facts nodes links hwf.2.2.2.1 depth r evs1
        (hroots_mem r hr).1 hevs1 e hin
      exact List.mem_filter.mpr
        ⟨validPath_head_mem nodes links r.id e.link e.via g3, by simpa using he2.1⟩
    have hperm := (List.subperm_of_subset hXnd hXsub).perm_of_length_le (by omega)
    have hlX : l ∈ X := hperm.mem_iff.mpr (List.mem_filter.mpr ⟨hl, by simpa using ht⟩)
    obtain ⟨e, he, hel⟩ := List.mem_map.mp hlX
    obtain ⟨r, hr, evs1, hevs1, hin⟩ := walkAll_mem nodes links depth _ _ hE1 e
      (List.mem_filter.mp he).1
    obtain ⟨i, hi⟩ := List.mem_iff_getElem?.mp hr
    have hi2 : i < idx + 1 := by
      rcases Nat.lt_or_ge i (idx + 1) with h | h
      · exact h
      · rw [List.getElem?_take_eq_none h] at hi; simp at hi
    rw [List.getElem?_take_of_lt hi2] at hi
    exact ⟨i, by omega, r, hi, evs1, hevs1, e, hin, hel⟩

theorem kahnLoop_ordered (nodes : List Node) (links : List Link) (depth : Nat)
    (hwf : WFLegacy nodes links) :
    ∀ (fuel idx : Nat) (st st1 : Kahn), OuterInv nodes links depth st idx →
      kahnLoop nodes links depth fuel idx st = some st1 →
      KInv nodes st1 ∧ Ordered nodes links depth st1.flow_order := by
  intro fuel
  induction fuel with
  | zero => intro idx st st1 _ h; simp [kahnLoop] at h
  | succ f ih =>
    intro idx st st1 hinv h
    unfold kahnLoop at h
    cases hc : st.flow_order[idx]? with
    | none =>
      rw [hc] at h
      simp only [Option.some.injEq] at h
      subst h
      exact ⟨hinv.1, hinv.2.2⟩
    | some cur =>
      rw [hc] at h
      simp only at h
      cases hw : degree_linked_out_nodes nodes links depth cur st with
      | none => rw [hw] at h; simp at h
      | some st2 =>
        rw [hw] at h
        simp only at h
        exact ih (idx + 1) st2 st1 (outerInv_step nodes links depth hwf st st2 idx cur hinv hc hw) h

theorem leads_path (nodes : List Node) (links : List Link) (a b : Nat)
    (h : Leads nodes links a b) :
    ∃ p l, ValidPath nodes links a p ∧ p.head? = some l ∧ l.target_id = b := by
  induction h with
  | direct l a b hl ha hb => exact ⟨[l], l, ⟨hl, ha⟩, rfl, hb⟩
  | through l a b hl ha hr _ ih =>
    obtain ⟨p, l0, hp, hhead, hb⟩ := ih
    refine ⟨p ++ [l], l0, validPath_snoc nodes links a l.target_id l hl rfl ha hr p hp, ?_, hb⟩
    cases p with
    | nil => exact absurd hp id
    | cons x xs => simpa using hhead

/-- The order that `flowOrder` returns for a well-formed document respects the links. -/
theorem flowOrder_ordered (nodes : List Node) (links : List Link) (order : List Node)
    (hwf : WFLegacy nodes links) (hfo : flowOrder nodes links = some order) :
    Ordered nodes links (nodes.length + 1) order := by
  unfold flowOrder at hfo
  simp only [Option.map_eq_some'] at hfo
  obtain ⟨st, hst, rfl⟩ := hfo
  exact (kahnLoop_ordered nodes links _ hwf _ 0 _ st (outerInv_seed nodes links _ hwf) hst).2

/-- C4: for every well-formed document without the flag whose flow order is computed,
`convertOldVersionWorkflow` returns with the FLOW links of this order, and the order is a
topological order of the data dependencies between non-Reroute nodes: whenever a data link,
directly or through a chain of Reroute nodes, leads from the non-Reroute node `u` to the node
`v` and `v` is in the flow order, `u` is in the flow order and occurs before `v`. -/
theorem C4_flow_order_topological (d : Doc) (ls : List Link) (order : List Node)
    (hflag : d.support_flow_control ≠ some true) (hl : d.links = some ls)
    (hwf : WFLegacy d.nodes ls) (hfo : flowOrder d.nodes ls = some order)
    (u v : Node) (hu : u ∈ d.nodes) (hur : u.type ≠ "Reroute")
    (hlead : Leads d.nodes ls u.id v.id) (hv : v ∈ order) :
    (∃ r, convertOldVersionWorkflow d = some r ∧ r.flow_links = some (pairLinks 0 order)) ∧
    ∃ (i j : Nat), i < j ∧ order[i]? = some u ∧ order[j]? = some v := by
  constructor
  · obtain ⟨r, hr⟩ := Option.isSome_iff_exists.mp (convert_isSome d ls order hwf.1 hl hfo)
    obtain ⟨ns, _, rfl⟩ := convert_unfold d r ls order hflag hl hfo hr
    exact ⟨_, hr, rfl⟩
  · have hord := flowOrder_ordered d.nodes ls order hwf hfo
    have hK := flowOrder_KInv d.nodes ls order hwf.1 hfo
    obtain ⟨p, l, hp, hhead, hlt⟩ := leads_path d.nodes ls u.id v.id hlead
    obtain ⟨j, hj⟩ := List.mem_iff_getElem?.mp hv
    have hlmem : l ∈ ls := by
      cases p with
      | nil => exact absurd hp id
      | cons x xs =>
        simp only [List.head?_cons, Option.some.injEq] at hhead
        subst hhead
        exact validPath_head_mem d.nodes ls u.id x xs hp
    obtain ⟨i, hij, r, hi, evs, hevs, ev, hev, hel⟩ := hord j v hj l hlmem hlt
    have hrmem := hK.2 r (List.getElem?_mem hi)
    obtain ⟨_, _, g3, _, _⟩ := walkEvents_facts d.nodes ls hwf.2.2.2.1 _ r evs hrmem.1 hevs
      ev hev
    have hpath := validPath_unique d.nodes ls (reroute_unique d.nodes ls hwf) p ev.path
      u.id r.id (isNormalId_of_mem d.nodes hwf.1 u hu hur)
      (isNormalId_of_mem d.nodes hwf.1 r hrmem.1 hrmem.2) hp g3
      (by simp [WalkEv.path, hhead, hel])
    rw [← hpath] at g3
    have hid := validPath_root d.nodes ls u.id r.id p hp g3
    have hur2 : u = r := node_eq_of_id d.nodes hwf.1 u r hu hrmem.1 hid
    exact ⟨i, j, hij, hur2 ▸ hi, hj⟩

/-- The statement C4 at the document `reroutedDiamond`: A feeds B through a Reroute node, B is
listed first in the document, and A stands before B in the flow order `[A, C, B]`. -/
theorem C4_flow_order_topological_witness :
    ∃ order, flowOrder reroutedDiamond.nodes (reroutedDiamond.links.getD []) = some order ∧
      order.map Node.id = [1, 4, 3] ∧
      ∃ (i j : Nat), i < j ∧ order[i]? = some diamondA ∧ order[j]? = some diamondB := by
  cases hfo : flowOrder reroutedDiamond.nodes (reroutedDiamond.links.getD []) with
  | none => exact absurd hfo (by decide)
  | some order =>
    have hids : (flowOrder reroutedDiamond.nodes (reroutedDiamond.links.getD [])).map
        (fun o => (o.map Node.id, decide (diamondB ∈ o))) = some ([1, 4, 3], true) := by decide
    rw [hfo] at hids
    simp only [Option.map_some', Option.some.injEq, Prod.mk.injEq, decide_eq_true_eq] at hids
    obtain ⟨_, hij⟩ := C4_flow_order_topological reroutedDiamond
      (reroutedDiamond.links.getD []) order (by decide) rfl (by decide) hfo
      diamondA diamondB (by decide) (by decide)
      (Leads.through
        { id := 1, origin_id := 1, origin_slot := 0, target_id := 2, target_slot := 0,
          type := some "IMAGE" } 1 3 (by decide) rfl (by decide)
        (Leads.direct
          { id := 2, origin_id := 2, origin_slot := 0, target_id := 3, target_slot := 0,
            type := some "IMAGE" } 2 3 (by decide) rfl rfl))
      hids.2
    exact ⟨order, rfl, hids.1, hij⟩

/-! ### The in-degree loop ends -/

theorem outIds_isSome : ∀ (outs : List OutputSlot), (∀ o ∈ outs, ∀ m, o.links ≠ JLinks.num m) →
    (outIds outs).isSome := by
  intro outs
  induction outs with
  | nil => intro _; rfl
  | cons s rest ih =>
    intro h
    have hr := ih (fun o ho => h o (List.mem_cons_of_mem _ ho))
    obtain ⟨r, hr⟩ := Option.isSome_iff_exists.mp hr
    unfold outIds
    cases hs : s.links with
    | null => simp [hr]
    | num m => exact absurd hs (h s (List.mem_cons_self _ _) m)
    | arr ids => simp [hr]

theorem collectEvents_isSome (f : Nat → Option (List WalkEv)) : ∀ (ids : List Nat),
    (∀ k ∈ ids, (f k).isSome) → (collectEvents f ids).isSome := by
  intro ids
  induction ids with
  | nil => intro _; rfl
  | cons k rest ih =>
    intro h
    obtain ⟨b, hb⟩ := Option.isSome_iff_exists.mp (h k (List.mem_cons_self _ _))
    obtain ⟨bs, hbs⟩ := Option.isSome_iff_exists.mp
      (ih (fun j hj => h j (List.mem_cons_of_mem _ hj)))
    simp [collectEvents, hb, hbs]

/-- A walk from a node of rank below the bound of the depth ends. -/
theorem walkEvents_isSome (nodes : List Node) (links : List Link) (rank : Nat → Nat)
    (hres : Resolvable nodes links) (hrank : RerouteRanked nodes links rank) :
    ∀ (depth : Nat) (n : Node), n ∈ nodes → rank n.id < depth →
      (walkEvents nodes links depth n).isSome := by
  intro depth
  induction depth with
  | zero => intro n _ h; exact absurd h (Nat.not_lt_zero _)
  | succ d ih =>
    intro n hn hlt
    unfold walkEvents
    cases ho : n.outputs with
    | none => rfl
    | some outs =>
      simp only
      have hno : ∀ o ∈ outs, ∀ m, o.links ≠ JLinks.num m := by
        intro o hmem
        exact (hres n hn o (by rw [ho]; exact hmem)).1
      obtain ⟨ids, hids⟩ := Option.isSome_iff_exists.mp (outIds_isSome outs hno)
      rw [hids]
      simp only
      apply collectEvents_isSome
      intro k hk
      have hkflat : k ∈ outs.flatMap (fun o => o.links.ids) := by
        rw [← outIds_eq outs ids hids]; exact hk
      obtain ⟨o, hmem, hko⟩ := List.mem_flatMap.mp hkflat
      have hmem2 : o ∈ n.outputs.getD [] := by rw [ho]; exact hmem
      obtain ⟨l, hl, hnx⟩ := (hres n hn o hmem2).2 k hko
      obtain ⟨next, hnext⟩ := Option.isSome_iff_exists.mp hnx
      rw [Option.mem_def] at hl
      unfold linkEvents
      simp only [hl, hnext]
      by_cases hr : next.type = "Reroute"
      · rw [if_pos hr]
        obtain ⟨hnm, hnid⟩ := lastWith_some Node.id _ nodes next hnext
        have hlt2 := hrank.2 n hn o hmem2 k hko l (by rw [Option.mem_def]; exact hl)
          ⟨next, by rw [Option.mem_def]; exact hnext, hr⟩
        have := ih next hnm (by rw [hnid]; omega)
        obtain ⟨evs, hevs⟩ := Option.isSome_iff_exists.mp this
        simp [hevs]
      · rw [if_neg hr]; rfl

theorem kinv_length_le (nodes : List Node) (st : Kahn) (h : KInv nodes st) :
    st.flow_order.length ≤ nodes.length := by
  have hsub : st.flow_order.map Node.id ⊆ nodes.map Node.id := by
    intro k hk
    obtain ⟨m, hm, rfl⟩ := List.mem_map.mp hk
    exact List.mem_map_of_mem Node.id (h.2 m hm).1
  have := (List.subperm_of_subset h.1 hsub).length_le
  simpa using this

/-- The loop `while (idx < flow_order.length)` ends within the bound when every walk ends. -/
theorem kahnLoop_isSome (nodes : List Node) (links : List Link) (depth : Nat)
    (hwalk : ∀ n ∈ nodes, (walkEvents nodes links depth n).isSome) :
    ∀ (fuel idx : Nat) (st : Kahn), KInv nodes st → idx ≤ st.flow_order.length →
      nodes.length + 2 ≤ fuel + idx → (kahnLoop nodes links depth fuel idx st).isSome := by
  intro fuel
  induction fuel with
  | zero =>
    intro idx st hK hidx hfuel
    have := kinv_length_le nodes st hK
    omega
  | succ f ih =>
    intro idx st hK hidx hfuel
    unfold kahnLoop
    cases hc : st.flow_order[idx]? with
    | none => rfl
    | some cur =>
      simp only
      have hcur := (hK.2 cur (List.getElem?_mem hc)).1
      obtain ⟨evs, hevs⟩ := Option.isSome_iff_exists.mp (hwalk cur hcur)
      have hw : degree_linked_out_nodes nodes links depth cur st =
          some (evs.foldl applyEv st) := by
        rw [walk_eq_events, hevs]; rfl
      rw [hw]
      simp only
      have hK1 := walk_inv nodes links (KInv nodes)
        (fun a t nx s h1 h2 h3 => KInv_decrTarget nodes a t nx s h1 h2 h3) depth cur st _ hw hK
      obtain ⟨news, hnews, _⟩ := foldl_applyEv_order evs st
      have hlt : idx < st.flow_order.length := by
        rcases Nat.lt_or_ge idx st.flow_order.length with h | h
        · exact h
        · rw [List.getElem?_eq_none h] at hc; simp at hc
      exact ih (idx + 1) _ hK1 (by rw [hnews, List.length_append]; omega) (by omega)

/-- For a document with pairwise distinct node ids whose output records resolve and whose
chains of Reroute nodes are bounded by a rank, the flow order is computed. -/
theorem flowOrder_isSome (nodes : List Node) (links : List Link) (rank : Nat → Nat)
    (hnd : (nodes.map Node.id).Nodup) (hres : Resolvable nodes links)
    (hrank : RerouteRanked nodes links rank) : (flowOrder nodes links).isSome := by
  unfold flowOrder
  have := kahnLoop_isSome nodes links (nodes.length + 1)
    (fun n hn => walkEvents_isSome nodes links rank hres hrank _ n hn
      (Nat.lt_succ_of_le (hrank.1 n.id)))
    (2 * nodes.length + 2) 0 (seedKahn nodes) (KInv_seedKahn nodes hnd) (Nat.zero_le _)
    (by omega)
  obtain ⟨st, hst⟩ := Option.isSome_iff_exists.mp this
  simp [hst]

/-! ### Links recorded on slots: the shift of a link that is recorded once -/

theorem shiftLinks_of_nodup (δ : Nat → Int × Int) : ∀ (ls : List Link),
    (ls.map Link.id).Nodup → shiftLinks δ ls = ls.map (fun l => shiftLink (δ l.id) l) := by
  intro ls
  induction ls with
  | nil => intro _; rfl
  | cons l rest ih =>
    intro h
    rw [List.map_cons, List.nodup_cons] at h
    have hnone : lastWith Link.id l.id rest = none :=
      (lastWith_eq_none_iff Link.id l.id rest).mpr h.1
    simp only [shiftLinks, hnone, List.map_cons, ih h.2]

theorem inCount_eq_zero (slots : List InputSlot) (k : Nat)
    (h : ∀ s ∈ slots, s.link ≠ some k) : inCount slots k = 0 := by
  unfold inCount
  rw [List.length_eq_zero, List.filter_eq_nil_iff]
  intro s hs
  simpa using h s hs

theorem inCount_eq_one (k : Nat) : ∀ (slots : List InputSlot) (j : Nat),
    (∀ i s, slots[i]? = some s → s.link = some k → i = j) →
    (∃ s, slots[j]? = some s ∧ s.link = some k) → inCount slots k = 1 := by
  intro slots
  induction slots with
  | nil => intro j _ ⟨s, hs, _⟩; simp at hs
  | cons a rest ih =>
    intro j huniq ⟨s, hs, hk⟩
    cases j with
    | zero =>
      simp only [List.getElem?_cons_zero, Option.some.injEq] at hs
      subst hs
      have hrest : inCount rest k = 0 := inCount_eq_zero rest k (by
        intro s1 hs1 hl
        obtain ⟨i, hi⟩ := List.mem_iff_getElem?.mp hs1
        have := huniq (i + 1) s1 (by simpa using hi) hl
        omega)
      unfold inCount at hrest ⊢
      rw [List.filter_cons_of_pos (by simpa using hk), List.length_cons, hrest]
    | succ j1 =>
      have ha : a.link ≠ some k := by
        intro hl
        have := huniq 0 a (by simp) hl
        omega
      have hrest := ih j1 (fun i s1 hi hl => by
        have := huniq (i + 1) s1 (by simpa using hi) hl
        omega) ⟨s, by simpa using hs, hk⟩
      unfold inCount at hrest ⊢
      rw [List.filter_cons_of_neg (by simpa using ha), hrest]

theorem outCount_head (a : OutputSlot) (rest : List OutputSlot) (k : Nat) :
    outCount (a :: rest) k = a.links.ids.count k + outCount rest k := by
  cases h : a.links <;> simp [outCount, JLinks.ids, h]

theorem outCount_eq_zero (k : Nat) : ∀ (slots : List OutputSlot),
    (∀ s ∈ slots, k ∉ s.links.ids) → outCount slots k = 0 := by
  intro slots
  induction slots with
  | nil => intro _; rfl
  | cons a rest ih =>
    intro h
    rw [outCount_head, ih (fun s hs => h s (List.mem_cons_of_mem _ hs)),
      List.count_eq_zero_of_not_mem (h a (List.mem_cons_self _ _))]

theorem outCount_eq_one (k : Nat) : ∀ (slots : List OutputSlot) (j : Nat),
    (∀ i s, slots[i]? = some s → k ∈ s.links.ids → i = j) →
    (∃ s, slots[j]? = some s ∧ k ∈ s.links.ids ∧ s.links.ids.Nodup) → outCount slots k = 1 := by
  intro slots
  induction slots with
  | nil => intro j _ ⟨s, hs, _⟩; simp at hs
  | cons a rest ih =>
    intro j huniq ⟨s, hs, hk, hnd⟩
    cases j with
    | zero =>
      simp only [List.getElem?_cons_zero, Option.some.injEq] at hs
      subst hs
      have hrest : outCount rest k = 0 := outCount_eq_zero k rest (by
        intro s1 hs1 hl
        obtain ⟨i, hi⟩ := List.mem_iff_getElem?.mp hs1
        have := huniq (i + 1) s1 (by simpa using hi) hl
        omega)
      rw [outCount_head, hrest, List.count_eq_one_of_mem hnd hk]
    | succ j1 =>
      have ha : k ∉ a.links.ids := by
        intro hl
        have := huniq 0 a (by simp) hl
        omega
      have hrest := ih j1 (fun i s1 hi hl => by
        have := huniq (i + 1) s1 (by simpa using hi) hl
        omega) ⟨s, by simpa using hs, hk, hnd⟩
      rw [outCount_head, hrest, List.count_eq_zero_of_not_mem ha]

theorem totalShift_fst_zero (k : Nat) : ∀ (nodes : List Node),
    (∀ n ∈ nodes, (nodeShift n k).1 = 0) → (totalShift nodes k).1 = 0 := by
  intro nodes
  induction nodes with
  | nil => intro _; rfl
  | cons n rest ih =>
    intro h
    rw [totalShift, Prod.fst_add, h n (List.mem_cons_self _ _),
      ih (fun m hm => h m (List.mem_cons_of_mem _ hm))]
    rfl

theorem totalShift_snd_zero (k : Nat) : ∀ (nodes : List Node),
    (∀ n ∈ nodes, (nodeShift n k).2 = 0) → (totalShift nodes k).2 = 0 := by
  intro nodes
  induction nodes with
  | nil => intro _; rfl
  | cons n rest ih =>
    intro h
    rw [totalShift, Prod.snd_add, h n (List.mem_cons_self _ _),
      ih (fun m hm => h m (List.mem_cons_of_mem _ hm))]
    rfl

theorem totalShift_fst_single (k : Nat) (o : Node) : ∀ (nodes : List Node),
    o ∈ nodes → (∀ n ∈ nodes, n ≠ o → (nodeShift n k).1 = 0) → (nodes.count o ≤ 1) →
    (totalShift nodes k).1 = (nodeShift o k).1 := by
  intro nodes
  induction nodes with
  | nil => intro h; simp at h
  | cons n rest ih =>
    intro hmem hz hc
    by_cases hno : n = o
    · subst hno
      have hnot : n ∉ rest := by
        intro hin
        have := List.count_pos_iff.mpr hin
        rw [List.count_cons_self] at hc
        omega
      rw [totalShift, Prod.fst_add, totalShift_fst_zero k rest (fun m hm =>
        hz m (List.mem_cons_of_mem _ hm) (fun h => hnot (h ▸ hm)))]
      simp
    · have hin : o ∈ rest := by
        rcases List.mem_cons.mp hmem with h | h
        · exact absurd h.symm hno
        · exact h
      rw [totalShift, Prod.fst_add, hz n (List.mem_cons_self _ _) hno,
        ih hin (fun m hm => hz m (List.mem_cons_of_mem _ hm))
          (by rw [List.count_cons_of_ne (Ne.symm hno)] at hc; exact hc)]
      simp

theorem totalShift_snd_single (k : Nat) (o : Node) : ∀ (nodes : List Node),
    o ∈ nodes → (∀ n ∈ nodes, n ≠ o → (nodeShift n k).2 = 0) → (nodes.count o ≤ 1) →
    (totalShift nodes k).2 = (nodeShift o k).2 := by
  intro nodes
  induction nodes with
  | nil => intro h; simp at h
  | cons n rest ih =>
    intro hmem hz hc
    by_cases hno : n = o
    · subst hno
      have hnot : n ∉ rest := by
        intro hin
        have := List.count_pos_iff.mpr hin
        rw [List.count_cons_self] at hc
        omega
      rw [totalShift, Prod.snd_add, totalShift_snd_zero k rest (fun m hm =>
        hz m (List.mem_cons_of_mem _ hm) (fun h => hnot (h ▸ hm)))]
      simp
    · have hin : o ∈ rest := by
        rcases List.mem_cons.mp hmem with h | h
        · exact absurd h.symm hno
        · exact h
      rw [totalShift, Prod.snd_add, hz n (List.mem_cons_self _ _) hno,
        ih hin (fun m hm => hz m (List.mem_cons_of_mem _ hm))
          (by rw [List.count_cons_of_ne (Ne.symm hno)] at hc; exact hc)]
      simp

theorem node_ne_id (nodes : List Node) (hid : (nodes.map Node.id).Nodup) (n o : Node)
    (hn : n ∈ nodes) (ho : o ∈ nodes) (hne : n ≠ o) : n.id ≠ o.id := by
  intro h
  exact hne (node_eq_of_id nodes hid n o hn ho h)

theorem nodes_count_le_one (nodes : List Node) (hid : (nodes.map Node.id).Nodup) (o : Node) :
    nodes.count o ≤ 1 :=
  List.nodup_iff_count_le_one.mp (List.Nodup.of_map _ hid) o

/-- A link recorded once on an input of its target is moved by the number of FLOW inputs of
the target. -/
theorem totalShift_target (nodes : List Node) (ls : List Link) (l : Link)
    (hid : (nodes.map Node.id).Nodup) (hlid : (ls.map Link.id).Nodup) (hl : l ∈ ls)
    (hslots : ∀ n ∈ nodes, SlotsRecorded ls n) (t : Node)
    (ht : lastWith Node.id l.target_id nodes = some t) (h0 : 0 ≤ l.target_slot)
    (s : InputSlot) (hs : (t.inputs.getD [])[l.target_slot.toNat]? = some s)
    (hsl : s.link = some l.id) :
    (totalShift nodes l.id).2 = ((t.flow_inputs.getD []).length : Int) := by
  have htm := lastWith_some Node.id _ nodes t ht
  have hlk : lastWith Link.id l.id ls = some l := lastWith_of_nodup Link.id ls l hlid hl
  rw [totalShift_snd_single l.id t nodes htm.1 ?_ (nodes_count_le_one nodes hid t)]
  · have h1 : inCount (t.inputs.getD []) l.id = 1 := by
      refine inCount_eq_one l.id _ l.target_slot.toNat ?_ ⟨s, hs, hsl⟩
      intro i s1 hi hl1
      obtain ⟨l1, hl1m, _, hslot⟩ := (hslots t htm.1).1 (i, s1)
        (List.mk_mem_enum_iff_getElem?.mpr hi) l.id (by simpa using hl1)
      rw [Option.mem_def, hlk, Option.some.injEq] at hl1m
      subst hl1m
      simp only at hslot
      omega
    simp [nodeShift, h1]
  · intro n hn hne
    have hidne := node_ne_id nodes hid n t hn htm.1 hne
    have h1 : inCount (n.inputs.getD []) l.id = 0 := by
      refine inCount_eq_zero _ _ ?_
      intro s1 hs1 hl1
      obtain ⟨i, hi⟩ := List.mem_iff_getElem?.mp hs1
      obtain ⟨l1, hl1m, htid, _⟩ := (hslots n hn).1 (i, s1)
        (List.mk_mem_enum_iff_getElem?.mpr hi) l.id (by simpa using hl1)
      rw [Option.mem_def, hlk, Option.some.injEq] at hl1m
      subst hl1m
      exact hidne (htid.symm.trans htm.2.symm)
    simp [nodeShift, h1]

/-- A link recorded once on an output of its origin is moved by the number of FLOW outputs of
the origin. -/
theorem totalShift_origin (nodes : List Node) (ls : List Link) (l : Link)
    (hid : (nodes.map Node.id).Nodup) (hlid : (ls.map Link.id).Nodup) (hl : l ∈ ls)
    (hslots : ∀ n ∈ nodes, SlotsRecorded ls n) (o : Node)
    (ho : lastWith Node.id l.origin_id nodes = some o) (h0 : 0 ≤ l.origin_slot)
    (s : OutputSlot) (hs : (o.outputs.getD [])[l.origin_slot.toNat]? = some s)
    (hsl : l.id ∈ s.links.ids) :
    (totalShift nodes l.id).1 = ((o.flow_outputs.getD []).length : Int) := by
  have hom := lastWith_some Node.id _ nodes o ho
  have hlk : lastWith Link.id l.id ls = some l := lastWith_of_nodup Link.id ls l hlid hl
  rw [totalShift_fst_single l.id o nodes hom.1 ?_ (nodes_count_le_one nodes hid o)]
  · have h1 : outCount (o.outputs.getD []) l.id = 1 := by
      refine outCount_eq_one l.id _ l.origin_slot.toNat ?_
        ⟨s, hs, hsl, ((hslots o hom.1).2 (l.origin_slot.toNat, s)
          (List.mk_mem_enum_iff_getElem?.mpr hs)).1⟩
      intro i s1 hi hl1
      obtain ⟨l1, hl1m, _, hslot⟩ := ((hslots o hom.1).2 (i, s1)
        (List.mk_mem_enum_iff_getElem?.mpr hi)).2 l.id hl1
      rw [Option.mem_def, hlk, Option.some.injEq] at hl1m
      subst hl1m
      simp only at hslot
      omega
    simp [nodeShift, h1]
  · intro n hn hne
    have hidne := node_ne_id nodes hid n o hn hom.1 hne
    have h1 : outCount (n.outputs.getD []) l.id = 0 := by
      refine outCount_eq_zero _ _ ?_
      intro s1 hs1 hl1
      obtain ⟨i, hi⟩ := List.mem_iff_getElem?.mp hs1
      obtain ⟨l1, hl1m, hoid, _⟩ := ((hslots n hn).2 (i, s1)
        (List.mk_mem_enum_iff_getElem?.mpr hi)).2 l.id hl1
      rw [Option.mem_def, hlk, Option.some.injEq] at hl1m
      subst hl1m
      exact hidne (hoid.symm.trans hom.2.symm)
    simp [nodeShift, h1]

theorem lastWith_expandedNode (nodes : List Node) (k : Nat) :
    lastWith Node.id k (nodes.map expandedNode) = (lastWith Node.id k nodes).map expandedNode :=
  lastWith_map Node.id expandedNode (fun _ => rfl) k nodes

/-- After the loop "add flow inputs & outputs" the moved link is recorded on the input it
names. -/
theorem shifted_target_recorded (nodes : List Node) (ls : List Link) (l : Link)
    (hid : (nodes.map Node.id).Nodup) (hlid : (ls.map Link.id).Nodup) (hl : l ∈ ls)
    (hslots : ∀ n ∈ nodes, SlotsRecorded ls n) (hrec : TargetRecorded nodes l) :
    TargetRecorded (nodes.map expandedNode) (shiftLink (totalShift nodes l.id) l) := by
  obtain ⟨t, ht, h0, s, hs, hsl⟩ := hrec
  rw [Option.mem_def] at ht hs
  have hshift := totalShift_target nodes ls l hid hlid hl hslots t ht h0 s hs hsl
  refine ⟨expandedNode t, ?_, ?_, s, ?_, hsl⟩
  · rw [Option.mem_def]
    show lastWith Node.id l.target_id (nodes.map expandedNode) = _
    rw [lastWith_expandedNode, ht]
    rfl
  · show 0 ≤ l.target_slot + (totalShift nodes l.id).2
    rw [hshift]
    omega
  · rw [Option.mem_def]
    show ((expandedNode t).inputs.getD [])[(l.target_slot + (totalShift nodes l.id).2).toNat]? = _
    rw [hshift]
    have hidx : (l.target_slot + ((t.flow_inputs.getD []).length : Int)).toNat =
        ((t.flow_inputs.getD []).map mkFlowInput).length + l.target_slot.toNat := by
      rw [List.length_map]
      omega
    rw [hidx]
    simp only [expandedNode, Option.getD_some]
    rw [List.getElem?_append_right (Nat.le_add_right _ _), Nat.add_sub_cancel_left, hs]

/-- After the loop "add flow inputs & outputs" the moved link is recorded on the output it
names. -/
theorem shifted_origin_recorded (nodes : List Node) (ls : List Link) (l : Link)
    (hid : (nodes.map Node.id).Nodup) (hlid : (ls.map Link.id).Nodup) (hl : l ∈ ls)
    (hslots : ∀ n ∈ nodes, SlotsRecorded ls n) (hrec : OriginRecorded nodes l) :
    OriginRecorded (nodes.map expandedNode) (shiftLink (totalShift nodes l.id) l) := by
  obtain ⟨o, ho, h0, s, hs, hsl⟩ := hrec
  rw [Option.mem_def] at ho hs
  have hshift := totalShift_origin nodes ls l hid hlid hl hslots o ho h0 s hs hsl
  refine ⟨expandedNode o, ?_, ?_, bumpSlotIndex (o.flow_outputs.getD []).length s, ?_, hsl⟩
  · rw [Option.mem_def]
    show lastWith Node.id l.origin_id (nodes.map expandedNode) = _
    rw [lastWith_expandedNode, ho]
    rfl
  · show 0 ≤ l.origin_slot + (totalShift nodes l.id).1
    rw [hshift]
    omega
  · rw [Option.mem_def]
    show ((expandedNode o).outputs.getD [])[(l.origin_slot + (totalShift nodes l.id).1).toNat]? = _
    rw [hshift]
    have hidx : (l.origin_slot + ((o.flow_outputs.getD []).length : Int)).toNat =
        ((o.flow_outputs.getD []).enum.map (fun p => mkFlowOutput p.1 p.2)).length +
          l.origin_slot.toNat := by
      rw [List.length_map, List.enum_length]
      omega
    rw [hidx]
    simp only [expandedNode, Option.getD_some]
    rw [List.getElem?_append_right (Nat.le_add_right _ _), Nat.add_sub_cancel_left,
      List.getElem?_map, hs]
    rfl

/-! ### Links recorded on slots: the loop over `flow_links` -/

theorem setOutputLinks_id (s : Int) (id : Nat) (x y : Node) (h : setOutputLinks s id x = some y) :
    y.id = x.id := by
  unfold setOutputLinks at h
  split at h
  · simp at h
  · simp only [Option.map_eq_some'] at h
    obtain ⟨_, _, rfl⟩ := h
    rfl

theorem setInputLink_id (s : Int) (id : Nat) (x y : Node) (h : setInputLink s id x = some y) :
    y.id = x.id := by
  unfold setInputLink at h
  split at h
  · simp at h
  · simp only [Option.map_eq_some'] at h
    obtain ⟨_, _, rfl⟩ := h
    rfl

theorem setAt_some {α : Type} (xs ys : List α) (i : Int) (f : α → α)
    (h : setAt xs i f = some ys) :
    0 ≤ i ∧ ∃ x, xs[i.toNat]? = some x ∧ ys = xs.set i.toNat (f x) := by
  unfold setAt at h
  split at h
  · next h0 =>
    split at h
    · next x hx =>
      simp only [Option.some.injEq] at h
      exact ⟨h0, x, hx, h.symm⟩
    · simp at h
  · simp at h

theorem setOutputLinks_some (s : Int) (id : Nat) (x y : Node)
    (h : setOutputLinks s id x = some y) :
    y.inputs = x.inputs ∧ 0 ≤ s ∧ ∃ outs a, x.outputs = some outs ∧ outs[s.toNat]? = some a ∧
      y.outputs = some (outs.set s.toNat { a with links := JLinks.arr [id] }) := by
  unfold setOutputLinks at h
  split at h
  · simp at h
  · next outs ho =>
    simp only [Option.map_eq_some'] at h
    obtain ⟨outs1, h1, rfl⟩ := h
    obtain ⟨h0, a, ha, rfl⟩ := setAt_some outs outs1 s _ h1
    exact ⟨rfl, h0, outs, a, ho, ha, rfl⟩

theorem setInputLink_some (s : Int) (id : Nat) (x y : Node)
    (h : setInputLink s id x = some y) :
    y.outputs = x.outputs ∧ 0 ≤ s ∧ ∃ ins a, x.inputs = some ins ∧ ins[s.toNat]? = some a ∧
      y.inputs = some (ins.set s.toNat { a with link := some id }) := by
  unfold setInputLink at h
  split at h
  · simp at h
  · next ins hi =>
    simp only [Option.map_eq_some'] at h
    obtain ⟨ins1, h1, rfl⟩ := h
    obtain ⟨h0, a, ha, rfl⟩ := setAt_some ins ins1 s _ h1
    exact ⟨rfl, h0, ins, a, hi, ha, rfl⟩

/-- The statement `nodes[a].outputs[s].links = [id]` leaves the inputs alone. -/
theorem target_recorded_setOutputLinks (ys ys1 : List Node) (a : Nat) (s : Int) (id : Nat)
    (e : Link) (h : updLast Node.id a (setOutputLinks s id) ys = some ys1)
    (hrec : TargetRecorded ys e) : TargetRecorded ys1 e := by
  obtain ⟨t, ht, h0, sl, hs, hsl⟩ := hrec
  rw [Option.mem_def] at ht
  have hlk := updLast_lastWith Node.id a (setOutputLinks s id)
    (fun x y hxy => setOutputLinks_id s id x y hxy) ys ys1 h e.target_id
  obtain ⟨z, w, hz, hw⟩ := updLast_some Node.id a _ ys ys1 h
  by_cases hta : e.target_id = a
  · rw [if_pos hta, hz, Option.some_bind, hw] at hlk
    rw [hta, hz, Option.some.injEq] at ht
    subst ht
    refine ⟨w, hlk, h0, sl, ?_, hsl⟩
    rw [(setOutputLinks_some s id z w hw).1]
    exact hs
  · rw [if_neg hta] at hlk
    exact ⟨t, by rw [Option.mem_def, hlk, ht], h0, sl, hs, hsl⟩

/-- The statement `nodes[a].inputs[s].link = id` leaves the outputs alone. -/
theorem origin_recorded_setInputLink (ys ys1 : List Node) (a : Nat) (s : Int) (id : Nat)
    (e : Link) (h : updLast Node.id a (setInputLink s id) ys = some ys1)
    (hrec : OriginRecorded ys e) : OriginRecorded ys1 e := by
  obtain ⟨o, ho, h0, sl, hs, hsl⟩ := hrec
  rw [Option.mem_def] at ho
  have hlk := updLast_lastWith Node.id a (setInputLink s id)
    (fun x y hxy => setInputLink_id s id x y hxy) ys ys1 h e.origin_id
  obtain ⟨z, w, hz, hw⟩ := updLast_some Node.id a _ ys ys1 h
  by_cases hoa : e.origin_id = a
  · rw [if_pos hoa, hz, Option.some_bind, hw] at hlk
    rw [hoa, hz, Option.some.injEq] at ho
    subst ho
    refine ⟨w, hlk, h0, sl, ?_, hsl⟩
    rw [(setInputLink_some s id z w hw).1]
    exact hs
  · rw [if_neg hoa] at hlk
    exact ⟨o, by rw [Option.mem_def, hlk, ho], h0, sl, hs, hsl⟩

/-- The statement `nodes[a].outputs[s].links = [id]` leaves the other outputs alone. -/
theorem origin_recorded_setOutputLinks (ys ys1 : List Node) (a : Nat) (s : Int) (id : Nat)
    (e : Link) (h : updLast Node.id a (setOutputLinks s id) ys = some ys1)
    (hne : ¬ (a = e.origin_id ∧ s = e.origin_slot))
    (hrec : OriginRecorded ys e) : OriginRecorded ys1 e := by
  obtain ⟨o, ho, h0, sl, hs, hsl⟩ := hrec
  rw [Option.mem_def] at ho hs
  have hlk := updLast_lastWith Node.id a (setOutputLinks s id)
    (fun x y hxy => setOutputLinks_id s id x y hxy) ys ys1 h e.origin_id
  obtain ⟨z, w, hz, hw⟩ := updLast_some Node.id a _ ys ys1 h
  by_cases hoa : e.origin_id = a
  · rw [if_pos hoa, hz, Option.some_bind, hw] at hlk
    rw [hoa, hz, Option.some.injEq] at ho
    subst ho
    obtain ⟨_, hs0, outs, b, hout, _, hw2⟩ := setOutputLinks_some s id z w hw
    refine ⟨w, hlk, h0, sl, ?_, hsl⟩
    rw [Option.mem_def, hw2, Option.getD_some, List.getElem?_set_ne]
    · rw [hout, Option.getD_some] at hs
      exact hs
    · intro heq
      apply hne
      refine ⟨hoa.symm, ?_⟩
      omega
  · rw [if_neg hoa] at hlk
    exact ⟨o, by rw [Option.mem_def, hlk, ho], h0, sl, hs, hsl⟩

/-- The statement `nodes[a].inputs[s].link = id` leaves the other inputs alone. -/
theorem target_recorded_setInputLink (ys ys1 : List Node) (a : Nat) (s : Int) (id : Nat)
    (e : Link) (h : updLast Node.id a (setInputLink s id) ys = some ys1)
    (hne : ¬ (a = e.target_id ∧ s = e.target_slot))
    (hrec : TargetRecorded ys e) : TargetRecorded ys1 e := by
  obtain ⟨t, ht, h0, sl, hs, hsl⟩ := hrec
  rw [Option.mem_def] at ht hs
  have hlk := updLast_lastWith Node.id a (setInputLink s id)
    (fun x y hxy => setInputLink_id s id x y hxy) ys ys1 h e.target_id
  obtain ⟨z, w, hz, hw⟩ := updLast_some Node.id a _ ys ys1 h
  by_cases hta : e.target_id = a
  · rw [if_pos hta, hz, Option.some_bind, hw] at hlk
    rw [hta, hz, Option.some.injEq] at ht
    subst ht
    obtain ⟨_, hs0, ins, b, hin, _, hw2⟩ := setInputLink_some s id z w hw
    refine ⟨w, hlk, h0, sl, ?_, hsl⟩
    rw [Option.mem_def, hw2, Option.getD_some, List.getElem?_set_ne]
    · rw [hin, Option.getD_some] at hs
      exact hs
    · intro heq
      apply hne
      refine ⟨hta.symm, ?_⟩
      omega
  · rw [if_neg hta] at hlk
    exact ⟨t, by rw [Option.mem_def, hlk, ht], h0, sl, hs, hsl⟩

/-- After `nodes[a].outputs[s].links = [id]` a link `[id, a, s, ..]` is recorded on its
origin. -/
theorem origin_recorded_of_set (ys ys1 : List Node) (a : Nat) (s : Int) (id : Nat) (e : Link)
    (h : updLast Node.id a (setOutputLinks s id) ys = some ys1)
    (ha : e.origin_id = a) (hs : e.origin_slot = s) (hid : e.id = id) :
    OriginRecorded ys1 e := by
  have hlk := updLast_lastWith Node.id a (setOutputLinks s id)
    (fun x y hxy => setOutputLinks_id s id x y hxy) ys ys1 h e.origin_id
  obtain ⟨z, w, hz, hw⟩ := updLast_some Node.id a _ ys ys1 h
  rw [if_pos ha, hz, Option.some_bind, hw] at hlk
  obtain ⟨_, hs0, outs, b, hout, hb, hw2⟩ := setOutputLinks_some s id z w hw
  have hlt : s.toNat < outs.length := (List.getElem?_eq_some_iff.mp hb).1
  refine ⟨w, hlk, hs ▸ hs0, { b with links := JLinks.arr [id] }, ?_, ?_⟩
  · rw [Option.mem_def, hw2, Option.getD_some, hs, List.getElem?_set_self hlt]
  · simp [JLinks.ids, hid]

/-- After `nodes[a].inputs[s].link = id` a link `[id, .., a, s]` is recorded on its target. -/
theorem target_recorded_of_set (ys ys1 : List Node) (a : Nat) (s : Int) (id : Nat) (e : Link)
    (h : updLast Node.id a (setInputLink s id) ys = some ys1)
    (ha : e.target_id = a) (hs : e.target_slot = s) (hid : e.id = id) :
    TargetRecorded ys1 e := by
  have hlk := updLast_lastWith Node.id a (setInputLink s id)
    (fun x y hxy => setInputLink_id s id x y hxy) ys ys1 h e.target_id
  obtain ⟨z, w, hz, hw⟩ := updLast_some Node.id a _ ys ys1 h
  rw [if_pos ha, hz, Option.some_bind, hw] at hlk
  obtain ⟨_, hs0, ins, b, hin, hb, hw2⟩ := setInputLink_some s id z w hw
  have hlt : s.toNat < ins.length := (List.getElem?_eq_some_iff.mp hb).1
  refine ⟨w, hlk, hs ▸ hs0, { b with link := some id }, ?_, ?_⟩
  · rw [Option.mem_def, hw2, Option.getD_some, hs, List.getElem?_set_self hlt]
  · simp [hid]

/-- The loop over `flow_links` keeps a link recorded when no FLOW link shares a slot with
it. -/
theorem addFlowLinks_preserves (e : Link) :
    ∀ (fls : List Link) (last : Nat) (links : List Link) (ys : List Node)
      (r : Nat × List Link × List Node),
      addFlowLinks fls last links ys = some r →
      (∀ fl ∈ fls, ¬ (fl.origin_id = e.origin_id ∧ fl.origin_slot = e.origin_slot) ∧
        ¬ (fl.target_id = e.target_id ∧ fl.target_slot = e.target_slot)) →
      LinkRecorded ys e → LinkRecorded r.2.2 e := by
  intro fls
  induction fls with
  | nil =>
    intro last links ys r h _ hrec
    simp only [addFlowLinks, Option.some.injEq] at h
    rw [← h]
    exact hrec
  | cons fl rest ih =>
    intro last links ys r h hne hrec
    simp only [addFlowLinks] at h
    split at h
    · simp at h
    · next nodes1 h1 =>
      split at h
      · simp at h
      · next nodes2 h2 =>
        have hfl := hne fl (List.mem_cons_self _ _)
        refine ih _ _ nodes2 r h (fun f hf => hne f (List.mem_cons_of_mem _ hf)) ⟨?_, ?_⟩
        · exact target_recorded_setInputLink nodes1 nodes2 _ _ _ e h2 hfl.2
            (target_recorded_setOutputLinks ys nodes1 _ _ _ e h1 hrec.1)
        · exact origin_recorded_setInputLink nodes1 nodes2 _ _ _ e h2
            (origin_recorded_setOutputLinks ys nodes1 _ _ _ e h1 hfl.1 hrec.2)

theorem flowEntries_mem : ∀ (fls : List Link) (last : Nat) (e : Link),
    e ∈ flowEntries last fls → ∃ fl ∈ fls, e.origin_id = fl.origin_id ∧
      e.origin_slot = fl.origin_slot ∧ e.target_id = fl.target_id ∧
      e.target_slot = fl.target_slot := by
  intro fls
  induction fls with
  | nil => intro last e h; simp [flowEntries] at h
  | cons fl rest ih =>
    intro last e h
    simp only [flowEntries, List.mem_cons] at h
    rcases h with h | h
    · subst h
      exact ⟨fl, List.mem_cons_self _ _, rfl, rfl, rfl, rfl⟩
    · obtain ⟨f, hf, h4⟩ := ih (last + 1) e h
      exact ⟨f, List.mem_cons_of_mem _ hf, h4⟩

/-- After the loop over `flow_links` every link pushed for a FLOW link is recorded on the
slots it names, when no two FLOW links share an origin slot or a target slot. -/
theorem addFlowLinks_recorded :
    ∀ (fls : List Link) (last : Nat) (links : List Link) (ys : List Node)
      (r : Nat × List Link × List Node),
      addFlowLinks fls last links ys = some r → FlowSlotsDistinct fls →
      ∀ e ∈ flowEntries last fls, LinkRecorded r.2.2 e := by
  intro fls
  induction fls with
  | nil => intro last links ys r _ _ e he; simp [flowEntries] at he
  | cons fl rest ih =>
    intro last links ys r h hd e he
    have hd2 := List.pairwise_cons.mp hd
    have h0 := h
    simp only [addFlowLinks] at h
    split at h
    · simp at h
    · next nodes1 h1 =>
      split at h
      · simp at h
      · next nodes2 h2 =>
        simp only [flowEntries, List.mem_cons] at he
        rcases he with he | he
        · subst he
          refine addFlowLinks_preserves _ rest _ _ nodes2 r h ?_ ⟨?_, ?_⟩
          · intro f hf
            have := hd2.1 f hf
            exact ⟨fun hx => this.1 ⟨hx.1.symm, hx.2.symm⟩, fun hx => this.2 ⟨hx.1.symm, hx.2.symm⟩⟩
          · exact target_recorded_of_set nodes1 nodes2 _ _ _ _ h2 rfl rfl rfl
          · exact origin_recorded_setInputLink nodes1 nodes2 _ _ _ _ h2
              (origin_recorded_of_set ys nodes1 _ _ _ _ h1 rfl rfl rfl)
        · exact ih _ _ nodes2 r h hd2.2 e he

/-- A FLOW link of a well-formed compact document shares no slot with a moved data link. -/
theorem flow_slot_ne_shifted (nodes : List Node) (fl l : Link) (hfl : FlowLinkOK nodes fl)
    (δ : Int × Int)
    (ho : ∀ o ∈ lastWith Node.id l.origin_id nodes,
      0 ≤ l.origin_slot ∧ δ.1 = ((o.flow_outputs.getD []).length : Int))
    (ht : ∀ t ∈ lastWith Node.id l.target_id nodes,
      0 ≤ l.target_slot ∧ δ.2 = ((t.flow_inputs.getD []).length : Int)) :
    ¬ (fl.origin_id = (shiftLink δ l).origin_id ∧ fl.origin_slot = (shiftLink δ l).origin_slot) ∧
    ¬ (fl.target_id = (shiftLink δ l).target_id ∧ fl.target_slot = (shiftLink δ l).target_slot) := by
  obtain ⟨⟨o, hom, ho0, ho1⟩, ⟨t, htm, ht0, ht1⟩⟩ := hfl
  constructor
  · rintro ⟨h1, h2⟩
    have h3 : fl.origin_id = l.origin_id := h1
    have h4 : fl.origin_slot = l.origin_slot + δ.1 := h2
    rw [h3] at hom
    obtain ⟨h5, h6⟩ := ho o hom
    omega
  · rintro ⟨h1, h2⟩
    have h3 : fl.target_id = l.target_id := h1
    have h4 : fl.target_slot = l.target_slot + δ.2 := h2
    rw [h3] at htm
    obtain ⟨h5, h6⟩ := ht t htm
    omega

/-- C11: for every compact document with consistent link and slot records (FLOW links on FLOW
slots, no two of them sharing an origin slot or a target slot), `cworkflowToWorkflow` returns a
graph whose `links` are the data links and the FLOW links of the document, and every one of
them is consistent with the slot lists: its target node has an input at the target slot whose
`link` is the id of the link, and its origin node has an output at the origin slot whose
`links` contain the id. -/
theorem C11_links_consistent (d : Doc) (hwf : WFLinked d) :
    ∃ r, cworkflowToWorkflow d = some r ∧
      (d.nodes ≠ [] → (r.links.getD []).length =
        (d.links.getD []).length + (d.flow_links.getD []).length) ∧
      ∀ l ∈ r.links.getD [], LinkRecorded r.nodes l := by
  obtain ⟨hc, hid, hlid, hrec, hslots, hdist⟩ := hwf
  obtain ⟨ls, fls, hl, hfl, _, hnodes, hflow⟩ := wfCompact_unfold d hc
  rw [hl, Option.getD_some] at hlid hrec hslots
  rw [hfl, Option.getD_some] at hdist
  by_cases hne : d.nodes = []
  · refine ⟨d, by simp [cworkflowToWorkflow, hne], fun h => absurd hne h, ?_⟩
    rw [hl, Option.getD_some]
    exact hrec
  · have hlen : ¬ d.nodes.length = 0 := by
      intro h; exact hne (List.length_eq_zero.mp h)
    have hexp := expandNodes_shift ls d.nodes (fun _ => (0, 0)) hnodes
    rw [shiftLinks_zero] at hexp
    have hsh : shiftLinks (fun j => (0, 0) + totalShift d.nodes j) ls =
        shiftLinks (totalShift d.nodes) ls := shiftLinks_congr _ _ ls (fun k _ => by simp)
    rw [hsh] at hexp
    obtain ⟨ns, hns, _⟩ := addFlowLinks_forall2 Expanded
      (fun o s => 0 ≤ s ∧ s < ((o.flow_outputs.getD []).length : Int))
      (fun t s => 0 ≤ s ∧ s < ((t.flow_inputs.getD []).length : Int))
      (fun x y h => h.1)
      (fun x y s id h hs => expanded_setOutputLinks x y s id h hs)
      (fun x y s id h hs => expanded_setInputLink x y s id h hs)
      d.nodes fls d.last_link_id (shiftLinks (totalShift d.nodes) ls) (d.nodes.map expandedNode)
      (forall2_map_right Expanded expandedNode expandedNode_expanded d.nodes)
      (fun fl hfl1 => hflow fl hfl1)
    refine ⟨{ d with
        nodes := ns
        links := some (shiftLinks (totalShift d.nodes) ls ++ flowEntries d.last_link_id fls)
        last_link_id := d.last_link_id + fls.length }, ?_, ?_, ?_⟩
    · unfold cworkflowToWorkflow
      rw [if_neg hlen]
      simp only [hl, hexp, hfl, hns]
    · intro _
      have h1 : (shiftLinks (totalShift d.nodes) ls).length = ls.length := by
        rw [shiftLinks_of_nodup _ ls hlid, List.length_map]
      have h2 : ∀ (fs : List Link) (k : Nat), (flowEntries k fs).length = fs.length := by
        intro fs
        induction fs with
        | nil => intro k; rfl
        | cons f rest ih => intro k; simp [flowEntries, ih]
      simp [hl, hfl, h1, h2]
    · intro e he
      simp only [Option.getD_some, List.mem_append] at he
      rcases he with he | he
      · rw [shiftLinks_of_nodup _ ls hlid, List.mem_map] at he
        obtain ⟨l, hlm, rfl⟩ := he
        have hr := hrec l hlm
        refine addFlowLinks_preserves _ fls _ _ _ _ hns ?_
          ⟨shifted_target_recorded d.nodes ls l hid hlid hlm hslots hr.1,
           shifted_origin_recorded d.nodes ls l hid hlid hlm hslots hr.2⟩
        intro fl hflm
        refine flow_slot_ne_shifted d.nodes fl l (hflow fl hflm) _ ?_ ?_
        · intro o ho
          obtain ⟨o1, ho1, h0, s, hs, hsl⟩ := hr.2
          rw [Option.mem_def] at ho ho1 hs
          rw [ho, Option.some.injEq] at ho1
          subst ho1
          exact ⟨h0, totalShift_origin d.nodes ls l hid hlid hlm hslots o ho h0 s hs hsl⟩
        · intro t ht
          obtain ⟨t1, ht1, h0, s, hs, hsl⟩ := hr.1
          rw [Option.mem_def] at ht ht1 hs
          rw [ht, Option.some.injEq] at ht1
          subst ht1
          exact ⟨h0, totalShift_target d.nodes ls l hid hlid hlm hslots t ht h0 s hs hsl⟩
      · exact addFlowLinks_recorded fls _ _ _ _ hns hdist e he

/-- The statement C11 at the compact linear document: the expansion has the two data links
and the two FLOW links, all recorded on their slots. -/
theorem C11_links_consistent_witness :
    ∃ r, cworkflowToWorkflow compactLinear3 = some r ∧ (r.links.getD []).length = 4 ∧
      ∀ l ∈ r.links.getD [], LinkRecorded r.nodes l :=
  let ⟨r, h1, h2, h3⟩ := C11_links_consistent compactLinear3 (by decide)
  ⟨r, h1, h2 (by decide), h3⟩

/-! ### The flow table -/

theorem setGoto_getElem? (a : List Goto) (slot : Int) (g : String × Int) (h0 : 0 ≤ slot)
    (i : Nat) :
    (setGoto a slot g)[i]? =
      if i = slot.toNat then some (some g)
      else if i < a.length then a[i]?
      else if i ≤ slot.toNat then some none else none := by
  unfold setGoto
  rw [if_neg (by omega)]
  simp only
  by_cases hlen : a.length ≤ slot.toNat
  · rw [if_pos hlen]
    have hpl : (a ++ List.replicate (slot.toNat + 1 - a.length) (none : Goto)).length =
        slot.toNat + 1 := by
      rw [List.length_append, List.length_replicate]; omega
    by_cases hi : i = slot.toNat
    · rw [if_pos hi, hi, List.getElem?_set_self (by omega)]
    · rw [if_neg hi, List.getElem?_set_ne (Ne.symm hi)]
      by_cases hia : i < a.length
      · rw [if_pos hia, List.getElem?_append_left hia]
      · rw [if_neg hia, List.getElem?_append_right (by omega)]
        by_cases hin : i ≤ slot.toNat
        · rw [if_pos hin, List.getElem?_replicate, if_pos (by omega)]
        · rw [if_neg hin, List.getElem?_replicate, if_neg (by omega)]
  · rw [if_neg hlen]
    by_cases hi : i = slot.toNat
    · rw [if_pos hi, hi, List.getElem?_set_self (by omega)]
    · rw [if_neg hi, List.getElem?_set_ne (Ne.symm hi)]
      by_cases hia : i < a.length
      · rw [if_pos hia]
      · rw [if_neg hia, if_neg (by omega)]
        exact List.getElem?_eq_none (by omega)

theorem denseLength_append (L : List Link) (x : Link) :
    denseLength (L ++ [x]) = max (denseLength L) (x.origin_slot + 1).toNat := by
  unfold denseLength
  rw [List.foldl_append]
  rfl

theorem le_denseLength : ∀ (L : List Link) (l : Link), l ∈ L →
    (l.origin_slot + 1).toNat ≤ denseLength L := by
  intro L
  induction L using List.reverseRecOn with
  | nil => intro l h; simp at h
  | append_singleton xs x ih =>
    intro l h
    rw [denseLength_append]
    rcases List.mem_append.mp h with h | h
    · exact le_trans (ih l h) (le_max_left _ _)
    · rw [List.mem_singleton] at h
      subst h
      exact le_max_right _ _

theorem denseEntry_append (L : List Link) (x : Link) (s : Nat) :
    denseEntry (L ++ [x]) s =
      if x.origin_slot = (s : Int) then some (gotoOf x) else denseEntry L s := by
  unfold denseEntry
  rw [List.reverse_append, List.reverse_singleton, List.singleton_append, List.find?_cons]
  by_cases h : x.origin_slot = (s : Int)
  · simp [h]
  · simp [h]

theorem denseEntry_none (L : List Link) (s : Nat) (h : denseLength L ≤ s) :
    denseEntry L s = none := by
  unfold denseEntry
  rw [Option.map_eq_none', List.find?_eq_none]
  intro l hl hs
  have h1 := le_denseLength L l (List.mem_reverse.mp hl)
  simp only [decide_eq_true_eq] at hs
  omega

theorem denseGoto_getElem? (L : List Link) (i : Nat) :
    (denseGoto L)[i]? = if i < denseLength L then some (denseEntry L i) else none := by
  unfold denseGoto
  rw [List.getElem?_map]
  by_cases h : i < denseLength L
  · rw [if_pos h, List.getElem?_range h]
    rfl
  · rw [if_neg h, List.getElem?_eq_none (by simpa using h)]
    rfl

theorem denseGoto_length (L : List Link) : (denseGoto L).length = denseLength L := by
  simp [denseGoto]

/-- One round of the loop over `workflow.flow_links` extends the dense list by one link. -/
theorem setGoto_dense (L : List Link) (x : Link) :
    setGoto (denseGoto L) x.origin_slot (gotoOf x) = denseGoto (L ++ [x]) := by
  apply List.ext_getElem?
  intro i
  have hL := denseGoto_getElem? L i
  have hR := denseGoto_getElem? (L ++ [x]) i
  rw [denseLength_append, denseEntry_append] at hR
  simp only [lt_max_iff] at hR
  refine Eq.trans ?_ hR.symm
  by_cases h0 : x.origin_slot < 0
  · have hset : setGoto (denseGoto L) x.origin_slot (gotoOf x) = denseGoto L := by
      unfold setGoto; rw [if_pos h0]
    have h1 : ¬ x.origin_slot = (i : Int) := by omega
    have hLs : (setGoto (denseGoto L) x.origin_slot (gotoOf x))[i]? = (denseGoto L)[i]? :=
      congrArg (fun l => l[i]?) hset
    refine Eq.trans (hLs.trans hL) ?_
    rw [if_neg h1]
    by_cases hia : i < denseLength L
    · rw [if_pos hia, if_pos (Or.inl hia)]
    · rw [if_neg hia, if_neg (by intro h; rcases h with h | h <;> omega)]
  · refine Eq.trans (setGoto_getElem? _ _ _ (by omega) i) ?_
    rw [denseGoto_length]
    by_cases hi : i = x.origin_slot.toNat
    · have h1 : x.origin_slot = (i : Int) := by omega
      have h2 : i < (x.origin_slot + 1).toNat := by omega
      rw [if_pos hi, if_pos (Or.inr h2), if_pos h1]
    · have h1 : ¬ x.origin_slot = (i : Int) := by omega
      rw [if_neg hi, if_neg h1]
      by_cases hia : i < denseLength L
      · rw [if_pos hia, if_pos (Or.inl hia)]
        exact hL.trans (if_pos hia)
      · rw [if_neg hia]
        by_cases hin : i ≤ x.origin_slot.toNat
        · rw [if_pos hin, if_pos (Or.inr (by omega)), denseEntry_none L i (by omega)]
        · rw [if_neg hin, if_neg (by intro h; rcases h with h | h <;> omega)]

theorem denseGoto_nil : denseGoto [] = [] := rfl

theorem flowsStep_self (pf : Flows) (x : Link) :
    flowsStep pf x x.origin_id =
      some (some (setGoto (currentGoto (pf x.origin_id)) x.origin_slot (gotoOf x))) := by
  unfold flowsStep currentGoto gotoOf
  simp only [if_true]

theorem flowsStep_other (pf : Flows) (x : Link) (k : Nat) (h : k ≠ x.origin_id) :
    flowsStep pf x k = pf k := by
  unfold flowsStep
  simp only [if_neg h]

/-- The table after the loop over `workflow.flow_links`. -/
theorem flowsFold_eq : ∀ (fls : List Link) (k : Nat),
    (fls.foldl flowsStep (fun _ => none)) k =
      if fls.filter (fun l => l.origin_id = k) ≠ [] then
        some (some (denseGoto (fls.filter (fun l => l.origin_id = k))))
      else none := by
  intro fls
  induction fls using List.reverseRecOn with
  | nil => intro k; rfl
  | append_singleton xs x ih =>
    intro k
    rw [List.foldl_append, List.filter_append]
    simp only [List.foldl_cons, List.foldl_nil]
    by_cases hk : k = x.origin_id
    · subst hk
      have hf : [x].filter (fun l => decide (l.origin_id = x.origin_id)) = [x] := by simp
      rw [hf, if_pos (by simp), flowsStep_self, ih x.origin_id]
      by_cases he : xs.filter (fun l => decide (l.origin_id = x.origin_id)) = []
      · rw [if_neg (by simpa using he), he]
        exact congrArg (fun v => some (some v)) (setGoto_dense [] x)
      · rw [if_pos he]
        exact congrArg (fun v => some (some v)) (setGoto_dense _ x)
    · have hf : [x].filter (fun l => decide (l.origin_id = k)) = [] := by
        simp [Ne.symm hk]
      rw [hf, List.append_nil, flowsStep_other _ _ _ hk]
      exact ih k

theorem nodesFold_eq (pf0 : Flows) : ∀ (nodes : List Node) (k : Nat),
    (nodes.foldl (fun pf node => fun k =>
      if k = node.id then (match pf node.id with | some v => some v | none => some none)
      else pf k) pf0) k =
      match pf0 k with
      | some v => some v
      | none => if k ∈ nodes.map Node.id then some none else none := by
  intro nodes
  induction nodes using List.reverseRecOn with
  | nil =>
    intro k
    simp only [List.foldl_nil, List.map_nil, List.not_mem_nil, if_false]
    cases pf0 k <;> rfl
  | append_singleton xs x ih =>
    intro k
    rw [List.foldl_append]
    simp only [List.foldl_cons, List.foldl_nil]
    by_cases hk : k = x.id
    · subst hk
      rw [if_pos rfl, ih x.id]
      cases h : pf0 x.id with
      | some v => rfl
      | none =>
        simp only [List.map_append, List.map_cons, List.map_nil, List.mem_append,
          List.mem_singleton, or_true, if_true]
        split <;> simp_all
    · rw [if_neg hk, ih k]
      cases h : pf0 k with
      | some v => rfl
      | none =>
        simp only [List.map_append, List.map_cons, List.map_nil, List.mem_append,
          List.mem_singleton, hk, or_false]

/-- The object `prompt_flows` is the reference table. -/
theorem promptFlows_eq_ref (fls : List Link) (nodes : List Node) (k : Nat) :
    promptFlows fls nodes k = flowTableRef fls nodes k := by
  unfold promptFlows flowTableRef
  refine Eq.trans (nodesFold_eq _ nodes k) ?_
  rw [flowsFold_eq]
  simp only
  by_cases h : fls.filter (fun l => decide (l.origin_id = k)) ≠ []
  · rw [if_pos h, if_pos h]
  · rw [if_neg h, if_neg h]

theorem compactNode_id (lm lm1 : List Link) (n n1 : Node)
    (h : compactNode lm n = some (lm1, n1)) : n1.id = n.id := by
  unfold compactNode at h
  split at h
  · split at h
    · simp at h
    · split at h
      · simp at h
      · simp only [Option.some.injEq, Prod.mk.injEq] at h
        rw [← h.2]
  · simp at h

theorem compactNodes_ids : ∀ (nodes : List Node) (lm lm1 : List Link) (ns : List Node),
    compactNodes nodes lm = some (lm1, ns) → ns.map Node.id = nodes.map Node.id := by
  intro nodes
  induction nodes with
  | nil =>
    intro lm lm1 ns h
    simp only [compactNodes, Option.some.injEq, Prod.mk.injEq] at h
    rw [← h.2]
  | cons n rest ih =>
    intro lm lm1 ns h
    simp only [compactNodes] at h
    split at h
    · simp at h
    · next l1 n1 h1 =>
      split at h
      · simp at h
      · next l2 r1 h2 =>
        simp only [Option.some.injEq, Prod.mk.injEq] at h
        rw [← h.2, List.map_cons, List.map_cons, compactNode_id lm l1 n n1 h1, ih l1 l2 r1 h2]

theorem flowTableRef_ids (fls : List Link) (ns ms : List Node)
    (h : ns.map Node.id = ms.map Node.id) (k : Nat) :
    flowTableRef fls ns k = flowTableRef fls ms k := by
  unfold flowTableRef
  rw [h]

/-- What `workflowToCworkflow` returns, when it returns. -/
theorem workflowToCworkflow_some (w c : Doc) (pf : Flows)
    (h : workflowToCworkflow w = some (c, pf)) :
    ∃ ls, w.links = some ls ∧
      c.flow_links = some (ls.filter (fun l => l.type = some "FLOW")) ∧
      c.nodes.map Node.id = w.nodes.map Node.id ∧
      pf = promptFlows (ls.filter (fun l => l.type = some "FLOW")) c.nodes := by
  unfold workflowToCworkflow at h
  simp only at h
  split at h
  · simp at h
  · next lm ns hc =>
    split at h
    · simp at h
    · next fls hfl =>
      simp only [Option.some.injEq, Prod.mk.injEq] at h
      cases hl : w.links with
      | none => rw [hl] at hfl; simp at hfl
      | some ls =>
        rw [hl] at hfl
        simp only [Option.map_some', Option.some.injEq] at hfl
        refine ⟨ls, rfl, ?_, ?_, ?_⟩
        · rw [← h.1, hfl]
        · rw [← h.1]
          exact compactNodes_ids _ _ _ _ hc
        · rw [← h.2, ← h.1, hfl]

/-- A well-formed runtime graph is compacted without an exception. -/
theorem workflowToCworkflow_isSome (g : Doc) (hwf : WFRuntime g) :
    (workflowToCworkflow g).isSome := by
  unfold WFRuntime at hwf
  split at hwf
  · next ls hl =>
    obtain ⟨_, hnodes, _⟩ := hwf
    obtain ⟨ε, hε⟩ := compactNodes_general (ls.filter (fun l => l.type ≠ some "FLOW")) g.nodes
      (fun _ => (0, 0)) hnodes
    rw [shiftLinks_zero] at hε
    unfold workflowToCworkflow
    simp only [hl, Option.map_some', Option.getD_some, hε]
    rfl
  · exact absurd hwf id

/-- C17: the flow table that `workflowToCworkflow` returns for a workflow with a links list is
the reference table: a key for every node id, for an origin of FLOW links the dense list of
length (largest origin slot)+1 with the entry `[String(target id), target slot]` at the origin
slot of each FLOW link and the marker `null` at the other slots, and `null` for a node that is
the origin of no FLOW link.  The method returns for every well-formed runtime graph. -/
theorem C17_flow_table_reference (w : Doc) :
    (WFRuntime w → (workflowToCworkflow w).isSome) ∧
    ∀ c pf, workflowToCworkflow w = some (c, pf) →
      ∃ ls, w.links = some ls ∧
        ∀ k, pf k = flowTableRef (ls.filter (fun l => l.type = some "FLOW")) w.nodes k := by
  refine ⟨workflowToCworkflow_isSome w, ?_⟩
  intro c pf h
  obtain ⟨ls, hl, _, hids, hpf⟩ := workflowToCworkflow_some w c pf h
  refine ⟨ls, hl, fun k => ?_⟩
  rw [hpf, promptFlows_eq_ref]
  exact flowTableRef_ids _ _ _ hids k

/-- The statement C17 at the graph `twoSuccessors`: the node 1 has the successors of both of
its FLOW outputs, the nodes 2 and 3 have `null`, and 4 is no key. -/
theorem C17_flow_table_reference_witness :
    ∃ c pf, workflowToCworkflow twoSuccessors = some (c, pf) ∧
      pf 1 = some (some [some ("2", 0), some ("3", 0)]) ∧ pf 2 = some none ∧
      pf 3 = some none ∧ pf 4 = none := by
  obtain ⟨⟨c, pf⟩, h⟩ := Option.isSome_iff_exists.mp
    ((C17_flow_table_reference twoSuccessors).1 (by decide))
  obtain ⟨ls, hl, hk⟩ := (C17_flow_table_reference twoSuccessors).2 c pf h
  have hls : ls = twoSuccessors.links.getD [] := by rw [hl]; rfl
  subst hls
  exact ⟨c, pf, h, (hk 1).trans (by rfl), (hk 2).trans (by rfl), (hk 3).trans (by rfl),
    (hk 4).trans (by rfl)⟩

/-- C18 (counterexample): in the graph `twoSuccessors` the node 1 is the origin of two FLOW
links, from its slots 0 and 1.  The successor list of the node 1 has the successor of either
link, so it is not the list that the link with the lowest origin slot gives on its own. -/
theorem C18_counterexample :
    (workflowToCworkflow twoSuccessors).map (fun p => p.2 1) =
      some (some (some [some ("2", 0), some ("3", 0)])) ∧
    lowestSlotLink (twoSuccessors.links.getD []) =
      some { id := 1, origin_id := 1, origin_slot := 0, target_id := 2, target_slot := 0,
             type := some "FLOW" } ∧
    ¬ LowestSlotWins twoSuccessors := by
  refine ⟨by decide, by decide, ?_⟩
  intro hw
  obtain ⟨⟨c, pf⟩, h⟩ := Option.isSome_iff_exists.mp
    (workflowToCworkflow_isSome twoSuccessors (by decide))
  obtain ⟨m, hm, hpf⟩ := hw c pf h 1 (by decide)
  have h1 : (workflowToCworkflow twoSuccessors).map (fun p => p.2 1) =
      some (some (some [some ("2", 0), some ("3", 0)])) := by decide
  rw [h] at h1
  simp only [Option.map_some', Option.some.injEq] at h1
  have h2 : lowestSlotLink (((twoSuccessors.links.getD []).filter
      (fun l => l.type = some "FLOW")).filter (fun l => l.origin_id = 1)) =
      some { id := 1, origin_id := 1, origin_slot := 0, target_id := 2, target_slot := 0,
             type := some "FLOW" } := by decide
  rw [h2, Option.mem_def, Option.some.injEq] at hm
  subst hm
  rw [h1] at hpf
  exact absurd hpf (by decide)

theorem find?_append_skip {α : Type} (p : α → Bool) (xs ys : List α)
    (h : ∀ x ∈ xs, p x = false) : (xs ++ ys).find? p = ys.find? p := by
  induction xs with
  | nil => rfl
  | cons a rest ih =>
    rw [List.cons_append, List.find?_cons, h a (List.mem_cons_self _ _)]
    exact ih (fun x hx => h x (List.mem_cons_of_mem _ hx))

/-- C18 (amended): every FLOW link decides the entry at its own origin slot of the successor
list of its origin, whatever the other FLOW links of that origin are; only a later link with
the same origin and the same origin slot replaces it. -/
theorem C18_every_link_keeps_its_slot (w c : Doc) (pf : Flows) (pre post : List Link)
    (l : Link) (h : workflowToCworkflow w = some (c, pf))
    (hl : w.links = some (pre ++ l :: post)) (hflow : l.type = some "FLOW")
    (h0 : 0 ≤ l.origin_slot)
    (hlast : ∀ m ∈ post, m.type = some "FLOW" → m.origin_id = l.origin_id →
      m.origin_slot ≠ l.origin_slot) :
    ∃ gs, pf l.origin_id = some (some gs) ∧
      gs[l.origin_slot.toNat]? = some (some (toString l.target_id, l.target_slot)) := by
  obtain ⟨ls, hl2, _, hids, hpf⟩ := workflowToCworkflow_some w c pf h
  rw [hl, Option.some.injEq] at hl2
  subst hl2
  have hL : ((pre ++ l :: post).filter (fun x => x.type = some "FLOW")).filter
      (fun x => x.origin_id = l.origin_id) =
      (pre.filter (fun x => x.type = some "FLOW")).filter (fun x => x.origin_id = l.origin_id) ++
        l :: (post.filter (fun x => x.type = some "FLOW")).filter
          (fun x => x.origin_id = l.origin_id) := by
    rw [List.filter_append, List.filter_append, List.filter_cons_of_pos (by simpa using hflow),
      List.filter_cons_of_pos (by simp)]
  refine ⟨denseGoto (((pre ++ l :: post).filter (fun x => x.type = some "FLOW")).filter
      (fun x => x.origin_id = l.origin_id)), ?_, ?_⟩
  · rw [hpf, promptFlows_eq_ref]
    unfold flowTableRef
    simp only
    rw [if_pos (by rw [hL]; simp)]
  · have hmem : l ∈ ((pre ++ l :: post).filter (fun x => x.type = some "FLOW")).filter
        (fun x => x.origin_id = l.origin_id) := by
      rw [hL]; simp
    have hlen := le_denseLength _ l hmem
    rw [denseGoto_getElem?, if_pos (by omega)]
    unfold denseEntry
    rw [hL, List.reverse_append, List.reverse_cons, List.append_assoc,
      find?_append_skip _ _ _ (by
        intro m hm
        rw [List.mem_reverse, List.mem_filter, List.mem_filter] at hm
        have := hlast m hm.1.1 (by simpa using hm.1.2) (by simpa using hm.2)
        simp only [decide_eq_false_iff_not]
        omega),
      List.singleton_append, List.find?_cons_of_pos _ (by simp; omega)]
    rfl

/-- The statement C18 (amended) at the graph `twoSuccessors`: the link from the slot 1 of the
node 1 keeps its successor, the node 3. -/
theorem C18_every_link_keeps_its_slot_witness :
    ∃ c pf gs, workflowToCworkflow twoSuccessors = some (c, pf) ∧ pf 1 = some (some gs) ∧
      gs[1]? = some (some ("3", 0)) := by
  obtain ⟨⟨c, pf⟩, h⟩ := Option.isSome_iff_exists.mp
    (workflowToCworkflow_isSome twoSuccessors (by decide))
  obtain ⟨gs, h1, h2⟩ := C18_every_link_keeps_its_slot twoSuccessors c pf
    [{ id := 1, origin_id := 1, origin_slot := 0, target_id := 2, target_slot := 0,
       type := some "FLOW" }] []
    { id := 2, origin_id := 1, origin_slot := 1, target_id := 3, target_slot := 0,
      type := some "FLOW" } h rfl rfl (by decide) (by simp)
  exact ⟨c, pf, gs, h, h1, h2⟩

/-! ### graphToPrompt: objects and their keys -/

theorem getKey_setKey {β : Type} (k k1 : String) (v : β) : ∀ (obj : List (String × β)),
    getKey k1 (setKey k v obj) = if k1 = k then some v else getKey k1 obj := by
  intro obj
  induction obj with
  | nil =>
    simp only [setKey, getKey]
    by_cases h : k1 = k
    · rw [if_pos h.symm, if_pos h]
    · rw [if_neg (Ne.symm h), if_neg h]
  | cons p rest ih =>
    simp only [setKey]
    by_cases hp : p.1 = k
    · rw [if_pos hp]
      simp only [getKey]
      by_cases h : k1 = k
      · rw [if_pos h.symm, if_pos h]
      · rw [if_neg (Ne.symm h), if_neg h, if_neg (by rw [hp]; exact Ne.symm h)]
    · rw [if_neg hp]
      simp only [getKey]
      by_cases hp1 : p.1 = k1
      · rw [if_pos hp1, if_pos hp1, if_neg (by rw [← hp1]; exact hp)]
      · rw [if_neg hp1, if_neg hp1, ih]

theorem getKey_isSome_iff {β : Type} (k : String) : ∀ (obj : List (String × β)),
    (getKey k obj).isSome ↔ k ∈ keysOf obj := by
  intro obj
  induction obj with
  | nil => simp [getKey, keysOf]
  | cons p rest ih =>
    simp only [getKey, keysOf, List.map_cons, List.mem_cons]
    by_cases hp : p.1 = k
    · rw [if_pos hp]
      simp [hp]
    · rw [if_neg hp, ih]
      simp [keysOf, Ne.symm hp]

theorem mem_keysOf_setKey {β : Type} (k x : String) (v : β) (obj : List (String × β)) :
    x ∈ keysOf (setKey k v obj) ↔ x = k ∨ x ∈ keysOf obj := by
  rw [← getKey_isSome_iff, ← getKey_isSome_iff, getKey_setKey]
  by_cases h : x = k
  · simp [h]
  · simp [h]

theorem getKey_mem {β : Type} (k : String) (v : β) : ∀ (obj : List (String × β)),
    getKey k obj = some v → (k, v) ∈ obj := by
  intro obj
  induction obj with
  | nil => intro h; simp [getKey] at h
  | cons p rest ih =>
    intro h
    simp only [getKey] at h
    by_cases hp : p.1 = k
    · rw [if_pos hp, Option.some.injEq] at h
      have : p = (k, v) := Prod.ext hp h
      rw [this]
      exact List.mem_cons_self _ _
    · rw [if_neg hp] at h
      exact List.mem_cons_of_mem _ (ih h)

theorem getKey_filter {β : Type} (q : String × β → Bool) (k : String) (v : β) :
    ∀ (obj : List (String × β)), getKey k obj = some v → q (k, v) = true →
      getKey k (obj.filter q) = some v := by
  intro obj
  induction obj with
  | nil => intro h; simp [getKey] at h
  | cons p rest ih =>
    intro h hq
    simp only [getKey] at h
    by_cases hp : p.1 = k
    · rw [if_pos hp, Option.some.injEq] at h
      have hpe : p = (k, v) := Prod.ext hp h
      rw [List.filter_cons_of_pos (by rw [hpe]; exact hq)]
      simp only [getKey, if_pos hp, h]
    · rw [if_neg hp] at h
      by_cases hqp : q p = true
      · rw [List.filter_cons_of_pos hqp]
        simp only [getKey, if_neg hp]
        exact ih h hq
      · rw [List.filter_cons_of_neg hqp]
        exact ih h hq

theorem keysOf_removeDangling (output : Output) :
    keysOf (removeDangling output) = keysOf output := by
  unfold removeDangling keysOf
  rw [List.map_map]
  rfl

theorem getKey_map_snd {β γ : Type} (g : β → γ) (k : String) : ∀ (obj : List (String × β)),
    getKey k (obj.map (fun o => (o.1, g o.2))) = (getKey k obj).map g := by
  intro obj
  induction obj with
  | nil => rfl
  | cons p rest ih =>
    simp only [List.map_cons, getKey]
    by_cases hp : p.1 = k
    · rw [if_pos hp, if_pos hp]
      rfl
    · rw [if_neg hp, if_neg hp, ih]

theorem getKey_removeDangling (output : Output) (k : String) :
    getKey k (removeDangling output) =
      (getKey k output).map (fun instr =>
        { instr with inputs := instr.inputs.filter (fun i => ! isDangling output i.2) }) := by
  unfold removeDangling
  exact getKey_map_snd (fun instr : Instr =>
    { instr with inputs := instr.inputs.filter (fun i => ! isDangling output i.2) }) k output

/-- What the test of lines 2212-2214 finds. -/
theorem readsFalsy_eq (output : Output) (k : String) :
    readsFalsy output k = true ↔ k ∉ keysOf output ∧ k ∉ objectPrototypeKeys := by
  unfold readsFalsy
  rw [← getKey_isSome_iff]
  cases getKey k output <;> simp

theorem isDangling_eq (output : Output) (v : PVal) :
    isDangling output v = true ↔
      ∃ first, v.first? = some first ∧ first ∉ keysOf output ∧
        first ∉ objectPrototypeKeys := by
  cases v with
  | widget wv =>
    cases wv with
    | pair a b =>
      simp only [isDangling, PVal.first?, Option.some.injEq, exists_eq_left']
      exact readsFalsy_eq output a
    | other j => simp [isDangling, PVal.first?]
  | link origin slot =>
    simp only [isDangling, PVal.first?, Option.some.injEq, exists_eq_left']
    exact readsFalsy_eq output origin

/-! ### graphToPrompt: the keys of the instruction map -/

theorem innerLoop_keys (host : Host) (nb : String → Option Nat) (fuel : Nat) :
    ∀ (nodes : List GNode) (output output1 : Output),
      innerLoop host nb fuel nodes output = Run.ok output1 →
      ∀ x, x ∈ keysOf output1 ↔ x ∈ keysOf output ∨ ∃ n ∈ nodes, Emitted n ∧ n.id.key = x := by
  intro nodes
  induction nodes with
  | nil =>
    intro output output1 h x
    simp only [innerLoop, Run.ok.injEq] at h
    simp [h]
  | cons node rest ih =>
    intro output output1 h x
    simp only [innerLoop] at h
    by_cases hv : node.isVirtualNode = true
    · rw [if_pos hv] at h
      rw [ih output output1 h x]
      constructor
      · rintro (h1 | ⟨n, hn, he⟩)
        · exact Or.inl h1
        · exact Or.inr ⟨n, List.mem_cons_of_mem _ hn, he⟩
      · rintro (h1 | ⟨n, hn, he⟩)
        · exact Or.inl h1
        · rcases List.mem_cons.mp hn with rfl | hn
          · exact absurd he.1.1 (by simp [hv])
          · exact Or.inr ⟨n, hn, he⟩
    · rw [if_neg hv] at h
      by_cases hm : node.mode = 2 ∨ node.mode = 4
      · rw [if_pos hm] at h
        rw [ih output output1 h x]
        constructor
        · rintro (h1 | ⟨n, hn, he⟩)
          · exact Or.inl h1
          · exact Or.inr ⟨n, List.mem_cons_of_mem _ hn, he⟩
        · rintro (h1 | ⟨n, hn, he⟩)
          · exact Or.inl h1
          · rcases List.mem_cons.mp hn with rfl | hn
            · rcases hm with hm | hm
              · exact absurd hm he.1.2.1
              · exact absurd hm he.1.2.2
            · exact Or.inr ⟨n, hn, he⟩
      · rw [if_neg hm] at h
        have hem : Emitted node :=
          ⟨by simpa using hv, fun h2 => hm (Or.inl h2), fun h4 => hm (Or.inr h4)⟩
        cases hi : nodeInstr host nb fuel node with
        | raise => rw [hi] at h; simp at h
        | timeout => rw [hi] at h; simp at h
        | ok instr =>
          rw [hi] at h
          simp only at h
          rw [ih _ output1 h x, mem_keysOf_setKey]
          constructor
          · rintro ((h1 | h1) | ⟨n, hn, he⟩)
            · exact Or.inr ⟨node, List.mem_cons_self _ _, hem, h1.symm⟩
            · exact Or.inl h1
            · exact Or.inr ⟨n, List.mem_cons_of_mem _ hn, he⟩
          · rintro (h1 | ⟨n, hn, he⟩)
            · exact Or.inl (Or.inr h1)
            · rcases List.mem_cons.mp hn with rfl | hn
              · exact Or.inl (Or.inl he.2.symm)
              · exact Or.inr ⟨n, hn, he⟩

theorem outerLoop_keys (host : Host) (nb : String → Option Nat) (fuel : Nat) :
    ∀ (order : List GNode) (output output1 : Output),
      outerLoop host nb fuel order output = Run.ok output1 →
      ∀ x, x ∈ keysOf output1 ↔
        x ∈ keysOf output ∨ ∃ n ∈ processed host order, Emitted n ∧ n.id.key = x := by
  intro order
  induction order with
  | nil =>
    intro output output1 h x
    simp only [outerLoop, Run.ok.injEq] at h
    simp [h, processed]
  | cons o rest ih =>
    intro output output1 h x
    simp only [outerLoop] at h
    cases hi : innerLoop host nb fuel (innerNodesOf host o) output with
    | raise => rw [hi] at h; simp at h
    | timeout => rw [hi] at h; simp at h
    | ok out1 =>
      rw [hi] at h
      simp only at h
      rw [ih out1 output1 h x, innerLoop_keys host nb fuel _ output out1 hi x]
      simp only [processed, List.flatMap_cons, List.mem_append]
      constructor
      · rintro ((h1 | ⟨n, hn, he⟩) | ⟨n, hn, he⟩)
        · exact Or.inl h1
        · exact Or.inr ⟨n, Or.inl hn, he⟩
        · exact Or.inr ⟨n, Or.inr hn, he⟩
      · rintro (h1 | ⟨n, hn | hn, he⟩)
        · exact Or.inl (Or.inl h1)
        · exact Or.inl (Or.inr ⟨n, hn, he⟩)
        · exact Or.inr ⟨n, hn, he⟩

/-- What `graphToPrompt` returns, when it returns. -/
theorem graphToPrompt_ok (host : Host) (order : List GNode) (wf : Doc) (fuel : Nat)
    (r : Doc × Output × Flows) (h : graphToPrompt host order wf fuel = Run.ok r) :
    ∃ nb output, nbFlowout wf.nodes = some nb ∧
      outerLoop host nb fuel order [] = Run.ok output ∧ r.2.1 = removeDangling output ∧
      workflowToCworkflow wf = some (r.1, r.2.2) := by
  unfold graphToPrompt at h
  split at h
  · simp at h
  · next nb hnb =>
    split at h
    · simp at h
    · simp at h
    · next output hout =>
      split at h
      · simp at h
      · next cw hcw =>
        simp only [Run.ok.injEq] at h
        refine ⟨nb, output, hnb, hout, ?_, ?_⟩
        · rw [← h]
        · rw [hcw, ← h]

/-- The nodes that the loops pass are the visited nodes. -/
theorem mem_processed_iff (host : Host) (order : List GNode) (n : GNode) :
    n ∈ processed host order ↔ Visited host order n := by
  unfold processed Visited
  rw [List.mem_flatMap]
  constructor
  · rintro ⟨o, ho, hn⟩
    refine ⟨o, ho, ?_⟩
    unfold innerNodesOf at hn
    cases hin : host.getInnerNodes o with
    | none =>
      rw [hin] at hn
      simp only [List.mem_singleton] at hn
      exact Or.inl ⟨hn, Or.inl rfl⟩
    | some inner =>
      rw [hin] at hn
      simp only at hn
      by_cases hs : o.mode = 2 ∨ o.mode = 4
      · rw [if_neg (not_not.mpr hs)] at hn
        simp only [List.mem_singleton] at hn
        exact Or.inl ⟨hn, Or.inr hs⟩
      · rw [if_pos hs] at hn
        rw [not_or] at hs
        exact Or.inr ⟨hs.1, hs.2, inner, rfl, hn⟩
  · rintro ⟨o, ho, h⟩
    refine ⟨o, ho, ?_⟩
    unfold innerNodesOf
    rcases h with ⟨rfl, h⟩ | ⟨h2, h4, inner, hin, hn⟩
    · cases hin : host.getInnerNodes n with
      | none => simp
      | some inner =>
        simp only
        rcases h with h | h
        · rw [hin] at h; exact absurd h (by simp)
        · rw [if_neg (not_not.mpr h)]
          simp
    · rw [hin]
      simp only
      rw [if_pos (by rw [not_or]; exact ⟨h2, h4⟩)]
      exact hn

/-- The keys of the instruction map are the keys of the serialized nodes. -/
theorem graphToPrompt_keys (host : Host) (order : List GNode) (wf : Doc) (fuel : Nat)
    (r : Doc × Output × Flows) (h : graphToPrompt host order wf fuel = Run.ok r) (x : String) :
    x ∈ keysOf r.2.1 ↔ ∃ n ∈ processed host order, Emitted n ∧ n.id.key = x := by
  obtain ⟨nb, output, _, hout, hr, _⟩ := graphToPrompt_ok host order wf fuel r h
  rw [hr, keysOf_removeDangling, outerLoop_keys host nb fuel order [] output hout x]
  simp [keysOf]

theorem run_of_value {α : Type} (x : Run α) (h : x.value.isSome = true) : ∃ a, x = Run.ok a := by
  cases x with
  | ok a => exact ⟨a, rfl⟩
  | raise => simp [Run.value] at h
  | timeout => simp [Run.value] at h

/-- A node that is not serialized has no key in the instruction map, when the keys of the
visited nodes are pairwise distinct. -/
theorem no_key_of_not_emitted (host : Host) (order : List GNode) (wf : Doc) (fuel : Nat)
    (r : Doc × Output × Flows) (h : graphToPrompt host order wf fuel = Run.ok r)
    (hnd : ((processed host order).map (fun n => n.id.key)).Nodup)
    (n : GNode) (hn : n ∈ processed host order)
    (hskip : n.isVirtualNode = true ∨ n.mode = 2 ∨ n.mode = 4) : n.id.key ∉ keysOf r.2.1 := by
  intro hk
  obtain ⟨m, hm, hem, hkey⟩ := (graphToPrompt_keys host order wf fuel r h n.id.key).mp hk
  have hmn : m = n := List.inj_on_of_nodup_map hnd hm hn hkey
  subst hmn
  rcases hskip with h1 | h1 | h1
  · rw [hem.1] at h1; exact absurd h1 (by decide)
  · exact hem.2.1 h1
  · exact hem.2.2 h1

/-- C16: the instruction map that `graphToPrompt` returns has the key `String(id)` for every
visited node (a node of the execution order without inner nodes or MUTED or BYPASSED, or an
inner node that `getInnerNodes` gives for an enabled node of the order) that is not virtual, not
MUTED and not BYPASSED; it has no other key; and, two visited nodes with the same key being the
same node, it has no key for a visited node that is virtual, MUTED or BYPASSED. -/
theorem C16_keys_of_instruction_map (host : Host) (order : List GNode) (wf : Doc) (fuel : Nat)
    (r : Doc × Output × Flows) (h : graphToPrompt host order wf fuel = Run.ok r) :
    (∀ n, Visited host order n → Emitted n → n.id.key ∈ keysOf r.2.1) ∧
    (∀ x ∈ keysOf r.2.1, ∃ n, Visited host order n ∧ Emitted n ∧ n.id.key = x) ∧
    ((∀ n m, Visited host order n → Visited host order m → n.id.key = m.id.key → n = m) →
      ∀ n, Visited host order n → n.isVirtualNode = true ∨ n.mode = 2 ∨ n.mode = 4 →
        n.id.key ∉ keysOf r.2.1) := by
  refine ⟨?_, ?_, ?_⟩
  · intro n hn he
    exact (graphToPrompt_keys host order wf fuel r h n.id.key).mpr
      ⟨n, (mem_processed_iff host order n).mpr hn, he, rfl⟩
  · intro x hx
    obtain ⟨n, hn, he, hk⟩ := (graphToPrompt_keys host order wf fuel r h x).mp hx
    exact ⟨n, (mem_processed_iff host order n).mp hn, he, hk⟩
  · intro hinj n hn hskip hk
    obtain ⟨m, hm, hem, hkey⟩ := (graphToPrompt_keys host order wf fuel r h n.id.key).mp hk
    have hmn : m = n := hinj m n ((mem_processed_iff host order m).mp hm) hn hkey
    subst hmn
    rcases hskip with h1 | h1 | h1
    · rw [hem.1] at h1; exact absurd h1 (by decide)
    · exact hem.2.1 h1
    · exact hem.2.2 h1

/-- The statement C16 at the order `groupOrder` with the host `expandingHost`: the map has the
keys of the node 7 and of the inner node `5:0` of the enabled group node 5; it has no key for
the MUTED inner node `5:1`, none for the BYPASSED group node 6, and none for `6:0`, the inner
node of the BYPASSED group node, which is not visited. -/
theorem C16_keys_of_instruction_map_witness :
    ∃ r, graphToPrompt expandingHost groupOrder groupOrderWorkflow 1 = Run.ok r ∧
      "7" ∈ keysOf r.2.1 ∧ "5:0" ∈ keysOf r.2.1 ∧ "5:1" ∉ keysOf r.2.1 ∧
      "6" ∉ keysOf r.2.1 ∧ "6:0" ∉ keysOf r.2.1 := by
  obtain ⟨r, hr⟩ := run_of_value (graphToPrompt expandingHost groupOrder groupOrderWorkflow 1)
    (by decide)
  have h := C16_keys_of_instruction_map _ _ _ _ r hr
  have hinj : ∀ n m, Visited expandingHost groupOrder n → Visited expandingHost groupOrder m →
      n.id.key = m.id.key → n = m := by
    intro n m hn hm
    have h1 := (mem_processed_iff _ _ n).mpr hn
    have h2 := (mem_processed_iff _ _ m).mpr hm
    revert m
    revert n
    have hall : ∀ n ∈ processed expandingHost groupOrder,
        ∀ m ∈ processed expandingHost groupOrder, n.id.key = m.id.key → n = m := by decide
    intro n _ h1 m _ h2
    exact hall n h1 m h2
  refine ⟨r, hr, ?_, ?_, ?_, ?_, ?_⟩
  · exact h.1 (liveNode 7 0 [{ name := "FROM", type := "FLOW" }])
      ⟨_, List.mem_cons_self _ _, Or.inl ⟨rfl, Or.inl rfl⟩⟩ (by decide)
  · exact h.1 (innerNode "5:0" 0)
      ⟨liveNode 5 0 [{ name := "FROM", type := "FLOW" }], by decide,
        Or.inr ⟨by decide, by decide, _, rfl, by decide⟩⟩ (by decide)
  · exact h.2.2 hinj (innerNode "5:1" 2)
      ⟨liveNode 5 0 [{ name := "FROM", type := "FLOW" }], by decide,
        Or.inr ⟨by decide, by decide, _, rfl, by decide⟩⟩ (by decide)
  · exact h.2.2 hinj (liveNode 6 4 [{ name := "FROM", type := "FLOW" }])
      ⟨_, by decide, Or.inl ⟨rfl, Or.inr (Or.inr rfl)⟩⟩ (by decide)
  · intro hx
    obtain ⟨n, hn, _, hk⟩ := h.2.1 _ hx
    have hall : ∀ n ∈ processed expandingHost groupOrder, n.id.key ≠ "6:0" := by decide
    exact hall n ((mem_processed_iff _ _ n).mpr hn) hk

/-- What is left after the pruning loop: the first element of every input value that is a
two-element array is a key of the instruction map or a property name of `Object.prototype`. -/
theorem pruned_first (host : Host) (order : List GNode) (wf : Doc) (fuel : Nat)
    (r : Doc × Output × Flows) (h : graphToPrompt host order wf fuel = Run.ok r) :
    ∀ o ∈ r.2.1, ∀ i ∈ o.2.inputs, ∀ first, i.2.first? = some first →
      first ∈ keysOf r.2.1 ∨ first ∈ objectPrototypeKeys := by
  obtain ⟨nb, output, _, _, hr, _⟩ := graphToPrompt_ok host order wf fuel r h
  intro o ho i hi first hf
  rw [hr] at ho ⊢
  rw [keysOf_removeDangling]
  unfold removeDangling at ho
  obtain ⟨o1, _, rfl⟩ := List.mem_map.mp ho
  simp only [List.mem_filter, Bool.not_eq_true', ] at hi
  by_contra hnot
  rw [not_or] at hnot
  have := (isDangling_eq output i.2).mpr ⟨first, hf, hnot.1, hnot.2⟩
  rw [hi.2] at this
  exact absurd this (by decide)

/-- No input is left that is a link to a visited node that is virtual, MUTED or BYPASSED,
when the keys of the visited nodes are pairwise distinct and the key of that node is no property
name of `Object.prototype`. -/
theorem no_link_to_skipped (host : Host) (order : List GNode) (wf : Doc) (fuel : Nat)
    (r : Doc × Output × Flows) (h : graphToPrompt host order wf fuel = Run.ok r)
    (hnd : ((processed host order).map (fun n => n.id.key)).Nodup)
    (n : GNode) (hn : n ∈ processed host order)
    (hskip : n.isVirtualNode = true ∨ n.mode = 2 ∨ n.mode = 4)
    (hproto : n.id.key ∉ objectPrototypeKeys) :
    ∀ o ∈ r.2.1, ∀ i ∈ o.2.inputs, ∀ slot, i.2 ≠ PVal.link n.id.key slot := by
  intro o ho i hi slot heq
  rcases pruned_first host order wf fuel r h o ho i hi n.id.key (by rw [heq]; rfl) with h1 | h1
  · exact no_key_of_not_emitted host order wf fuel r h hnd n hn hskip h1
  · exact hproto h1

/-- C15: the graph is the single node 1 with the serialized widgets `w` of value
`["constructor", 7]` and `v` of value `["x", 1]`.  The instruction map that `graphToPrompt`
returns has the one key `1`; the pruning loop deletes the input `v`, and keeps the input `w`,
a two-element array whose first element `constructor` is no key of the map. -/
theorem C15_prototype_name_is_kept :
    (graphToPrompt (graphHost protoWidgets []) protoWidgets soloWorkflow 1).value.map
        (fun r => r.2.1) =
      some [("1", { inputs := [("w", PVal.widget (WVal.pair "constructor" "7"))],
                    is_input_linked := [("w", false), ("v", false)],
                    class_type := some "Op" })] ∧
    (graphToPrompt (graphHost protoWidgets []) protoWidgets soloWorkflow 1).value.map
        (fun r => keysOf r.2.1) = some ["1"] := by
  decide

/-! ### graphToPrompt: the resolution loop -/

theorem walkStep_plain (host : Host) (type : String) (P : GNode) (l : Option GLink)
    (hP : ¬ (P.mode = 4 ∨ P.isVirtualNode = true)) :
    walkStep host type { parent := some P, link := l } =
      Step.done { parent := some P, link := l } := by
  unfold walkStep
  simp only [if_neg hP]

theorem find_range (p : Nat → Bool) (c : Nat) (hc : p c = true)
    (hlow : ∀ j, j < c → p j = false) : ∀ n, c < n → (List.range n).find? p = some c := by
  intro n
  induction n with
  | zero => intro h; omega
  | succ n ih =>
    intro h
    rw [List.range_succ, List.find?_append]
    by_cases hn : c < n
    · rw [ih hn]; rfl
    · have hcn : c = n := by omega
      subst hcn
      have hnone : (List.range c).find? p = none := by
        rw [List.find?_eq_none]
        intro x hx
        rw [hlow x (List.mem_range.mp hx)]
        decide
      rw [hnone]
      simp only [Option.none_or, List.find?_cons, hc, ]

/-- The loop over `all_inputs` stops at the first input of the type in candidate order. -/
theorem bypassCandidate_of_firstTyped (type : String) (inputs : List GInput)
    (origin_slot c : Nat) (h : FirstTyped type inputs origin_slot c) :
    bypassCandidate type inputs (origin_slot :: List.range inputs.length) = some c := by
  obtain ⟨hc, hfirst⟩ := h
  unfold bypassCandidate
  rcases hfirst with rfl | ⟨ho, hlow⟩
  · rw [List.find?_cons]
    simp only [hc, decide_True]
  · rw [List.find?_cons]
    simp only [ho, decide_False]
    apply find_range
    · simp only [hc, decide_True]
    · intro j hj
      simp only [hlow j hj, decide_False]
    · by_contra hlen
      rw [List.getElem?_eq_none (by omega)] at hc
      simp at hc

theorem walkStep_bypass (host : Host) (type : String) (B : GNode) (l : GLink)
    (inputs : List GInput) (c : Nat) (l1 : GLink) (hm : B.mode = 4)
    (hv : B.isVirtualNode = false) (hi : B.inputs = some inputs)
    (hc : FirstTyped type inputs l.origin_slot c)
    (hl : host.getInputLink B c = some l1) :
    walkStep host type { parent := some B, link := some l } =
      Step.next { parent := host.getInputNode B c, link := some l1 } := by
  have hc := bypassCandidate_of_firstTyped type inputs l.origin_slot c hc
  unfold walkStep
  simp only [hm, hv, hi, hc, hl, true_or, if_true, Bool.false_eq_true, if_false]

/-- Along a chain of BYPASSED nodes the loop reaches the producer at the end of the chain. -/
theorem walkLoop_chain (host : Host) (type : String) :
    ∀ (n : Nat) (B : GNode) (l : GLink) (P : GNode) (lP : GLink),
      BypassChain host type n B l P lP → ¬ (P.mode = 4 ∨ P.isVirtualNode = true) →
      ∀ fuel, n < fuel →
        walkLoop host type fuel { parent := some B, link := some l } =
          Run.ok { parent := some P, link := some lP } := by
  intro n B l P lP hch
  induction hch with
  | here P lP =>
    intro hP fuel hf
    obtain ⟨f, rfl⟩ : ∃ f, fuel = f + 1 := ⟨fuel - 1, by omega⟩
    simp only [walkLoop, walkStep_plain host type P (some lP) hP]
  | step n B l inputs c l1 B1 P lP hm hv hi hc hl hn _ ih =>
    intro hP fuel hf
    obtain ⟨f, rfl⟩ : ∃ f, fuel = f + 1 := ⟨fuel - 1, by omega⟩
    simp only [walkLoop, walkStep_bypass host type B l inputs c l1 hm hv hi hc hl, hn]
    exact ih hP f (by omega)

/-- A walk that comes back to its state never leaves the loop. -/
theorem walkLoop_of_invariant (host : Host) (type : String) (Q : Walk → Prop)
    (hQ : ∀ w, Q w → ∃ w1, walkStep host type w = Step.next w1 ∧ Q w1) :
    ∀ (fuel : Nat) (w : Walk), Q w → walkLoop host type fuel w = Run.timeout := by
  intro fuel
  induction fuel with
  | zero => intro w _; rfl
  | succ f ih =>
    intro w hw
    obtain ⟨w1, h1, hq⟩ := hQ w hw
    simp only [walkLoop, h1]
    exact ih w1 hq

theorem walkIter_add (host : Host) (type : String) :
    ∀ (a b : Nat) (w w1 : Walk), walkIter host type a w = some w1 →
      walkIter host type (a + b) w = walkIter host type b w1 := by
  intro a
  induction a with
  | zero =>
    intro b w w1 h
    simp only [walkIter, Option.some.injEq] at h
    rw [Nat.zero_add, h]
  | succ a ih =>
    intro b w w1 h
    rw [Nat.add_right_comm]
    simp only [walkIter] at h ⊢
    split at h
    · next w2 h2 =>
      exact ih b w2 w1 h
    · simp at h

theorem walkIter_step (host : Host) (type : String) (k : Nat) (w w0 : Walk)
    (h : walkIter host type (k + 1) w = some w0) :
    ∃ w1, walkStep host type w = Step.next w1 ∧ walkIter host type k w1 = some w0 := by
  simp only [walkIter] at h
  split at h
  · next w1 h1 => exact ⟨w1, h1, h⟩
  · simp at h

/-! ### graphToPrompt: the links of a node -/

theorem storeLink_effect (host : Host) (nb : String → Option Nat) (fuel : Nat) (node : GNode)
    (acc acc1 : List (String × PVal) × List (String × Bool)) (p : Nat × GInput)
    (h : storeLink host nb fuel node acc p = Run.ok acc1) :
    acc1 = acc ∨ ∃ v, acc1 = (setKey p.2.name v acc.1, setKey p.2.name true acc.2) := by
  unfold storeLink at h
  split at h
  · simp only [Run.ok.injEq] at h; exact Or.inl h.symm
  · split at h
    · simp at h
    · simp at h
    · split at h
      · simp only [Run.ok.injEq] at h; exact Or.inl h.symm
      · split at h
        · split at h
          · simp at h
          · simp only [Run.ok.injEq] at h; exact Or.inr ⟨_, h.symm⟩
        · simp only [Run.ok.injEq] at h; exact Or.inl h.symm

theorem storeLinks_getKey_other (host : Host) (nb : String → Option Nat) (fuel : Nat)
    (node : GNode) (name : String) :
    ∀ (ps : List (Nat × GInput)) (acc acc1 : List (String × PVal) × List (String × Bool)),
      storeLinks host nb fuel node ps acc = Run.ok acc1 → (∀ p ∈ ps, p.2.name ≠ name) →
      getKey name acc1.1 = getKey name acc.1 := by
  intro ps
  induction ps with
  | nil =>
    intro acc acc1 h _
    simp only [storeLinks, Run.ok.injEq] at h
    rw [h]
  | cons p rest ih =>
    intro acc acc1 h hne
    simp only [storeLinks] at h
    cases hs : storeLink host nb fuel node acc p with
    | raise => rw [hs] at h; simp at h
    | timeout => rw [hs] at h; simp at h
    | ok a1 =>
      rw [hs] at h
      simp only at h
      rw [ih a1 acc1 h (fun q hq => hne q (List.mem_cons_of_mem _ hq))]
      rcases storeLink_effect host nb fuel node acc a1 p hs with rfl | ⟨v, rfl⟩
      · rfl
      · simp only
        rw [getKey_setKey, if_neg (Ne.symm (hne p (List.mem_cons_self _ _)))]

/-- The value stored for an input stays to the end of the loop when no other input has its
name. -/
theorem storeLinks_getKey (host : Host) (nb : String → Option Nat) (fuel : Nat) (node : GNode)
    (q : Nat × GInput) (v : PVal)
    (hq : ∀ acc, storeLink host nb fuel node acc q =
      Run.ok (setKey q.2.name v acc.1, setKey q.2.name true acc.2)) :
    ∀ (ps : List (Nat × GInput)) (acc acc1 : List (String × PVal) × List (String × Bool)),
      storeLinks host nb fuel node ps acc = Run.ok acc1 → q ∈ ps →
      (ps.map (fun p => p.2.name)).Nodup → getKey q.2.name acc1.1 = some v := by
  intro ps
  induction ps with
  | nil => intro acc acc1 _ hm; simp at hm
  | cons p rest ih =>
    intro acc acc1 h hm hnd
    rw [List.map_cons, List.nodup_cons] at hnd
    simp only [storeLinks] at h
    cases hs : storeLink host nb fuel node acc p with
    | raise => rw [hs] at h; simp at h
    | timeout => rw [hs] at h; simp at h
    | ok a1 =>
      rw [hs] at h
      simp only at h
      rcases List.mem_cons.mp hm with rfl | hm
      · rw [hq acc, Run.ok.injEq] at hs
        rw [storeLinks_getKey_other host nb fuel node q.2.name rest a1 acc1 h (by
          intro p hp heq
          exact hnd.1 (List.mem_map.mpr ⟨p, hp, heq⟩)), ← hs]
        simp only
        rw [getKey_setKey, if_pos rfl]
      · exact ih a1 acc1 h hm hnd.2

/-! ### graphToPrompt: the entry of a node -/

theorem innerLoop_append (host : Host) (nb : String → Option Nat) (fuel : Nat) :
    ∀ (xs ys : List GNode) (output : Output),
      innerLoop host nb fuel (xs ++ ys) output =
        match innerLoop host nb fuel xs output with
        | Run.ok output1 => innerLoop host nb fuel ys output1
        | Run.raise => Run.raise
        | Run.timeout => Run.timeout := by
  intro xs
  induction xs with
  | nil => intro ys output; rfl
  | cons x rest ih =>
    intro ys output
    simp only [List.cons_append, innerLoop]
    by_cases hv : x.isVirtualNode = true
    · rw [if_pos hv, if_pos hv]
      exact ih ys output
    · rw [if_neg hv, if_neg hv]
      by_cases hm : x.mode = 2 ∨ x.mode = 4
      · rw [if_pos hm, if_pos hm]
        exact ih ys output
      · rw [if_neg hm, if_neg hm]
        cases nodeInstr host nb fuel x with
        | raise => rfl
        | timeout => rfl
        | ok instr => exact ih ys _

theorem outerLoop_eq_innerLoop (host : Host) (nb : String → Option Nat) (fuel : Nat) :
    ∀ (order : List GNode) (output : Output),
      outerLoop host nb fuel order output =
        innerLoop host nb fuel (processed host order) output := by
  intro order
  induction order with
  | nil => intro output; rfl
  | cons o rest ih =>
    intro output
    simp only [outerLoop, processed, List.flatMap_cons]
    rw [innerLoop_append]
    cases innerLoop host nb fuel (innerNodesOf host o) output with
    | raise => rfl
    | timeout => rfl
    | ok out1 => exact ih out1

theorem innerLoop_getKey_other (host : Host) (nb : String → Option Nat) (fuel : Nat)
    (k : String) :
    ∀ (nodes : List GNode) (output output1 : Output),
      innerLoop host nb fuel nodes output = Run.ok output1 →
      (∀ n ∈ nodes, n.id.key ≠ k) → getKey k output1 = getKey k output := by
  intro nodes
  induction nodes with
  | nil =>
    intro output output1 h _
    simp only [innerLoop, Run.ok.injEq] at h
    rw [h]
  | cons x rest ih =>
    intro output output1 h hne
    have hrest : ∀ n ∈ rest, n.id.key ≠ k := fun n hn => hne n (List.mem_cons_of_mem _ hn)
    simp only [innerLoop] at h
    by_cases hv : x.isVirtualNode = true
    · rw [if_pos hv] at h
      exact ih output output1 h hrest
    · rw [if_neg hv] at h
      by_cases hm : x.mode = 2 ∨ x.mode = 4
      · rw [if_pos hm] at h
        exact ih output output1 h hrest
      · rw [if_neg hm] at h
        cases hi : nodeInstr host nb fuel x with
        | raise => rw [hi] at h; simp at h
        | timeout => rw [hi] at h; simp at h
        | ok instr =>
          rw [hi] at h
          simp only at h
          rw [ih _ output1 h hrest, getKey_setKey,
            if_neg (Ne.symm (hne x (List.mem_cons_self _ _)))]

/-- The entry of a serialized node, when no other visited node has its key. -/
theorem innerLoop_getKey (host : Host) (nb : String → Option Nat) (fuel : Nat) (c : GNode)
    (hc : Emitted c) :
    ∀ (nodes : List GNode) (output output1 : Output),
      innerLoop host nb fuel nodes output = Run.ok output1 → c ∈ nodes →
      (nodes.map (fun n => n.id.key)).Nodup →
      ∃ instr, nodeInstr host nb fuel c = Run.ok instr ∧ getKey c.id.key output1 = some instr := by
  intro nodes
  induction nodes with
  | nil => intro output output1 _ hm; simp at hm
  | cons x rest ih =>
    intro output output1 h hm hnd
    rw [List.map_cons, List.nodup_cons] at hnd
    simp only [innerLoop] at h
    rcases List.mem_cons.mp hm with rfl | hm
    · rw [if_neg (by rw [hc.1]; decide),
        if_neg (by intro h2; rcases h2 with h2 | h2; exact hc.2.1 h2; exact hc.2.2 h2)] at h
      cases hi : nodeInstr host nb fuel c with
      | raise => rw [hi] at h; simp at h
      | timeout => rw [hi] at h; simp at h
      | ok instr =>
        rw [hi] at h
        simp only at h
        refine ⟨instr, rfl, ?_⟩
        rw [innerLoop_getKey_other host nb fuel c.id.key rest _ output1 h (by
          intro n hn heq
          exact hnd.1 (List.mem_map.mpr ⟨n, hn, heq⟩)), getKey_setKey, if_pos rfl]
    · by_cases hv : x.isVirtualNode = true
      · rw [if_pos hv] at h
        exact ih output output1 h hm hnd.2
      · rw [if_neg hv] at h
        by_cases hmode : x.mode = 2 ∨ x.mode = 4
        · rw [if_pos hmode] at h
          exact ih output output1 h hm hnd.2
        · rw [if_neg hmode] at h
          cases hi : nodeInstr host nb fuel x with
          | raise => rw [hi] at h; simp at h
          | timeout => rw [hi] at h; simp at h
          | ok instr =>
            rw [hi] at h
            simp only at h
            exact ih _ output1 h hm hnd.2

/-- The entry of a serialized node, when every visited node with its key is this node. -/
theorem innerLoop_getKey_inj (host : Host) (nb : String → Option Nat) (fuel : Nat) (c : GNode)
    (hc : Emitted c) :
    ∀ (nodes : List GNode) (output output1 : Output),
      innerLoop host nb fuel nodes output = Run.ok output1 → c ∈ nodes →
      (∀ n ∈ nodes, n.id.key = c.id.key → n = c) →
      ∃ instr, nodeInstr host nb fuel c = Run.ok instr ∧ getKey c.id.key output1 = some instr := by
  intro nodes
  induction nodes with
  | nil => intro output output1 _ hm; simp at hm
  | cons x rest ih =>
    intro output output1 h hm hinj
    have hinj1 : ∀ n ∈ rest, n.id.key = c.id.key → n = c :=
      fun n hn => hinj n (List.mem_cons_of_mem _ hn)
    simp only [innerLoop] at h
    by_cases hmr : c ∈ rest
    · by_cases hv : x.isVirtualNode = true
      · rw [if_pos hv] at h
        exact ih output output1 h hmr hinj1
      · rw [if_neg hv] at h
        by_cases hmode : x.mode = 2 ∨ x.mode = 4
        · rw [if_pos hmode] at h
          exact ih output output1 h hmr hinj1
        · rw [if_neg hmode] at h
          cases hi : nodeInstr host nb fuel x with
          | raise => rw [hi] at h; simp at h
          | timeout => rw [hi] at h; simp at h
          | ok instr =>
            rw [hi] at h
            simp only at h
            exact ih _ output1 h hmr hinj1
    · have hxc : c = x := by
        rcases List.mem_cons.mp hm with hx | hx
        · exact hx
        · exact absurd hx hmr
      subst hxc
      rw [if_neg (by rw [hc.1]; decide),
        if_neg (by intro h2; rcases h2 with h2 | h2; exact hc.2.1 h2; exact hc.2.2 h2)] at h
      cases hi : nodeInstr host nb fuel c with
      | raise => rw [hi] at h; simp at h
      | timeout => rw [hi] at h; simp at h
      | ok instr =>
        rw [hi] at h
        simp only at h
        refine ⟨instr, rfl, ?_⟩
        rw [innerLoop_getKey_other host nb fuel c.id.key rest _ output1 h (by
          intro n hn heq
          exact hmr (hinj1 n hn heq ▸ hn)), getKey_setKey, if_pos rfl]

/-- The round of the loop "Store all node links" for an input whose link leads through a
chain of BYPASSED nodes to a producer that is serialized. -/
theorem storeLink_chain (host : Host) (nb : String → Option Nat) (fuel : Nat) (c : GNode)
    (i : Nat) (inp : GInput) (B : GNode) (l : GLink) (n : Nat) (P : GNode) (lP : GLink)
    (hB : host.getInputNode c i = some B) (hl : host.getInputLink c i = some l)
    (hch : BypassChain host inp.type n B l P lP) (hP : Emitted P)
    (hup : host.updateLink P = none) (hT : inp.type ≠ "FLOW") (hf : n < fuel)
    (acc : List (String × PVal) × List (String × Bool)) :
    storeLink host nb fuel c acc (i, inp) =
      Run.ok (setKey inp.name (PVal.link lP.origin_id.key
          ((nb lP.origin_id.key).map
            (fun (k : Nat) => (lP.origin_slot : Int) - (k : Int)))) acc.1,
        setKey inp.name true acc.2) := by
  have hPn : ¬ (P.mode = 4 ∨ P.isVirtualNode = true) := by
    intro h
    rcases h with h | h
    · exact hP.2.2 h
    · rw [hP.1] at h; exact absurd h (by decide)
  have hw := walkLoop_chain host inp.type n B l P lP hch hPn fuel hf
  unfold storeLink
  simp only [hB, hl, hw, if_pos hT, updatedLink, hup]

/-- C12: a non-FLOW input of a visited, serialized node is linked to `B`; from `B` a chain of
`N` BYPASSED nodes, each passing on through its first input of the type of the consumer's input
in candidate order, leads to the visited, enabled, non-virtual node `P`; two visited nodes with
the same key are the same node.  Then the resolution loop ends at `P` for every bound above `N`,
and the instruction map that `graphToPrompt` returns has this input of the consumer as a link to
`P`: its value is `[String(P.id), slot]`. -/
theorem C12_bypass_chain_resolves (host : Host) (order : List GNode) (wf : Doc)
    (c : GNode) (inputs : List GInput) (i : Nat) (inp : GInput) (B : GNode) (l : GLink)
    (N : Nat) (P : GNode) (lP : GLink)
    (hc : Visited host order c) (hce : Emitted c)
    (hkeys : ∀ n m, Visited host order n → Visited host order m → n.id.key = m.id.key → n = m)
    (hins : c.inputs = some inputs) (hinp : inputs[i]? = some inp)
    (hnames : (inputs.map GInput.name).Nodup) (hT : inp.type ≠ "FLOW")
    (hB : host.getInputNode c i = some B) (hl : host.getInputLink c i = some l)
    (hch : BypassChain host inp.type N B l P lP)
    (hP : Visited host order P) (hPe : Emitted P) (hup : host.updateLink P = none)
    (hlP : lP.origin_id = P.id) :
    (∀ fuel, N < fuel →
      walkLoop host inp.type fuel { parent := some B, link := some l } =
        Run.ok { parent := some P, link := some lP }) ∧
    ∀ fuel r, N < fuel → graphToPrompt host order wf fuel = Run.ok r →
      ∃ instr slot, getKey c.id.key r.2.1 = some instr ∧
        getKey inp.name instr.inputs = some (PVal.link P.id.key slot) := by
  have hPn : ¬ (P.mode = 4 ∨ P.isVirtualNode = true) := by
    intro h
    rcases h with h | h
    · exact hPe.2.2 h
    · rw [hPe.1] at h; exact absurd h (by decide)
  refine ⟨fun fuel hf => walkLoop_chain host inp.type N B l P lP hch hPn fuel hf, ?_⟩
  intro fuel r hf h
  obtain ⟨nb, output, _, hout, hr, _⟩ := graphToPrompt_ok host order wf fuel r h
  have hPkey : P.id.key ∈ keysOf output := by
    rw [outerLoop_keys host nb fuel order [] output hout]
    exact Or.inr ⟨P, (mem_processed_iff host order P).mpr hP, hPe, rfl⟩
  rw [outerLoop_eq_innerLoop] at hout
  obtain ⟨instr, hni, hget⟩ := innerLoop_getKey_inj host nb fuel c hce _ [] output hout
    ((mem_processed_iff host order c).mpr hc)
    (fun n hn hk => hkeys n c ((mem_processed_iff host order n).mp hn) hc hk)
  unfold nodeInstr at hni
  rw [hins, Option.getD_some] at hni
  cases hs : storeLinks host nb fuel c inputs.enum (storeWidgets (c.widgets.getD [])) with
  | raise => rw [hs] at hni; simp at hni
  | timeout => rw [hs] at hni; simp at hni
  | ok acc =>
    rw [hs] at hni
    simp only [Run.ok.injEq] at hni
    have hv := storeLinks_getKey host nb fuel c (i, inp) _
      (storeLink_chain host nb fuel c i inp B l N P lP hB hl hch hPe hup hT hf)
      inputs.enum _ acc hs (List.mk_mem_enum_iff_getElem?.mpr hinp) (by
        rw [show (fun p : Nat × GInput => p.2.name) = GInput.name ∘ Prod.snd from rfl,
          ← List.map_map, List.enum_map_snd]
        exact hnames)
    rw [hlP] at hv
    have h1 : getKey c.id.key r.2.1 = some
        { instr with inputs := instr.inputs.filter (fun i => ! isDangling output i.2) } := by
      rw [hr, getKey_removeDangling, hget]
      rfl
    have h2 : getKey inp.name (instr.inputs.filter (fun i => ! isDangling output i.2)) =
        some (PVal.link P.id.key
          ((nb P.id.key).map (fun (k : Nat) => (lP.origin_slot : Int) - (k : Int)))) := by
      refine getKey_filter _ inp.name _ instr.inputs (by rw [← hni]; exact hv) ?_
      simp only [Bool.not_eq_true', isDangling, readsFalsy]
      cases hk : getKey P.id.key output with
      | some _ => rfl
      | none =>
        have := (getKey_isSome_iff P.id.key output).mpr hPkey
        rw [hk] at this
        exact absurd this (by decide)
    exact ⟨_, _, h1, h2⟩

/-- The statement C12 for N = 1, at the graph `bypassTyped`: the link of the input `in` of C
names output 1 of the bypassed node B, whose input 1 is `mask` of type MASK; the first IMAGE
input of B is `image` at index 2, linked to A, and `in` is emitted as a link to A (id 1), not to
M (id 4). -/
theorem C12_bypass_chain_resolves_witness :
    ∃ r, graphToPrompt (graphHost bypassTyped bypassTypedLinks) bypassTyped
        bypassTypedWorkflow 2 = Run.ok r ∧
      ∃ instr slot, getKey "3" r.2.1 = some instr ∧
        getKey "in" instr.inputs = some (PVal.link "1" slot) := by
  obtain ⟨r, hr⟩ := run_of_value (graphToPrompt (graphHost bypassTyped bypassTypedLinks)
    bypassTyped bypassTypedWorkflow 2) (by decide)
  refine ⟨r, hr, ?_⟩
  exact (C12_bypass_chain_resolves (graphHost bypassTyped bypassTypedLinks) bypassTyped
    bypassTypedWorkflow
    (liveNode 3 0 [{ name := "FROM", type := "FLOW" }, { name := "in", type := "IMAGE" }])
    [{ name := "FROM", type := "FLOW" }, { name := "in", type := "IMAGE" }] 1
    { name := "in", type := "IMAGE" }
    (liveNode 2 4 [{ name := "FROM", type := "FLOW" }, { name := "mask", type := "MASK" },
      { name := "image", type := "IMAGE" }])
    (liveLink 2 1 3 1) 1 (liveNode 1 0 [{ name := "FROM", type := "FLOW" }]) (liveLink 1 1 2 2)
    ((mem_processed_iff _ _ _).mp (by decide)) (by decide)
    (fun n m hn hm => List.inj_on_of_nodup_map
      (by decide : ((processed (graphHost bypassTyped bypassTypedLinks) bypassTyped).map
        (fun n => n.id.key)).Nodup)
      ((mem_processed_iff _ _ n).mpr hn) ((mem_processed_iff _ _ m).mpr hm))
    rfl rfl (by decide) (by decide) (by decide) (by decide)
    (BypassChain.step 0 _ _ [{ name := "FROM", type := "FLOW" }, { name := "mask", type := "MASK" },
      { name := "image", type := "IMAGE" }]
      2 (liveLink 1 1 2 2) (liveNode 1 0 [{ name := "FROM", type := "FLOW" }]) _ _
      (by decide) (by decide) rfl (by decide) (by decide) (by decide)
      (BypassChain.here _ _))
    ((mem_processed_iff _ _ _).mp (by decide)) (by decide) rfl rfl).2 2 r (by decide) hr

/-! ### graphToPrompt: runs that do not return -/

theorem innerLoop_skip (host : Host) (nb : String → Option Nat) (fuel : Nat) (x : GNode)
    (rest : List GNode) (output : Output) (h : ¬ Emitted x) :
    innerLoop host nb fuel (x :: rest) output = innerLoop host nb fuel rest output := by
  simp only [innerLoop]
  by_cases hv : x.isVirtualNode = true
  · rw [if_pos hv]
  · rw [if_neg hv]
    by_cases hm : x.mode = 2 ∨ x.mode = 4
    · rw [if_pos hm]
    · exact absurd ⟨by simpa using hv, fun h2 => hm (Or.inl h2), fun h4 => hm (Or.inr h4)⟩ h

theorem innerLoop_emit (host : Host) (nb : String → Option Nat) (fuel : Nat) (x : GNode)
    (rest : List GNode) (output : Output) (h : Emitted x) :
    innerLoop host nb fuel (x :: rest) output =
      match nodeInstr host nb fuel x with
      | Run.ok instr => innerLoop host nb fuel rest (setKey x.id.key instr output)
      | Run.raise => Run.raise
      | Run.timeout => Run.timeout := by
  simp only [innerLoop]
  rw [if_neg (by rw [h.1]; decide),
    if_neg (by intro h2; rcases h2 with h2 | h2; exact h.2.1 h2; exact h.2.2 h2)]

/-- The round of the loop "Store all node links" for an input whose resolution loop does not
end or raises. -/
theorem storeLink_of_walk (host : Host) (nb : String → Option Nat) (fuel : Nat) (c : GNode)
    (p : Nat × GInput) (B : GNode) (hB : host.getInputNode c p.1 = some B)
    (acc : List (String × PVal) × List (String × Bool)) :
    (walkLoop host p.2.type fuel { parent := some B, link := host.getInputLink c p.1 } =
        Run.timeout → storeLink host nb fuel c acc p = Run.timeout) ∧
    (walkLoop host p.2.type fuel { parent := some B, link := host.getInputLink c p.1 } =
        Run.raise → storeLink host nb fuel c acc p = Run.raise) := by
  constructor <;> intro hw <;> unfold storeLink <;> simp only [hB, hw]

theorem graphToPrompt_of_outerLoop (host : Host) (order : List GNode) (wf : Doc) (fuel : Nat)
    (hnb : (nbFlowout wf.nodes).isSome = true) :
    ((∀ nb, outerLoop host nb fuel order [] = Run.timeout) →
      graphToPrompt host order wf fuel = Run.timeout) ∧
    ((∀ nb, outerLoop host nb fuel order [] = Run.raise) →
      graphToPrompt host order wf fuel = Run.raise) := by
  obtain ⟨nb, h⟩ := Option.isSome_iff_exists.mp hnb
  constructor <;> intro ho <;> unfold graphToPrompt <;> simp only [h, ho nb]

/-- A walk that comes back to its state after some rounds never leaves the loop. -/
theorem walkLoop_cycle (host : Host) (type : String) (w : Walk) (k : Nat)
    (hcyc : walkIter host type (k + 1) w = some w) :
    ∀ fuel, walkLoop host type fuel w = Run.timeout := by
  intro fuel
  refine walkLoop_of_invariant host type (fun w1 => ∃ j, walkIter host type j w = some w1) ?_
    fuel w ⟨0, rfl⟩
  intro w1 ⟨j, hj⟩
  have h1 : walkIter host type (k + 1) w1 = some w1 := by
    rw [← walkIter_add host type j (k + 1) w w1 hj, Nat.add_comm,
      walkIter_add host type (k + 1) j w w hcyc, hj]
  obtain ⟨w2, hs, _⟩ := walkIter_step host type k w1 w1 h1
  refine ⟨w2, hs, j + 1, ?_⟩
  rw [walkIter_add host type j 1 w w1 hj]
  simp only [walkIter, hs]

/-- C13 (counterexample): in the graph `bypassCycle` the input of C is linked to the BYPASSED
node X, whose input is linked to the BYPASSED node Y, whose input is linked to X.  Whatever
the bound on the number of rounds, the resolution loop for the input of C does not end within
it, and neither does `graphToPrompt`: the input is not treated as unconnected. -/
theorem C13_counterexample :
    (∀ fuel, walkLoop (graphHost bypassCycle bypassCycleLinks) "IMAGE" fuel
        { parent := some (liveNode 1 4 [{ name := "in", type := "IMAGE" }]),
          link := some (liveLink 1 0 3 0) } = Run.timeout) ∧
    ∀ fuel, graphToPrompt (graphHost bypassCycle bypassCycleLinks) bypassCycle plainWorkflow
        fuel = Run.timeout := by
  have hw : ∀ fuel, walkLoop (graphHost bypassCycle bypassCycleLinks) "IMAGE" fuel
      { parent := some (liveNode 1 4 [{ name := "in", type := "IMAGE" }]),
        link := some (liveLink 1 0 3 0) } = Run.timeout := by
    intro fuel
    cases fuel with
    | zero => rfl
    | succ f =>
      have h1 : walkStep (graphHost bypassCycle bypassCycleLinks) "IMAGE"
          { parent := some (liveNode 1 4 [{ name := "in", type := "IMAGE" }]),
            link := some (liveLink 1 0 3 0) } =
          Step.next { parent := some (liveNode 2 4 [{ name := "in", type := "IMAGE" }]),
                      link := some (liveLink 2 0 1 0) } := by decide
      simp only [walkLoop, h1]
      exact walkLoop_cycle _ _ _ 1 (by decide) f
  refine ⟨hw, ?_⟩
  intro fuel
  refine (graphToPrompt_of_outerLoop _ _ _ fuel (by decide)).1 ?_
  intro nb
  rw [outerLoop_eq_innerLoop]
  have hp : processed (graphHost bypassCycle bypassCycleLinks) bypassCycle = bypassCycle := by
    decide
  rw [hp]
  unfold bypassCycle
  rw [innerLoop_skip _ _ _ _ _ _ (by decide), innerLoop_skip _ _ _ _ _ _ (by decide),
    innerLoop_emit _ _ _ _ _ _ (by decide)]
  have hs : ∀ acc, storeLink (graphHost [liveNode 1 4 [{ name := "in", type := "IMAGE" }],
      liveNode 2 4 [{ name := "in", type := "IMAGE" }],
      liveNode 3 0 [{ name := "in", type := "IMAGE" }]] bypassCycleLinks) nb fuel
      (liveNode 3 0 [{ name := "in", type := "IMAGE" }]) acc
      (0, { name := "in", type := "IMAGE" }) = Run.timeout := fun acc =>
    (storeLink_of_walk _ nb fuel _ (0, { name := "in", type := "IMAGE" })
      (liveNode 1 4 [{ name := "in", type := "IMAGE" }]) (by decide) acc).1 (hw fuel)
  have hn : nodeInstr (graphHost [liveNode 1 4 [{ name := "in", type := "IMAGE" }],
      liveNode 2 4 [{ name := "in", type := "IMAGE" }],
      liveNode 3 0 [{ name := "in", type := "IMAGE" }]] bypassCycleLinks) nb fuel
      (liveNode 3 0 [{ name := "in", type := "IMAGE" }]) = Run.timeout := by
    unfold nodeInstr
    have he : ((liveNode 3 0 [{ name := "in", type := "IMAGE" }]).inputs.getD []).enum =
        [(0, { name := "in", type := "IMAGE" })] := rfl
    rw [he]
    simp only [storeLinks, hs]
  rw [hn]

/-- C13 (amended): the resolution loop has no record of the nodes visited.  When the walk
through bypassed or virtual producers comes back to a state (producer and link) that it was in
before, the loop does not end within any number of rounds, and neither does the round of the
loop "Store all node links" for an input whose walk starts in such a state. -/
theorem C13_cycle_never_ends (host : Host) (type : String) (w : Walk) (k : Nat)
    (hcyc : walkIter host type (k + 1) w = some w) :
    (∀ fuel, walkLoop host type fuel w = Run.timeout) ∧
    ∀ (nb : String → Option Nat) (c B : GNode) (i : Nat) (inp : GInput),
      inp.type = type → host.getInputNode c i = some B →
      w = { parent := some B, link := host.getInputLink c i } →
      ∀ fuel acc, storeLink host nb fuel c acc (i, inp) = Run.timeout := by
  refine ⟨walkLoop_cycle host type w k hcyc, ?_⟩
  intro nb c B i inp hty hB hw fuel acc
  refine (storeLink_of_walk host nb fuel c (i, inp) B hB acc).1 ?_
  rw [← hw]
  simp only [hty]
  exact walkLoop_cycle host type w k hcyc fuel

/-- The statement C13 (amended) at the graph `bypassCycle`: the walk from X comes back to X
after two rounds. -/
theorem C13_cycle_never_ends_witness :
    walkIter (graphHost bypassCycle bypassCycleLinks) "IMAGE" 2
        { parent := some (liveNode 1 4 [{ name := "in", type := "IMAGE" }]),
          link := some (liveLink 1 0 2 0) } =
      some { parent := some (liveNode 1 4 [{ name := "in", type := "IMAGE" }]),
             link := some (liveLink 1 0 2 0) } ∧
    ((∀ fuel, walkLoop (graphHost bypassCycle bypassCycleLinks) "IMAGE" fuel
        { parent := some (liveNode 1 4 [{ name := "in", type := "IMAGE" }]),
          link := some (liveLink 1 0 2 0) } = Run.timeout) ∧
     ∀ (nb : String → Option Nat) (c B : GNode) (i : Nat) (inp : GInput),
      inp.type = "IMAGE" →
      (graphHost bypassCycle bypassCycleLinks).getInputNode c i = some B →
      ({ parent := some (liveNode 1 4 [{ name := "in", type := "IMAGE" }]),
         link := some (liveLink 1 0 2 0) } : Walk) =
        { parent := some B,
          link := (graphHost bypassCycle bypassCycleLinks).getInputLink c i } →
      ∀ fuel acc, storeLink (graphHost bypassCycle bypassCycleLinks) nb fuel c acc (i, inp) =
        Run.timeout) :=
  ⟨by decide,
   C13_cycle_never_ends (graphHost bypassCycle bypassCycleLinks) "IMAGE"
    { parent := some (liveNode 1 4 [{ name := "in", type := "IMAGE" }]),
      link := some (liveLink 1 0 2 0) } 1 (by decide)⟩

/-- C14 (evaluation at the failing input): in the graph `danglingBypass` the link on the
input of the BYPASSED node B names an origin that is no node of the graph.  The bypass branch
takes the link and sets `parent` to `null`, and the next evaluation of the loop condition
raises: `graphToPrompt` raises for every bound of at least two rounds.  With a virtual node in
the place of B the same graph is serialized, the input of C being left out. -/
theorem C14_dangling_origin_raises :
    (∀ fuel, graphToPrompt (graphHost danglingBypass danglingBypassLinks) danglingBypass
        plainWorkflow (fuel + 2) = Run.raise) ∧
    (graphToPrompt (graphHost danglingVirtual danglingBypassLinks) danglingVirtual
        plainWorkflow 2).value.map (fun r => r.2.1) =
      some [("3", { inputs := [], is_input_linked := [("in", true)],
                    class_type := some "Op" })] := by
  refine ⟨?_, by decide⟩
  intro fuel
  refine (graphToPrompt_of_outerLoop _ _ _ (fuel + 2) (by decide)).2 ?_
  intro nb
  rw [outerLoop_eq_innerLoop]
  have hp : processed (graphHost danglingBypass danglingBypassLinks) danglingBypass =
      danglingBypass := by decide
  rw [hp]
  unfold danglingBypass
  rw [innerLoop_skip _ _ _ _ _ _ (by decide), innerLoop_emit _ _ _ _ _ _ (by decide)]
  have hw : walkLoop (graphHost [liveNode 2 4 [{ name := "in", type := "IMAGE" }],
      liveNode 3 0 [{ name := "in", type := "IMAGE" }]] danglingBypassLinks) "IMAGE" (fuel + 2)
      { parent := some (liveNode 2 4 [{ name := "in", type := "IMAGE" }]),
        link := some (liveLink 2 0 3 0) } = Run.raise := by
    have h1 : walkStep (graphHost [liveNode 2 4 [{ name := "in", type := "IMAGE" }],
        liveNode 3 0 [{ name := "in", type := "IMAGE" }]] danglingBypassLinks) "IMAGE"
        { parent := some (liveNode 2 4 [{ name := "in", type := "IMAGE" }]),
          link := some (liveLink 2 0 3 0) } =
        Step.next { parent := none, link := some (liveLink 99 0 2 0) } := by decide
    simp only [walkLoop, h1]
    rfl
  have hs : ∀ acc, storeLink (graphHost [liveNode 2 4 [{ name := "in", type := "IMAGE" }],
      liveNode 3 0 [{ name := "in", type := "IMAGE" }]] danglingBypassLinks) nb (fuel + 2)
      (liveNode 3 0 [{ name := "in", type := "IMAGE" }]) acc
      (0, { name := "in", type := "IMAGE" }) = Run.raise := fun acc =>
    (storeLink_of_walk _ nb (fuel + 2) _ (0, { name := "in", type := "IMAGE" })
      (liveNode 2 4 [{ name := "in", type := "IMAGE" }]) (by decide) acc).2 hw
  have hn : nodeInstr (graphHost [liveNode 2 4 [{ name := "in", type := "IMAGE" }],
      liveNode 3 0 [{ name := "in", type := "IMAGE" }]] danglingBypassLinks) nb (fuel + 2)
      (liveNode 3 0 [{ name := "in", type := "IMAGE" }]) = Run.raise := by
    unfold nodeInstr
    have he : ((liveNode 3 0 [{ name := "in", type := "IMAGE" }]).inputs.getD []).enum =
        [(0, { name := "in", type := "IMAGE" })] := rfl
    rw [he]
    simp only [storeLinks, hs]
  rw [hn]

/-! ### buildNodeDef: the links of a group -/

theorem getLinks_fold (ls : List CfgLink) : ∀ (acc : GroupLinks),
    ls.foldl (fun acc l =>
      match l.outputNodeId with
      | none => acc
      | some outputNodeId =>
        { linksFrom := acc.linksFrom ++ [(outputNodeId, l.outputNodeSlot, l)]
          linksTo := acc.linksTo ++ [(l.inputNodeId, l.inputNodeSlot, l)] }) acc =
    { linksFrom := acc.linksFrom ++
        ls.filterMap (fun l => l.outputNodeId.map (fun o => (o, l.outputNodeSlot, l)))
      linksTo := acc.linksTo ++
        (ls.filter (fun l => l.outputNodeId.isSome)).map
          (fun l => (l.inputNodeId, l.inputNodeSlot, l)) } := by
  induction ls with
  | nil => intro acc; simp
  | cons l rest ih =>
    intro acc
    rw [List.foldl_cons, ih]
    cases h : l.outputNodeId with
    | none => simp [h]
    | some o => simp [h]

theorem getLinks_eq (config : Config) :
    getLinks config =
      { linksFrom := config.links.filterMap
          (fun l => l.outputNodeId.map (fun o => (o, l.outputNodeSlot, l)))
        linksTo := (config.links.filter (fun l => l.outputNodeId.isSome)).map
          (fun l => (l.inputNodeId, l.inputNodeSlot, l)) } := by
  unfold getLinks
  rw [getLinks_fold]
  simp

theorem tableGet_isSome (table : List (Nat × Nat × CfgLink)) (node slot : Nat) :
    (tableGet table node slot).isSome = true ↔ ∃ e ∈ table, e.1 = node ∧ e.2.1 = slot := by
  unfold tableGet
  rw [Option.isSome_map', List.find?_isSome]
  constructor
  · rintro ⟨e, he, hp⟩
    exact ⟨e, List.mem_reverse.mp he, by simpa using hp⟩
  · rintro ⟨e, he, hp⟩
    exact ⟨e, List.mem_reverse.mpr he, by simpa using hp⟩

theorem linksTo_isSome (config : Config) (node slot : Nat) :
    (tableGet (getLinks config).linksTo node slot).isSome = true ↔
      InnerLinkTo config node slot := by
  rw [tableGet_isSome, getLinks_eq]
  unfold InnerLinkTo
  constructor
  · rintro ⟨e, he, h1, h2⟩
    simp only [List.mem_map, List.mem_filter] at he
    obtain ⟨l, ⟨hl, ho⟩, rfl⟩ := he
    exact ⟨l, hl, ho, h1, h2⟩
  · rintro ⟨l, hl, ho, h1, h2⟩
    exact ⟨(l.inputNodeId, l.inputNodeSlot, l),
      List.mem_map.mpr ⟨l, List.mem_filter.mpr ⟨hl, ho⟩, rfl⟩, h1, h2⟩

theorem linksFrom_isSome (config : Config) (node slot : Nat) :
    (tableGet (getLinks config).linksFrom node slot).isSome = true ↔
      LinkFrom config node slot := by
  rw [tableGet_isSome, getLinks_eq]
  unfold LinkFrom
  constructor
  · rintro ⟨e, he, h1, h2⟩
    simp only [List.mem_filterMap, Option.map_eq_some'] at he
    obtain ⟨l, hl, o, ho, rfl⟩ := he
    simp only at h1 h2
    exact ⟨l, hl, by rw [ho, h1], h2⟩
  · rintro ⟨l, hl, ho, h2⟩
    refine ⟨(node, l.outputNodeSlot, l), ?_, rfl, h2⟩
    simp only [List.mem_filterMap, Option.map_eq_some']
    exact ⟨l, hl, node, ho, rfl⟩

/-! ### buildNodeDef: the loop over the inputs of an inner node -/

theorem or_shuffle_left (a k A B : Prop) : ((a ∨ k) ∨ A ∨ B) ↔ (k ∨ (a ∨ A) ∨ B) := by
  tauto

theorem or_shuffle_right (a k A B : Prop) : ((a ∨ k) ∨ A ∨ B) ↔ (k ∨ A ∨ a ∨ B) := by
  tauto

theorem exists_mem_cons_iff {α : Type} (p : α → Prop) (a : α) (l : List α) :
    (∃ x ∈ a :: l, p x) ↔ p a ∨ ∃ x ∈ l, p x := by
  simp

/-- The entries of `slots.inputs` for a list of numbered inputs, counted from `c`. -/
theorem addInput_fold (gwt : InputDef → String → Option String) (config : Config)
    (nodeId : Nat) :
    ∀ (es : List (String × InputDef)) (b : Build) (k0 : Nat),
      let r := es.foldl (addInput gwt (getLinks config) nodeId) (b, k0)
      let E := (((es.filter (fun e => (gwt e.2 e.1).isNone)).map Prod.fst).enumFrom k0).filter
        (fun q => ¬ InnerLinkTo config nodeId q.1)
      r.2 = k0 + (es.filter (fun e => (gwt e.2 e.1).isNone)).length ∧
      r.1.slotInputs = b.slotInputs ++
        (E.enumFrom b.inputCount).map (fun q => (nodeId, q.2.1, q.1)) ∧
      r.1.inputCount = b.inputCount + E.length ∧
      r.1.output = b.output ∧ r.1.output_name = b.output_name ∧
      r.1.output_is_list = b.output_is_list ∧ r.1.slotOutputs = b.slotOutputs ∧
      (∀ x, x ∈ keysOf r.1.required ↔ x ∈ keysOf b.required ∨
        (∃ e ∈ es, (gwt e.2 e.1).isSome = true ∧ x = toString nodeId ++ ":" ++ e.1) ∨
        (∃ q ∈ E, x = toString nodeId ++ ":" ++ q.2)) := by
  intro es
  induction es with
  | nil =>
    intro b k0
    simp
  | cons e rest ih =>
    intro b k0
    simp only [List.foldl_cons]
    cases hw : gwt e.2 e.1 with
    | some wt =>
      have hstep : addInput gwt (getLinks config) nodeId (b, k0) e =
          ({ b with
              slotWidgets := b.slotWidgets ++ [(nodeId, e.1, toString nodeId ++ ":" ++ e.1)]
              required := setKey (toString nodeId ++ ":" ++ e.1) (storedInputDef e.1 e.2)
                b.required }, k0) := by
        simp only [addInput, hw]
      rw [hstep]
      have hf : (e :: rest).filter (fun e => (gwt e.2 e.1).isNone) =
          rest.filter (fun e => (gwt e.2 e.1).isNone) := by
        rw [List.filter_cons_of_neg (by simp [hw])]
      rw [hf]
      obtain ⟨h1, h2, h3, h4, h5, h6, h7, h8⟩ := ih _ k0
      refine ⟨h1, h2, h3, h4, h5, h6, h7, ?_⟩
      intro x
      rw [h8 x]
      rw [mem_keysOf_setKey, exists_mem_cons_iff]
      simp only [hw, Option.isSome_some, true_and]
      exact or_shuffle_left _ _ _ _
    | none =>
      have hf : (e :: rest).filter (fun e => (gwt e.2 e.1).isNone) =
          e :: rest.filter (fun e => (gwt e.2 e.1).isNone) := by
        rw [List.filter_cons_of_pos (by simp [hw])]
      rw [hf]
      simp only [List.map_cons, List.enumFrom_cons, List.length_cons]
      by_cases hl : InnerLinkTo config nodeId k0
      · have hstep : addInput gwt (getLinks config) nodeId (b, k0) e = (b, k0 + 1) := by
          simp only [addInput, hw]
          rw [if_pos ((linksTo_isSome config nodeId k0).mpr hl)]
        rw [hstep, List.filter_cons_of_neg (by simpa using hl)]
        obtain ⟨h1, h2, h3, h4, h5, h6, h7, h8⟩ := ih b (k0 + 1)
        refine ⟨by rw [h1]; omega, h2, h3, h4, h5, h6, h7, ?_⟩
        intro x
        rw [h8 x]
        rw [exists_mem_cons_iff]
        simp only [hw, Option.isSome_none, Bool.false_eq_true, false_and, false_or]
      · have hstep : addInput gwt (getLinks config) nodeId (b, k0) e =
            ({ b with
                slotInputs := b.slotInputs ++ [(nodeId, k0, b.inputCount)]
                inputCount := b.inputCount + 1
                required := setKey (toString nodeId ++ ":" ++ e.1) (storedInputDef e.1 e.2)
                  b.required }, k0 + 1) := by
          simp only [addInput, hw]
          rw [if_neg (fun h => hl ((linksTo_isSome config nodeId k0).mp h))]
        rw [hstep, List.filter_cons_of_pos (by simpa using hl)]
        obtain ⟨h1, h2, h3, h4, h5, h6, h7, h8⟩ := ih _ (k0 + 1)
        refine ⟨by rw [h1]; omega, ?_, ?_, h4, h5, h6, h7, ?_⟩
        · rw [h2]
          simp only [List.enumFrom_cons, List.map_cons, List.append_assoc, List.singleton_append]
        · rw [h3]
          simp only [List.length_cons]
          omega
        · intro x
          rw [h8 x]
          rw [mem_keysOf_setKey, exists_mem_cons_iff, exists_mem_cons_iff]
          simp only [hw, Option.isSome_none, Bool.false_eq_true, false_and, false_or]
          exact or_shuffle_right _ _ _ _

/-! ### buildNodeDef: the loop over the outputs of an inner node -/

theorem addOutput_fold (config : Config) (nodeId : Nat) (d : NodeDef) :
    ∀ (ps : List (Nat × String)) (b b1 : Build),
      ps.foldlM (addOutput (getLinks config) nodeId d) b = some b1 →
      let E := ps.filter (fun q => ¬ LinkFrom config nodeId q.1)
      b1.output = b.output ++ E.map Prod.snd ∧
      b1.output_name = b.output_name ++
        E.map (fun q => toString nodeId ++ ":" ++ outputNameOf d q.1 q.2) ∧
      b1.slotOutputs = b.slotOutputs ++
        (E.enumFrom b.output.length).map (fun q => (q.1, nodeId, q.2.1)) ∧
      b1.slotInputs = b.slotInputs ∧ b1.inputCount = b.inputCount ∧
      b1.required = b.required := by
  intro ps
  induction ps with
  | nil =>
    intro b b1 h
    simp only [List.foldlM_nil, Option.pure_def, Option.some.injEq] at h
    subst h
    simp
  | cons p rest ih =>
    intro b b1 h
    simp only [List.foldlM_cons, Option.bind_eq_bind, Option.bind_eq_some] at h
    obtain ⟨b0, hb0, hrest⟩ := h
    by_cases hl : LinkFrom config nodeId p.1
    · have : b0 = b := by
        unfold addOutput at hb0
        rw [if_pos ((linksFrom_isSome config nodeId p.1).mpr hl), Option.some.injEq] at hb0
        exact hb0.symm
      subst this
      rw [List.filter_cons_of_neg (by simpa using hl)]
      exact ih b0 b1 hrest
    · unfold addOutput at hb0
      rw [if_neg (fun h => hl ((linksFrom_isSome config nodeId p.1).mp h))] at hb0
      cases hil : d.output_is_list with
      | none => rw [hil] at hb0; simp at hb0
      | some is_list =>
        rw [hil] at hb0
        simp only [Option.some.injEq] at hb0
        subst hb0
        rw [List.filter_cons_of_pos (by simpa using hl)]
        obtain ⟨h1, h2, h3, h4, h5, h6⟩ := ih _ b1 hrest
        refine ⟨?_, ?_, ?_, h4, h5, h6⟩
        · rw [h1]; simp [outputNameOf]
        · rw [h2]; simp [outputNameOf]
        · rw [h3]
          simp only [List.length_append, List.length_singleton, List.enumFrom_cons, List.map_cons,
            List.append_assoc, List.singleton_append]

/-! ### buildNodeDef: the loop over the inner nodes -/

/-- What one round of the loop over `config.nodes` adds. -/
theorem addNode_adds (gwt : InputDef → String → Option String) (config : Config)
    (defs : String → Option NodeDef) (p : Nat × CfgNode) (b b1 : Build)
    (h : addNode gwt config defs (getLinks config) b p = some b1) :
    b1.slotInputs = b.slotInputs ++
      ((nodeExposedInputs gwt config defs p).enumFrom b.inputCount).map
        (fun q => (q.2.1, q.2.2.1, q.1)) ∧
    b1.inputCount = b.inputCount + (nodeExposedInputs gwt config defs p).length ∧
    b1.output = b.output ++ (nodeExposedOutputs config defs p).map (fun q => q.2.2.1) ∧
    b1.output_name = b.output_name ++
      (nodeExposedOutputs config defs p).map (fun q => q.2.2.2) ∧
    b1.slotOutputs = b.slotOutputs ++
      ((nodeExposedOutputs config defs p).enumFrom b.output.length).map
        (fun q => (q.1, q.2.1, q.2.2.1)) ∧
    (∀ x, x ∈ keysOf b1.required ↔ x ∈ keysOf b.required ∨
      x ∈ nodeWidgetNames gwt config defs p ∨
      ∃ q ∈ nodeExposedInputs gwt config defs p, x = toString q.1 ++ ":" ++ q.2.2) := by
  unfold addNode at h
  unfold nodeExposedInputs nodeExposedOutputs nodeWidgetNames defOf
  cases hr : resolveDef config defs (getLinks config) p.1 p.2 with
  | raise => rw [hr] at h; simp at h
  | skip =>
    rw [hr] at h
    simp only [Option.some.injEq] at h
    subst h
    simp
  | use d =>
    rw [hr] at h
    simp only at h ⊢
    cases ho : d.output with
    | none => rw [ho] at h; simp at h
    | some output =>
      rw [ho] at h
      simp only at h
      obtain ⟨_, i2, i3, i4, i5, _, i7, i8⟩ := addInput_fold gwt config p.1 (mergedInputs d) b 0
      obtain ⟨o1, o2, o3, o4, o5, o6⟩ := addOutput_fold config p.1 d output.enum _ b1 h
      simp only [Option.getD_some]
      refine ⟨?_, ?_, ?_, ?_, ?_, ?_⟩
      · rw [o4, i2]
        simp only [linkInputNames, List.enum, List.enumFrom_map, List.map_map]
        rfl
      · rw [o5, i3]
        simp only [linkInputNames, List.enum, List.length_map]
      · rw [o1, i4, List.map_map]
        rfl
      · rw [o2, i5, List.map_map]
        rfl
      · rw [o3, i7, i4]
        simp only [List.enum, List.enumFrom_map, List.map_map]
        rfl
      · intro x
        rw [o6, i8 x]
        refine or_congr Iff.rfl (or_congr ?_ ?_)
        · constructor
          · rintro ⟨e, he, hw, rfl⟩
            exact List.mem_map.mpr ⟨e, List.mem_filter.mpr ⟨he, hw⟩, rfl⟩
          · intro hx
            obtain ⟨e, he, rfl⟩ := List.mem_map.mp hx
            obtain ⟨h1, h2⟩ := List.mem_filter.mp he
            exact ⟨e, h1, h2, rfl⟩
        · constructor
          · rintro ⟨q, hq, rfl⟩
            exact ⟨(p.1, q.1, q.2), List.mem_map.mpr ⟨q, hq, rfl⟩, rfl⟩
          · rintro ⟨q, hq, rfl⟩
            obtain ⟨q1, hq1, rfl⟩ := List.mem_map.mp hq
            exact ⟨q1, hq1, rfl⟩

/-- What the loop over `config.nodes` adds. -/
theorem addNodes_fold (gwt : InputDef → String → Option String) (config : Config)
    (defs : String → Option NodeDef) :
    ∀ (ps : List (Nat × CfgNode)) (b b1 : Build),
      ps.foldlM (addNode gwt config defs (getLinks config)) b = some b1 →
      b1.slotInputs = b.slotInputs ++
        ((ps.flatMap (nodeExposedInputs gwt config defs)).enumFrom b.inputCount).map
          (fun q => (q.2.1, q.2.2.1, q.1)) ∧
      b1.inputCount = b.inputCount + (ps.flatMap (nodeExposedInputs gwt config defs)).length ∧
      b1.output = b.output ++
        (ps.flatMap (nodeExposedOutputs config defs)).map (fun q => q.2.2.1) ∧
      b1.output_name = b.output_name ++
        (ps.flatMap (nodeExposedOutputs config defs)).map (fun q => q.2.2.2) ∧
      b1.slotOutputs = b.slotOutputs ++
        ((ps.flatMap (nodeExposedOutputs config defs)).enumFrom b.output.length).map
          (fun q => (q.1, q.2.1, q.2.2.1)) ∧
      (∀ x, x ∈ keysOf b1.required ↔ x ∈ keysOf b.required ∨
        x ∈ ps.flatMap (nodeWidgetNames gwt config defs) ∨
        ∃ q ∈ ps.flatMap (nodeExposedInputs gwt config defs),
          x = toString q.1 ++ ":" ++ q.2.2) := by
  intro ps
  induction ps with
  | nil =>
    intro b b1 h
    simp only [List.foldlM_nil, Option.pure_def, Option.some.injEq] at h
    subst h
    simp
  | cons p rest ih =>
    intro b b1 h
    simp only [List.foldlM_cons, Option.bind_eq_bind, Option.bind_eq_some] at h
    obtain ⟨b0, hb0, hrest⟩ := h
    obtain ⟨a1, a2, a3, a4, a5, a6⟩ := addNode_adds gwt config defs p b b0 hb0
    obtain ⟨r1, r2, r3, r4, r5, r6⟩ := ih b0 b1 hrest
    simp only [List.flatMap_cons]
    refine ⟨?_, ?_, ?_, ?_, ?_, ?_⟩
    · rw [r1, a1, a2, List.enumFrom_append, List.map_append, List.append_assoc]
    · rw [r2, a2, List.length_append]
      omega
    · rw [r3, a3, List.map_append, List.append_assoc]
    · rw [r4, a4, List.map_append, List.append_assoc]
    · rw [r5, a5, a3, List.enumFrom_append, List.map_append, List.append_assoc,
        List.length_append, List.length_map]
    · intro x
      rw [r6 x, a6 x]
      simp only [List.mem_append]
      constructor
      · rintro ((h1 | h1 | ⟨q, hq, rfl⟩) | h1 | ⟨q, hq, rfl⟩)
        · exact Or.inl h1
        · exact Or.inr (Or.inl (Or.inl h1))
        · exact Or.inr (Or.inr ⟨q, Or.inl hq, rfl⟩)
        · exact Or.inr (Or.inl (Or.inr h1))
        · exact Or.inr (Or.inr ⟨q, Or.inr hq, rfl⟩)
      · rintro (h1 | (h1 | h1) | ⟨q, hq | hq, rfl⟩)
        · exact Or.inl (Or.inl h1)
        · exact Or.inl (Or.inr (Or.inl h1))
        · exact Or.inr (Or.inl h1)
        · exact Or.inl (Or.inr (Or.inr ⟨q, hq, rfl⟩))
        · exact Or.inr (Or.inr ⟨q, hq, rfl⟩)

/-- What `buildNodeDef` returns, when it returns. -/
theorem buildNodeDef_some (gwt : InputDef → String → Option String) (config : Config)
    (nodeName : String) (defs : String → Option NodeDef) (workflow : Bool) (r : GroupDef)
    (h : buildNodeDef gwt config nodeName defs workflow = some r) :
    r.slotInputs = (exposedInputs gwt config defs).enum.map (fun q => (q.2.1, q.2.2.1, q.1)) ∧
    r.output = (exposedOutputs config defs).map (fun q => q.2.2.1) ∧
    r.output_name = (exposedOutputs config defs).map (fun q => q.2.2.2) ∧
    r.slotOutputs = (exposedOutputs config defs).enum.map (fun q => (q.1, q.2.1, q.2.2.1)) ∧
    (∀ x, x ∈ keysOf r.input_required ↔ x ∈ widgetNames gwt config defs ∨
      ∃ q ∈ exposedInputs gwt config defs, x = toString q.1 ++ ":" ++ q.2.2) := by
  unfold buildNodeDef at h
  simp only [Option.map_eq_some'] at h
  obtain ⟨b, hb, rfl⟩ := h
  obtain ⟨h1, _, h3, h4, h5, h6⟩ := addNodes_fold gwt config defs _ _ b hb
  refine ⟨?_, ?_, ?_, ?_, ?_⟩
  · simpa [exposedInputs, List.enum] using h1
  · simpa [exposedOutputs] using h3
  · simpa [exposedOutputs] using h4
  · simpa [exposedOutputs, List.enum] using h5
  · intro x
    have := h6 x
    simpa [keysOf, exposedInputs, widgetNames] using this

theorem defOf_of_registry (config : Config) (defs : String → Option NodeDef) (i : Nat)
    (node : CfgNode) (d : NodeDef) (h : defs node.type = some d) :
    defOf config defs i node = some d := by
  unfold defOf resolveDef
  simp only [h]

theorem defOf_some (config : Config) (defs : String → Option NodeDef) (i : Nat)
    (node : CfgNode) (d : NodeDef) (h : defOf config defs i node = some d) :
    defs node.type = some d ∨ (defs node.type = none ∧ node.type = "Reroute" ∧
      ¬ (tableHas (getLinks config).linksTo i = true ∧
        tableHas (getLinks config).linksFrom i = true)) := by
  unfold defOf resolveDef at h
  cases hd : defs node.type with
  | some d1 =>
    rw [hd] at h
    simp only [Option.some.injEq] at h
    exact Or.inl (by rw [h])
  | none =>
    rw [hd] at h
    simp only at h
    by_cases hr : node.type = "Reroute"
    · by_cases hb : tableHas (getLinks config).linksTo i = true ∧
          tableHas (getLinks config).linksFrom i = true
      · rw [if_pos hr, if_pos hb] at h
        simp at h
      · exact Or.inr ⟨rfl, hr, hb⟩
    · rw [if_neg hr] at h
      simp at h

theorem mem_nodes_enum (config : Config) (p : Nat × CfgNode) :
    p ∈ config.nodes.enum ↔ config.nodes[p.1]? = some p.2 :=
  List.mk_mem_enum_iff_getElem?

/-- The members of `exposedInputs`. -/
theorem mem_exposedInputs (gwt : InputDef → String → Option String) (config : Config)
    (defs : String → Option NodeDef) (i k : Nat) (nm : String) :
    (i, k, nm) ∈ exposedInputs gwt config defs ↔
      ∃ node d, config.nodes[i]? = some node ∧ defOf config defs i node = some d ∧
        (linkInputNames gwt d)[k]? = some nm ∧ ¬ InnerLinkTo config i k := by
  unfold exposedInputs
  rw [List.mem_flatMap]
  constructor
  · rintro ⟨p, hp, hm⟩
    unfold nodeExposedInputs at hm
    cases hd : defOf config defs p.1 p.2 with
    | none => rw [hd] at hm; simp at hm
    | some d =>
      rw [hd] at hm
      simp only [List.mem_map, List.mem_filter, decide_eq_true_eq, Prod.mk.injEq] at hm
      obtain ⟨q, ⟨hq, hl⟩, rfl, rfl, rfl⟩ := hm
      exact ⟨p.2, d, (mem_nodes_enum config p).mp hp, hd,
        List.mk_mem_enum_iff_getElem?.mp hq, hl⟩
  · rintro ⟨node, d, hn, hd, hk, hl⟩
    refine ⟨(i, node), (mem_nodes_enum config (i, node)).mpr hn, ?_⟩
    unfold nodeExposedInputs
    simp only [hd]
    exact List.mem_map.mpr ⟨(k, nm), List.mem_filter.mpr
      ⟨List.mk_mem_enum_iff_getElem?.mpr hk, by simpa using hl⟩, rfl⟩

/-- The members of `exposedOutputs`. -/
theorem mem_exposedOutputs (config : Config) (defs : String → Option NodeDef) (i o : Nat)
    (type name : String) :
    (i, o, type, name) ∈ exposedOutputs config defs ↔
      ∃ node d, config.nodes[i]? = some node ∧ defOf config defs i node = some d ∧
        (d.output.getD [])[o]? = some type ∧ ¬ LinkFrom config i o ∧
        name = toString i ++ ":" ++ outputNameOf d o type := by
  unfold exposedOutputs
  rw [List.mem_flatMap]
  constructor
  · rintro ⟨p, hp, hm⟩
    unfold nodeExposedOutputs at hm
    cases hd : defOf config defs p.1 p.2 with
    | none => rw [hd] at hm; simp at hm
    | some d =>
      rw [hd] at hm
      simp only [List.mem_map, List.mem_filter, decide_eq_true_eq, Prod.mk.injEq] at hm
      obtain ⟨q, ⟨hq, hl⟩, rfl, rfl, rfl, rfl⟩ := hm
      exact ⟨p.2, d, (mem_nodes_enum config p).mp hp, hd,
        List.mk_mem_enum_iff_getElem?.mp hq, hl, rfl⟩
  · rintro ⟨node, d, hn, hd, hk, hl, rfl⟩
    refine ⟨(i, node), (mem_nodes_enum config (i, node)).mpr hn, ?_⟩
    unfold nodeExposedOutputs
    simp only [hd]
    exact List.mem_map.mpr ⟨(o, type), List.mem_filter.mpr
      ⟨List.mk_mem_enum_iff_getElem?.mpr hk, by simpa using hl⟩, rfl⟩

theorem mem_slotInputs (gwt : InputDef → String → Option String) (config : Config)
    (defs : String → Option NodeDef) (i k : Nat) :
    (∃ idx, (i, k, idx) ∈ (exposedInputs gwt config defs).enum.map
        (fun q => (q.2.1, q.2.2.1, q.1))) ↔
      ∃ nm, (i, k, nm) ∈ exposedInputs gwt config defs := by
  constructor
  · rintro ⟨idx, h⟩
    obtain ⟨q, hq, heq⟩ := List.mem_map.mp h
    simp only [Prod.mk.injEq] at heq
    obtain ⟨rfl, rfl, rfl⟩ := heq
    exact ⟨q.2.2.2, List.getElem?_mem (List.mk_mem_enum_iff_getElem?.mp hq)⟩
  · rintro ⟨nm, h⟩
    obtain ⟨idx, hidx⟩ := List.mem_iff_getElem?.mp h
    exact ⟨idx, List.mem_map.mpr ⟨(idx, (i, k, nm)), List.mk_mem_enum_iff_getElem?.mpr hidx, rfl⟩⟩

/-- C19 (counterexample): the group `groupXY` was copied while the input `image` of X was
linked to a node outside of the group, so its data has a link (with origin `null`) that targets
the input 0 of the inner node 0; `buildNodeDef` exposes this input all the same, as the outer
input 0 under the name `0:image`. -/
theorem C19_counterexample :
    LinkTo groupXY 0 0 ∧
    (groupXY.nodes[0]?).map (fun n => (sampleDefs n.type).isSome) = some true ∧
    (buildNodeDef (widgetTypeOf sampleWidgets) groupXY "g" sampleDefs true).map
      (fun r => (r.slotInputs, keysOf r.input_required)) =
      some ([(0, 0, 0)], ["0:image", "0:strength"]) := by
  refine ⟨by decide, by decide, by decide⟩

/-! ### sanitizeNodeName -/

theorem entityMap_lookup (c : Char) (h : c ∈ nameSpecials) :
    (entityMap.lookup c).getD "undefined" = "" := by
  simp only [nameSpecials, List.mem_cons, List.mem_singleton, List.not_mem_nil, or_false] at h
  rcases h with rfl | rfl | rfl | rfl | rfl | rfl | rfl <;> rfl

theorem sanitize_flatMap (cs : List Char) :
    cs.flatMap (fun s =>
      if s ∈ nameSpecials then ((entityMap.lookup s).getD "undefined").data else [s]) =
      cs.filter (fun c => c ∉ nameSpecials) := by
  induction cs with
  | nil => rfl
  | cons c rest ih =>
    rw [List.flatMap_cons, ih]
    by_cases hc : c ∈ nameSpecials
    · rw [if_pos hc, entityMap_lookup c hc, List.filter_cons_of_neg (by simpa using hc)]
      rfl
    · rw [if_neg hc, List.filter_cons_of_pos (by simpa using hc)]
      rfl

theorem sanitizeNodeName_data (s : String) :
    (sanitizeNodeName s).data = s.data.filter (fun c => c ∉ nameSpecials) := by
  unfold sanitizeNodeName
  exact sanitize_flatMap s.data

/-- C25: `sanitizeNodeName(s)` is `s` with every occurrence of the seven characters
ampersand, less-than, greater-than, double quote, apostrophe, backtick and equals sign deleted
and every other character kept in its order; the result contains none of the seven
characters, and sanitizing a second time changes nothing. -/
theorem C25_sanitize_deletes_specials (s : String) :
    (sanitizeNodeName s).data = s.data.filter (fun c => c ∉ nameSpecials) ∧
    nameSpecials = [Char.ofNat 38, Char.ofNat 60, Char.ofNat 62, Char.ofNat 34, Char.ofNat 39,
      Char.ofNat 96, Char.ofNat 61] ∧
    (∀ c ∈ (sanitizeNodeName s).data, c ∉ nameSpecials) ∧
    (∀ c ∈ s.data, c ∉ nameSpecials → c ∈ (sanitizeNodeName s).data) ∧
    sanitizeNodeName (sanitizeNodeName s) = sanitizeNodeName s := by
  refine ⟨sanitizeNodeName_data s, rfl, ?_, ?_, ?_⟩
  · intro c hc
    rw [sanitizeNodeName_data] at hc
    simpa using (List.mem_filter.mp hc).2
  · intro c hc hn
    rw [sanitizeNodeName_data]
    exact List.mem_filter.mpr ⟨hc, by simpa using hn⟩
  · apply String.ext
    rw [sanitizeNodeName_data, sanitizeNodeName_data, List.filter_filter]
    simp

/-- The statement C25 at the name `Foo<b>=1`. -/
theorem C25_sanitize_deletes_specials_witness :
    sanitizeNodeName "Foo<b>=1" = "Foob1" :=
  String.ext ((C25_sanitize_deletes_specials "Foo<b>=1").1.trans (by decide))

/-! ### loadGraphData and showMissingNodesError -/

theorem findMissing_nodes (registered : String → Bool) :
    ∀ (nodes : List Node) (m : List MissingType),
      (findMissing registered nodes m).1 = nodes.map (fun n =>
        { n with type := if registered (patchType n.type) then patchType n.type
                         else sanitizeNodeName (patchType n.type) }) := by
  intro nodes
  induction nodes with
  | nil => intro m; rfl
  | cons n rest ih =>
    intro m
    unfold findMissing
    by_cases h : registered (patchType n.type) = true
    · simp only [h, if_true, List.map_cons, ih]
    · simp only [h, if_false, List.map_cons, ih, Bool.false_eq_true]

theorem findMissing_missing (registered : String → Bool) :
    ∀ (nodes : List Node) (m : List MissingType),
      (findMissing registered nodes m).2 = m ++
        ((nodes.map (fun n => patchType n.type)).filter (fun t => ! registered t)).map
          MissingType.name := by
  intro nodes
  induction nodes with
  | nil => intro m; simp [findMissing]
  | cons n rest ih =>
    intro m
    unfold findMissing
    by_cases h : registered (patchType n.type) = true
    · simp only [h, if_true, List.map_cons, ih]
      rw [List.filter_cons_of_neg (by simp [h])]
    · simp only [h, if_false, List.map_cons, ih, Bool.false_eq_true]
      rw [List.filter_cons_of_pos (by simpa using h)]
      simp

/-- The types of the entries that the set keeps are the types of all entries, apart from the
names seen before. -/
theorem uniqueEntries_types :
    ∀ (xs : List MissingType) (seen : List String) (t : String),
      t ∈ (uniqueEntries xs seen).map MissingType.type ↔
        ∃ x ∈ xs, x.type = t ∧ (x = MissingType.name t → t ∉ seen) := by
  intro xs
  induction xs with
  | nil => intro seen t; simp [uniqueEntries]
  | cons x rest ih =>
    intro seen t
    cases x with
    | name u =>
      unfold uniqueEntries
      by_cases hu : u ∈ seen
      · rw [if_pos hu, ih seen t]
        constructor
        · rintro ⟨y, hy, h1, h2⟩
          exact ⟨y, List.mem_cons_of_mem _ hy, h1, h2⟩
        · rintro ⟨y, hy, h1, h2⟩
          rcases List.mem_cons.mp hy with rfl | hy
          · simp only [MissingType.type] at h1
            subst h1
            exact absurd hu (h2 rfl)
          · exact ⟨y, hy, h1, h2⟩
      · rw [if_neg hu, List.map_cons, List.mem_cons, ih (u :: seen) t]
        constructor
        · rintro (h | ⟨y, hy, h1, h2⟩)
          · simp only [MissingType.type] at h
            subst h
            exact ⟨MissingType.name t, List.mem_cons_self _ _, rfl, fun _ => hu⟩
          · exact ⟨y, List.mem_cons_of_mem _ hy, h1,
              fun he => fun hs => h2 he (List.mem_cons_of_mem _ hs)⟩
        · rintro ⟨y, hy, h1, h2⟩
          rcases List.mem_cons.mp hy with rfl | hy
          · exact Or.inl h1.symm
          · by_cases htu : t = u
            · exact Or.inl (by simp [MissingType.type, htu])
            · refine Or.inr ⟨y, hy, h1, fun he hs => ?_⟩
              rcases List.mem_cons.mp hs with h | h
              · exact htu h
              · exact h2 he h
    | info ty hint action =>
      unfold uniqueEntries
      rw [List.map_cons, List.mem_cons, ih seen t]
      constructor
      · rintro (h | ⟨y, hy, h1, h2⟩)
        · exact ⟨MissingType.info ty hint action, List.mem_cons_self _ _, h.symm,
            fun he => by cases he⟩
        · exact ⟨y, List.mem_cons_of_mem _ hy, h1, h2⟩
      · rintro ⟨y, hy, h1, h2⟩
        rcases List.mem_cons.mp hy with rfl | hy
        · exact Or.inl h1.symm
        · exact Or.inr ⟨y, hy, h1, h2⟩

/-- The first texts of the list items: the types of the entries not seen before, each once. -/
theorem listItems_types :
    ∀ (xs : List MissingType) (seen : List String),
      ((listItems xs seen).map (fun item => item.headD "")).Nodup ∧
      ∀ t, t ∈ (listItems xs seen).map (fun item => item.headD "") ↔
        t ∈ xs.map MissingType.type ∧ t ∉ seen := by
  intro xs
  induction xs with
  | nil => intro seen; simp [listItems]
  | cons x rest ih =>
    intro seen
    unfold listItems
    have hhead : (itemChildren x).headD "" = x.type := by
      cases x <;> rfl
    by_cases hx : x.type ∈ seen
    · rw [if_pos hx]
      refine ⟨(ih seen).1, fun t => ?_⟩
      rw [(ih seen).2 t, List.map_cons, List.mem_cons]
      constructor
      · rintro ⟨h1, h2⟩
        exact ⟨Or.inr h1, h2⟩
      · rintro ⟨h1 | h1, h2⟩
        · exact absurd (h1 ▸ hx) h2
        · exact ⟨h1, h2⟩
    · rw [if_neg hx, List.map_cons, hhead]
      refine ⟨List.nodup_cons.mpr ⟨fun hm => ?_, (ih (x.type :: seen)).1⟩, fun t => ?_⟩
      · exact ((ih (x.type :: seen)).2 x.type).mp hm |>.2 (List.mem_cons_self _ _)
      · rw [List.mem_cons, (ih (x.type :: seen)).2 t, List.map_cons, List.mem_cons,
          List.mem_cons]
        constructor
        · rintro (h | ⟨h1, h2⟩)
          · exact ⟨Or.inl h, fun hs => hx (h ▸ hs)⟩
          · exact ⟨Or.inr h1, fun hs => h2 (Or.inr hs)⟩
        · rintro ⟨h1, h2⟩
          by_cases hxt : t = x.type
          · exact Or.inl hxt
          · rcases h1 with h1 | h1
            · exact absurd h1 hxt
            · exact Or.inr ⟨h1, fun hs => hs.elim hxt h2⟩

/-- The types listed by the dialog: the types of the entries, each exactly once. -/
theorem showMissing_types (missing : List MissingType) :
    ((showMissingNodesError missing).map (fun item => item.headD "")).Nodup ∧
    ∀ t, t ∈ (showMissingNodesError missing).map (fun item => item.headD "") ↔
      t ∈ missing.map MissingType.type := by
  unfold showMissingNodesError
  refine ⟨(listItems_types _ []).1, fun t => ?_⟩
  rw [(listItems_types _ []).2 t, uniqueEntries_types missing [] t]
  simp only [List.not_mem_nil, not_false_eq_true, implies_true, and_true, List.mem_map]

/-- The loop of `loadGraphData` that looks for unregistered types returns for every list of
nodes and keeps every node, an unregistered one under its sanitized type; the method takes the
branch "Loading aborted" exactly when the codec raises on these nodes or `configure` raises;
and when it does not abort and a type is missing, the dialog of `showMissingNodesError` is
shown, in which no type is listed twice, every unregistered type of the document is listed
(so exactly once), and, when no extension pushed entries, nothing else is listed. -/
theorem missing_types_listed_once (registered : String → Bool) (configure : Doc → Bool)
    (pushed : List MissingType) (graphData : Doc) :
    (findMissing registered graphData.nodes pushed).1 = graphData.nodes.map (fun n =>
      { n with type := if registered (patchType n.type) then patchType n.type
                       else sanitizeNodeName (patchType n.type) }) ∧
    ((loadGraphData registered configure pushed graphData).isSome =
      (((convertOldVersionWorkflow
        { graphData with nodes := (findMissing registered graphData.nodes pushed).1 }).bind
          cworkflowToWorkflow).bind (fun g => if configure g = true then some g else none)).isSome) ∧
    ∀ r, loadGraphData registered configure pushed graphData = some r →
      ∀ n ∈ graphData.nodes, registered (patchType n.type) = false →
        ∃ items, r.report = some items ∧
          (items.map (fun item => item.headD "")).Nodup ∧
          (items.map (fun item => item.headD "")).count (patchType n.type) = 1 ∧
          (pushed = [] → ∀ item ∈ items, ∃ m ∈ graphData.nodes,
            registered (patchType m.type) = false ∧ item = [patchType m.type]) := by
  refine ⟨findMissing_nodes registered graphData.nodes pushed, ?_, ?_⟩
  · simp only [loadGraphData]
    cases (convertOldVersionWorkflow
        { graphData with nodes := (findMissing registered graphData.nodes pushed).1 }).bind
          cworkflowToWorkflow with
    | none => rfl
    | some g =>
      by_cases hc : configure g = true
      · simp only [hc, if_true, Option.some_bind, Option.isSome_some]
      · simp only [hc, if_false, Option.some_bind, Option.isSome_none, Bool.false_eq_true]
  · intro r hr n hn hreg
    simp only [loadGraphData] at hr
    have hmiss := findMissing_missing registered graphData.nodes pushed
    have hmem : MissingType.name (patchType n.type) ∈
        (findMissing registered graphData.nodes pushed).2 := by
      rw [hmiss]
      refine List.mem_append_right _ (List.mem_map.mpr ⟨patchType n.type, ?_, rfl⟩)
      exact List.mem_filter.mpr ⟨List.mem_map.mpr ⟨n, hn, rfl⟩, by simp [hreg]⟩
    have hne : (findMissing registered graphData.nodes pushed).2.length ≠ 0 := by
      intro h0
      rw [List.length_eq_zero] at h0
      rw [h0] at hmem
      exact absurd hmem (List.not_mem_nil _)
    cases hc : (convertOldVersionWorkflow
        { graphData with nodes := (findMissing registered graphData.nodes pushed).1 }).bind
          cworkflowToWorkflow with
    | none => simp only [hc] at hr; exact absurd hr (by simp)
    | some g =>
      simp only [hc] at hr
      by_cases hcf : configure g = true
      swap
      · rw [if_neg hcf] at hr
        exact absurd hr (by simp)
      rw [if_pos hcf] at hr
      simp only [if_pos hne, Option.some.injEq] at hr
      subst hr
      obtain ⟨hnd, hty⟩ := showMissing_types (findMissing registered graphData.nodes pushed).2
      refine ⟨_, rfl, hnd, ?_, ?_⟩
      · exact List.count_eq_one_of_mem hnd
          ((hty _).mpr (List.mem_map.mpr ⟨_, hmem, rfl⟩))
      · intro hp item hi
        rw [hmiss, hp, List.nil_append] at hi
        unfold showMissingNodesError at hi
        have hall : ∀ (xs : List MissingType) (seen : List String),
            (∀ x ∈ xs, ∃ t, x = MissingType.name t) →
            ∀ item ∈ listItems xs seen, ∃ t, MissingType.name t ∈ xs ∧ item = [t] := by
          intro xs
          induction xs with
          | nil => intro seen _ item hi; simp [listItems] at hi
          | cons x rest ih =>
            intro seen hx item hi
            unfold listItems at hi
            have ihr := ih
            by_cases hs : x.type ∈ seen
            · rw [if_pos hs] at hi
              obtain ⟨t, ht, he⟩ := ih seen (fun y hy => hx y (List.mem_cons_of_mem _ hy)) item hi
              exact ⟨t, List.mem_cons_of_mem _ ht, he⟩
            · rw [if_neg hs] at hi
              rcases List.mem_cons.mp hi with h | h
              · obtain ⟨t, rfl⟩ := hx x (List.mem_cons_self _ _)
                exact ⟨t, List.mem_cons_self _ _, h⟩
              · obtain ⟨t, ht, he⟩ := ih _ (fun y hy => hx y (List.mem_cons_of_mem _ hy)) item h
                exact ⟨t, List.mem_cons_of_mem _ ht, he⟩
        have hsub : ∀ (xs : List MissingType) (seen : List String),
            ∀ x ∈ uniqueEntries xs seen, x ∈ xs := by
          intro xs
          induction xs with
          | nil => intro seen x hx; simp [uniqueEntries] at hx
          | cons y rest ih =>
            intro seen x hx
            cases y with
            | name u =>
              unfold uniqueEntries at hx
              by_cases hu : u ∈ seen
              · rw [if_pos hu] at hx
                exact List.mem_cons_of_mem _ (ih seen x hx)
              · rw [if_neg hu] at hx
                rcases List.mem_cons.mp hx with h | h
                · exact h ▸ List.mem_cons_self _ _
                · exact List.mem_cons_of_mem _ (ih _ x h)
            | info ty hint action =>
              unfold uniqueEntries at hx
              rcases List.mem_cons.mp hx with h | h
              · exact h ▸ List.mem_cons_self _ _
              · exact List.mem_cons_of_mem _ (ih _ x h)
        obtain ⟨t, ht, he⟩ := hall _ [] (fun x hx => by
          obtain ⟨u, _, hu⟩ := List.mem_map.mp (hsub _ [] x hx)
          exact ⟨u, hu.symm⟩) item hi
        obtain ⟨u, hu, hue⟩ := List.mem_map.mp (hsub _ [] _ ht)
        simp only [MissingType.name.injEq] at hue
        subst hue
        obtain ⟨hu1, hu2⟩ := List.mem_filter.mp hu
        obtain ⟨m, hm, rfl⟩ := List.mem_map.mp hu1
        exact ⟨m, hm, by simpa using hu2, he⟩

/-- C24: the document `cyclePair "Reroute="` has two nodes of the unregistered type
`Reroute=` that feed each other.  The loop that looks for unregistered types gives them the
sanitized type `Reroute`, the recursion of the migration through Reroute nodes does not end on
them, and `loadGraphData` takes the branch "Loading aborted".  The same document with the
unregistered type `Foo` in the place of `Reroute=` is loaded, with `Foo` listed once, and so is
the document itself when the type `Reroute=` is registered. -/
theorem C24_sanitized_type_aborts_loading :
    (cyclePair "Reroute=").nodes.map (fun n => sanitizeNodeName n.type) =
      ["X", "Reroute", "Reroute"] ∧
    loadGraphData (fun t => t = "X") (fun _ => true) [] (cyclePair "Reroute=") = none ∧
    (loadGraphData (fun t => t = "X") (fun _ => true) [] (cyclePair "Foo")).map
      (fun r => r.report) = some (some [["Foo"]]) ∧
    (loadGraphData (fun t => decide (t = "X" ∨ t = "Reroute=")) (fun _ => true) []
      (cyclePair "Reroute=")).map (fun r => r.report) = some none := by
  refine ⟨by decide, by decide, by decide, by decide⟩

/-! ### queuePrompt -/

theorem nextSubmission_inv : ∀ (items : List QueueItem) (submitted : List Int),
    QueueInv (nextSubmission items submitted) := by
  intro items
  induction items with
  | nil => intro submitted; exact ⟨rfl, fun _ => rfl⟩
  | cons item earlier ih =>
    intro submitted
    unfold nextSubmission
    by_cases h : item.batchCount = 0
    · rw [if_pos h]; exact ih submitted
    · rw [if_neg h]; exact ⟨rfl, fun h => by cases h⟩

theorem queueStep_inv (st : QueueState) (ev : QueueEvent) (h : QueueInv st) :
    QueueInv (queueStep st ev) := by
  cases ev with
  | request item =>
    simp only [queueStep]
    by_cases hp : st.processingQueue = true
    · rw [if_pos hp]
      exact ⟨h.1, fun hf => by simp only [hp] at hf; cases hf⟩
    · rw [if_neg hp]
      exact nextSubmission_inv _ _
  | settle ok =>
    simp only [queueStep]
    cases hc : st.current with
    | none => exact h
    | some p =>
      obtain ⟨item, i⟩ := p
      simp only
      by_cases hk : ok = true ∧ i + 1 < item.batchCount
      · rw [if_pos hk]
        refine ⟨?_, fun hf => h.2 hf⟩
        simp only [Option.isSome_some]
        rw [h.1, hc]
        rfl
      · rw [if_neg hk]
        exact nextSubmission_inv _ _

theorem queueRun_inv (events : List QueueEvent) : QueueInv (queueRun events) := by
  unfold queueRun
  have : ∀ (evs : List QueueEvent) (st : QueueState), QueueInv st →
      QueueInv (evs.foldl queueStep st) := by
    intro evs
    induction evs with
    | nil => intro st h; exact h
    | cons ev rest ih => intro st h; exact ih _ (queueStep_inv st ev h)
  exact this events _ ⟨rfl, fun _ => rfl⟩

/-- Requests that arrive while a submission is awaited are only appended. -/
theorem requests_while_processing (ns : List Int) :
    ∀ (st : QueueState), st.processingQueue = true →
      (ns.map (fun n => QueueEvent.request { number := n, batchCount := 1 })).foldl queueStep st =
        { st with queueItems := st.queueItems ++
            ns.map (fun n => ({ number := n, batchCount := 1 } : QueueItem)) } := by
  induction ns with
  | nil => intro st _; simp
  | cons n rest ih =>
    intro st hp
    rw [List.map_cons, List.foldl_cons]
    have h1 : queueStep st (QueueEvent.request { number := n, batchCount := 1 }) =
        { st with queueItems := st.queueItems ++ [{ number := n, batchCount := 1 }] } := by
      simp only [queueStep]
      rw [if_pos hp]
    rw [h1, ih { st with queueItems := st.queueItems ++ [{ number := n, batchCount := 1 }] } hp]
    simp

/-- The entries that wait are submitted from the last one to the first one. -/
theorem settle_all (q : List Int) :
    ∀ (x : Int) (sub : List Int),
      (List.replicate (q.length + 1) (QueueEvent.settle true)).foldl queueStep
        { queueItems := q.map (fun n => ({ number := n, batchCount := 1 } : QueueItem))
          processingQueue := true
          current := some ({ number := x, batchCount := 1 }, 0)
          submitted := sub } =
        { queueItems := [], processingQueue := false, current := none,
          submitted := sub ++ q.reverse } := by
  induction q using List.reverseRecOn with
  | nil =>
    intro x sub
    simp [queueStep, nextSubmission]
  | append_singleton q z ih =>
    intro x sub
    rw [List.length_append, List.length_singleton, List.replicate_succ, List.foldl_cons]
    have h1 : queueStep
        { queueItems := (q ++ [z]).map (fun n => ({ number := n, batchCount := 1 } : QueueItem))
          processingQueue := true
          current := some ({ number := x, batchCount := 1 }, 0)
          submitted := sub } (QueueEvent.settle true) =
        { queueItems := q.map (fun n => ({ number := n, batchCount := 1 } : QueueItem))
          processingQueue := true
          current := some ({ number := z, batchCount := 1 }, 0)
          submitted := sub ++ [z] } := by
      simp [queueStep, nextSubmission]
    rw [h1, ih z (sub ++ [z])]
    simp

/-- C26 (what the code does): a submission is awaited exactly while the queue is being
processed, so the requests are submitted one at a time; but the requests that arrive while a
submission is awaited are taken from the end of the array (`pop()`): after a request `a` and,
while its submission is awaited, the requests `ns`, the submissions are `a` and then `ns` from
the last one to the first one.  For three requests 1, 2, 3 the order of the submissions is
1, 3, 2, which is not the order of the requests. -/
theorem C26_waiting_requests_taken_last_first :
    (∀ events, (queueRun events).processingQueue = (queueRun events).current.isSome) ∧
    (∀ (a : Int) (ns : List Int),
      (queueRun (QueueEvent.request { number := a, batchCount := 1 } ::
        (ns.map (fun n => QueueEvent.request { number := n, batchCount := 1 }) ++
          List.replicate (ns.length + 1) (QueueEvent.settle true)))).submitted =
        a :: ns.reverse) ∧
    (queueRun [QueueEvent.request { number := 1, batchCount := 1 },
        QueueEvent.request { number := 2, batchCount := 1 },
        QueueEvent.request { number := 3, batchCount := 1 },
        QueueEvent.settle true, QueueEvent.settle true, QueueEvent.settle true]).submitted =
      [1, 3, 2] ∧
    requestOrder [{ number := 1, batchCount := 1 }, { number := 2, batchCount := 1 },
      { number := 3, batchCount := 1 }] = [1, 2, 3] := by
  refine ⟨fun events => (queueRun_inv events).1, ?_, by decide, by decide⟩
  intro a ns
  unfold queueRun
  rw [List.foldl_cons, List.foldl_append]
  have h0 : queueStep
      { queueItems := []
        processingQueue := false
        current := none
        submitted := [] } (QueueEvent.request { number := a, batchCount := 1 }) =
      { queueItems := []
        processingQueue := true
        current := some ({ number := a, batchCount := 1 }, 0)
        submitted := [a] } := by
    simp [queueStep, nextSubmission]
  rw [h0, requests_while_processing ns _ rfl]
  simp only [List.nil_append]
  rw [settle_all ns a [a]]
  rfl

/-! ### graphToPrompt: the two maps of an instruction -/

theorem mem_setKey {β : Type} (k : String) (v : β) :
    ∀ (obj : List (String × β)) (x : String × β), x ∈ setKey k v obj → x = (k, v) ∨ x ∈ obj := by
  intro obj
  induction obj with
  | nil =>
    intro x hx
    simp only [setKey, List.mem_singleton] at hx
    exact Or.inl hx
  | cons p rest ih =>
    intro x hx
    simp only [setKey] at hx
    by_cases hp : p.1 = k
    · rw [if_pos hp] at hx
      rcases List.mem_cons.mp hx with h | h
      · exact Or.inl h
      · exact Or.inr (List.mem_cons_of_mem _ h)
    · rw [if_neg hp] at hx
      rcases List.mem_cons.mp hx with h | h
      · exact Or.inr (h ▸ List.mem_cons_self _ _)
      · rcases ih x h with h1 | h1
        · exact Or.inl h1
        · exact Or.inr (List.mem_cons_of_mem _ h1)

theorem setKey_nodup {β : Type} (k : String) (v : β) :
    ∀ (obj : List (String × β)), (keysOf obj).Nodup → (keysOf (setKey k v obj)).Nodup := by
  intro obj
  induction obj with
  | nil => intro _; simp [setKey, keysOf]
  | cons p rest ih =>
    intro h
    simp only [setKey]
    have h1 : p.1 ∉ keysOf rest ∧ (keysOf rest).Nodup := by
      simpa [keysOf] using h
    by_cases hp : p.1 = k
    · rw [if_pos hp]
      have : keysOf ((k, v) :: rest) = p.1 :: keysOf rest := by simp [keysOf, hp]
      rw [this]
      exact List.nodup_cons.mpr h1
    · rw [if_neg hp]
      have : keysOf (p :: setKey k v rest) = p.1 :: keysOf (setKey k v rest) := by
        simp [keysOf]
      rw [this]
      refine List.nodup_cons.mpr ⟨fun hm => ?_, ih h1.2⟩
      rcases (mem_keysOf_setKey k p.1 v rest).mp hm with h2 | h2
      · exact hp h2
      · exact h1.1 h2

/-- In an object without a repeated key, what is read after a filter was there before. -/
theorem getKey_of_filter {β : Type} (q : String × β → Bool) (k : String) (v : β) :
    ∀ (obj : List (String × β)), (keysOf obj).Nodup →
      getKey k (obj.filter q) = some v → getKey k obj = some v := by
  intro obj
  induction obj with
  | nil => intro _ h; simp [getKey] at h
  | cons p rest ih =>
    intro hnd h
    have h1 : p.1 ∉ keysOf rest ∧ (keysOf rest).Nodup := by
      simpa [keysOf] using hnd
    simp only [getKey]
    by_cases hq : q p = true
    · rw [List.filter_cons_of_pos hq] at h
      simp only [getKey] at h
      by_cases hp : p.1 = k
      · rw [if_pos hp] at h ⊢
        exact h
      · rw [if_neg hp] at h ⊢
        exact ih h1.2 h
    · rw [List.filter_cons_of_neg hq] at h
      by_cases hp : p.1 = k
      · exfalso
        have hm := getKey_mem k v _ h
        have : k ∈ keysOf rest :=
          List.mem_map.mpr ⟨(k, v), (List.mem_filter.mp hm).1, rfl⟩
        exact h1.1 (hp ▸ this)
      · rw [if_neg hp]
        exact ih h1.2 h

theorem entryOK_set (nb : String → Option Nat)
    (acc : List (String × PVal) × List (String × Bool)) (name : String) (v : PVal)
    (h : EntryOK nb acc) (hv : SlotKnown nb v) :
    EntryOK nb (setKey name v acc.1, setKey name v.isLink acc.2) := by
  refine ⟨setKey_nodup name v acc.1 h.1, fun n => ?_, fun e he => ?_⟩
  · simp only
    rw [getKey_setKey, getKey_setKey]
    by_cases hn : n = name
    · rw [if_pos hn, if_pos hn]; rfl
    · rw [if_neg hn, if_neg hn]; exact h.2.1 n
  · rcases mem_setKey name v acc.1 e he with h1 | h1
    · rw [h1]; exact hv
    · exact h.2.2 e h1

theorem storeWidgets_ok (nb : String → Option Nat) (widgets : List GWidget) :
    EntryOK nb (storeWidgets widgets) := by
  unfold storeWidgets
  have : ∀ (ws : List GWidget) (acc : List (String × PVal) × List (String × Bool)),
      EntryOK nb acc →
      EntryOK nb (ws.foldl (fun acc widget =>
        if widget.serialize then
          (setKey widget.name (PVal.widget widget.value) acc.1, setKey widget.name false acc.2)
        else acc) acc) := by
    intro ws
    induction ws with
    | nil => intro acc h; exact h
    | cons w rest ih =>
      intro acc h
      rw [List.foldl_cons]
      apply ih
      by_cases hs : w.serialize = true
      · rw [if_pos hs]
        exact entryOK_set nb acc w.name (PVal.widget w.value) h trivial
      · rw [if_neg hs]
        exact h
  exact this widgets _ ⟨by simp [keysOf], fun n => rfl, fun e he => absurd he (List.not_mem_nil _)⟩

/-- What one round of the loop "Store all node links" writes. -/
theorem storeLink_writes (host : Host) (nb : String → Option Nat) (fuel : Nat) (node : GNode)
    (acc acc1 : List (String × PVal) × List (String × Bool)) (p : Nat × GInput)
    (h : storeLink host nb fuel node acc p = Run.ok acc1) :
    acc1 = acc ∨ ∃ l : GLink, acc1 =
      (setKey p.2.name (PVal.link l.origin_id.key
        ((nb l.origin_id.key).map (fun (k : Nat) => (l.origin_slot : Int) - (k : Int)))) acc.1,
       setKey p.2.name true acc.2) := by
  unfold storeLink at h
  split at h
  · simp only [Run.ok.injEq] at h; exact Or.inl h.symm
  · split at h
    · simp at h
    · simp at h
    · split at h
      · simp only [Run.ok.injEq] at h; exact Or.inl h.symm
      · split at h
        · split at h
          · simp at h
          · simp only [Run.ok.injEq] at h; exact Or.inr ⟨_, h.symm⟩
        · simp only [Run.ok.injEq] at h; exact Or.inl h.symm

theorem storeLinks_ok (host : Host) (nb : String → Option Nat) (fuel : Nat) (node : GNode) :
    ∀ (ps : List (Nat × GInput)) (acc acc1 : List (String × PVal) × List (String × Bool)),
      storeLinks host nb fuel node ps acc = Run.ok acc1 → EntryOK nb acc → EntryOK nb acc1 := by
  intro ps
  induction ps with
  | nil =>
    intro acc acc1 h hok
    simp only [storeLinks, Run.ok.injEq] at h
    rw [← h]; exact hok
  | cons p rest ih =>
    intro acc acc1 h hok
    simp only [storeLinks] at h
    cases hs : storeLink host nb fuel node acc p with
    | raise => rw [hs] at h; simp at h
    | timeout => rw [hs] at h; simp at h
    | ok a1 =>
      rw [hs] at h
      simp only at h
      refine ih a1 acc1 h ?_
      rcases storeLink_writes host nb fuel node acc a1 p hs with rfl | ⟨l, rfl⟩
      · exact hok
      · exact entryOK_set nb acc p.2.name (PVal.link l.origin_id.key _) hok (by
          simp [SlotKnown])

theorem nodeInstr_ok (host : Host) (nb : String → Option Nat) (fuel : Nat) (node : GNode)
    (instr : Instr) (h : nodeInstr host nb fuel node = Run.ok instr) :
    EntryOK nb (instr.inputs, instr.is_input_linked) := by
  unfold nodeInstr at h
  cases hs : storeLinks host nb fuel node ((node.inputs.getD []).enum)
      (storeWidgets (node.widgets.getD [])) with
  | raise => rw [hs] at h; simp at h
  | timeout => rw [hs] at h; simp at h
  | ok acc =>
    rw [hs] at h
    simp only [Run.ok.injEq] at h
    rw [← h]
    exact storeLinks_ok host nb fuel node _ _ acc hs (storeWidgets_ok nb _)

theorem innerLoop_ok (host : Host) (nb : String → Option Nat) (fuel : Nat) :
    ∀ (nodes : List GNode) (output output1 : Output),
      innerLoop host nb fuel nodes output = Run.ok output1 →
      (∀ o ∈ output, EntryOK nb (o.2.inputs, o.2.is_input_linked)) →
      ∀ o ∈ output1, EntryOK nb (o.2.inputs, o.2.is_input_linked) := by
  intro nodes
  induction nodes with
  | nil =>
    intro output output1 h hok
    simp only [innerLoop, Run.ok.injEq] at h
    rw [← h]; exact hok
  | cons node rest ih =>
    intro output output1 h hok
    simp only [innerLoop] at h
    by_cases hv : node.isVirtualNode = true
    · rw [if_pos hv] at h
      exact ih output output1 h hok
    · rw [if_neg hv] at h
      by_cases hm : node.mode = 2 ∨ node.mode = 4
      · rw [if_pos hm] at h
        exact ih output output1 h hok
      · rw [if_neg hm] at h
        cases hi : nodeInstr host nb fuel node with
        | raise => rw [hi] at h; simp at h
        | timeout => rw [hi] at h; simp at h
        | ok instr =>
          rw [hi] at h
          simp only at h
          refine ih _ output1 h (fun o ho => ?_)
          rcases mem_setKey _ _ output o ho with h1 | h1
          · rw [h1]
            exact nodeInstr_ok host nb fuel node instr hi
          · exact hok o h1

/-- Every instruction of the map, before the inputs connected to removed nodes are deleted. -/
theorem outerLoop_ok (host : Host) (nb : String → Option Nat) (fuel : Nat)
    (order : List GNode) (output : Output)
    (h : outerLoop host nb fuel order [] = Run.ok output) :
    ∀ o ∈ output, EntryOK nb (o.2.inputs, o.2.is_input_linked) := by
  rw [outerLoop_eq_innerLoop] at h
  exact innerLoop_ok host nb fuel _ [] output h (fun o ho => absurd ho (List.not_mem_nil _))

/-- The instructions of the map that `graphToPrompt` returns: each is an instruction of the
loop over the nodes with some of its inputs deleted. -/
theorem graphToPrompt_entries (host : Host) (order : List GNode) (wf : Doc) (fuel : Nat)
    (r : Doc × Output × Flows) (h : graphToPrompt host order wf fuel = Run.ok r) :
    ∃ (nb : String → Option Nat) (output : Output), nbFlowout wf.nodes = some nb ∧
      (∀ o ∈ output, EntryOK nb (o.2.inputs, o.2.is_input_linked)) ∧
      ∀ o ∈ r.2.1, ∃ o0 ∈ output, o.1 = o0.1 ∧ o.2.is_input_linked = o0.2.is_input_linked ∧
        o.2.class_type = o0.2.class_type ∧
        o.2.inputs = o0.2.inputs.filter (fun i => ! isDangling output i.2) := by
  obtain ⟨nb, output, hnb, hout, hr, _⟩ := graphToPrompt_ok host order wf fuel r h
  refine ⟨nb, output, hnb, outerLoop_ok host nb fuel order output hout, fun o ho => ?_⟩
  rw [hr] at ho
  unfold removeDangling at ho
  obtain ⟨o0, ho0, rfl⟩ := List.mem_map.mp ho
  exact ⟨o0, ho0, rfl, rfl, rfl, rfl⟩

/-- C28 (what the code does): in every instruction of the map that `graphToPrompt` returns,
an input that is a pair taken from a link has the flag `true` and an input that is the value of
a widget has the flag `false`, so every key of `inputs` is a key of `is_input_linked`; but the
loop that deletes the inputs connected to removed nodes deletes from `inputs` only.  In the
linear graph with the node B muted the instruction of C has the flag `true` for the name `in`
and no input of that name: the two maps do not have the same keys. -/
theorem C28_deleted_input_keeps_its_flag (host : Host) (order : List GNode) (wf : Doc)
    (fuel : Nat) (r : Doc × Output × Flows)
    (h : graphToPrompt host order wf fuel = Run.ok r) :
    (∀ o ∈ r.2.1, ∀ n,
      (∀ k s, getKey n o.2.inputs = some (PVal.link k s) →
        getKey n o.2.is_input_linked = some true) ∧
      (∀ v, getKey n o.2.inputs = some (PVal.widget v) →
        getKey n o.2.is_input_linked = some false) ∧
      (n ∈ keysOf o.2.inputs → n ∈ keysOf o.2.is_input_linked)) ∧
    (graphToPrompt (graphHost (liveLinear3 2) liveLinear3Links) (liveLinear3 2)
        runtimeLinear3 1).value.map (fun r => getKey "3" r.2.1) =
      some (some { inputs := [], is_input_linked := [("in", true)],
                   class_type := some "Op" }) := by
  refine ⟨?_, by decide⟩
  obtain ⟨nb, output, _, hok, hr⟩ := graphToPrompt_entries host order wf fuel r h
  intro o ho n
  obtain ⟨o0, ho0, _, hfl, _, hin⟩ := hr o ho
  obtain ⟨hnd, hflag, _⟩ := hok o0 ho0
  have key : ∀ v, getKey n o.2.inputs = some v →
      getKey n o.2.is_input_linked = some v.isLink := by
    intro v hv
    rw [hin] at hv
    have := getKey_of_filter _ n v o0.2.inputs hnd hv
    rw [hfl, hflag n, this]
    rfl
  refine ⟨fun k s hv => key _ hv, fun v hv => key _ hv, fun hn => ?_⟩
  obtain ⟨v, hv⟩ := Option.isSome_iff_exists.mp ((getKey_isSome_iff n o.2.inputs).mpr hn)
  exact (getKey_isSome_iff n o.2.is_input_linked).mp (by rw [key v hv]; rfl)

/-- The statement C28 at the linear graph with the node B muted. -/
theorem C28_deleted_input_keeps_its_flag_witness :
    ∃ r, graphToPrompt (graphHost (liveLinear3 2) liveLinear3Links) (liveLinear3 2)
        runtimeLinear3 1 = Run.ok r ∧
      ∀ o ∈ r.2.1, ∀ n, n ∈ keysOf o.2.inputs → n ∈ keysOf o.2.is_input_linked := by
  obtain ⟨r, hr⟩ := run_of_value (graphToPrompt (graphHost (liveLinear3 2) liveLinear3Links)
    (liveLinear3 2) runtimeLinear3 1) (by decide)
  exact ⟨r, hr, fun o ho n => ((C28_deleted_input_keeps_its_flag _ _ _ _ r hr).1 o ho n).2.2⟩

/-! ### buildNodeDef: inner nodes that are passed over -/

theorem buildNodeDef_eq (gwt : InputDef → String → Option String) (config : Config)
    (nodeName : String) (defs : String → Option NodeDef) (workflow : Bool) :
    buildNodeDef gwt config nodeName defs workflow =
      (config.nodes.enum.foldlM (addNode gwt config defs (getLinks config)) emptyBuild).map
        (groupDefOf nodeName workflow) := rfl

theorem addNode_skipped (gwt : InputDef → String → Option String) (config : Config)
    (defs : String → Option NodeDef) (b : Build) (p : Nat × CfgNode)
    (h : Skipped config defs p.1 p.2) :
    addNode gwt config defs (getLinks config) b p = some b := by
  unfold Skipped at h
  unfold addNode
  rw [h]

/-- A loop may leave out the elements whose round changes nothing. -/
theorem foldlM_filter {α β : Type} (f : β → α → Option β) (keep : α → Bool) :
    ∀ (xs : List α) (b : β), (∀ x ∈ xs, keep x = false → ∀ b, f b x = some b) →
      xs.foldlM f b = (xs.filter keep).foldlM f b := by
  intro xs
  induction xs with
  | nil => intro b _; rfl
  | cons x rest ih =>
    intro b h
    by_cases hk : keep x = true
    · rw [List.filter_cons_of_pos hk, List.foldlM_cons, List.foldlM_cons]
      cases f b x with
      | none => rfl
      | some b1 =>
        exact ih b1 (fun y hy => h y (List.mem_cons_of_mem _ hy))
    · rw [List.filter_cons_of_neg hk, List.foldlM_cons,
        h x (List.mem_cons_self _ _) (by simpa using hk) b]
      exact ih b (fun y hy => h y (List.mem_cons_of_mem _ hy))

theorem tableHas_linksTo (config : Config) (i : Nat) :
    tableHas (getLinks config).linksTo i = true ↔
      ∃ l ∈ config.links, l.outputNodeId.isSome = true ∧ l.inputNodeId = i := by
  rw [getLinks_eq]
  simp only [tableHas, List.any_eq_true, List.mem_map, List.mem_filter, decide_eq_true_eq]
  constructor
  · rintro ⟨e, ⟨l, ⟨hl, hs⟩, rfl⟩, he⟩
    exact ⟨l, hl, hs, he⟩
  · rintro ⟨l, hl, hs, he⟩
    exact ⟨_, ⟨l, ⟨hl, hs⟩, rfl⟩, he⟩

theorem tableHas_linksFrom (config : Config) (i : Nat) :
    tableHas (getLinks config).linksFrom i = true ↔
      ∃ l ∈ config.links, l.outputNodeId = some i := by
  rw [getLinks_eq]
  simp only [tableHas, List.any_eq_true, List.mem_filterMap, Option.map_eq_some',
    decide_eq_true_eq]
  constructor
  · rintro ⟨e, ⟨l, hl, o, ho, rfl⟩, he⟩
    exact ⟨l, hl, by rw [ho]; exact congrArg some he⟩
  · rintro ⟨l, hl, ho⟩
    exact ⟨_, ⟨l, hl, i, ho, rfl⟩, rfl⟩

/-- The inner nodes that the loop passes over. -/
theorem skipped_iff (config : Config) (defs : String → Option NodeDef) (i : Nat)
    (node : CfgNode) :
    Skipped config defs i node ↔
      defs node.type = none ∧ (node.type ≠ "Reroute" ∨ LinkedInside config i) := by
  have hin : (tableHas (getLinks config).linksTo i = true ∧
      tableHas (getLinks config).linksFrom i = true) ↔ LinkedInside config i := by
    rw [tableHas_linksTo, tableHas_linksFrom]
    rfl
  unfold Skipped resolveDef
  cases hd : defs node.type with
  | some d => simp
  | none =>
    simp only [true_and]
    by_cases hr : node.type = "Reroute"
    · rw [if_pos hr]
      by_cases hb : tableHas (getLinks config).linksTo i = true ∧
          tableHas (getLinks config).linksFrom i = true
      · rw [if_pos hb]
        simp only [true_iff]
        exact Or.inr (hin.mp hb)
      · rw [if_neg hb]
        have hne : ¬ (node.type ≠ "Reroute" ∨ LinkedInside config i) := by
          rintro (h | h)
          · exact h hr
          · exact hb (hin.mpr h)
        simp only [hne, iff_false]
        split
        · split
          · simp
          · split
            · simp
            · split <;> simp
        · split
          · simp
          · split
            · simp
            · split <;> simp
    · rw [if_neg hr]
      simp only [true_iff]
      exact Or.inl hr

theorem addsFor_refl (i : Nat) (b : Build) : AddsFor i b b :=
  ⟨fun _ h => Or.inl h, fun _ h => Or.inl h, fun _ h => Or.inl h⟩

theorem addsFor_trans (i : Nat) (b b1 b2 : Build) (h1 : AddsFor i b b1)
    (h2 : AddsFor i b1 b2) : AddsFor i b b2 := by
  refine ⟨fun e he => ?_, fun e he => ?_, fun e he => ?_⟩
  · rcases h2.1 e he with h | h
    · exact h1.1 e h
    · exact Or.inr h
  · rcases h2.2.1 e he with h | h
    · exact h1.2.1 e h
    · exact Or.inr h
  · rcases h2.2.2 e he with h | h
    · exact h1.2.2 e h
    · exact Or.inr h

theorem addInput_addsFor (gwt : InputDef → String → Option String) (links : GroupLinks)
    (nodeId : Nat) (st : Build × Nat) (e : String × InputDef) :
    AddsFor nodeId st.1 (addInput gwt links nodeId st e).1 := by
  unfold addInput
  cases gwt e.2 e.1 with
  | some w =>
    refine ⟨fun x hx => Or.inl hx, fun x hx => ?_, fun x hx => Or.inl hx⟩
    simp only [List.mem_append, List.mem_singleton] at hx
    rcases hx with h | h
    · exact Or.inl h
    · exact Or.inr (by rw [h])
  | none =>
    simp only
    by_cases hl : (tableGet links.linksTo nodeId st.2).isSome = true
    · rw [if_pos hl]
      exact addsFor_refl _ _
    · rw [if_neg hl]
      refine ⟨fun x hx => ?_, fun x hx => Or.inl hx, fun x hx => Or.inl hx⟩
      simp only [List.mem_append, List.mem_singleton] at hx
      rcases hx with h | h
      · exact Or.inl h
      · exact Or.inr (by rw [h])

theorem addInputs_addsFor (gwt : InputDef → String → Option String) (links : GroupLinks)
    (nodeId : Nat) :
    ∀ (es : List (String × InputDef)) (st : Build × Nat),
      AddsFor nodeId st.1 (es.foldl (addInput gwt links nodeId) st).1 := by
  intro es
  induction es with
  | nil => intro st; exact addsFor_refl _ _
  | cons e rest ih =>
    intro st
    rw [List.foldl_cons]
    exact addsFor_trans _ _ _ _ (addInput_addsFor gwt links nodeId st e) (ih _)

theorem addOutputs_addsFor (links : GroupLinks) (nodeId : Nat) (d : NodeDef) :
    ∀ (ps : List (Nat × String)) (b b1 : Build),
      ps.foldlM (addOutput links nodeId d) b = some b1 → AddsFor nodeId b b1 := by
  intro ps
  induction ps with
  | nil =>
    intro b b1 h
    simp only [List.foldlM_nil, Option.pure_def, Option.some.injEq] at h
    rw [← h]; exact addsFor_refl _ _
  | cons p rest ih =>
    intro b b1 h
    simp only [List.foldlM_cons, Option.bind_eq_bind, Option.bind_eq_some] at h
    obtain ⟨b0, hb0, hrest⟩ := h
    refine addsFor_trans _ _ _ _ ?_ (ih b0 b1 hrest)
    unfold addOutput at hb0
    by_cases hl : (tableGet links.linksFrom nodeId p.1).isSome = true
    · rw [if_pos hl, Option.some.injEq] at hb0
      rw [← hb0]; exact addsFor_refl _ _
    · rw [if_neg hl] at hb0
      cases hil : d.output_is_list with
      | none => rw [hil] at hb0; simp at hb0
      | some is_list =>
        rw [hil] at hb0
        simp only [Option.some.injEq] at hb0
        rw [← hb0]
        refine ⟨fun x hx => Or.inl hx, fun x hx => Or.inl hx, fun x hx => ?_⟩
        simp only [List.mem_append, List.mem_singleton] at hx
        rcases hx with h | h
        · exact Or.inl h
        · exact Or.inr (by rw [h])

theorem addNode_addsFor (gwt : InputDef → String → Option String) (config : Config)
    (defs : String → Option NodeDef) (links : GroupLinks) (b b1 : Build) (p : Nat × CfgNode)
    (h : addNode gwt config defs links b p = some b1) : AddsFor p.1 b b1 := by
  unfold addNode at h
  cases hr : resolveDef config defs links p.1 p.2 with
  | raise => rw [hr] at h; simp at h
  | skip =>
    rw [hr] at h
    simp only [Option.some.injEq] at h
    rw [← h]; exact addsFor_refl _ _
  | use d =>
    rw [hr] at h
    simp only at h
    cases ho : d.output with
    | none => rw [ho] at h; simp at h
    | some output =>
      rw [ho] at h
      simp only at h
      exact addsFor_trans _ _ _ _ (addInputs_addsFor gwt links p.1 (mergedInputs d) (b, 0))
        (addOutputs_addsFor links p.1 d _ _ b1 h)

theorem addNodes_indices (gwt : InputDef → String → Option String) (config : Config)
    (defs : String → Option NodeDef) (links : GroupLinks) :
    ∀ (ps : List (Nat × CfgNode)) (b b1 : Build),
      ps.foldlM (addNode gwt config defs links) b = some b1 →
      (∀ e ∈ b1.slotInputs, e ∈ b.slotInputs ∨ e.1 ∈ ps.map Prod.fst) ∧
      (∀ e ∈ b1.slotWidgets, e ∈ b.slotWidgets ∨ e.1 ∈ ps.map Prod.fst) ∧
      (∀ e ∈ b1.slotOutputs, e ∈ b.slotOutputs ∨ e.2.1 ∈ ps.map Prod.fst) := by
  intro ps
  induction ps with
  | nil =>
    intro b b1 h
    simp only [List.foldlM_nil, Option.pure_def, Option.some.injEq] at h
    rw [← h]
    exact ⟨fun _ h => Or.inl h, fun _ h => Or.inl h, fun _ h => Or.inl h⟩
  | cons p rest ih =>
    intro b b1 h
    simp only [List.foldlM_cons, Option.bind_eq_bind, Option.bind_eq_some] at h
    obtain ⟨b0, hb0, hrest⟩ := h
    obtain ⟨a1, a2, a3⟩ := addNode_addsFor gwt config defs links b b0 p hb0
    obtain ⟨r1, r2, r3⟩ := ih b0 b1 hrest
    refine ⟨fun e he => ?_, fun e he => ?_, fun e he => ?_⟩
    · rcases r1 e he with h | h
      · rcases a1 e h with h | h
        · exact Or.inl h
        · exact Or.inr (by rw [h]; exact List.mem_cons_self _ _)
      · exact Or.inr (List.mem_cons_of_mem _ h)
    · rcases r2 e he with h | h
      · rcases a2 e h with h | h
        · exact Or.inl h
        · exact Or.inr (by rw [h]; exact List.mem_cons_self _ _)
      · exact Or.inr (List.mem_cons_of_mem _ h)
    · rcases r3 e he with h | h
      · rcases a3 e h with h | h
        · exact Or.inl h
        · exact Or.inr (by rw [h]; exact List.mem_cons_self _ _)
      · exact Or.inr (List.mem_cons_of_mem _ h)

/-- The loop over the inner nodes is the loop over the inner nodes that are not passed
over. -/
theorem buildNodeDef_without_skipped (gwt : InputDef → String → Option String)
    (config : Config) (nodeName : String) (defs : String → Option NodeDef) (workflow : Bool) :
    buildNodeDef gwt config nodeName defs workflow =
      ((config.nodes.enum.filter (fun p => ¬ Skipped config defs p.1 p.2)).foldlM
        (addNode gwt config defs (getLinks config)) emptyBuild).map
        (groupDefOf nodeName workflow) := by
  rw [buildNodeDef_eq]
  congr 1
  exact foldlM_filter _ _ _ _ (fun p _ hk b =>
    addNode_skipped gwt config defs b p (by simpa using hk))

/-- C21 (counterexample): in the group `groupRY` the Reroute node, which the registry does not
know, has an incoming link (from outside of the group, origin `null`) and an outgoing link;
`buildNodeDef` does not pass it over but exposes its input as the outer input 0 under the
name `0:LATENT`. -/
theorem C21_counterexample :
    (groupRY.nodes[0]?).map (fun n => (n.type, sampleDefs n.type)) = some ("Reroute", none) ∧
    LinkedThrough groupRY 0 ∧
    (buildNodeDef (widgetTypeOf sampleWidgets) groupRY "g" sampleDefs true).map
      (fun r => (r.slotInputs, keysOf r.input_required)) =
      some ([(0, 0, 0)], ["0:LATENT"]) := by
  refine ⟨by decide, by decide, by decide⟩

/-- C21 (amended): `buildNodeDef` passes over exactly the inner nodes whose type the registry
does not know and that are either no Reroute node or a Reroute node with both an incoming link
that starts at an inner node of the group and an outgoing link; the definition and the slot
maps are those built from the other inner nodes alone, each under its own index; and the slot
maps have no entry for an inner node that is passed over. -/
theorem C21_skipped_nodes_add_nothing (gwt : InputDef → String → Option String)
    (config : Config) (nodeName : String) (defs : String → Option NodeDef) (workflow : Bool)
    (r : GroupDef) (h : buildNodeDef gwt config nodeName defs workflow = some r) :
    (∀ i node, Skipped config defs i node ↔
      defs node.type = none ∧ (node.type ≠ "Reroute" ∨ LinkedInside config i)) ∧
    ((config.nodes.enum.filter (fun p => ¬ Skipped config defs p.1 p.2)).foldlM
      (addNode gwt config defs (getLinks config)) emptyBuild).map
        (groupDefOf nodeName workflow) = some r ∧
    ∀ i node, config.nodes[i]? = some node → Skipped config defs i node →
      (∀ e ∈ r.slotInputs, e.1 ≠ i) ∧ (∀ e ∈ r.slotWidgets, e.1 ≠ i) ∧
      (∀ e ∈ r.slotOutputs, e.2.1 ≠ i) := by
  have h2 := h
  rw [buildNodeDef_without_skipped] at h2
  refine ⟨fun i node => skipped_iff config defs i node, h2, ?_⟩
  intro i node hn hs
  simp only [Option.map_eq_some'] at h2
  obtain ⟨b, hb, rfl⟩ := h2
  obtain ⟨r1, r2, r3⟩ := addNodes_indices gwt config defs _ _ _ b hb
  have hnot : i ∉ (config.nodes.enum.filter
      (fun p => ¬ Skipped config defs p.1 p.2)).map Prod.fst := by
    intro hm
    obtain ⟨p, hp, rfl⟩ := List.mem_map.mp hm
    obtain ⟨hp1, hp2⟩ := List.mem_filter.mp hp
    have := (mem_nodes_enum config p).mp hp1
    rw [hn] at this
    simp only [Option.some.injEq] at this
    subst this
    simp at hp2
    exact hp2 hs
  refine ⟨fun e he hi => ?_, fun e he hi => ?_, fun e he hi => ?_⟩
  · rcases r1 e he with h | h
    · exact absurd h (List.not_mem_nil _)
    · exact hnot (hi ▸ h)
  · rcases r2 e he with h | h
    · exact absurd h (List.not_mem_nil _)
    · exact hnot (hi ▸ h)
  · rcases r3 e he with h | h
    · exact absurd h (List.not_mem_nil _)
    · exact hnot (hi ▸ h)

/-- The statement C21 (amended) at the group `groupXNRY`: the node `Note` and the Reroute node
between X and Y are passed over, the slot maps name the inner nodes 0 and 3 only. -/
theorem C21_skipped_nodes_add_nothing_witness :
    ∃ r, buildNodeDef (widgetTypeOf sampleWidgets) groupXNRY "g" sampleDefs true = some r ∧
      Skipped groupXNRY sampleDefs 1 { type := "Note", inputs := none, outputs := none } ∧
      Skipped groupXNRY sampleDefs 2
        { type := "Reroute", inputs := some ["*"], outputs := some ["*"] } ∧
      (∀ e ∈ r.slotInputs, e.1 ≠ 2) ∧ (∀ e ∈ r.slotOutputs, e.2.1 ≠ 2) ∧
      r.slotInputs = [(0, 0, 0)] ∧ r.slotOutputs = [(0, 3, 0)] := by
  obtain ⟨r, hr⟩ := Option.isSome_iff_exists.mp
    (show (buildNodeDef (widgetTypeOf sampleWidgets) groupXNRY "g" sampleDefs true).isSome = true
      by decide)
  have h := (C21_skipped_nodes_add_nothing (widgetTypeOf sampleWidgets) groupXNRY "g" sampleDefs
    true r hr).2.2 2 { type := "Reroute", inputs := some ["*"], outputs := some ["*"] }
    (by decide) (by decide)
  have hv : (buildNodeDef (widgetTypeOf sampleWidgets) groupXNRY "g" sampleDefs true).map
      (fun r => (r.slotInputs, r.slotOutputs)) =
      some ([(0, 0, 0)], [(0, 3, 0)]) := by decide
  rw [hr] at hv
  simp only [Option.map_some', Option.some.injEq, Prod.mk.injEq] at hv
  exact ⟨r, hr, by decide, by decide, h.1, h.2.2, hv.1, hv.2⟩

/-! ### buildNodeDef: the numbering of the outer inputs -/

theorem enumFrom_increasing {α : Type} : ∀ (l : List α) (n : Nat),
    (∀ a ∈ l.enumFrom n, n ≤ a.1) ∧ (l.enumFrom n).Pairwise (fun a b => a.1 < b.1) := by
  intro l
  induction l with
  | nil => intro n; simp
  | cons x rest ih =>
    intro n
    obtain ⟨h1, h2⟩ := ih (n + 1)
    rw [List.enumFrom_cons]
    refine ⟨fun a ha => ?_, List.pairwise_cons.mpr ⟨fun a ha => ?_, h2⟩⟩
    · rcases List.mem_cons.mp ha with rfl | ha
      · exact Nat.le_refl _
      · exact Nat.le_of_succ_le (h1 a ha)
    · exact h1 a ha

theorem nodeExposedInputs_fst (gwt : InputDef → String → Option String) (config : Config)
    (defs : String → Option NodeDef) (p : Nat × CfgNode) :
    ∀ x ∈ nodeExposedInputs gwt config defs p, x.1 = p.1 := by
  intro x hx
  unfold nodeExposedInputs at hx
  cases hd : defOf config defs p.1 p.2 with
  | none => rw [hd] at hx; exact absurd hx (List.not_mem_nil _)
  | some d =>
    rw [hd] at hx
    obtain ⟨q, _, rfl⟩ := List.mem_map.mp hx
    rfl

theorem nodeExposedInputs_pairwise (gwt : InputDef → String → Option String)
    (config : Config) (defs : String → Option NodeDef) (p : Nat × CfgNode) :
    (nodeExposedInputs gwt config defs p).Pairwise
      (fun x y => x.1 < y.1 ∨ (x.1 = y.1 ∧ x.2.1 < y.2.1)) := by
  unfold nodeExposedInputs
  cases hd : defOf config defs p.1 p.2 with
  | none => exact List.Pairwise.nil
  | some d =>
    simp only
    rw [List.pairwise_map]
    refine List.Pairwise.imp ?_ (List.Pairwise.filter _ (enumFrom_increasing _ 0).2)
    intro a b hab
    exact Or.inr ⟨rfl, hab⟩

/-- The exposed inputs come in the order of (inner node, number of the input). -/
theorem exposedInputs_pairwise (gwt : InputDef → String → Option String) (config : Config)
    (defs : String → Option NodeDef) :
    (exposedInputs gwt config defs).Pairwise
      (fun x y => x.1 < y.1 ∨ (x.1 = y.1 ∧ x.2.1 < y.2.1)) := by
  unfold exposedInputs
  rw [List.pairwise_flatMap]
  refine ⟨fun p _ => nodeExposedInputs_pairwise gwt config defs p, ?_⟩
  refine List.Pairwise.imp ?_ (enumFrom_increasing config.nodes 0).2
  intro a b hab x hx y hy
  rw [nodeExposedInputs_fst gwt config defs a x hx, nodeExposedInputs_fst gwt config defs b y hy]
  exact Or.inl hab

theorem enum_map_range {α : Type} : ∀ (l : List α) (n : Nat),
    (l.enumFrom n).map (fun q => q.1) = List.range' n l.length := by
  intro l
  induction l with
  | nil => intro n; rfl
  | cons x rest ih =>
    intro n
    rw [List.enumFrom_cons, List.map_cons, ih (n + 1)]
    rfl

/-! ### buildNodeDef: the order of the inputs and the definition that counts -/

theorem getKey_fold_setKey {β : Type} (k : String) :
    ∀ (es acc : List (String × β)),
      getKey k (es.foldl (fun o e => setKey e.1 e.2 o) acc) =
        match lastEntry k es with
        | some v => some v
        | none => getKey k acc := by
  intro es
  induction es with
  | nil => intro acc; rfl
  | cons e rest ih =>
    intro acc
    simp only [List.foldl_cons, ih, lastEntry, getKey_setKey]
    cases lastEntry k rest with
    | some v => rfl
    | none =>
      by_cases h : k = e.1
      · rw [if_pos h, if_pos h.symm]
      · rw [if_neg h, if_neg (Ne.symm h)]

theorem keysOf_setKey {β : Type} (k : String) (v : β) : ∀ (obj : List (String × β)),
    keysOf (setKey k v obj) = if k ∈ keysOf obj then keysOf obj else keysOf obj ++ [k] := by
  intro obj
  induction obj with
  | nil => simp [setKey, keysOf]
  | cons p rest ih =>
    simp only [setKey]
    by_cases hp : p.1 = k
    · rw [if_pos hp, if_pos (by simp [keysOf, hp])]
      simp [keysOf, hp]
    · rw [if_neg hp]
      have ih1 : List.map Prod.fst (setKey k v rest) =
          if k ∈ List.map Prod.fst rest then List.map Prod.fst rest
          else List.map Prod.fst rest ++ [k] := ih
      simp only [keysOf, List.map_cons, List.mem_cons, ih1]
      by_cases hk : k ∈ List.map Prod.fst rest
      · rw [if_pos hk, if_pos (Or.inr hk)]
      · rw [if_neg hk, if_neg (by
          intro h
          rcases h with h | h
          · exact hp h.symm
          · exact hk h)]
        rfl

/-- The keys of an object after a run of assignments: every key assigned, in the order of the
first assignments. -/
theorem fold_setKey_order {β : Type} :
    ∀ (es : List (String × β)) (names : List String) (acc : List (String × β)),
      (∀ k, k ∈ keysOf acc ↔ k ∈ names) →
      (keysOf acc).Pairwise (fun a b => names.indexOf a < names.indexOf b) →
      (∀ k, k ∈ keysOf (es.foldl (fun o e => setKey e.1 e.2 o) acc) ↔ k ∈ names ++ keysOf es) ∧
      (keysOf (es.foldl (fun o e => setKey e.1 e.2 o) acc)).Pairwise
        (fun a b => (names ++ keysOf es).indexOf a < (names ++ keysOf es).indexOf b) := by
  intro es
  induction es with
  | nil =>
    intro names acc hm hp
    simp only [List.foldl_nil, keysOf, List.map_nil, List.append_nil]
    exact ⟨hm, hp⟩
  | cons e rest ih =>
    intro names acc hm hp
    have hstep := ih (names ++ [e.1]) (setKey e.1 e.2 acc) (by
      intro k
      rw [keysOf_setKey]
      by_cases hk : e.1 ∈ keysOf acc
      · rw [if_pos hk, hm, List.mem_append, List.mem_singleton]
        constructor
        · exact Or.inl
        · rintro (h | h)
          · exact h
          · rw [h]; exact (hm _).mp hk
      · rw [if_neg hk, List.mem_append, List.mem_append, hm]) (by
      rw [keysOf_setKey]
      have hold : (keysOf acc).Pairwise
          (fun a b => (names ++ [e.1]).indexOf a < (names ++ [e.1]).indexOf b) := by
        refine List.Pairwise.imp_of_mem ?_ hp
        intro a b ha hb hab
        rw [List.indexOf_append_of_mem ((hm a).mp ha), List.indexOf_append_of_mem ((hm b).mp hb)]
        exact hab
      by_cases hk : e.1 ∈ keysOf acc
      · rw [if_pos hk]
        exact hold
      · rw [if_neg hk, List.pairwise_append]
        refine ⟨hold, List.pairwise_singleton _ _, ?_⟩
        intro a ha b hb
        rw [List.mem_singleton] at hb
        subst hb
        have hkn : e.1 ∉ names := fun h => hk ((hm _).mpr h)
        rw [List.indexOf_append_of_mem ((hm a).mp ha), List.indexOf_append_of_not_mem hkn]
        have := List.indexOf_lt_length.mpr ((hm a).mp ha)
        omega)
    simp only [List.foldl_cons]
    have heq : names ++ [e.1] ++ keysOf rest = names ++ keysOf (e :: rest) := by
      simp [keysOf]
    rw [heq] at hstep
    exact hstep

theorem fold_setKey_nodup {β : Type} :
    ∀ (es acc : List (String × β)), (keysOf acc).Nodup →
      (keysOf (es.foldl (fun o e => setKey e.1 e.2 o) acc)).Nodup := by
  intro es
  induction es with
  | nil => intro acc h; exact h
  | cons e rest ih =>
    intro acc h
    exact ih _ (setKey_nodup e.1 e.2 acc h)

theorem indexKey_eq (s : String) (n : Nat) (h : indexKey s = some n) : s = toString n := by
  unfold indexKey at h
  split at h
  · next hc =>
    simp only [Option.some.injEq] at h
    rw [← h]
    exact hc.2.1.symm
  · simp at h

theorem getKey_of_mem {β : Type} (k : String) (v : β) : ∀ (obj : List (String × β)),
    (keysOf obj).Nodup → (k, v) ∈ obj → getKey k obj = some v := by
  intro obj
  induction obj with
  | nil => intro _ h; simp at h
  | cons p rest ih =>
    intro hnd h
    have h1 : p.1 ∉ keysOf rest ∧ (keysOf rest).Nodup := by
      simpa [keysOf] using hnd
    simp only [getKey]
    rcases List.mem_cons.mp h with h | h
    · rw [← h, if_pos rfl]
    · rw [if_neg (by
        intro hp
        apply h1.1
        rw [hp]
        exact List.mem_map.mpr ⟨(k, v), h, rfl⟩)]
      exact ih h1.2 h

theorem mergedObject_getKey (d : NodeDef) (nm : String) :
    getKey nm (mergedObject d) = inputDefOf d nm := by
  unfold mergedObject inputDefOf
  rw [getKey_fold_setKey, getKey_fold_setKey]
  cases lastEntry nm (d.input_optional.getD []) with
  | some v => rfl
  | none =>
    simp only
    cases lastEntry nm (d.input_required.getD []) <;> rfl

theorem mergedObject_nodup (d : NodeDef) : (keysOf (mergedObject d)).Nodup := by
  unfold mergedObject
  exact fold_setKey_nodup _ _ (fold_setKey_nodup _ _ (by simp [keysOf]))

theorem mergedObject_order (d : NodeDef) :
    (keysOf (mergedObject d)).Pairwise
      (fun a b => (inputKeys d).indexOf a < (inputKeys d).indexOf b) := by
  unfold mergedObject inputKeys
  have h1 := fold_setKey_order (d.input_required.getD []) [] ([] : List (String × InputDef))
    (by intro k; simp [keysOf]) (by simp [keysOf])
  rw [List.nil_append] at h1
  exact (fold_setKey_order (d.input_optional.getD []) _ _ h1.1 h1.2).2

theorem keyOrder_perm {β : Type} (obj : List (String × β)) : (keyOrder obj).Perm obj := by
  unfold keyOrder
  refine ((List.perm_insertionSort _ _).append_right _).trans ?_
  have h := List.filter_append_perm (fun e : String × β => (indexKey e.1).isSome) obj
  have hfun : (fun e : String × β => (indexKey e.1).isNone) =
      (fun e => ! (indexKey e.1).isSome) := by
    funext e
    cases indexKey e.1 <;> rfl
  rw [hfun]
  simpa using h

theorem mergedInputs_perm (d : NodeDef) : (mergedInputs d).Perm (mergedObject d) :=
  keyOrder_perm _

theorem mergedInputs_nodup (d : NodeDef) : (keysOf (mergedInputs d)).Nodup :=
  ((mergedInputs_perm d).map Prod.fst).nodup_iff.mpr (mergedObject_nodup d)

theorem mergedInputs_getKey (d : NodeDef) (nm : String) :
    getKey nm (mergedInputs d) = inputDefOf d nm := by
  rw [← mergedObject_getKey]
  cases h : getKey nm (mergedObject d) with
  | some v =>
    exact getKey_of_mem nm v _ (mergedInputs_nodup d)
      ((mergedInputs_perm d).mem_iff.mpr (getKey_mem nm v _ h))
  | none =>
    cases h2 : getKey nm (mergedInputs d) with
    | none => rfl
    | some v =>
      have := getKey_of_mem nm v _ (mergedObject_nodup d)
        ((mergedInputs_perm d).mem_iff.mp (getKey_mem nm v _ h2))
      rw [h] at this
      exact absurd this (by simp)

theorem mergedInputs_mem (d : NodeDef) (e : String × InputDef) (h : e ∈ mergedInputs d) :
    inputDefOf d e.1 = some e.2 := by
  rw [← mergedInputs_getKey]
  exact getKey_of_mem e.1 e.2 _ (mergedInputs_nodup d) h

theorem keyBefore_index (d : NodeDef) (a b : String) (m n : Nat) (ha : indexKey a = some m)
    (hb : indexKey b = some n) : KeyBefore d a b ↔ m < n := by
  unfold KeyBefore
  rw [ha, hb]

theorem keyBefore_mixed (d : NodeDef) (a b : String) (m : Nat) (ha : indexKey a = some m)
    (hb : indexKey b = none) : KeyBefore d a b := by
  unfold KeyBefore
  rw [ha, hb]
  trivial

theorem keyBefore_names (d : NodeDef) (a b : String) (ha : indexKey a = none)
    (hb : indexKey b = none) :
    KeyBefore d a b ↔ (inputKeys d).indexOf a < (inputKeys d).indexOf b := by
  unfold KeyBefore
  rw [ha, hb]

theorem keyBefore_antisymm (d : NodeDef) (a b : String) (h1 : KeyBefore d a b)
    (h2 : KeyBefore d b a) : a = b := by
  unfold KeyBefore at h1 h2
  cases ha : indexKey a with
  | some m =>
    cases hb : indexKey b with
    | some n =>
      rw [ha, hb] at h1 h2
      simp only at h1 h2
      omega
    | none =>
      rw [ha, hb] at h2
      exact absurd h2 (by simp)
  | none =>
    cases hb : indexKey b with
    | some n =>
      rw [ha, hb] at h1
      exact absurd h1 (by simp)
    | none =>
      rw [ha, hb] at h1 h2
      simp only at h1 h2
      omega

theorem keyBefore_irrefl (d : NodeDef) (a : String) : ¬ KeyBefore d a a := by
  intro h
  unfold KeyBefore at h
  cases ha : indexKey a with
  | some m =>
    rw [ha] at h
    simp at h
  | none =>
    rw [ha] at h
    simp at h

/-- The keys of an object in the order of `keyOrder` are in the order of `Object.keys`. -/
theorem keyOrder_sorted (d : NodeDef) (obj : List (String × InputDef))
    (hnd : (keysOf obj).Nodup)
    (hord : (keysOf obj).Pairwise
      (fun a b => (inputKeys d).indexOf a < (inputKeys d).indexOf b)) :
    (keysOf (keyOrder obj)).Pairwise (KeyBefore d) := by
  unfold keyOrder keysOf
  rw [List.map_append, List.pairwise_append]
  refine ⟨?_, ?_, ?_⟩
  · haveI : IsTotal (String × InputDef)
        (fun a b => (indexKey a.1).getD 0 ≤ (indexKey b.1).getD 0) :=
      ⟨fun a b => Nat.le_total _ _⟩
    haveI : IsTrans (String × InputDef)
        (fun a b => (indexKey a.1).getD 0 ≤ (indexKey b.1).getD 0) :=
      ⟨fun a b c hab hbc => Nat.le_trans hab hbc⟩
    have hs := List.sorted_insertionSort
      (fun a b : String × InputDef => (indexKey a.1).getD 0 ≤ (indexKey b.1).getD 0)
      (obj.filter (fun e => (indexKey e.1).isSome))
    have hp := List.perm_insertionSort
      (fun a b : String × InputDef => (indexKey a.1).getD 0 ≤ (indexKey b.1).getD 0)
      (obj.filter (fun e => (indexKey e.1).isSome))
    have hnd1 : ((List.insertionSort
        (fun a b : String × InputDef => (indexKey a.1).getD 0 ≤ (indexKey b.1).getD 0)
        (obj.filter (fun e => (indexKey e.1).isSome))).map Prod.fst).Nodup :=
      (hp.map Prod.fst).nodup_iff.mpr
        (List.Nodup.sublist ((List.filter_sublist obj).map Prod.fst) hnd)
    rw [List.pairwise_map]
    rw [List.Nodup, List.pairwise_map] at hnd1
    refine List.Pairwise.imp_of_mem ?_ (List.Pairwise.and hs hnd1)
    intro a b ha hb hab
    have ha1 := (List.mem_filter.mp (hp.mem_iff.mp ha)).2
    have hb1 := (List.mem_filter.mp (hp.mem_iff.mp hb)).2
    obtain ⟨m, hm⟩ := Option.isSome_iff_exists.mp ha1
    obtain ⟨n, hn⟩ := Option.isSome_iff_exists.mp hb1
    rw [keyBefore_index d a.1 b.1 m n hm hn]
    have hle : m ≤ n := by
      have := hab.1
      simp only [hm, hn, Option.getD_some] at this
      exact this
    have hne : m ≠ n := by
      intro hmn
      apply hab.2
      rw [indexKey_eq a.1 m hm, indexKey_eq b.1 n hn, hmn]
    omega
  · have hsub : ((obj.filter (fun e => (indexKey e.1).isNone)).map Prod.fst).Sublist
        (obj.map Prod.fst) := (List.filter_sublist obj).map Prod.fst
    have h1 := List.Pairwise.sublist hsub hord
    rw [List.pairwise_map] at h1 ⊢
    refine List.Pairwise.imp_of_mem ?_ h1
    intro a b ha hb hab
    have ha1 := (List.mem_filter.mp ha).2
    have hb1 := (List.mem_filter.mp hb).2
    rw [keyBefore_names d a.1 b.1 (Option.isNone_iff_eq_none.mp ha1)
      (Option.isNone_iff_eq_none.mp hb1)]
    exact hab
  · intro a ha b hb
    obtain ⟨ea, hea, rfl⟩ := List.mem_map.mp ha
    obtain ⟨eb, heb, rfl⟩ := List.mem_map.mp hb
    have ha1 := (List.mem_filter.mp ((List.perm_insertionSort _ _).mem_iff.mp hea)).2
    have hb1 := (List.mem_filter.mp heb).2
    obtain ⟨m, hm⟩ := Option.isSome_iff_exists.mp ha1
    exact keyBefore_mixed d ea.1 eb.1 m hm (Option.isNone_iff_eq_none.mp hb1)

/-- The names of the merged inputs are the input names of the definition in definition
order. -/
theorem mergedInputs_order (d : NodeDef) : InputOrder d (keysOf (mergedInputs d)) := by
  constructor
  · intro nm
    rw [← getKey_isSome_iff, mergedInputs_getKey]
  · exact keyOrder_sorted d _ (mergedObject_nodup d) (mergedObject_order d)

/-- There is one list of the input names in definition order. -/
theorem inputOrder_unique (d : NodeDef) (L : List String) (h : InputOrder d L) :
    L = keysOf (mergedInputs d) := by
  have h2 := mergedInputs_order d
  have hnd : L.Nodup := by
    unfold List.Nodup
    refine List.Pairwise.imp ?_ h.2
    intro a b hab heq
    subst heq
    exact keyBefore_irrefl d a hab
  haveI : IsAntisymm String (KeyBefore d) := ⟨keyBefore_antisymm d⟩
  refine List.eq_of_perm_of_sorted ((List.perm_ext_iff_of_nodup hnd (mergedInputs_nodup d)).mpr ?_)
    h.2 h2.2
  intro a
  rw [h.1, h2.1]

theorem linkInputNames_eq (gwt : InputDef → String → Option String) (d : NodeDef) :
    linkInputNames gwt d = (keysOf (mergedInputs d)).filter (IsLinkInput gwt d) := by
  unfold linkInputNames keysOf
  rw [List.filter_map]
  congr 1
  apply List.filter_congr
  intro e he
  simp only [Function.comp, IsLinkInput, mergedInputs_mem d e he]

/-- The numbering of the non-widget inputs against the list that the loop runs over. -/
theorem linkInput_iff (gwt : InputDef → String → Option String) (d : NodeDef) (k : Nat)
    (nm : String) : LinkInput gwt d k nm ↔ (linkInputNames gwt d)[k]? = some nm := by
  rw [linkInputNames_eq]
  constructor
  · rintro ⟨L, hL, hk⟩
    rw [← inputOrder_unique d L hL]
    exact hk
  · intro h
    exact ⟨_, mergedInputs_order d, h⟩


theorem find_reverse_eq_some {α : Type} (p : α → Bool) (xs : List α) (x : α) :
    xs.reverse.find? p = some x ↔
      ∃ pre post, xs = pre ++ x :: post ∧ p x = true ∧ ∀ y ∈ post, p y = false := by
  rw [List.find?_eq_some]
  constructor
  · rintro ⟨hp, as, bs, heq, hall⟩
    refine ⟨bs.reverse, as.reverse, ?_, hp, ?_⟩
    · have := congrArg List.reverse heq
      simpa using this
    · intro y hy
      have := hall y (List.mem_reverse.mp hy)
      simpa using this
  · rintro ⟨pre, post, heq, hp, hall⟩
    refine ⟨hp, post.reverse, pre.reverse, ?_, ?_⟩
    · rw [heq]
      simp
    · intro y hy
      have := hall y (List.mem_reverse.mp hy)
      simp [this]

theorem tableGet_linksFrom (config : Config) (i slot : Nat) (l : CfgLink) :
    tableGet (getLinks config).linksFrom i slot = some l ↔ LastLinkFrom config i slot l := by
  unfold tableGet LastLinkFrom
  rw [getLinks_eq]
  simp only
  rw [← List.filterMap_reverse, List.find?_filterMap]
  have hfun : (fun a : CfgLink => (Option.map (fun o => (o, a.outputNodeSlot, a)) a.outputNodeId).any
      (fun e => decide (e.1 = i ∧ e.2.1 = slot))) =
      (fun a => decide (a.outputNodeId = some i ∧ a.outputNodeSlot = slot)) := by
    funext a
    cases h : a.outputNodeId with
    | none => simp
    | some o => simp
  rw [hfun]
  constructor
  · intro h
    cases hf : config.links.reverse.find?
        (fun a => decide (a.outputNodeId = some i ∧ a.outputNodeSlot = slot)) with
    | none => rw [hf] at h; simp at h
    | some l0 =>
      rw [hf] at h
      obtain ⟨pre, post, heq, hp, hall⟩ := (find_reverse_eq_some _ _ _).mp hf
      have hp1 : l0.outputNodeId = some i ∧ l0.outputNodeSlot = slot := by simpa using hp
      have hl : l0 = l := by
        simp only [Option.some_bind, hp1.1, Option.map_some', Option.some.injEq] at h
        exact h
      subst hl
      exact ⟨pre, post, heq, hp1, fun y hy => by simpa using hall y hy⟩
  · rintro ⟨pre, post, heq, hp, hall⟩
    have hf := (find_reverse_eq_some
      (fun a : CfgLink => decide (a.outputNodeId = some i ∧ a.outputNodeSlot = slot))
      config.links l).mpr ⟨pre, post, heq, by simpa using hp, fun y hy => by simpa using hall y hy⟩
    rw [hf]
    simp [hp.1]

theorem tableGet_linksTo (config : Config) (i slot : Nat) (l : CfgLink) :
    tableGet (getLinks config).linksTo i slot = some l ↔ LastInnerLinkTo config i slot l := by
  unfold tableGet LastInnerLinkTo
  rw [getLinks_eq]
  simp only
  rw [← List.filterMap_eq_map, ← List.filterMap_eq_filter, List.filterMap_filterMap,
    ← List.filterMap_reverse, List.find?_filterMap]
  have hfun : (fun a : CfgLink =>
      (((Option.guard (fun l : CfgLink => l.outputNodeId.isSome = true) a).bind
        (some ∘ fun l => (l.inputNodeId, l.inputNodeSlot, l)))).any
      (fun e => decide (e.1 = i ∧ e.2.1 = slot))) =
      (fun a => decide (a.outputNodeId.isSome = true ∧ a.inputNodeId = i ∧
        a.inputNodeSlot = slot)) := by
    funext a
    by_cases h : a.outputNodeId.isSome = true
    · simp [Option.guard, h]
    · simp [Option.guard, h]
  rw [hfun]
  constructor
  · intro h
    cases hf : config.links.reverse.find?
        (fun a => decide (a.outputNodeId.isSome = true ∧ a.inputNodeId = i ∧
          a.inputNodeSlot = slot)) with
    | none => rw [hf] at h; simp at h
    | some l0 =>
      rw [hf] at h
      obtain ⟨pre, post, heq, hp, hall⟩ := (find_reverse_eq_some _ _ _).mp hf
      have hp1 : l0.outputNodeId.isSome = true ∧ l0.inputNodeId = i ∧
          l0.inputNodeSlot = slot := by simpa using hp
      have hl : l0 = l := by
        simp only [Option.some_bind, Option.guard, hp1.1, if_true, Function.comp,
          Option.map_some', Option.some.injEq] at h
        exact h
      subst hl
      exact ⟨pre, post, heq, hp1, fun y hy => by simpa using hall y hy⟩
  · rintro ⟨pre, post, heq, hp, hall⟩
    have hf := (find_reverse_eq_some
      (fun a : CfgLink => decide (a.outputNodeId.isSome = true ∧ a.inputNodeId = i ∧
        a.inputNodeSlot = slot))
      config.links l).mpr ⟨pre, post, heq, by simpa using hp, fun y hy => by simpa using hall y hy⟩
    rw [hf]
    simp [Option.guard, hp.1]

theorem rerouteDef_eq (T : String) (d : NodeDef) :
    d = rerouteDef T ↔
      (d.input_required = some [(T, { type := T, combo := false, options := some [] })] ∧
        d.input_optional = none ∧ d.output = some [T] ∧ d.output_name = some [] ∧
        d.output_is_list = some []) := by
  constructor
  · rintro rfl
    exact ⟨rfl, rfl, rfl, rfl, rfl⟩
  · rintro ⟨h1, h2, h3, h4, h5⟩
    cases d
    simp only at h1 h2 h3 h4 h5
    simp only [rerouteDef, h1, h2, h3, h4, h5]

/-- The definition that the loop works with is the definition that counts for the node. -/
theorem defOf_iff (config : Config) (defs : String → Option NodeDef) (i : Nat)
    (node : CfgNode) (d : NodeDef) :
    defOf config defs i node = some d ↔ UsedDef config defs i node d := by
  unfold defOf resolveDef UsedDef
  cases hd : defs node.type with
  | some d1 =>
    simp only
    constructor
    · intro h; exact Or.inl h
    · rintro (h | ⟨h, _⟩)
      · exact h
      · cases h
  | none =>
    have hU : (none = some d ∨ ((none : Option NodeDef) = none ∧ node.type = "Reroute" ∧
        ∃ T, BorderType config i T ∧
          d.input_required = some [(T, { type := T, combo := false, options := some [] })] ∧
          d.input_optional = none ∧ d.output = some [T] ∧ d.output_name = some [] ∧
          d.output_is_list = some [])) ↔
        (node.type = "Reroute" ∧ ∃ T, BorderType config i T ∧
          d.input_required = some [(T, { type := T, combo := false, options := some [] })] ∧
          d.input_optional = none ∧ d.output = some [T] ∧ d.output_name = some [] ∧
          d.output_is_list = some []) := by
      constructor
      · rintro (h | ⟨_, h⟩)
        · cases h
        · exact h
      · intro h
        exact Or.inr ⟨rfl, h⟩
    rw [hU]
    simp only
    by_cases hr : node.type = "Reroute"
    swap
    · rw [if_neg hr]
      constructor
      · intro h; simp at h
      · rintro ⟨h, _⟩; exact absurd h hr
    rw [if_pos hr]
    simp only [hr, true_and]
    have hto := tableHas_linksTo config i
    have hfrom := tableHas_linksFrom config i
    by_cases hF : tableHas (getLinks config).linksFrom i = true
    · by_cases hT : tableHas (getLinks config).linksTo i = true
      · rw [if_pos ⟨hT, hF⟩]
        constructor
        · intro h; simp at h
        · rintro ⟨T, hb, _⟩
          rcases hb with ⟨_, hno, _⟩ | ⟨hno, _⟩
          · exact absurd (hto.mp hT) hno
          · exact absurd (hfrom.mp hF) hno
      · rw [if_neg (fun h => hT h.1), if_pos hF]
        constructor
        · intro h
          cases hg : tableGet (getLinks config).linksFrom i 0 with
          | none => rw [hg] at h; simp at h
          | some l =>
            rw [hg] at h
            simp only at h
            cases hn : (config.nodes[l.inputNodeId]?).bind (fun n => n.inputs) with
            | none => rw [hn] at h; simp at h
            | some inputs =>
              rw [hn] at h
              simp only at h
              cases ht : inputs[l.inputNodeSlot]? with
              | none => rw [ht] at h; simp at h
              | some T =>
                rw [ht] at h
                simp only [Option.some.injEq] at h
                refine ⟨T, Or.inl ⟨hfrom.mp hF, fun hx => hT (hto.mpr hx), l, inputs,
                  (tableGet_linksFrom config i 0 l).mp hg, hn, ht⟩, ?_⟩
                exact (rerouteDef_eq T d).mp h.symm
        · rintro ⟨T, hb, hdef⟩
          rcases hb with ⟨_, _, l, inputs, hl, hn, ht⟩ | ⟨hno, _⟩
          · rw [(tableGet_linksFrom config i 0 l).mpr hl]
            simp only [hn, ht]
            rw [(rerouteDef_eq T d).mpr hdef]
          · exact absurd (hfrom.mp hF) hno
    · rw [if_neg (fun h => hF h.2), if_neg hF]
      constructor
      · intro h
        cases hg : tableGet (getLinks config).linksTo i 0 with
        | none => rw [hg] at h; simp at h
        | some l =>
          rw [hg] at h
          simp only at h
          have hl := (tableGet_linksTo config i 0 l).mp hg
          obtain ⟨id, hid⟩ := Option.isSome_iff_exists.mp
            (by obtain ⟨_, _, _, hp, _⟩ := hl; exact hp.1 : l.outputNodeId.isSome = true)
          cases hn : (config.nodes[id]?).bind (fun n => n.outputs) with
          | none => rw [hid] at h; simp only [Option.some_bind, hn] at h; simp at h
          | some outputs =>
            rw [hid] at h
            simp only [Option.some_bind, hn] at h
            cases ht : outputs[l.outputNodeSlot]? with
            | none => rw [ht] at h; simp at h
            | some T =>
              rw [ht] at h
              simp only [Option.some.injEq] at h
              refine ⟨T, Or.inr ⟨fun hx => hF (hfrom.mpr hx), l, id, outputs, hl, hid, hn, ht⟩,
                ?_⟩
              exact (rerouteDef_eq T d).mp h.symm
      · rintro ⟨T, hb, hdef⟩
        rcases hb with ⟨hyes, _⟩ | ⟨_, l, id, outputs, hl, hid, hn, ht⟩
        · exact absurd (hfrom.mpr hyes) hF
        · rw [(tableGet_linksTo config i 0 l).mpr hl]
          simp only [hid, Option.some_bind, hn, ht]
          rw [(rerouteDef_eq T d).mpr hdef]


theorem mem_widgetNames (gwt : InputDef → String → Option String) (config : Config)
    (defs : String → Option NodeDef) (x : String) :
    x ∈ widgetNames gwt config defs ↔
      ∃ i node d nm v, config.nodes[i]? = some node ∧ UsedDef config defs i node d ∧
        inputDefOf d nm = some v ∧ (gwt v nm).isSome = true ∧ x = toString i ++ ":" ++ nm := by
  unfold widgetNames
  rw [List.mem_flatMap]
  constructor
  · rintro ⟨p, hp, hm⟩
    unfold nodeWidgetNames at hm
    cases hd : defOf config defs p.1 p.2 with
    | none => rw [hd] at hm; simp at hm
    | some d =>
      rw [hd] at hm
      simp only [List.mem_map, List.mem_filter] at hm
      obtain ⟨e, ⟨he, hw⟩, rfl⟩ := hm
      exact ⟨p.1, p.2, d, e.1, e.2, List.mk_mem_enum_iff_getElem?.mp hp,
        (defOf_iff config defs p.1 p.2 d).mp hd, mergedInputs_mem d e he, hw, rfl⟩
  · rintro ⟨i, node, d, nm, v, hn, hd, hv, hw, rfl⟩
    refine ⟨(i, node), List.mk_mem_enum_iff_getElem?.mpr hn, ?_⟩
    unfold nodeWidgetNames
    rw [(defOf_iff config defs i node d).mpr hd]
    simp only [List.mem_map, List.mem_filter]
    refine ⟨(nm, v), ⟨?_, hw⟩, rfl⟩
    apply getKey_mem
    rw [mergedInputs_getKey]
    exact hv

theorem mem_exposedInputs_spec (gwt : InputDef → String → Option String) (config : Config)
    (defs : String → Option NodeDef) (i k : Nat) (nm : String) :
    (i, k, nm) ∈ exposedInputs gwt config defs ↔
      ∃ node d, config.nodes[i]? = some node ∧ UsedDef config defs i node d ∧
        LinkInput gwt d k nm ∧ ¬ InnerLinkTo config i k := by
  rw [mem_exposedInputs]
  constructor
  · rintro ⟨node, d, hn, hd, hk, hl⟩
    exact ⟨node, d, hn, (defOf_iff config defs i node d).mp hd,
      (linkInput_iff gwt d k nm).mpr hk, hl⟩
  · rintro ⟨node, d, hn, hd, hk, hl⟩
    exact ⟨node, d, hn, (defOf_iff config defs i node d).mpr hd,
      (linkInput_iff gwt d k nm).mp hk, hl⟩

theorem mem_exposedOutputs_spec (config : Config) (defs : String → Option NodeDef) (i o : Nat)
    (type name : String) :
    (i, o, type, name) ∈ exposedOutputs config defs ↔
      ∃ node d, config.nodes[i]? = some node ∧ UsedDef config defs i node d ∧
        (d.output.getD [])[o]? = some type ∧ ¬ LinkFrom config i o ∧
        name = toString i ++ ":" ++ outputNameOf d o type := by
  rw [mem_exposedOutputs]
  constructor
  · rintro ⟨node, d, hn, hd, h⟩
    exact ⟨node, d, hn, (defOf_iff config defs i node d).mp hd, h⟩
  · rintro ⟨node, d, hn, hd, h⟩
    exact ⟨node, d, hn, (defOf_iff config defs i node d).mpr hd, h⟩

theorem usedDef_unique (config : Config) (defs : String → Option NodeDef) (i : Nat)
    (node : CfgNode) (d d1 : NodeDef) (h : UsedDef config defs i node d)
    (h1 : UsedDef config defs i node d1) : d = d1 := by
  have a := (defOf_iff config defs i node d).mpr h
  have b := (defOf_iff config defs i node d1).mpr h1
  rw [a] at b
  exact Option.some.inj b


theorem nodeExposedOutputs_fst (config : Config) (defs : String → Option NodeDef)
    (p : Nat × CfgNode) : ∀ x ∈ nodeExposedOutputs config defs p, x.1 = p.1 := by
  intro x hx
  unfold nodeExposedOutputs at hx
  cases hd : defOf config defs p.1 p.2 with
  | none => rw [hd] at hx; exact absurd hx (List.not_mem_nil _)
  | some d =>
    rw [hd] at hx
    obtain ⟨q, _, rfl⟩ := List.mem_map.mp hx
    rfl

theorem nodeExposedOutputs_pairwise (config : Config) (defs : String → Option NodeDef)
    (p : Nat × CfgNode) :
    (nodeExposedOutputs config defs p).Pairwise
      (fun x y => x.1 < y.1 ∨ (x.1 = y.1 ∧ x.2.1 < y.2.1)) := by
  unfold nodeExposedOutputs
  cases hd : defOf config defs p.1 p.2 with
  | none => exact List.Pairwise.nil
  | some d =>
    simp only
    rw [List.pairwise_map]
    refine List.Pairwise.imp ?_ (List.Pairwise.filter _ (enumFrom_increasing _ 0).2)
    intro a b hab
    exact Or.inr ⟨rfl, hab⟩

/-- The exposed outputs come in the order of (inner node, output). -/
theorem exposedOutputs_pairwise (config : Config) (defs : String → Option NodeDef) :
    (exposedOutputs config defs).Pairwise
      (fun x y => x.1 < y.1 ∨ (x.1 = y.1 ∧ x.2.1 < y.2.1)) := by
  unfold exposedOutputs
  rw [List.pairwise_flatMap]
  refine ⟨fun p _ => nodeExposedOutputs_pairwise config defs p, ?_⟩
  refine List.Pairwise.imp ?_ (enumFrom_increasing config.nodes 0).2
  intro a b hab x hx y hy
  rw [nodeExposedOutputs_fst config defs a x hx, nodeExposedOutputs_fst config defs b y hy]
  exact Or.inl hab

/-- C19 (amended): for an inner node and the definition that counts for it (the one of the
registry, or the one of a Reroute node at the border), the non-widget input number `k`, the
inputs counted in the order of `Object.keys`, is recorded in the slot map of the inputs if and
only if no link with its origin inside the group targets it, and it is then in `input.required`
under the name `i:inputName`; the keys of `input.required` are the names `i:inputName` of the
widget inputs and of these exposed inputs and nothing else; and every entry of the slot map of
the inputs is such an exposed input. -/
theorem C19_inputs_exposed (gwt : InputDef → String → Option String) (config : Config)
    (nodeName : String) (defs : String → Option NodeDef) (workflow : Bool) (r : GroupDef)
    (h : buildNodeDef gwt config nodeName defs workflow = some r) :
    (∀ i node d k nm, config.nodes[i]? = some node → UsedDef config defs i node d →
      LinkInput gwt d k nm →
      ((∃ idx, (i, k, idx) ∈ r.slotInputs) ↔ ¬ InnerLinkTo config i k) ∧
      (¬ InnerLinkTo config i k → toString i ++ ":" ++ nm ∈ keysOf r.input_required)) ∧
    (∀ x, x ∈ keysOf r.input_required ↔
      ∃ i node d nm, config.nodes[i]? = some node ∧ UsedDef config defs i node d ∧
        x = toString i ++ ":" ++ nm ∧
        ((∃ v, inputDefOf d nm = some v ∧ (gwt v nm).isSome = true) ∨
          ∃ k, LinkInput gwt d k nm ∧ ¬ InnerLinkTo config i k)) ∧
    (∀ i k idx, (i, k, idx) ∈ r.slotInputs → ∃ node d nm, config.nodes[i]? = some node ∧
      UsedDef config defs i node d ∧ LinkInput gwt d k nm ∧ ¬ InnerLinkTo config i k) := by
  obtain ⟨h1, _, _, _, h5⟩ := buildNodeDef_some gwt config nodeName defs workflow r h
  refine ⟨?_, ?_, ?_⟩
  · intro i node d k nm hn hd hk
    have hmem : ¬ InnerLinkTo config i k → (i, k, nm) ∈ exposedInputs gwt config defs :=
      fun hl => (mem_exposedInputs_spec gwt config defs i k nm).mpr ⟨node, d, hn, hd, hk, hl⟩
    constructor
    · rw [h1, mem_slotInputs]
      constructor
      · rintro ⟨nm1, hm⟩
        obtain ⟨_, _, _, _, _, hl⟩ := (mem_exposedInputs_spec gwt config defs i k nm1).mp hm
        exact hl
      · intro hl
        exact ⟨nm, hmem hl⟩
    · intro hl
      exact (h5 _).mpr (Or.inr ⟨(i, k, nm), hmem hl, rfl⟩)
  · intro x
    rw [h5, mem_widgetNames]
    constructor
    · rintro (⟨i, node, d, nm, v, hn, hd, hv, hw, rfl⟩ | ⟨q, hq, rfl⟩)
      · exact ⟨i, node, d, nm, hn, hd, rfl, Or.inl ⟨v, hv, hw⟩⟩
      · obtain ⟨node, d, hn, hd, hk, hl⟩ :=
          (mem_exposedInputs_spec gwt config defs q.1 q.2.1 q.2.2).mp hq
        exact ⟨q.1, node, d, q.2.2, hn, hd, rfl, Or.inr ⟨q.2.1, hk, hl⟩⟩
    · rintro ⟨i, node, d, nm, hn, hd, rfl, (⟨v, hv, hw⟩ | ⟨k, hk, hl⟩)⟩
      · exact Or.inl ⟨i, node, d, nm, v, hn, hd, hv, hw, rfl⟩
      · exact Or.inr ⟨(i, k, nm),
          (mem_exposedInputs_spec gwt config defs i k nm).mpr ⟨node, d, hn, hd, hk, hl⟩, rfl⟩
  · intro i k idx hm
    rw [h1] at hm
    obtain ⟨nm, hm1⟩ := (mem_slotInputs gwt config defs i k).mp ⟨idx, hm⟩
    obtain ⟨node, d, hn, hd, hk, hl⟩ := (mem_exposedInputs_spec gwt config defs i k nm).mp hm1
    exact ⟨node, d, nm, hn, hd, hk, hl⟩

/-- The input names of the node type M of `mergeDefs` in definition order: the array index
`1` of `optional` comes before the name `b` of `required`. -/
theorem inputOrder_M :
    InputOrder
      { input_required := some [("b", { type := "IMAGE", combo := false, options := none })]
        input_optional := some [("1", { type := "MASK", combo := false, options := none })]
        output := some ["IMAGE"]
        output_name := some ["IMAGE"]
        output_is_list := some [false] } ["1", "b"] := by
  constructor
  · intro nm
    simp only [inputDefOf, Option.getD_some, lastEntry, List.mem_cons, List.mem_singleton,
      List.not_mem_nil, or_false]
    by_cases h1 : "1" = nm
    · subst h1
      simp
    · by_cases hb : "b" = nm
      · subst hb
        simp
      · simp [h1, hb, Ne.symm h1, Ne.symm hb]
  · decide

/-- The statement C19 (amended) at the group `groupSM`: the inputs of M in the order of
`Object.keys` are `1` (number 0) and `b` (number 1); the link from S targets the number 0, so
`1` is not exposed, and `b` is exposed under the name `1:b`. -/
theorem C19_inputs_exposed_witness :
    ∃ r, buildNodeDef (widgetTypeOf sampleWidgets) groupSM "g" mergeDefs true = some r ∧
      (∃ idx, (1, 1, idx) ∈ r.slotInputs) ∧ "1:b" ∈ keysOf r.input_required ∧
      ¬ ∃ idx, (1, 0, idx) ∈ r.slotInputs := by
  obtain ⟨r, hr⟩ := Option.isSome_iff_exists.mp
    (show (buildNodeDef (widgetTypeOf sampleWidgets) groupSM "g" mergeDefs true).isSome = true
      by decide)
  have h := C19_inputs_exposed (widgetTypeOf sampleWidgets) groupSM "g" mergeDefs true r hr
  have hb := h.1 1 { type := "M", inputs := some ["MASK", "IMAGE"], outputs := some ["IMAGE"] }
    _ 1 "b" (by decide) (Or.inl rfl) ⟨["1", "b"], inputOrder_M, by decide⟩
  have h1 := h.1 1 { type := "M", inputs := some ["MASK", "IMAGE"], outputs := some ["IMAGE"] }
    _ 0 "1" (by decide) (Or.inl rfl) ⟨["1", "b"], inputOrder_M, by decide⟩
  exact ⟨r, hr, hb.1.mpr (by decide), hb.2 (by decide), fun hex => (h1.1.mp hex) (by decide)⟩


theorem mem_slotOutputs (config : Config) (defs : String → Option NodeDef) (k i o : Nat) :
    (k, i, o) ∈ (exposedOutputs config defs).enum.map (fun q => (q.1, q.2.1, q.2.2.1)) ↔
      ∃ type name, (exposedOutputs config defs)[k]? = some (i, o, type, name) := by
  constructor
  · intro h
    obtain ⟨q, hq, heq⟩ := List.mem_map.mp h
    simp only [Prod.mk.injEq] at heq
    obtain ⟨rfl, rfl, rfl⟩ := heq
    exact ⟨q.2.2.2.1, q.2.2.2.2, List.mk_mem_enum_iff_getElem?.mp hq⟩
  · rintro ⟨type, name, h⟩
    exact List.mem_map.mpr ⟨(k, (i, o, type, name)), List.mk_mem_enum_iff_getElem?.mpr h, rfl⟩

/-- C20: the slot map of the outputs that `buildNodeDef` returns has the keys 0, 1, ... in
the order of its entries, as many as the definition has outputs and output names; its
entries `(i, o)` come in increasing order of (inner node, output); an output `o` of an inner
node `i` has an entry if and only if the definition that counts for the node (the one of the
registry, or the one of a Reroute node at the border) has this output and no link of the group
starts at it; and the entry with the key `k` for the output `o` of the inner node `i` goes with
the k-th type, the type of that output, and with the k-th name, `i:` followed by the name of
the output, or by its type when it has no name. -/
theorem C20_outputs_exposed (gwt : InputDef → String → Option String) (config : Config)
    (nodeName : String) (defs : String → Option NodeDef) (workflow : Bool) (r : GroupDef)
    (h : buildNodeDef gwt config nodeName defs workflow = some r) :
    r.output.length = r.slotOutputs.length ∧ r.output_name.length = r.slotOutputs.length ∧
    r.slotOutputs.map (fun e => e.1) = List.range r.slotOutputs.length ∧
    r.slotOutputs.Pairwise (fun a b => a.2.1 < b.2.1 ∨ (a.2.1 = b.2.1 ∧ a.2.2 < b.2.2)) ∧
    (∀ i o, (∃ k, (k, i, o) ∈ r.slotOutputs) ↔
      ∃ node d type, config.nodes[i]? = some node ∧ UsedDef config defs i node d ∧
        (d.output.getD [])[o]? = some type ∧ ¬ LinkFrom config i o) ∧
    (∀ k i o node d type, (k, i, o) ∈ r.slotOutputs → config.nodes[i]? = some node →
      UsedDef config defs i node d → (d.output.getD [])[o]? = some type →
      r.output[k]? = some type ∧
      r.output_name[k]? = some (toString i ++ ":" ++ outputNameOf d o type)) := by
  obtain ⟨_, h2, h3, h4, _⟩ := buildNodeDef_some gwt config nodeName defs workflow r h
  refine ⟨?_, ?_, ?_, ?_, ?_, ?_⟩
  · rw [h2, h4]
    simp
  · rw [h3, h4]
    simp
  · rw [h4, List.map_map, List.length_map, List.enum_length]
    have := enum_map_range (exposedOutputs config defs) 0
    rw [List.range_eq_range']
    exact this
  · rw [h4, List.pairwise_map]
    have hp := exposedOutputs_pairwise config defs
    rw [← List.enum_map_snd (exposedOutputs config defs), List.pairwise_map] at hp
    exact hp
  · intro i o
    constructor
    · rintro ⟨k, hk⟩
      rw [h4] at hk
      obtain ⟨type, name, hq⟩ := (mem_slotOutputs config defs k i o).mp hk
      obtain ⟨node, d, hn, hd, ht, hl, _⟩ :=
        (mem_exposedOutputs_spec config defs i o type name).mp (List.getElem?_mem hq)
      exact ⟨node, d, type, hn, hd, ht, hl⟩
    · rintro ⟨node, d, type, hn, hd, ht, hl⟩
      have hm := (mem_exposedOutputs_spec config defs i o type _).mpr
        ⟨node, d, hn, hd, ht, hl, rfl⟩
      obtain ⟨k, hk⟩ := List.mem_iff_getElem?.mp hm
      exact ⟨k, by rw [h4]; exact (mem_slotOutputs config defs k i o).mpr ⟨_, _, hk⟩⟩
  · intro k i o node d type hk hn hd ht
    rw [h4] at hk
    obtain ⟨type1, name1, hq⟩ := (mem_slotOutputs config defs k i o).mp hk
    obtain ⟨node1, d1, hn1, hd1, ht1, _, hname⟩ :=
      (mem_exposedOutputs_spec config defs i o type1 name1).mp (List.getElem?_mem hq)
    rw [hn] at hn1
    have hnode : node = node1 := Option.some.inj hn1
    subst hnode
    have hdd := usedDef_unique config defs i node d d1 hd hd1
    subst hdd
    rw [ht] at ht1
    have htt : type = type1 := Option.some.inj ht1
    subst htt
    constructor
    · rw [h2, List.getElem?_map, hq]
      rfl
    · rw [h3, List.getElem?_map, hq, hname]
      rfl

/-- The statement C20 at the group `groupRR` of two Reroute nodes, which the registry does
not know: the second one is at the border of the group, the definition that counts for it has
the one output of the type `*`, no link starts there, and the output is exposed with the type
`*` under the name `1:*`; the output of the first Reroute node, at which the link to the second
one starts, is not exposed. -/
theorem C20_outputs_exposed_witness :
    ∃ r, buildNodeDef (widgetTypeOf sampleWidgets) groupRR "g" sampleDefs true = some r ∧
      (∃ k, (k, 1, 0) ∈ r.slotOutputs ∧ r.output[k]? = some "*" ∧
        r.output_name[k]? = some "1:*") ∧
      (¬ ∃ k, (k, 0, 0) ∈ r.slotOutputs) ∧ r.slotOutputs.length = 1 := by
  obtain ⟨r, hr⟩ := Option.isSome_iff_exists.mp
    (show (buildNodeDef (widgetTypeOf sampleWidgets) groupRR "g" sampleDefs true).isSome = true
      by decide)
  have h := C20_outputs_exposed (widgetTypeOf sampleWidgets) groupRR "g" sampleDefs true r hr
  have hlen : (buildNodeDef (widgetTypeOf sampleWidgets) groupRR "g" sampleDefs true).map
      (fun r => r.slotOutputs.length) = some 1 := by decide
  rw [hr] at hlen
  have hused : UsedDef groupRR sampleDefs 1
      { type := "Reroute", inputs := some ["*"], outputs := some ["*"] }
      { input_required := some [("*", { type := "*", combo := false, options := some [] })]
        input_optional := none
        output := some ["*"]
        output_name := some []
        output_is_list := some [] } :=
    Or.inr ⟨by decide, rfl, "*",
      Or.inr ⟨by decide,
        { outputNodeId := some 0, outputNodeSlot := 0, inputNodeId := 1, inputNodeSlot := 0 },
        0, ["*"],
        ⟨[{ outputNodeId := none, outputNodeSlot := 0, inputNodeId := 0, inputNodeSlot := 0 }],
          [], rfl, by decide, by simp⟩, rfl, by decide, by decide⟩,
      rfl, rfl, rfl, rfl, rfl⟩
  obtain ⟨k, hk⟩ := (h.2.2.2.2.1 1 0).mpr ⟨_, _, "*", by decide, hused, by decide, by decide⟩
  have hv := h.2.2.2.2.2 k 1 0 _ _ "*" hk (by decide) hused (by decide)
  refine ⟨r, hr, ⟨k, hk, hv.1, hv.2⟩, ?_, Option.some.inj hlen⟩
  rintro ⟨k0, hk0⟩
  obtain ⟨_, _, _, _, _, _, hl⟩ := (h.2.2.2.2.1 0 0).mp ⟨k0, hk0⟩
  exact hl (by decide)

/-- C30: the outer slots recorded in `slots.inputs` are, in the order of the assignments,
0, 1, ..., k-1, so no slot is given twice; the entries come in increasing order of (inner
node, number of the non-widget input), so no input is recorded twice; every non-widget input
that no link from inside the group targets, the inputs of a node numbered in the order of
`Object.keys`, is recorded, the m-th of them with the outer slot m; and every entry is such an
input and is put into `input.required` under its name `i:inputName`. -/
theorem C30_outer_slots_in_order (gwt : InputDef → String → Option String) (config : Config)
    (nodeName : String) (defs : String → Option NodeDef) (workflow : Bool) (r : GroupDef)
    (h : buildNodeDef gwt config nodeName defs workflow = some r) :
    r.slotInputs.map (fun e => e.2.2) = List.range r.slotInputs.length ∧
    r.slotInputs.Pairwise SlotBefore ∧
    (∀ i node d k nm, config.nodes[i]? = some node → UsedDef config defs i node d →
      LinkInput gwt d k nm → ¬ InnerLinkTo config i k →
      ∃ m : Nat, r.slotInputs[m]? = some (i, k, m)) ∧
    (∀ (m i k idx : Nat), r.slotInputs[m]? = some (i, k, idx) → idx = m ∧
      ∃ node d nm, config.nodes[i]? = some node ∧ UsedDef config defs i node d ∧
        LinkInput gwt d k nm ∧ ¬ InnerLinkTo config i k ∧
        toString i ++ ":" ++ nm ∈ keysOf r.input_required) := by
  obtain ⟨h1, _, _, _, h5⟩ := buildNodeDef_some gwt config nodeName defs workflow r h
  refine ⟨?_, ?_, ?_, ?_⟩
  · rw [h1, List.map_map, List.length_map, List.enum_length]
    have := enum_map_range (exposedInputs gwt config defs) 0
    rw [List.range_eq_range']
    exact this
  · rw [h1, List.pairwise_map]
    have hp := exposedInputs_pairwise gwt config defs
    rw [← List.enum_map_snd (exposedInputs gwt config defs), List.pairwise_map] at hp
    exact hp
  · intro i node d k nm hn hd hk hl
    have hm := (mem_exposedInputs_spec gwt config defs i k nm).mpr ⟨node, d, hn, hd, hk, hl⟩
    obtain ⟨m, hm1⟩ := List.mem_iff_getElem?.mp hm
    refine ⟨m, ?_⟩
    rw [h1, List.getElem?_map, List.getElem?_enum, hm1]
    rfl
  · intro m i k idx hm
    rw [h1, List.getElem?_map, List.getElem?_enum] at hm
    cases hq : (exposedInputs gwt config defs)[m]? with
    | none => rw [hq] at hm; simp at hm
    | some q =>
      rw [hq] at hm
      simp only [Option.map_some', Option.some.injEq, Prod.mk.injEq] at hm
      obtain ⟨rfl, rfl, rfl⟩ := hm
      obtain ⟨node, d, hn, hd, hk, hl⟩ :=
        (mem_exposedInputs_spec gwt config defs q.1 q.2.1 q.2.2).mp (List.getElem?_mem hq)
      exact ⟨rfl, node, d, q.2.2, hn, hd, hk, hl,
        (h5 _).mpr (Or.inr ⟨q, List.getElem?_mem hq, rfl⟩)⟩

/-- The statement C30 at the group `groupMM` of two nodes M without links: the inputs of M in
the order of `Object.keys` are `1` (number 0) and `b` (number 1); the four inputs are
recorded with the outer slots 0, 1, 2, 3 in the order of (inner node, number), the input `b` of
the second node with the outer slot 3. -/
theorem C30_outer_slots_in_order_witness :
    ∃ r, buildNodeDef (widgetTypeOf sampleWidgets) groupMM "g" mergeDefs true = some r ∧
      r.slotInputs.map (fun e => e.2.2) = List.range r.slotInputs.length ∧
      (∃ m : Nat, r.slotInputs[m]? = some (1, 1, m)) ∧
      r.slotInputs = [(0, 0, 0), (0, 1, 1), (1, 0, 2), (1, 1, 3)] ∧
      "1:b" ∈ keysOf r.input_required := by
  obtain ⟨r, hr⟩ := Option.isSome_iff_exists.mp
    (show (buildNodeDef (widgetTypeOf sampleWidgets) groupMM "g" mergeDefs true).isSome = true
      by decide)
  have h := C30_outer_slots_in_order (widgetTypeOf sampleWidgets) groupMM "g" mergeDefs true r hr
  have hv : (buildNodeDef (widgetTypeOf sampleWidgets) groupMM "g" mergeDefs true).map
      (fun r => r.slotInputs) = some [(0, 0, 0), (0, 1, 1), (1, 0, 2), (1, 1, 3)] := by decide
  rw [hr] at hv
  simp only [Option.map_some', Option.some.injEq] at hv
  have hb : LinkInput (widgetTypeOf sampleWidgets)
      { input_required := some [("b", { type := "IMAGE", combo := false, options := none })]
        input_optional := some [("1", { type := "MASK", combo := false, options := none })]
        output := some ["IMAGE"]
        output_name := some ["IMAGE"]
        output_is_list := some [false] } 1 "b" := ⟨["1", "b"], inputOrder_M, by decide⟩
  obtain ⟨_, node, d, nm, hn, hd, hk, _, hname⟩ := h.2.2.2 3 1 1 3 (by rw [hv]; rfl)
  have hnode : node.type = "M" := by
    have h0 : groupMM.nodes[1]? = some ⟨"M", some ["MASK", "IMAGE"], some ["IMAGE"]⟩ := by
      decide
    rw [h0] at hn
    rw [← Option.some.inj hn]
  have hdd := usedDef_unique groupMM mergeDefs 1 node d _ hd (Or.inl (by rw [hnode]; rfl))
  subst hdd
  have hnm : nm = "b" := by
    have e1 := (linkInput_iff _ _ 1 nm).mp hk
    have e2 := (linkInput_iff _ _ 1 "b").mp hb
    rw [e1] at e2
    exact Option.some.inj e2
  subst hnm
  exact ⟨r, hr, h.1, h.2.2.1 1 node _ 1 "b" hn hd hb (by decide), hv, hname⟩

/-! ### The definition of a group and the node constructor -/

/-- C29 (what the code does): the definition that `buildNodeDef` returns has no property
`flow_inputs` and no property `flow_outputs`, so the constructor made by `registerNodeDef`
raises on it, for every group and every registry; the group `groupXY` is an example for which
`buildNodeDef` returns.  On a definition that has the two properties the constructor
returns. -/
theorem C29_group_definition_lacks_flow_fields :
    (∀ (gwt : InputDef → String → Option String) (config : Config) (nodeName : String)
      (defs : String → Option NodeDef) (workflow : Bool),
      (buildNodeDef gwt config nodeName defs workflow).bind
        (fun g => ComfyNode gwt (nodeDataOf g)) = none) ∧
    (buildNodeDef (widgetTypeOf sampleWidgets) groupXY "g" sampleDefs true).isSome = true ∧
    ComfyNode (widgetTypeOf sampleWidgets) nodeDataX =
      some { inputs := [("FROM", "FLOW"), ("image", "IMAGE")]
             widgets := [("strength", "FLOAT")]
             outputs := [("TO", "FLOW"), ("LATENT", "LATENT")] } := by
  refine ⟨?_, by decide, by decide⟩
  intro gwt config nodeName defs workflow
  cases buildNodeDef gwt config nodeName defs workflow with
  | none => rfl
  | some g => rfl

/-! ### updateLink -/

theorem rerouteLoop_chain (outer : Host) (typeOf : GNode → String) (g : GroupInst)
    (innerNodes : List GNode) :
    ∀ (n : Nat) (c : Cur) (l : Option GLink) (p : Cur) (lp : Option GLink),
      RerouteChain outer typeOf g innerNodes n c l p lp →
      ∀ (ptype : String), p.type typeOf g = some ptype → ptype ≠ "Reroute" →
      ∀ fuel, n < fuel →
        rerouteLoop outer typeOf g innerNodes fuel (some c) l = Run.ok (p, lp) := by
  intro n c l p lp hch
  induction hch with
  | here c l =>
    intro ptype hty hne fuel hf
    obtain ⟨f, rfl⟩ : ∃ f, fuel = f + 1 := ⟨fuel - 1, by omega⟩
    simp only [rerouteLoop, rerouteStep, hty, if_neg hne]
  | step n c c1 p l lp l1 hty1 hl hn _ ih =>
    intro ptype hty hne fuel hf
    obtain ⟨f, rfl⟩ : ∃ f, fuel = f + 1 := ⟨fuel - 1, by omega⟩
    simp only [rerouteLoop, rerouteStep, hty1, if_true, hl, hn]
    exact ih ptype hty hne f (by omega)

theorem rerouteChain_ends (outer : Host) (typeOf : GNode → String) (g : GroupInst)
    (innerNodes : List GNode) :
    ∀ (n : Nat) (c : Cur) (l : Option GLink) (p : Cur) (lp : Option GLink),
      RerouteChain outer typeOf g innerNodes n c l p lp →
      (n = 0 → p = c ∧ lp = l) ∧ (0 < n → ∃ l1, lp = some l1) := by
  intro n c l p lp hch
  induction hch with
  | here c l => exact ⟨fun _ => ⟨rfl, rfl⟩, fun h => absurd h (by omega)⟩
  | step n c c1 p l lp l1 _ _ _ _ ih =>
    refine ⟨fun h => absurd h (by omega), fun _ => ?_⟩
    by_cases hn : n = 0
    · exact ⟨l1, (ih.1 hn).2⟩
    · exact ih.2 (by omega)

theorem slotInputOf_last (slots : GroupDef) (i slot k : Nat)
    (h : LastWith (fun e => e.1 = i ∧ e.2.1 = slot) slots.slotInputs (i, slot, k)) :
    slotInputOf slots i slot = some k := by
  obtain ⟨pre, post, heq, hp, hall⟩ := h
  unfold slotInputOf
  rw [(find_reverse_eq_some (fun e : Nat × Nat × Nat => decide (e.1 = i ∧ e.2.1 = slot))
    slots.slotInputs (i, slot, k)).mpr ⟨pre, post, heq, by simp,
      fun y hy => by simpa using hall y hy⟩]
  rfl

theorem slotInputOf_none (slots : GroupDef) (i slot : Nat)
    (h : ∀ e ∈ slots.slotInputs, ¬ (e.1 = i ∧ e.2.1 = slot)) :
    slotInputOf slots i slot = none := by
  unfold slotInputOf
  rw [List.find?_eq_none.mpr (fun x hx => by simpa using h x (List.mem_reverse.mp hx))]
  rfl

theorem slotOutputOf_last (slots : GroupDef) (s i0 s0 : Nat)
    (h : LastWith (fun e => e.1 = s) slots.slotOutputs (s, i0, s0)) :
    slotOutputOf slots s = some (i0, s0) := by
  obtain ⟨pre, post, heq, hp, hall⟩ := h
  unfold slotOutputOf
  rw [(find_reverse_eq_some (fun e : Nat × Nat × Nat => decide (e.1 = s))
    slots.slotOutputs (s, i0, s0)).mpr ⟨pre, post, heq, by simp,
      fun y hy => by simpa using hall y hy⟩]
  rfl

theorem innerInputNode_zero (outer : Host) (g : GroupInst) (innerNodes : List GNode)
    (i : Nat) :
    innerInputNode outer g innerNodes i 0 =
      match slotInputOf g.slots i 0 with
      | some outerSlot => Run.ok ((outer.getInputNode g.node outerSlot).map Cur.outer)
      | none =>
        match tableGet (getLinks g.config).linksTo i 0 with
        | none => Run.raise
        | some innerLink =>
          match innerLink.outputNodeId with
          | none => Run.raise
          | some origin => Run.ok (curAt innerNodes origin) := by
  unfold innerInputNode
  cases (innerNodes[i]?).bind (fun n => n.comfyClass) with
  | none => rfl
  | some c =>
    by_cases hc : c = ""
    · simp only [hc, if_true]
    · simp only [hc, if_false]

/-- A walk as the statements describe it is a walk of the loop of `updateLink`. -/
theorem rerouteWalk_chain (outer : Host) (typeOf : GNode → String) (g : GroupInst)
    (innerNodes : List GNode) :
    ∀ (n : Nat) (c : Cur) (l : Option GLink) (p : Cur) (lp : Option GLink),
      RerouteWalk outer typeOf g innerNodes n c l p lp →
      RerouteChain outer typeOf g innerNodes n c l p lp := by
  intro n c l p lp h
  induction h with
  | here c l => exact RerouteChain.here c l
  | groupInput n i k node inputs inp l lp l1 m p hn ht hk hin hinp hl hm _ ih =>
    refine RerouteChain.step n (Cur.inner i) (Cur.outer m) p l lp l1 ?_ ?_ ?_ ih
    · simp only [Cur.type, hn, Option.map_some', ht]
    · simp only [Cur.inputLink, innerInputLink, slotInputOf_last g.slots i 0 k hk, hin,
        Option.some_bind, hinp, hl]
    · simp only [Cur.inputNode, innerInputNode_zero, slotInputOf_last g.slots i 0 k hk, hm,
        Option.map_some']
  | innerLink n i j node cl l lp p hn ht hno hcl hj hlen _ ih =>
    refine RerouteChain.step n (Cur.inner i) (Cur.inner j) p l lp _ ?_ ?_ ?_ ih
    · simp only [Cur.type, hn, Option.map_some', ht]
    · simp only [Cur.inputLink, innerInputLink, slotInputOf_none g.slots i 0 hno,
        (tableGet_linksTo g.config i 0 cl).mpr hcl, hj]
    · simp only [Cur.inputNode, innerInputNode_zero, slotInputOf_none g.slots i 0 hno,
        (tableGet_linksTo g.config i 0 cl).mpr hcl, hj, curAt, if_pos hlen]
  | outside n x m l lp l1 p ht hl hm _ ih =>
    refine RerouteChain.step n (Cur.outer x) (Cur.outer m) p l lp l1 ?_ ?_ ?_ ih
    · simp only [Cur.type, ht]
    · simp only [Cur.inputLink, hl]
    · simp only [Cur.inputNode, hm, Option.map_some']

theorem endsAt_type (typeOf : GNode → String) (g : GroupInst) (innerNodes : List GNode)
    (p : Cur) (pid : JId) (h : EndsAt typeOf g innerNodes p pid) :
    (∃ ptype, p.type typeOf g = some ptype ∧ ptype ≠ "Reroute") ∧
      p.id innerNodes = some pid := by
  cases p with
  | inner j =>
    obtain ⟨node, m, hn, ht, hm, hid⟩ := h
    exact ⟨⟨node.type, by simp only [Cur.type, hn, Option.map_some'], ht⟩,
      by simp only [Cur.id, hm, Option.map_some', hid]⟩
  | outer m =>
    obtain ⟨ht, hid⟩ := h
    exact ⟨⟨typeOf m, rfl, ht⟩, by simp only [Cur.id, hid]⟩

/-- C22: let the entry of `slots.outputs` with the key `link.origin_slot` be the output `s0`
of the inner node `i0`, and let the walk from that inner node pass N Reroute nodes, each time
along the input 0 (across the border of the group, to the producer outside, where the input is
recorded as an input of the group node), and reach a node `p` with the id `pid` that is no
Reroute node.  Then, for every bound on the rounds above N, `updateLink` leaves the link
passed in as it is and returns a copy with only the origin changed: `origin_id` is `pid`, and
`origin_slot` is the origin slot of the last link followed, or `s0` when N = 0 (the inner node
`i0` is no Reroute node itself). -/
theorem C22_update_link_follows_reroutes (outer : Host) (typeOf : GNode → String)
    (g : GroupInst) (innerNodes : List GNode) (link : GLink) (i0 s0 N : Nat) (p : Cur)
    (lp : Option GLink) (pid : JId)
    (hout : LastWith (fun e => e.1 = link.origin_slot) g.slots.slotOutputs
      (link.origin_slot, i0, s0))
    (hc0 : i0 < innerNodes.length)
    (hch : RerouteWalk outer typeOf g innerNodes N (Cur.inner i0) none p lp)
    (hend : EndsAt typeOf g innerNodes p pid) :
    (∀ fuel, N < fuel →
      updateLink outer typeOf g innerNodes fuel link =
        Run.ok (link,
          { origin_id := pid
            origin_slot := (lp.map (fun l => l.origin_slot)).getD s0
            target_id := link.target_id
            target_slot := link.target_slot })) ∧
    (N = 0 → p = Cur.inner i0 ∧ lp = none) ∧ (0 < N → ∃ l1, lp = some l1) := by
  have hcc := rerouteWalk_chain outer typeOf g innerNodes N (Cur.inner i0) none p lp hch
  obtain ⟨e1, e2⟩ := rerouteChain_ends outer typeOf g innerNodes N (Cur.inner i0) none p lp hcc
  obtain ⟨⟨ptype, hty, hne⟩, hid⟩ := endsAt_type typeOf g innerNodes p pid hend
  refine ⟨fun fuel hf => ?_, e1, e2⟩
  unfold updateLink
  simp only [slotOutputOf_last g.slots link.origin_slot i0 s0 hout, curAt, if_pos hc0,
    rerouteLoop_chain outer typeOf g innerNodes N (Cur.inner i0) none p lp hcc ptype hty hne
      fuel hf, hid]
  cases lp <;> rfl

/-- The statement C22 at the group node `instXRR`, whose second output (slot 1) is the
output of the second Reroute node: the link from that output to C is returned with the origin A
(id 1) and the origin slot 2 of the link that feeds the input 1 of the group node; the walk
passes the two Reroute nodes and crosses the border of the group; the link passed in is left
as it is.  For the first output (slot 0), the output of the node X, the origin is the inner
node `2:0` with its output 0. -/
theorem C22_update_link_follows_reroutes_witness :
    getInnerNodes createSample instXRR =
      some [ { id := JId.str "2:0", mode := 0, isVirtualNode := false, comfyClass := some "X"
               inputs := some [{ name := "image", type := "IMAGE" }]
               widgets := some [{ name := "strength", value := WVal.other "0.5",
                                  serialize := true }] },
             { id := JId.str "2:1", mode := 0, isVirtualNode := true, comfyClass := none
               inputs := some [{ name := "", type := "*" }], widgets := none },
             { id := JId.str "2:2", mode := 0, isVirtualNode := true, comfyClass := none
               inputs := some [{ name := "", type := "*" }], widgets := none } ] ∧
    instXRR.slots.slotOutputs = [(0, 0, 0), (1, 2, 0)] ∧
    instXRR.slots.slotInputs = [(0, 0, 0), (1, 0, 1)] ∧
    (∀ fuel, 2 < fuel →
      updateLink (graphHost aroundXRR aroundXRRLinks) typeOfSample instXRR
        ((getInnerNodes createSample instXRR).getD []) fuel (liveLink 2 1 3 0) =
        Run.ok (liveLink 2 1 3 0, liveLink 1 2 3 0)) ∧
    (∀ fuel, 0 < fuel →
      updateLink (graphHost aroundXRR aroundXRRLinks) typeOfSample instXRR
        ((getInnerNodes createSample instXRR).getD []) fuel (liveLink 2 0 3 0) =
        Run.ok (liveLink 2 0 3 0,
          { origin_id := JId.str "2:0", origin_slot := 0, target_id := JId.num 3,
            target_slot := 0 })) := by
  refine ⟨by decide, by decide, by decide, ?_, ?_⟩
  · exact (C22_update_link_follows_reroutes (graphHost aroundXRR aroundXRRLinks) typeOfSample
      instXRR ((getInnerNodes createSample instXRR).getD []) (liveLink 2 1 3 0) 2 0 2
      (Cur.outer (liveNode 1 0 [])) (some (liveLink 1 2 2 1)) (JId.num 1)
      ⟨[(0, 0, 0)], [], by decide, rfl, by simp⟩ (by decide)
      (RerouteWalk.innerLink 1 2 1 { type := "Reroute", inputs := some ["*"], outputs := some ["*"] }
        { outputNodeId := some 1, outputNodeSlot := 0, inputNodeId := 2, inputNodeSlot := 0 }
        none _ _ (by decide) rfl (by decide)
        ⟨[{ outputNodeId := none, outputNodeSlot := 0, inputNodeId := 1, inputNodeSlot := 0 }],
          [], rfl, by decide, by simp⟩ rfl (by decide)
        (RerouteWalk.groupInput 0 1 1
          { type := "Reroute", inputs := some ["*"], outputs := some ["*"] }
          [{ name := "0:image", type := "IMAGE" }, { name := "1:*", type := "*" }]
          { name := "1:*", type := "*" } _ _ (liveLink 1 2 2 1) (liveNode 1 0 []) _
          (by decide) rfl ⟨[(0, 0, 0)], [], by decide, by decide, by simp⟩ rfl (by decide)
          (by decide) (by decide) (RerouteWalk.here _ _)))
      ⟨by decide, rfl⟩).1
  · exact (C22_update_link_follows_reroutes (graphHost aroundXRR aroundXRRLinks) typeOfSample
      instXRR ((getInnerNodes createSample instXRR).getD []) (liveLink 2 0 3 0) 0 0 0
      (Cur.inner 0) none (JId.str "2:0")
      ⟨[], [(1, 2, 0)], by decide, rfl, by decide⟩ (by decide)
      (RerouteWalk.here _ _)
      ⟨{ type := "X", inputs := some ["IMAGE"], outputs := some ["LATENT"] },
        { id := JId.str "2:0", mode := 0, isVirtualNode := false, comfyClass := some "X"
          inputs := some [{ name := "image", type := "IMAGE" }]
          widgets := some [{ name := "strength", value := WVal.other "0.5",
                             serialize := true }] },
        by decide, by decide, by decide, rfl⟩).1

/-! ### graphToPrompt on graphs with group nodes -/

theorem nodeInstr_class (host : Host) (nb : String → Option Nat) (fuel : Nat) (node : GNode)
    (instr : Instr) (h : nodeInstr host nb fuel node = Run.ok instr) :
    instr.class_type = node.comfyClass := by
  unfold nodeInstr at h
  cases hs : storeLinks host nb fuel node ((node.inputs.getD []).enum)
      (storeWidgets (node.widgets.getD [])) with
  | raise => rw [hs] at h; simp at h
  | timeout => rw [hs] at h; simp at h
  | ok acc =>
    rw [hs] at h
    simp only [Run.ok.injEq] at h
    rw [← h]

/-- The instruction of a node that is serialized. -/
theorem graphToPrompt_instr (host : Host) (order : List GNode) (wf : Doc) (fuel : Nat)
    (r : Doc × Output × Flows) (h : graphToPrompt host order wf fuel = Run.ok r)
    (hkeys : ((processed host order).map (fun n => n.id.key)).Nodup)
    (c : GNode) (hc : c ∈ processed host order) (hce : Emitted c) :
    ∃ instr, getKey c.id.key r.2.1 = some instr ∧ instr.class_type = c.comfyClass := by
  obtain ⟨nb, output, _, hout, hr, _⟩ := graphToPrompt_ok host order wf fuel r h
  rw [outerLoop_eq_innerLoop] at hout
  obtain ⟨instr, hni, hget⟩ := innerLoop_getKey host nb fuel c hce _ [] output hout hc hkeys
  refine ⟨_, by rw [hr, getKey_removeDangling, hget]; rfl, ?_⟩
  exact nodeInstr_class host nb fuel c instr hni

theorem nbFlowout_isSome (nodes : List Node) (nb : String → Option Nat)
    (h : nbFlowout nodes = some nb) (k : String) :
    (nb k).isSome = true ↔ k ∈ nodes.map (fun n => toString n.id) := by
  unfold nbFlowout at h
  split at h
  · simp only [Option.some.injEq] at h
    rw [← h]
    by_cases hk : k ∈ nodes.map (fun node => toString node.id)
    · simp only [if_pos hk, Option.isSome_some, true_iff]
      exact hk
    · simp only [if_neg hk, Option.isSome_none, Bool.false_eq_true, false_iff]
      exact hk
  · simp at h

/-- The second element of an input value taken from a link is a number exactly when the
first element is the id of a node of the serialized workflow, because `nb_flowout` has the ids
of these nodes as its only keys; it is `NaN` otherwise. -/
theorem slot_number_iff (host : Host) (order : List GNode) (wf : Doc)
    (fuel : Nat) (r : Doc × Output × Flows)
    (h : graphToPrompt host order wf fuel = Run.ok r) :
    ∀ o ∈ r.2.1, ∀ e ∈ o.2.inputs, ∀ k s, e.2 = PVal.link k s →
      (s.isSome = true ↔ k ∈ wf.nodes.map (fun n => toString n.id)) := by
  obtain ⟨nb, output, hnb, hok, hr⟩ := graphToPrompt_entries host order wf fuel r h
  intro o ho e he k s hes
  obtain ⟨o0, ho0, _, _, _, hin⟩ := hr o ho
  rw [hin] at he
  have hk := (hok o0 ho0).2.2 e (List.mem_filter.mp he).1
  rw [hes] at hk
  simp only [SlotKnown] at hk
  rw [hk]
  exact nbFlowout_isSome wf.nodes nb hnb k

/-- C27: in the graph `flowToAny` the input `any` of the node C, of the type `*`, is linked
to the FLOW output of the node A, the output 0.  The input is no FLOW input, so
`graphToPrompt` emits it, with the producer 1 and the slot 0 - 1 = -1: A has one FLOW
output. -/
theorem C27_flow_output_gives_negative_slot :
    (graphToPrompt (graphHost flowToAny flowToAnyLinks) flowToAny flowToAnyWorkflow 1).value.map
        (fun r => r.2.1) =
      some [("1", { inputs := [], is_input_linked := [], class_type := some "Op" }),
            ("2", { inputs := [("any", PVal.link "1" (some (-1)))],
                    is_input_linked := [("any", true)],
                    class_type := some "Op" })] := by
  decide

end ComfyFlow
